import Mathlib

/-!
# XRD verifiable mix-net: a shallow embedding

Definitions follow the Go sources of the repository
(`mixnet/verifiable_mixnet/{shuffler,aes_seal,nizk,crypto}.go`, `config/assignment.go`,
`mixnet/{crypto,client,verifier,mix_server}.go`, `span/span.go`,
`mailbox/{mailbox,client}.go`, `client/client.go`).

Conventions.
* A Go `[]byte` is a `List Byte` with `Byte = Fin 256`.
* Go `int` is the 64-bit machine integer of the platforms the repository targets. An `int`
  that is a length, an index, a byte budget or a 32-bit draw is a `Nat`; a round number and
  the counter of a wait group are an `Int`.
* A Go panic (index out of range, short read from the entropy source) is `none`.
* Library code (P-256, SHA-256, HMAC, HKDF, AES-CTR, SHA-3, NaCl secretbox) is not part of
  the repository; it is taken as a parameter through the interfaces `Primitives`, `Curve`
  and `SecretBox` below.
* A Go map is the list of its entries; a handler that may wait (on a lock or a wait group)
  is a function of the state it runs in, and concurrent requests are served one after the
  other.
-/

namespace Xrd

/-- One octet. -/
abbrev Byte := Fin 256

/-! ## `shuffler.go` -/

/-- Value of `binary.BigEndian.Uint32(tmp)` for a four-byte slice. -/
def beUint32 (b0 b1 b2 b3 : Byte) : Nat :=
  b0.val * 2 ^ 24 + b1.val * 2 ^ 16 + b2.val * 2 ^ 8 + b3.val

/-- The Go struct `Shuffler`: `perm` is `nil` (`none`) or an index array, `rand` is the
entropy reader, modelled by the bytes it still has to deliver. -/
structure Shuffler where
  perm : Option (List Nat)
  rand : List Byte
deriving DecidableEq, Repr

/-- Go `NewShuffler(rand)`. -/
def NewShuffler (rand : List Byte) : Shuffler :=
  { perm := none, rand := rand }

/-- Go `randInt(mod)`: read four bytes (a short read panics), interpret them big-endian and
reduce modulo `mod`; the conversion `int(uint32)` keeps the value, `int` having 64 bits.
Returns the draw and the reader after the read. -/
def randInt (rand : List Byte) (mod : Nat) : Option (Nat × List Byte) :=
  match rand with
  | b0 :: b1 :: b2 :: b3 :: rest => some (beUint32 b0 b1 b2 b3 % mod, rest)
  | _ => none

/-- The assignment `arr[i], arr[j] = arr[j], arr[i]`; an index out of range panics. -/
def swapAt (arr : List Nat) (i j : Nat) : Option (List Nat) :=
  match arr[i]?, arr[j]? with
  | some x, some y => some ((arr.set i y).set j x)
  | _, _ => none

/-- The loop `for i := n - 1; i >= 0; i--` of `permutation`, with `k = i + 1` iterations
left to run. -/
def permutationLoop : Nat → List Nat → List Byte → Option (List Nat × List Byte)
  | 0, arr, rand => some (arr, rand)
  | i + 1, arr, rand =>
    match randInt rand (i + 1) with
    | none => none
    | some (j, rand1) =>
      match swapAt arr i j with
      | none => none
      | some arr1 => permutationLoop i arr1 rand1

/-- Go `permutation(n)`: Fisher-Yates over the identity array. -/
def permutation (rand : List Byte) (n : Nat) : Option (List Nat × List Byte) :=
  permutationLoop n (List.range n) rand

/-- The loop `for i := 0; i < len(in); i++ { in[i] = orig[p[i]] }` of `Shuffle`, with `k`
iterations left to run from index `i`. -/
def shuffleLoop (orig : List (List Byte)) (p : List Nat) :
    Nat → Nat → List (List Byte) → Option (List (List Byte))
  | 0, _, inp => some inp
  | k + 1, i, inp =>
    match p[i]? with
    | none => none
    | some pi =>
      match orig[pi]? with
      | none => none
      | some v => shuffleLoop orig p k (i + 1) (inp.set i v)

/-- Go `Shuffle(in)`: returns the shuffler after the call and the new contents of `in`. -/
def Shuffler.Shuffle (sr : Shuffler) (inp : List (List Byte)) :
    Option (Shuffler × List (List Byte)) :=
  let orig := inp
  let fresh : Option (List Nat × List Byte) :=
    match sr.perm with
    | none => permutation sr.rand inp.length
    | some p => if p.length ≠ inp.length then permutation sr.rand inp.length
                else some (p, sr.rand)
  match fresh with
  | none => none
  | some (p, rand1) =>
    match shuffleLoop orig p inp.length 0 inp with
    | none => none
    | some out => some ({ perm := some p, rand := rand1 }, out)

/-! ## Byte strings, slices and `math/big` conversions -/

/-- Go `make([]byte, n)`: `n` zero bytes. -/
def zeroBytes (n : Nat) : List Byte := List.replicate n 0

/-- The builtin `copy(dst[pos:], src)`: overwrites `min(len(dst) - pos, len(src))` bytes of
`dst` from position `pos` on and leaves the length of `dst` unchanged. -/
def writeAt (dst : List Byte) (pos : Nat) (src : List Byte) : List Byte :=
  dst.take pos ++ src.take (dst.length - pos) ++ dst.drop (pos + src.length)

/-- The idiom `copy(dst[hi-len(src):], src)` that right-aligns `src` so that it ends at
`hi`; the slice expression panics when `len(src) > hi` or `hi > len(dst)`. -/
def copyRight (dst : List Byte) (hi : Nat) (src : List Byte) : Option (List Byte) :=
  if src.length ≤ hi ∧ hi ≤ dst.length then some (writeAt dst (hi - src.length) src) else none

/-- Go `(*big.Int).SetBytes`: the big-endian value of a byte string. -/
def setBytes (bs : List Byte) : Nat :=
  bs.foldl (fun acc b => acc * 256 + b.val) 0

/-- Worker of `bytesBE`: peels off base-256 digits, least significant first. -/
def bytesBEAux : Nat → Nat → List Byte → List Byte
  | 0, _, acc => acc
  | fuel + 1, n, acc =>
    if n = 0 then acc else bytesBEAux fuel (n / 256) (Fin.ofNat (n % 256) :: acc)

/-- Go `(*big.Int).Bytes` on a non-negative integer: the big-endian byte string without
leading zeros (empty for `0`). -/
def bytesBE (n : Nat) : List Byte := bytesBEAux n n []

/-- The effect of right-aligning `bs` in a zeroed field of `w` bytes: `bs` left-padded with
zeros. -/
def padLeft (w : Nat) (bs : List Byte) : List Byte := zeroBytes (w - bs.length) ++ bs

/-- The byte string `bs` with one bit flipped: bit `k % 8` of the byte at index `k / 8`. -/
def flipBit : List Byte → Nat → List Byte
  | [], _ => []
  | b :: bs, k => if k < 8 then (b ^^^ Fin.ofNat (2 ^ k)) :: bs else b :: flipBit bs (k - 8)

/-- The 64-byte encoding `X||Y` of a coordinate pair, each coordinate right-aligned in a
zeroed 32-byte field (the layout `P256KeyToBytes`, the provers and the onion header
produce). -/
def encodePoint (xy : Nat × Nat) : List Byte :=
  padLeft 32 (bytesBE xy.1) ++ padLeft 32 (bytesBE xy.2)

/-- A Go slice: a window `[off, off+len)` into a backing array, with capacity up to the end
of the array. -/
structure Slice where
  arr : List Byte
  off : Nat
  len : Nat
deriving DecidableEq, Repr

/-- The `nil` slice. -/
def Slice.nil : Slice := { arr := [], off := 0, len := 0 }

/-- The bytes a slice shows. -/
def Slice.bytes (s : Slice) : List Byte := (s.arr.drop s.off).take s.len

/-- Go `cap(s)`. -/
def Slice.cap (s : Slice) : Nat := s.arr.length - s.off

/-! ## `aes_seal.go` -/

/-- The library primitives the seal and the proofs call, as functions of their inputs:
* `hkdf secret salt i` is byte `i` of the stream `hkdf.New(sha256.New, secret, salt, nil)`;
* `ctr key iv i` is byte `i` of the key stream of `cipher.NewCTR(aes.NewCipher(key), iv)`,
  which `XORKeyStream` xors into its source;
* `hmac key data` is HMAC-SHA-256 of `data`, that is the value `Sum(nil)` returns after
  `data` was written to `hmac.New(sha256.New, key)`;
* `sha256 data` is `sha256.Sum256(data)`. -/
structure Primitives where
  hkdf : List Byte → List Byte → Nat → Byte
  ctr : List Byte → List Byte → Nat → Byte
  hmac : List Byte → List Byte → List Byte
  sha256 : List Byte → List Byte
  hmac_length : ∀ key data, (hmac key data).length = 32
  sha256_length : ∀ data, (sha256 data).length = 32

/-- Go `const Overhead = sha256.Size`. -/
def Overhead : Nat := 32

/-- Go `const SymmetricKeySize = 16`. -/
def SymmetricKeySize : Nat := 16

/-- Go `aes.BlockSize`. -/
def aesBlockSize : Nat := 16

/-- Go `sliceForAppend(in, n)`: the slice `head` holding the contents of `in` followed by `n`
more bytes, reusing the backing array of `in` when its capacity suffices. The second
result `tail` of the Go function is `head[len(in):]`. -/
def sliceForAppend (inp : Slice) (n : Nat) : Slice :=
  let total := inp.len + n
  if inp.cap ≥ total then { arr := inp.arr, off := inp.off, len := total }
  else { arr := writeAt (zeroBytes total) 0 inp.bytes, off := 0, len := total }

/-- Two successive `keys.Read` of `SymmetricKeySize` bytes from the HKDF stream: the AES
key, then the HMAC key. -/
def deriveKeys (P : Primitives) (nonce key : List Byte) : List Byte × List Byte :=
  ((List.range SymmetricKeySize).map (fun i => P.hkdf key nonce i),
   (List.range SymmetricKeySize).map (fun i => P.hkdf key nonce (SymmetricKeySize + i)))

/-- Go `stream.XORKeyStream(dst, src)` for `len(dst) = len(src)`: the bytes written to `dst`. -/
def xorKeyStream (ks : Nat → Byte) (src : List Byte) : List Byte :=
  List.zipWith (fun b k => b ^^^ k) src ((List.range src.length).map ks)

/-- The call `mac.Sum(b)` on a freshly created `mac := hmac.New(sha256.New, hmacKey)`, for
`b` the window `[off, off+len)` of `arr`, the returned slice being dropped. `Sum` appends
the digest of what was *written* to `mac` to `b`; nothing was written, so the digest is
that of the empty message, and `b` is not hashed. The append happens in place when `b`
has capacity for it and otherwise leaves `arr` alone. -/
def macSumInto (P : Primitives) (hmacKey : List Byte) (arr : List Byte) (off len : Nat) :
    List Byte :=
  if arr.length - off ≥ len + Overhead then writeAt arr (off + len) (P.hmac hmacKey [])
  else arr

/-- Go `SecretSeal(out, message, nonce, key)`. Returns the slice `ret` (its backing array is
the one the function wrote to) and the backing array of `out` as the call leaves it. The
message must not alias `out`. -/
def SecretSeal (P : Primitives) (out : Slice) (message nonce key : List Byte) :
    Slice × List Byte :=
  let (aesKey, hmacKey) := deriveKeys P nonce key
  let ret := sliceForAppend out (message.length + Overhead)
  -- `out` is rebound to `ret[len(out):]`
  let tailOff := ret.off + out.len
  let iv := nonce.take aesBlockSize
  -- stream.XORKeyStream(out[:len(out)-Overhead], message)
  let arr1 := writeAt ret.arr tailOff (xorKeyStream (P.ctr aesKey iv) message)
  -- hmac.New(sha256.New, hmacKey).Sum(out[:len(out)-Overhead])
  let arr2 := macSumInto P hmacKey arr1 tailOff message.length
  ({ ret with arr := arr2 }, if out.cap ≥ out.len + (message.length + Overhead) then arr2 else out.arr)

/-- Go `SecretOpen(out, box, nonce, key)`: `none` is a panic (`box` shorter than `Overhead`),
`some ([], false)` is the result `(nil, false)`, and `some (bytes, true)` carries the bytes
of the returned slice. The slice `box[:len(box)-Overhead]` has capacity for `Overhead`
more bytes, so `mac.Sum` rewrites the last `Overhead` bytes of `box` in place; `box` is
not read again by any caller. -/
def SecretOpen (P : Primitives) (out : Slice) (box nonce key : List Byte) :
    Option (List Byte × Bool) :=
  let (aesKey, hmacKey) := deriveKeys P nonce key
  if box.length < Overhead then none
  else
    let bodyLen := box.length - Overhead
    -- copy(orig[:], box[len(box)-Overhead:])
    let orig := box.drop bodyLen
    -- mac.Sum(box[:len(box)-Overhead])
    let box1 := macSumInto P hmacKey box 0 bodyLen
    -- hmac.Equal(box[len(box)-Overhead:], orig[:])
    if box1.drop bodyLen ≠ orig then some ([], false)
    else
      let ret := sliceForAppend out bodyLen
      let tailOff := ret.off + out.len
      let iv := nonce.take aesBlockSize
      let arr1 := writeAt ret.arr tailOff (xorKeyStream (P.ctr aesKey iv) (box1.take bodyLen))
      some (({ ret with arr := arr1 } : Slice).bytes, true)

/-- The AES-CTR cipher text `SecretSeal` computes for `message`. -/
def sealBody (P : Primitives) (message nonce key : List Byte) : List Byte :=
  xorKeyStream (P.ctr (deriveKeys P nonce key).1 (nonce.take aesBlockSize)) message

/-- The 32 bytes `SecretSeal` appends after the cipher text. -/
def sealTag (P : Primitives) (nonce key : List Byte) : List Byte :=
  P.hmac (deriveKeys P nonce key).2 []

/-! ## The curve `elliptic.P256()` and `nizk.go` -/

/-- The interface of the Go value `curve = elliptic.P256()`, a library object: a group of
points of prime order `N` (the cofactor of P-256 is one) with base point `G`, and the affine
coordinates the Go API speaks in. `coords` sends the point at infinity to `(0, 0)`, as the
library does; `ofCoords` decodes a coordinate pair and is `none` where the library rejects
the pair as not being a point. -/
class Curve (Pt : Type) extends AddCommGroup Pt where
  G : Pt
  N : Nat
  coords : Pt → Nat × Nat
  ofCoords : Nat → Nat → Option Pt
  ofCoords_coords : ∀ p : Pt, ofCoords (coords p).1 (coords p).2 = some p
  coords_ofCoords : ∀ (x y : Nat) (p : Pt), ofCoords x y = some p → coords p = (x, y)
  coords_zero : coords 0 = (0, 0)
  coords_lt : ∀ p : Pt, (coords p).1 < 2 ^ 256 ∧ (coords p).2 < 2 ^ 256
  N_prime : Nat.Prime N
  N_odd : N % 2 = 1
  N_lt : N < 2 ^ 256
  N_nsmul : ∀ p : Pt, N • p = 0
  G_ne_zero : G ≠ 0

/-- Go `curve.ScalarBaseMult(k)`. -/
def ScalarBaseMult (Pt : Type) [Curve Pt] (k : List Byte) : Nat × Nat :=
  Curve.coords (setBytes k • (Curve.G : Pt))

/-- Go `curve.ScalarMult(x, y, k)`; `none` when `(x, y)` is not a point. -/
def ScalarMult (Pt : Type) [Curve Pt] (x y : Nat) (k : List Byte) : Option (Nat × Nat) :=
  match (Curve.ofCoords x y : Option Pt) with
  | none => none
  | some p => some (Curve.coords (setBytes k • p))

/-- Go `curve.Add(x1, y1, x2, y2)`; `none` when an argument is not a point. -/
def curveAdd (Pt : Type) [Curve Pt] (x1 y1 x2 y2 : Nat) : Option (Nat × Nat) :=
  match (Curve.ofCoords x1 y1 : Option Pt), (Curve.ofCoords x2 y2 : Option Pt) with
  | some p, some q => some (Curve.coords (p + q))
  | _, _ => none

/-- The response scalar both provers compute: `C.Mul(C, exp); C.Sub(r, C); C.Mod(C, order)`
(`Mod` is the Euclidean modulus) followed by `C.Bytes()`. -/
def responseBytes (N r c exp : Nat) : List Byte :=
  bytesBE (((r : Int) - (c : Int) * (exp : Int)) % (N : Int)).toNat

/-- Go `PoKLog(exp, x, y)`, given the nonce `r` that `rand.Int(rand.Reader, order)` returned. -/
def PoKLog (Pt : Type) [Curve Pt] (P : Primitives) (exp x y : Nat) (r : Nat) :
    Option (List Byte) := do
  let prf := zeroBytes (32 * 3)
  let (rx, ry) := ScalarBaseMult Pt (bytesBE r)
  let prf ← copyRight prf 32 (bytesBE rx)
  let prf ← copyRight prf 64 (bytesBE ry)
  let buf := bytesBE x ++ bytesBE y ++ prf.take 64
  let c := P.sha256 buf
  let Cb := responseBytes (Curve.N Pt) r (setBytes c) exp
  copyRight prf 96 Cb

/-- Go `VerifyPoKLog(x, y, prf)`; `none` is a panic (short proof, or a pair that is not a
point). -/
def VerifyPoKLog (Pt : Type) [Curve Pt] (P : Primitives) (x y : Nat) (prf : List Byte) :
    Option Bool := do
  if prf.length < 64 then none
  let rx := setBytes (prf.take 32)
  let ry := setBytes ((prf.take 64).drop 32)
  let buf := bytesBE x ++ bytesBE y ++ prf.take 64
  let c := P.sha256 buf
  let (nx, ny) := ScalarBaseMult Pt (prf.drop 64)
  let (cx, cy) ← ScalarMult Pt x y c
  let (resx, resy) ← curveAdd Pt nx ny cx cy
  pure (decide (resx = rx) && decide (resy = ry))

/-- Go `LogEquivalence(exp, basex1, basey1, x1, y1, basex2, basey2, x2, y2)`, given the nonce
`r` that `rand.Int(rand.Reader, order)` returned. -/
def LogEquivalence (Pt : Type) [Curve Pt] (P : Primitives)
    (exp basex1 basey1 x1 y1 basex2 basey2 x2 y2 : Nat) (r : Nat) : Option (List Byte) := do
  let prf := zeroBytes (32 * 5)
  let (rx1, ry1) ← ScalarMult Pt basex1 basey1 (bytesBE r)
  let (rx2, ry2) ← ScalarMult Pt basex2 basey2 (bytesBE r)
  let prf ← copyRight prf 32 (bytesBE rx1)
  let prf ← copyRight prf 64 (bytesBE ry1)
  let prf ← copyRight prf 96 (bytesBE rx2)
  let prf ← copyRight prf 128 (bytesBE ry2)
  let buf := bytesBE basex1 ++ bytesBE basey1 ++ bytesBE x1 ++ bytesBE y1 ++
    bytesBE basex2 ++ bytesBE basey2 ++ bytesBE x2 ++ bytesBE y2 ++ prf.take 128
  let c := P.sha256 buf
  let Cb := responseBytes (Curve.N Pt) r (setBytes c) exp
  copyRight prf 160 Cb

/-- Go `VerifyLogEquivalence(basex1, basey1, x1, y1, basex2, basey2, x2, y2, prf)`; `none` is a
panic. -/
def VerifyLogEquivalence (Pt : Type) [Curve Pt] (P : Primitives)
    (basex1 basey1 x1 y1 basex2 basey2 x2 y2 : Nat) (prf : List Byte) : Option Bool := do
  if prf.length < 128 then none
  let rx1 := setBytes (prf.take 32)
  let ry1 := setBytes ((prf.take 64).drop 32)
  let rx2 := setBytes ((prf.take 96).drop 64)
  let ry2 := setBytes ((prf.take 128).drop 96)
  let buf := bytesBE basex1 ++ bytesBE basey1 ++ bytesBE x1 ++ bytesBE y1 ++
    bytesBE basex2 ++ bytesBE basey2 ++ bytesBE x2 ++ bytesBE y2 ++ prf.take 128
  let c := P.sha256 buf
  let (nx1, ny1) ← ScalarMult Pt basex1 basey1 (prf.drop 128)
  let (nx2, ny2) ← ScalarMult Pt basex2 basey2 (prf.drop 128)
  let (cx1, cy1) ← ScalarMult Pt x1 y1 c
  let (cx2, cy2) ← ScalarMult Pt x2 y2 c
  let (resx1, resy1) ← curveAdd Pt nx1 ny1 cx1 cy1
  let (resx2, resy2) ← curveAdd Pt nx2 ny2 cx2 cy2
  pure (decide (resx1 = rx1) && decide (resy1 = ry1) && decide (resx2 = rx2) &&
    decide (resy2 = ry2))

/-! ## `crypto.go` -/

/-- Go `const POINT_SIZE = 64`. -/
def POINT_SIZE : Nat := 64

/-- Go `const SHARED_KEY_SIZE = 32`. -/
def SHARED_KEY_SIZE : Nat := 32

/-- Go `const NONCE_SIZE = 24`. -/
def NONCE_SIZE : Nat := 24

/-- Go `P256KeyToBytes(x, y, priv)`: the 64-byte public key and the 32-byte secret. -/
def P256KeyToBytes (x y priv : Nat) : Option (List Byte × List Byte) := do
  let pub := zeroBytes POINT_SIZE
  let pub ← copyRight pub (POINT_SIZE / 2) (bytesBE x)
  let pub ← copyRight pub POINT_SIZE (bytesBE y)
  let secret ← copyRight (zeroBytes 32) 32 (bytesBE priv)
  pure (pub, secret)

/-- The two statements that load the x coordinate of the shared point into the reused
array `sharedKey`: `copy(sharedKey[SHARED_KEY_SIZE-len(sxb):], sxb)` and the loop that
zeroes the bytes before it. -/
def loadSharedKey (sharedKey sxb : List Byte) : Option (List Byte) :=
  match copyRight sharedKey SHARED_KEY_SIZE sxb with
  | none => none
  | some k => some (writeAt k 0 (zeroBytes (SHARED_KEY_SIZE - sxb.length)))

/-- One job of `P256DecryptionWorker(nonce, auxSize, ...)` with the fields `ciphertext`,
`privateKey` and `privateBlindKey` (and no `prodJob`); `sharedKey` is the content of the
worker's key array when the job starts. The outer `none` is a panic, `some none` is the
result `nil` the worker stores when the box does not open, and `some (some res)` is the
stored result. -/
def P256DecryptionStep (Pt : Type) [Curve Pt] (P : Primitives) (nonce : List Byte)
    (auxSize : Nat) (sharedKey ciphertext privateKey privateBlindKey : List Byte) :
    Option (Option (List Byte)) := do
  -- job.ciphertext[:POINT_SIZE/2], job.ciphertext[POINT_SIZE/2 : POINT_SIZE]
  if ciphertext.length < POINT_SIZE then none
  let theirKeyX := setBytes (ciphertext.take (POINT_SIZE / 2))
  let theirKeyY := setBytes ((ciphertext.take POINT_SIZE).drop (POINT_SIZE / 2))
  let (sharedX, _) ← ScalarMult Pt theirKeyX theirKeyY privateKey
  let sharedKey ← loadSharedKey sharedKey (bytesBE sharedX)
  let (blindX, blindY) ← ScalarMult Pt theirKeyX theirKeyY privateBlindKey
  -- res := make([]byte, POINT_SIZE, len(job.ciphertext)-Overhead-auxSize)
  if ciphertext.length < Overhead + auxSize + POINT_SIZE then none
  let res := zeroBytes (ciphertext.length - Overhead - auxSize)
  let res ← copyRight res (POINT_SIZE / 2) (bytesBE blindX)
  let res ← copyRight res POINT_SIZE (bytesBE blindY)
  match SecretOpen P { arr := res, off := 0, len := POINT_SIZE }
      (ciphertext.drop (POINT_SIZE + auxSize)) nonce sharedKey with
  | none => none
  | some (_, false) => pure none
  | some (out, true) => pure (some out)

/-- The local variables of `P256OnionEncrypt` that its loop updates. -/
structure OnionState where
  res : List Byte
  inb : List Byte
  l : Nat
  nonce : List Byte
  sharedKey : List Byte
deriving DecidableEq, Repr

/-- One iteration of the loop `for i := range keys` of `P256OnionEncrypt`, for
`keys[i] = key`, `nonces[i] = nonceI`, `auxs[i] = aux`; `pb` is `privateKey.Bytes()`. -/
def onionLayer (Pt : Type) [Curve Pt] (P : Primitives) (pb : List Byte) (st : OnionState)
    (key nonceI aux : List Byte) : Option OnionState := do
  if key.length < POINT_SIZE then none
  let theirKeyX := setBytes (key.take (POINT_SIZE / 2))
  let theirKeyY := setBytes ((key.take POINT_SIZE).drop (POINT_SIZE / 2))
  let nonce := writeAt st.nonce 0 nonceI
  let (sharedX, _) ← ScalarMult Pt theirKeyX theirKeyY pb
  let sharedKey ← loadSharedKey st.sharedKey (bytesBE sharedX)
  -- SecretSeal(res[len(auxs[i])+POINT_SIZE:len(auxs[i])+POINT_SIZE], in[:l], &nonce, &sharedKey)
  if aux.length + POINT_SIZE > st.res.length then none
  if st.l > st.inb.length then none
  let res := (SecretSeal P { arr := st.res, off := aux.length + POINT_SIZE, len := 0 }
    (st.inb.take st.l) nonce sharedKey).2
  -- copy(res[POINT_SIZE:], auxs[i])
  if POINT_SIZE > res.length then none
  let res := writeAt res POINT_SIZE aux
  let l := st.l + aux.length + Overhead
  -- copy(in, res[POINT_SIZE:POINT_SIZE+l])
  if POINT_SIZE + l > res.length then none
  let inb := writeAt st.inb 0 ((res.take (POINT_SIZE + l)).drop POINT_SIZE)
  pure { res := res, inb := inb, l := l, nonce := nonce, sharedKey := sharedKey }

/-- The loop `for i := range keys` of `P256OnionEncrypt` over the (reversed) slices;
`nonces[i]` or `auxs[i]` out of range panics. -/
def onionLoop (Pt : Type) [Curve Pt] (P : Primitives) (pb : List Byte) :
    List (List Byte) → List (List Byte) → List (List Byte) → OnionState → Option OnionState
  | [], _, _, st => some st
  | key :: keys, nonceI :: nonces, aux :: auxs, st =>
    match onionLayer Pt P pb st key nonceI aux with
    | none => none
    | some st1 => onionLoop Pt P pb keys nonces auxs st1
  | _ :: _, _, _, _ => none

/-- Go `P256OnionEncrypt(msg, auxs, nonces, keys, nizk)`, given the scalar `e` that
`rand.Int(rand.Reader, curve.Params().N)` returned for `privateKey` and the nonce `r` drawn
inside `PoKLog`. Returns the cipher text and the proof (`nil`, the empty string, when
`nizk` is false). The three slices are reversed in place for the loop and reversed back
before returning. -/
def P256OnionEncrypt (Pt : Type) [Curve Pt] (P : Primitives) (msg : List Byte)
    (auxs nonces keys : List (List Byte)) (nizk : Bool) (e r : Nat) :
    Option (List Byte × List Byte) := do
  let auxsR := auxs.reverse
  let noncesR := nonces.reverse
  let keysR := keys.reverse
  let totalSize := auxsR.foldl (fun t aux => t + aux.length + Overhead) (msg.length + POINT_SIZE)
  let res := zeroBytes totalSize
  let inb := writeAt (zeroBytes totalSize) 0 msg
  let pb := bytesBE e
  let (publicX, publicY) := ScalarBaseMult Pt pb
  let st ← onionLoop Pt P pb keysR noncesR auxsR
    { res := res, inb := inb, l := msg.length, nonce := zeroBytes NONCE_SIZE,
      sharedKey := zeroBytes SHARED_KEY_SIZE }
  let res ← copyRight st.res (POINT_SIZE / 2) (bytesBE publicX)
  let res ← copyRight res POINT_SIZE (bytesBE publicY)
  if nizk then
    let prf ← PoKLog Pt P e publicX publicY r
    pure (res, prf)
  else pure (res, [])

/-- One server of a cascade: its private mix key and private blind key as the byte strings
the worker receives, the nonce and aux string of its layer, and the content of its
worker's `sharedKey` array before the job. -/
structure Server where
  priv : List Byte
  blind : List Byte
  nonce : List Byte
  aux : List Byte
  sharedKey : List Byte
deriving DecidableEq, Repr

/-- The public mix keys of a cascade in traversal order, as `P256KeyToBytes` encodes them:
the key of a server is its private scalar times the base `acc·G`, where `acc` is the
product of the blind scalars of the servers before it. -/
def publicKeys (Pt : Type) [Curve Pt] : List Server → Nat → List (List Byte)
  | [], _ => []
  | s :: rest, acc =>
    encodePoint (Curve.coords ((setBytes s.priv * acc) • (Curve.G : Pt))) ::
      publicKeys Pt rest (acc * setBytes s.blind)

/-- The product of the blind scalars of a cascade. -/
def blindProduct : List Server → Nat
  | [] => 1
  | s :: rest => setBytes s.blind * blindProduct rest

/-- The servers of a cascade applying `P256DecryptionStep` in order, each to the output of
the one before; `none` as soon as a step panics or fails to open its box. -/
def runCascade (Pt : Type) [Curve Pt] (P : Primitives) (auxSize : Nat) :
    List Server → List Byte → Option (List Byte)
  | [], ct => some ct
  | s :: rest, ct =>
    match P256DecryptionStep Pt P s.nonce auxSize s.sharedKey ct s.priv s.blind with
    | some (some out) => runCascade Pt P auxSize rest out
    | _ => none

/-- One onion layer as `P256OnionEncrypt` builds it around `cur`: the aux string followed by
the sealed box of `cur` under the shared key `key` and the layer's nonce. -/
def wrapLayer (P : Primitives) (key nonce aux cur : List Byte) : List Byte :=
  aux ++ (sealBody P cur nonce key ++ sealTag P nonce key)

/-- The 32-byte key both sides derive from a shared point: its x coordinate, left-padded. -/
def sharedKeyOf (Pt : Type) [Curve Pt] (q : Pt) : List Byte :=
  padLeft SHARED_KEY_SIZE (bytesBE (Curve.coords q).1)

/-- The payload behind the header of an onion for the cascade `servers`, built with the
ephemeral scalar `e` when the servers before it have blinded by `acc` in total. -/
def onionBody (Pt : Type) [Curve Pt] (P : Primitives) (e : Nat) (msg : List Byte) :
    List Server → Nat → List Byte
  | [], _ => msg
  | s :: rest, acc =>
    wrapLayer P (sharedKeyOf Pt (e • ((setBytes s.priv * acc) • (Curve.G : Pt)))) s.nonce s.aux
      (onionBody Pt P e msg rest (acc * setBytes s.blind))

/-- The layers of an onion for the cascade `servers`, in traversal order: the public key
point, the nonce and the aux string of each server. -/
def layerInfo (Pt : Type) [Curve Pt] : List Server → Nat → List (Pt × List Byte × List Byte)
  | [], _ => []
  | s :: rest, acc =>
    ((setBytes s.priv * acc) • (Curve.G : Pt), s.nonce, s.aux) ::
      layerInfo Pt rest (acc * setBytes s.blind)

/-- What the loop of `P256OnionEncrypt` has built after some iterations, starting from
`cur` and wrapping the layers in the order the loop meets them. -/
def wrapLayers (Pt : Type) [Curve Pt] (P : Primitives) (e : Nat)
    (layersR : List (Pt × List Byte × List Byte)) (cur : List Byte) : List Byte :=
  layersR.foldl (fun c x => wrapLayer P (sharedKeyOf Pt (e • x.1)) x.2.1 x.2.2 c) cur

/-- The bytes the layers add to the payload. -/
def layersSize {Pt : Type} (layersR : List (Pt × List Byte × List Byte)) : Nat :=
  (layersR.map (fun x => x.2.2.length + Overhead)).sum

/-- The loop invariant of `P256OnionEncrypt`: both buffers have the total size, the header
area of `res` is still zero, and `in[:l]` holds the onion built so far. -/
def OnionInv (T : Nat) (st : OnionState) (cur : List Byte) : Prop :=
  st.res.length = T ∧ st.inb.length = T ∧ st.res.take 64 = zeroBytes 64 ∧
  st.l = cur.length ∧ st.inb.take cur.length = cur ∧
  st.nonce.length = 24 ∧ st.sharedKey.length = 32

/-! ## `config/assignment.go` -/

/-- The loop of `removeDuplicateGroups`: `acc` is `newGroup`, whose elements are exactly the
keys of `dupCheck`. -/
def removeDupLoop {β : Type} [DecidableEq β] : List β → List β → List β
  | [], acc => acc
  | g :: rest, acc =>
    if g ∈ acc then removeDupLoop rest acc else removeDupLoop rest (acc ++ [g])

/-- Go `removeDuplicateGroups(groups)`: the first occurrence of every pointer, in order. -/
def removeDuplicateGroups {β : Type} [DecidableEq β] (groups : List β) : List β :=
  removeDupLoop groups []

/-- Go `int(math.Ceil(math.Sqrt(2*float64(n)-.25) - .5))` for `n >= 1`, computed in
integers: the real number `⌈√(2n - 1/4) - 1/2⌉` is the least `l` with `l·(l+1) >= 2n`
(`templateLen_spec`, `templateLen_eq_ceil`). The float64 evaluation returns the same
value: `2n - 1/4` is exact, and `√(2n - 1/4) - 1/2` is never an integer and stays further
from the integers than the rounding error of the square root and the subtraction for the
sizes considered here. -/
def templateLen (n : Nat) : Nat :=
  ((List.range (n + 1)).find? (fun l => decide (2 * n ≤ l * (l + 1)))).getD 0

/-- Comparison `a <= b` of Go strings, which are byte sequences ordered lexicographically. -/
def strLe : List Byte → List Byte → Bool
  | [], _ => true
  | _ :: _, [] => false
  | a :: as, b :: bs => decide (a < b) || (a == b && strLe as bs)

/-- Go `sort.Strings(glist)`: the keys in ascending order. -/
def sortStrings (glist : List (List Byte)) : List (List Byte) :=
  glist.insertionSort (fun a b => strLe a b = true)

/-- The first inner loop of `Assignments` for template `i`, run over the templates
`assigns[0..i)` built so far: `if len(assigns[j]) > i-1 { assign[a] = assigns[j][i-1]; a++ }`.
The slots of `assign` are written in order from index 0, so the array is represented by
the list of its written slots and `a` is the length of that list. -/
def pickLoop {β : Type} (i : Nat) : List (List β) → List β
  | [] => []
  | t :: rest =>
    match t[i - 1]? with
    | some v => v :: pickLoop i rest
    | none => pickLoop i rest

/-- The second inner loop `for j := a; j < l; j++`, with `k` iterations left: `assign` holds
the written slots (the others are still `nil`), `next` is `last + 1`. When the groups are
used up the slot is filled with `assign[idx]`, otherwise with the next group
`groups[glist[last+1]]`, which is `gl[next]`. Returns the template and `last + 1`. -/
def fillLoop {β : Type} (nil : β) (n : Nat) (gl : List β) :
    Nat → List β → Nat → Nat → List β × Nat
  | 0, assign, _, next => (assign, next)
  | k + 1, assign, idx, next =>
    if next ≥ n then fillLoop nil n gl k (assign ++ [assign.getD idx nil]) (idx + 1) next
    else fillLoop nil n gl k (assign ++ [gl.getD next nil]) idx (next + 1)

/-- The loop `for i := 1; i < l+1; i++` of `Assignments`, with `k` iterations left:
`assigns` holds the templates `assigns[0..i)` and `next` is `last + 1`. -/
def templatesLoop {β : Type} (nil : β) (n l : Nat) (gl : List β) :
    Nat → Nat → List (List β) → Nat → List (List β)
  | 0, _, assigns, _ => assigns
  | k + 1, i, assigns, next =>
    let p := pickLoop i assigns
    let f := fillLoop nil n gl (l - p.length) p 0 next
    templatesLoop nil n l gl k (i + 1) (assigns ++ [f.1]) f.2

/-- Go `Assignments(groups)`. The map `groups` is the list of its entries, in the order the
`range` statement happens to visit them; a `*Group` is an `Option α` with `none` for `nil`,
and `groups[gid]` is `lookup`. The result is `none` when `assigns[0][i] = groups[glist[i]]`
indexes `glist` out of range, which takes `l > n`. -/
def Assignments {α : Type} [DecidableEq α] (groups : List (List Byte × α)) :
    Option (List (List (Option α))) :=
  let n := groups.length
  let l := templateLen n
  let glist := sortStrings (groups.map Prod.fst)
  let gl := glist.map (fun gid => groups.lookup gid)
  if l > n then none
  else some ((templatesLoop none n l gl l 1 [gl.take l] l).map removeDuplicateGroups)

/-- The templates of `Assignments` before de-duplication when the `n` groups are the numbers
`0..n-1` in ascending gid order and the number `n` stands for `nil`. -/
def indexTemplates (n : Nat) : List (List Nat) :=
  templatesLoop n n (templateLen n) (List.range n) (templateLen n) 1
    [(List.range n).take (templateLen n)] (templateLen n)

/-- The set of the numbers in a template, as a bit mask. -/
def templateMask (t : List Nat) : Nat := t.foldl (fun m g => m ||| 2 ^ g) 0

/-- One step of a saturating bit-sliced counter: bit `g` of component `j` tells whether at
least `j + 1` of the masks seen so far have bit `g`. -/
def counterStep (c : Nat × Nat × Nat × Nat) (m : Nat) : Nat × Nat × Nat × Nat :=
  (c.1 ||| m, c.2.1 ||| (c.1 &&& m), c.2.2.1 ||| (c.2.1 &&& m), c.2.2.2 ||| (c.2.2.1 &&& m))

/-- The counter after all masks. -/
def counters (ms : List Nat) : Nat × Nat × Nat × Nat :=
  ms.foldl counterStep (0, 0, 0, 0)

/-- The decidable check on a list of templates over `n` groups: the template length is at
most `n`, every entry is a group, any two templates intersect, and every group is in at
least two and in fewer than four templates. -/
def templatesCheck (n : Nat) (ts : List (List Nat)) : Bool :=
  decide (templateLen n ≤ n) &&
  (ts.map templateMask).all (fun m => decide (m < 2 ^ n)) &&
  (ts.map templateMask).all (fun m1 => (ts.map templateMask).all (fun m2 => m1 &&& m2 != 0)) &&
  ((counters (ts.map templateMask)).2.1 == 2 ^ n - 1) &&
  ((counters (ts.map templateMask)).2.2.2 == 0)

/-- The check on the index templates. -/
def indexCheck (n : Nat) : Bool := templatesCheck n (indexTemplates n)

/-! ### The same templates, computed with cursors

`templatesLoop` indexes into lists; the functions below compute the same lists while walking
them once (`templatesLoop_eq_cursorLoop`), which is what the evaluation for every size from
4 to 200 runs. -/

/-- The first elements of the non-empty lists. -/
def pickHeads {β : Type} : List (List β) → List β
  | [] => []
  | [] :: rest => pickHeads rest
  | (v :: _) :: rest => v :: pickHeads rest

/-- The second inner loop with the unused groups `rest = gl[next:]` as a cursor. -/
def fillCursor {β : Type} (nil : β) :
    Nat → List β → Nat → List β → Nat → List β × List β × Nat
  | 0, assign, _, rest, next => (assign, rest, next)
  | k + 1, assign, idx, [], next =>
    fillCursor nil k (assign ++ [assign.getD idx nil]) (idx + 1) [] next
  | k + 1, assign, idx, g :: rest, next => fillCursor nil k (assign ++ [g]) idx rest (next + 1)

/-- The outer loop with cursors: `tails` holds `assigns[j][i-1:]` for every template built,
`rest` is `gl[next:]`; a template that only takes unused groups takes them in one piece. -/
def cursorLoop {β : Type} (nil : β) (n l : Nat) :
    Nat → Nat → List (List β) → List (List β) → List β → Nat → List (List β)
  | 0, _, assigns, _, _, _ => assigns
  | k + 1, i, assigns, tails, rest, next =>
    let p := pickHeads tails
    let f := if next + (l - p.length) ≤ n then
        (p ++ rest.take (l - p.length), rest.drop (l - p.length), next + (l - p.length))
      else fillCursor nil (l - p.length) p 0 rest next
    cursorLoop nil n l k (i + 1) (assigns ++ [f.1]) (tails.map List.tail ++ [f.1.drop i])
      f.2.1 f.2.2

/-- The index templates computed by `cursorLoop`. -/
def cursorTemplates (n : Nat) : List (List Nat) :=
  cursorLoop n n (templateLen n) (templateLen n) 1 [(List.range n).take (templateLen n)]
    [(List.range n).take (templateLen n)] ((List.range n).drop (templateLen n)) (templateLen n)

/-! ## A small instance of the library interface

Used only to run the definitions on concrete inputs. -/

/-- A one-byte running checksum. -/
def checksum (bs : List Byte) : Byte :=
  bs.foldl (fun acc b => acc * 31 + b + 1) 7

/-- A stand-in for the library primitives: every function is a checksum of its inputs. -/
def demoPrimitives : Primitives where
  hkdf secret salt i := checksum secret + 3 * checksum salt + Fin.ofNat i
  ctr key iv i := checksum key + checksum iv + Fin.ofNat (5 * i)
  hmac key data := List.replicate 31 0 ++ [checksum (key ++ 255 :: data)]
  sha256 data := List.replicate 31 0 ++ [checksum data]
  hmac_length := by intros; simp
  sha256_length := by intros; simp

/-- Coordinates of the demo curve: the group is `ZMod 7` under addition. -/
def demoCoords (p : ZMod 7) : Nat × Nat :=
  if p = 0 then (0, 0) else (p.val, p.val * p.val % 7 + 1)

/-- Decoder of the demo curve. -/
def demoOfCoords (x y : Nat) : Option (ZMod 7) :=
  if x = 0 ∧ y = 0 then some 0
  else if 0 < x ∧ x < 7 ∧ y = x * x % 7 + 1 then some (x : ZMod 7)
  else none

/-- A stand-in for the curve: the additive group of integers modulo seven with base
point `1`. -/
instance demoCurve : Curve (ZMod 7) where
  G := 1
  N := 7
  coords := demoCoords
  ofCoords := demoOfCoords
  ofCoords_coords := by decide
  coords_ofCoords := by
    intro x y p h
    unfold demoOfCoords at h
    split at h
    · rename_i h0
      obtain ⟨rfl, rfl⟩ := h0
      cases h
      rfl
    · split at h
      · rename_i h1
        obtain ⟨hx0, hx7, rfl⟩ := h1
        cases h
        interval_cases x <;> rfl
      · cases h
  coords_zero := rfl
  coords_lt := by decide
  N_prime := by norm_num
  N_odd := rfl
  N_lt := by norm_num
  N_nsmul := by decide
  G_ne_zero := by decide

/-- The proof `PoKLog` returns on the demo curve for `x = 3`, `X = 3·G` and nonce `5`. -/
def demoPoKProof : List Byte :=
  (PoKLog (ZMod 7) demoPrimitives 3 (demoCoords 3).1 (demoCoords 3).2 5).getD []

/-- The proof `LogEquivalence` returns on the demo curve for `x = 3`, bases `2` and `4`
(so `X1 = 6`, `X2 = 5`) and nonce `2`. -/
def demoLogEqProof : List Byte :=
  (LogEquivalence (ZMod 7) demoPrimitives 3 (demoCoords 2).1 (demoCoords 2).2
    (demoCoords 6).1 (demoCoords 6).2 (demoCoords 4).1 (demoCoords 4).2
    (demoCoords 5).1 (demoCoords 5).2 2).getD []

/-- A cascade of two servers on the demo curve, with aux strings of length two; the second
worker's key array holds stale bytes. -/
def demoServers : List Server :=
  [{ priv := [3], blind := [2], nonce := zeroBytes 24, aux := [7, 7],
     sharedKey := zeroBytes 32 },
   { priv := [5], blind := [3], nonce := List.replicate 24 1, aux := [8, 9],
     sharedKey := List.replicate 32 9 }]

/-- A group map with four entries `"a"`, `"b"`, `"c"`, `"d"` (visited out of order), the
groups being the numbers 10, 20, 30, 40. -/
def demoGroups : List (List Byte × Nat) :=
  [([0x63], 30), ([0x61], 10), ([0x64], 40), ([0x62], 20)]

/-! ## `mixnet/crypto.go` -/

/-- The errors the handlers of the packages `mixnet` and `mailbox` return, named after
their messages. -/
inductive Err where
  | misauthenticated
  | roundNotStarted
  | noInnerCiphertexts
  | previousRound
  | roundAlreadyStarted
  | futureRound
  | roundAlreadyDeleted
  | roundNotFinished
  | nonExistingKeys
  | roundNotInitialized
  | userkeyNotRegistered
deriving DecidableEq, Repr

/-- The interface of the library functions `sha3.Sum256`, `secretbox.Seal(nil, ...)` and
`secretbox.Open(nil, ...)` of `golang.org/x/crypto`, which are not part of the repository:
`sealBox message nonce key` is the sealed box and `openBox box nonce key` is the message, or
`none` when the box does not authenticate. Opening a sealed box under the nonce and key it
was sealed with gives the message back. -/
structure SecretBox where
  sha3 : List Byte → List Byte
  sealBox : List Byte → List Byte → List Byte → List Byte
  openBox : List Byte → List Byte → List Byte → Option (List Byte)
  openBox_seal : ∀ message nonce key, openBox (sealBox message nonce key) nonce key = some message

/-- Go `GenerateInnerKey()`, given the scalar `priv` that `rand.Int(rand.Reader, order)`
returned. -/
def GenerateInnerKey (Pt : Type) [Curve Pt] (priv : Nat) : Nat × Nat × Nat :=
  let p := ScalarBaseMult Pt (bytesBE priv)
  (priv, p.1, p.2)

/-- The key derivation both `Encrypt` and `Decrypt` do: `sha3.Sum256` of
`sharedX.Bytes()` followed by `sharedY.Bytes()`. -/
def deriveBoxKey (B : SecretBox) (sharedX sharedY : Nat) : List Byte :=
  B.sha3 (bytesBE sharedX ++ bytesBE sharedY)

/-- Go `Encrypt(publicX, publicY, nonce, plaintext)`, given the scalar `r` that
`GenerateInnerKey` draws. -/
def Encrypt (Pt : Type) [Curve Pt] (B : SecretBox) (publicX publicY : Nat)
    (nonce plaintext : List Byte) (r : Nat) : Option (Nat × Nat × List Byte) :=
  let k := GenerateInnerKey Pt r
  match ScalarMult Pt publicX publicY (bytesBE k.1) with
  | none => none
  | some shared =>
    let key := deriveBoxKey B shared.1 shared.2
    let ciphertext := B.sealBox plaintext nonce key
    some (k.2.1, k.2.2, ciphertext)

/-- The loop `for i := range publicXs { x, y = curve.Add(x, y, publicXs[i], publicYs[i]) }`
of `OnionEncrypt` and of `client.NewRound`; `publicYs[i]` panics when `publicYs` is the
shorter list. -/
def addKeys (Pt : Type) [Curve Pt] : List Nat → List Nat → Nat × Nat → Option (Nat × Nat)
  | [], _, xy => some xy
  | _ :: _, [], _ => none
  | px :: xs, py :: ys, xy =>
    match curveAdd Pt xy.1 xy.2 px py with
    | none => none
    | some xy1 => addKeys Pt xs ys xy1

/-- Go `OnionEncrypt(publicXs, publicYs, nonce, plaintext)`. -/
def OnionEncrypt (Pt : Type) [Curve Pt] (B : SecretBox) (publicXs publicYs : List Nat)
    (nonce plaintext : List Byte) (r : Nat) : Option (Nat × Nat × List Byte) :=
  match addKeys Pt publicXs publicYs (0, 0) with
  | none => none
  | some xy => Encrypt Pt B xy.1 xy.2 nonce plaintext r

/-- Go `Decrypt(private, nonce, rx, ry, ciphertext)`: the pair `(msg, err)`. -/
def Decrypt (Pt : Type) [Curve Pt] (B : SecretBox) (priv : Nat) (nonce : List Byte)
    (rx ry : Nat) (ciphertext : List Byte) : Option (List Byte × Option Err) :=
  match ScalarMult Pt rx ry (bytesBE priv) with
  | none => none
  | some shared =>
    let key := deriveBoxKey B shared.1 shared.2
    match B.openBox ciphertext nonce key with
    | none => some ([], some Err.misauthenticated)
    | some msg => some (msg, none)

/-- Go `OnionDecrypt(privates, nonce, rx, ry, ciphertext)`: the scalars are added as
integers, without reduction. -/
def OnionDecrypt (Pt : Type) [Curve Pt] (B : SecretBox) (privates : List Nat)
    (nonce : List Byte) (rx ry : Nat) (ciphertext : List Byte) :
    Option (List Byte × Option Err) :=
  let priv := privates.foldl (fun acc p => acc + p) 0
  Decrypt Pt B priv nonce rx ry ciphertext

/-! ## `span/span.go`

The arguments of the three functions are lengths and byte budgets and are taken to be
non-negative; an integer division by zero is a panic. -/

/-- The Go struct `Span`. -/
structure Span where
  Start : Nat
  End : Nat
deriving DecidableEq, Repr

/-- Go `SpanWithSize(n, size)`. -/
def SpanWithSize (n size : Nat) : Option (List Span) :=
  if size = 0 then none
  else
    let mod := n % size
    let quo := if mod ≠ 0 then n / size + 1 else n / size
    some ((List.range quo).map (fun i =>
      let start := i * size
      let offset := if i = quo - 1 ∧ mod ≠ 0 then mod else size
      { Start := start, End := start + offset }))

/-- The loop `for i := 0; i < numSpans; i++` of `NSpans`, with `k` iterations left to run
from index `i`; `e` is the variable `end`. -/
def nSpansLoop (size mod : Nat) : Nat → Nat → Nat → List Span
  | 0, _, _ => []
  | k + 1, i, e =>
    let start := e
    let offset := if i < mod then size + 1 else size
    { Start := start, End := start + offset } :: nSpansLoop size mod k (i + 1) (start + offset)

/-- Go `NSpans(n, numSpans)`. -/
def NSpans (n numSpans : Nat) : Option (List Span) :=
  let numSpans := if n < numSpans then n else numSpans
  if numSpans = 0 then none
  else some (nSpansLoop (n / numSpans) (n % numSpans) numSpans 0 0)

/-- Go `StreamSpan(n, streamSize, msgSize)`. -/
def StreamSpan (n streamSize msgSize : Nat) : Option (List Span) :=
  if msgSize = 0 then none
  else SpanWithSize n (streamSize / msgSize)

/-- The Go slice expression `xs[s.Start:s.End]` on a list that is long enough. -/
def Span.slice {α : Type} (xs : List α) (s : Span) : List α :=
  (xs.drop s.Start).take (s.End - s.Start)

/-- Whether the spans lead from `a` to `b` without gap or overlap: the first one starts at
`a`, each one starts where the one before ends, and the last one ends at `b`. -/
def covers : List Span → Nat → Nat → Bool
  | [], a, b => a == b
  | s :: rest, a, b => s.Start == a && decide (s.Start ≤ s.End) && covers rest s.End b

/-! ## Go maps as association lists -/

/-- The assignment `m[k] = v`. -/
def mapSet {K V : Type} [BEq K] (m : List (K × V)) (k : K) (v : V) : List (K × V) :=
  (k, v) :: m.filter (fun p => !(p.1 == k))

/-- The builtin `delete(m, k)`. -/
def mapDelete {K V : Type} [BEq K] (m : List (K × V)) (k : K) : List (K × V) :=
  m.filter (fun p => !(p.1 == k))

/-! ## `mixnet/client.go` and `mixnet/verifier.go` -/

/-- The conversion `uint64(i)` of a Go `int`. -/
def toUint64 (i : Int) : Nat := (i % 2 ^ 64).toNat

/-- The bytes of the varint encoding of `x`: seven bits per byte, least significant group
first, the top bit set on every byte but the last. A `uint64` takes at most ten bytes. -/
def uvarintAux : Nat → Nat → List Byte
  | 0, _ => []
  | fuel + 1, x =>
    if x < 128 then [Fin.ofNat x] else Fin.ofNat (x % 128 + 128) :: uvarintAux fuel (x / 128)

/-- Go `binary.PutUvarint(buf, x)` for a `uint64` `x`: the buffer after the call; writing
past the end of the buffer panics. -/
def PutUvarint (buf : List Byte) (x : Nat) : Option (List Byte) :=
  let enc := uvarintAux 10 x
  if enc.length ≤ buf.length then some (writeAt buf 0 enc) else none

/-- The nonce both the envelope client and the decryption workers use:
`var nonce [24]byte; binary.PutUvarint(nonce[:], uint64(round))`. -/
def roundNonce (round : Int) : Option (List Byte) :=
  PutUvarint (zeroBytes 24) (toUint64 round)

/-- The Go struct `clientRoundState` of package `mixnet`. -/
structure mixnet.clientRoundState where
  round : Int
  publicXs : List Nat
  publicYs : List Nat
  X : Nat
  Y : Nat
deriving DecidableEq, Repr

/-- The Go struct `client` of package `mixnet`. -/
structure mixnet.client where
  states : List (Int × mixnet.clientRoundState)
deriving DecidableEq, Repr

/-- Go `NewClient()` of package `mixnet`. -/
def mixnet.NewClient : mixnet.client := { states := [] }

/-- Go `(*client).NewRound(round, publicXs, publicYs)` of package `mixnet`. -/
def mixnet.client.NewRound (Pt : Type) [Curve Pt] (clt : mixnet.client) (round : Int)
    (publicXs publicYs : List Nat) : Option mixnet.client :=
  match addKeys Pt publicXs publicYs (0, 0) with
  | none => none
  | some xy =>
    let state : mixnet.clientRoundState :=
      { round := round, publicXs := publicXs, publicYs := publicYs, X := xy.1, Y := xy.2 }
    some { states := mapSet clt.states round state }

/-- Go `(*client).GenerateRoundInput(round, plaintext)` of package `mixnet`, given the scalar
`r` that `Encrypt` draws; a round without state is a nil dereference. The two loops that
write `32-len(xb)` and `32-len(yb)` zero bytes left-pad the coordinates. -/
def mixnet.client.GenerateRoundInput (Pt : Type) [Curve Pt] (B : SecretBox)
    (clt : mixnet.client) (round : Int) (plaintext : List Byte) (r : Nat) :
    Option (List Byte) :=
  match clt.states.lookup round, roundNonce round with
  | some state, some nonce =>
    match Encrypt Pt B state.X state.Y nonce plaintext r with
    | none => none
    | some c => some (padLeft 32 (bytesBE c.1) ++ padLeft 32 (bytesBE c.2.1) ++ c.2.2)
  | _, _ => none

/-- The Go struct `verifierRoundState`; `innerCiphertexts` is `none` for the `nil` slice.
The channel `decJobs` and its workers are represented by the function the workers compute
(`decryptionWorker`). -/
structure mixnet.verifierRoundState where
  round : Int
  priv : Nat
  publicX : Nat
  publicY : Nat
  innerCiphertexts : Option (List (List Byte))
  done : Bool
deriving DecidableEq, Repr

/-- The Go struct `verifier`. -/
structure mixnet.verifier where
  round : Int
  index : Int
  groupSize : Int
  states : List (Int × mixnet.verifierRoundState)
deriving DecidableEq, Repr

/-- Go `NewVerifier(index, groupSize)`. -/
def mixnet.NewVerifier (index groupSize : Int) : mixnet.verifier :=
  { round := 0, index := index, groupSize := groupSize, states := [] }

/-- Go `(*verifier).NewRound(round)`, given the scalar `GenerateInnerKey` draws. -/
def mixnet.verifier.NewRound (Pt : Type) [Curve Pt] (ver : mixnet.verifier) (round : Int)
    (z : Nat) : mixnet.verifier × Option Err :=
  if round < ver.round then (ver, some Err.previousRound)
  else if (ver.states.lookup round).isSome then (ver, some Err.roundAlreadyStarted)
  else
    let k := GenerateInnerKey Pt z
    let state : mixnet.verifierRoundState :=
      { round := round, priv := k.1, publicX := k.2.1, publicY := k.2.2,
        innerCiphertexts := none, done := false }
    ({ ver with round := round, states := mapSet ver.states round state }, none)

/-- Go `(*verifier).EndRound(round)`. -/
def mixnet.verifier.EndRound (ver : mixnet.verifier) (round : Int) :
    mixnet.verifier × Option Err :=
  if round > ver.round then (ver, some Err.futureRound)
  else
    match ver.states.lookup round with
    | none => (ver, some Err.roundAlreadyDeleted)
    | some state =>
      if !state.done then (ver, some Err.roundNotFinished)
      else ({ ver with states := mapDelete ver.states round }, none)

/-- Go `(*verifier).SetPublicKey(round, x, y)`. -/
def mixnet.verifier.SetPublicKey (ver : mixnet.verifier) (round : Int) (x y : Nat) :
    mixnet.verifier × Option Err :=
  match ver.states.lookup round with
  | none => (ver, some Err.nonExistingKeys)
  | some state =>
    let state1 : mixnet.verifierRoundState := { state with publicX := x, publicY := y }
    ({ ver with states := mapSet ver.states round state1 }, none)

/-- Go `(*verifier).PublicKey(round)`. -/
def mixnet.verifier.PublicKey (ver : mixnet.verifier) (round : Int) :
    Option (Nat × Nat) × Option Err :=
  match ver.states.lookup round with
  | none => (none, some Err.nonExistingKeys)
  | some state => (some (state.publicX, state.publicY), none)

/-- Go `(*verifier).PrivateKey(round)`. -/
def mixnet.verifier.PrivateKey (ver : mixnet.verifier) (round : Int) : Option Nat × Option Err :=
  match ver.states.lookup round with
  | none => (none, some Err.roundNotStarted)
  | some state => (some state.priv, none)

/-- Go `(*verifier).AddInnerCiphertexts(round, inners)`; `inners` is `none` for `nil`. -/
def mixnet.verifier.AddInnerCiphertexts (ver : mixnet.verifier) (round : Int)
    (inners : Option (List (List Byte))) : mixnet.verifier × Option Err :=
  match ver.states.lookup round with
  | none => (ver, some Err.roundNotStarted)
  | some state =>
    let state1 : mixnet.verifierRoundState := { state with innerCiphertexts := inners }
    ({ ver with states := mapSet ver.states round state1 }, none)

/-- One job of Go `decryptionWorker(round, jobs)`: the values written to `job.results[idx]`
and `job.errs[idx]`. The slice expression `ciphertext[64:]` panics on a ciphertext shorter
than 64 bytes. -/
def decryptionWorker (Pt : Type) [Curve Pt] (B : SecretBox) (round : Int) (privateKey : Nat)
    (ciphertext : List Byte) : Option (List Byte × Option Err) :=
  match roundNonce round with
  | none => none
  | some nonce =>
    if ciphertext.length < 64 then none
    else
      let xb := ciphertext.take 32
      let yb := (ciphertext.take 64).drop 32
      let msg := ciphertext.drop 64
      Decrypt Pt B privateKey nonce (setBytes xb) (setBytes yb) msg

/-- The jobs `Finalize` hands to the workers, one per buffered ciphertext: job `c` writes
only slot `c` of `results` and `errs`, and `wg.Wait()` returns when all have run, so the two
arrays are the list of the job results in buffer order. A panic in a worker ends the
program. -/
def runJobs (job : List Byte → Option (List Byte × Option Err)) :
    List (List Byte) → Option (List (List Byte × Option Err))
  | [] => some []
  | c :: rest =>
    match job c, runJobs job rest with
    | some r, some rs => some (r :: rs)
    | _, _ => none

/-- Go `(*verifier).Finalize(round, privateKeys)`: the verifier after the call and the pair
`(plaintexts, err)`, with `none` for the `nil` list. The workers of the round state were
started by `NewRound` with the round number the state records. -/
def mixnet.verifier.Finalize (Pt : Type) [Curve Pt] (B : SecretBox) (ver : mixnet.verifier)
    (round : Int) (privateKeys : List (List Byte)) :
    Option (mixnet.verifier × Option (List (List Byte)) × Option Err) :=
  match ver.states.lookup round with
  | none => some (ver, none, some Err.roundNotStarted)
  | some state =>
    match state.innerCiphertexts with
    | none => some (ver, none, some Err.noInnerCiphertexts)
    | some inner =>
      let aggKey := privateKeys.foldl (fun acc priv => acc + setBytes priv) 0
      match runJobs (decryptionWorker Pt B state.round aggKey) inner with
      | none => none
      | some results =>
        match results.filterMap Prod.snd with
        | err :: _ => some (ver, none, some err)
        | [] =>
          let state1 : mixnet.verifierRoundState := { state with done := true }
          some ({ ver with states := mapSet ver.states round state1 },
            some (results.map Prod.fst), none)

/-- A stand-in for `secretbox` and `sha3`: the box is the message behind a one-byte checksum
of key, nonce and message. -/
def demoBox : SecretBox where
  sha3 data := List.replicate 31 0 ++ [checksum data]
  sealBox message nonce key := checksum (key ++ nonce ++ message) :: message
  openBox box nonce key :=
    match box with
    | [] => none
    | tag :: body => if tag = checksum (key ++ nonce ++ body) then some body else none
  openBox_seal := by intros; simp

/-- The envelope client of the demo round 1 for a group with the inner keys `2·G` and
`3·G`. -/
def demoEnvClient : mixnet.client :=
  (mixnet.NewClient.NewRound (ZMod 7) 1
    [(GenerateInnerKey (ZMod 7) 2).2.1, (GenerateInnerKey (ZMod 7) 3).2.1]
    [(GenerateInnerKey (ZMod 7) 2).2.2, (GenerateInnerKey (ZMod 7) 3).2.2]).getD mixnet.NewClient

/-- The inner ciphertexts of the plaintexts `[0x41]` and `[0x42, 0x43]` in the demo round. -/
def demoInner : List (List Byte) :=
  [(demoEnvClient.GenerateRoundInput (ZMod 7) demoBox 1 [0x41] 4).getD [],
   (demoEnvClient.GenerateRoundInput (ZMod 7) demoBox 1 [0x42, 0x43] 6).getD []]

/-- A verifier in round 1 that buffered the list `inner`. -/
def demoVerifier (inner : List (List Byte)) : mixnet.verifier :=
  (((mixnet.NewVerifier 0 2).NewRound (ZMod 7) 1 2).1.AddInnerCiphertexts 1 (some inner)).1

/-- The second demo ciphertext with the lowest bit of its checksum byte flipped. -/
def demoForgedInner : List (List Byte) :=
  [demoInner.getD 0 [], flipBit (demoInner.getD 1 []) (8 * 64)]

/-! ## `mixnet/mix_server.go`

The handlers select the objects of one server id from the maps of the Go struct `server`.
`mixnet.server` below is the part of the struct that belongs to one hosted id:
`configs[id].Last`, `len(partOf[id].Servers)`, `verifiers[id]` and `states[id]`. The object
`mixes[id]` is not part of the sources; what its methods return is a parameter of the
handlers. -/

/-- Go `wg.Add(delta)` on a `sync.WaitGroup` whose counter is `counter`: the new counter; a
negative counter panics. `wg.Done()` is `wg.Add(-1)`, and `wg.Wait()` returns only while the
counter is zero. -/
def wgAdd (counter delta : Int) : Option Int :=
  if counter + delta < 0 then none else some (counter + delta)

/-- What a handler that may wait does in a given state: it returns a value, or it is
blocked for as long as the state stays as it is. -/
inductive Call (α : Type) where
  | returned (val : α)
  | blocked
deriving DecidableEq, Repr

/-- The Go struct `roundState` of package `mixnet`; the wait groups are their counters. -/
structure mixnet.roundState where
  msgs : Option (List (List Byte))
  msgwg : Int
  shuffleWg : Int
deriving DecidableEq, Repr

/-- The part of the Go struct `server` that belongs to one hosted server id. -/
structure mixnet.server where
  last : Bool
  groupSize : Int
  verifier : mixnet.verifier
  states : List (Int × mixnet.roundState)
deriving DecidableEq, Repr

/-- The body of the loop of Go `(*server).NewRound` for the hosted id, given the scalar the
verifier draws and the first error of `mix.NewRound`, `mix.SetRoundKey` and
`mix.SetBlindKey`, if any. -/
def mixnet.server.NewRound (Pt : Type) [Curve Pt] (srv : mixnet.server) (round : Int) (z : Nat)
    (mixErr : Option Err) : Option (mixnet.server × Option Err) :=
  match srv.verifier.NewRound Pt round z with
  | (ver, some err) => some ({ srv with verifier := ver }, some err)
  | (ver, none) =>
    match mixErr with
    | some err => some ({ srv with verifier := ver }, some err)
    | none =>
      match wgAdd 0 1, wgAdd 0 (if srv.last then srv.groupSize - 1 else srv.groupSize - 2) with
      | some wg, some swg =>
        let state : mixnet.roundState := { msgs := none, msgwg := wg, shuffleWg := swg }
        some ({ srv with verifier := ver, states := mapSet srv.states round state }, none)
      | _, _ => none

/-- Go `(*server).EndRound` for the hosted id, given the error of `mix.EndRound`, if any. -/
def mixnet.server.EndRound (srv : mixnet.server) (round : Int) (mixErr : Option Err) :
    mixnet.server × Option Err :=
  ({ srv with states := mapDelete srv.states round }, mixErr)

/-- Go `(*server).VerifyProof` for the hosted id, given the error `mix.VerifyProof` returns
for the streamed keys and proof, if any, and the error of the call `submitVerified`, if it
is made and fails. A round without state is a nil dereference. -/
def mixnet.server.VerifyProof (srv : mixnet.server) (round : Int)
    (proofErr submitErr : Option Err) : Option (mixnet.server × Option Err) :=
  match proofErr with
  | some err => some (srv, some err)
  | none =>
    match srv.states.lookup round with
    | none => none
    | some state =>
      match wgAdd state.shuffleWg (-1) with
      | none => none
      | some c =>
        let state1 : mixnet.roundState := { state with shuffleWg := c }
        some ({ srv with states := mapSet srv.states round state1 }, submitErr)

/-- The branch of Go `(*server).shuffleAndSend` of the last server of a cascade, given the
list `mix.Mix` returned: it strips the first `POINT_SIZE` bytes of every message, stores the
list and releases `msgwg`. -/
def mixnet.server.storeShuffled (srv : mixnet.server) (round : Int)
    (shuffled : List (List Byte)) : Option mixnet.server :=
  match srv.states.lookup round with
  | none => none
  | some state =>
    if shuffled.any (fun m => decide (m.length < POINT_SIZE)) then none
    else
      match wgAdd state.msgwg (-1) with
      | none => none
      | some c =>
        let state1 : mixnet.roundState :=
          { state with msgs := some (shuffled.map (List.drop POINT_SIZE)), msgwg := c }
        some { srv with states := mapSet srv.states round state1 }

/-- Go `(*server).AddInnerCiphertexts` for the hosted id. -/
def mixnet.server.AddInnerCiphertexts (srv : mixnet.server) (round : Int)
    (inners : Option (List (List Byte))) : mixnet.server × Option Err :=
  let r := srv.verifier.AddInnerCiphertexts round inners
  ({ srv with verifier := r.1 }, r.2)

/-- Go `(*server).GetPrivateInnerKey` for the hosted id: the response `PrivateKey` and the
error. The handler waits on `state.shuffleWg` before it asks the verifier for the key. -/
def mixnet.server.GetPrivateInnerKey (srv : mixnet.server) (round : Int) :
    Option (Call (Option (List Byte) × Option Err)) :=
  match srv.states.lookup round with
  | none => none
  | some state =>
    if state.shuffleWg ≠ 0 then some Call.blocked
    else
      match srv.verifier.PrivateKey round with
      | (_, some err) => some (Call.returned (none, some err))
      | (some priv, none) => some (Call.returned (some (bytesBE priv), none))
      | (none, none) => none

/-- Go `(*server).Finalize` for the hosted id, given the keys the calls `GetPrivateInnerKey`
to the servers of the group returned. -/
def mixnet.server.Finalize (Pt : Type) [Curve Pt] (B : SecretBox) (srv : mixnet.server)
    (round : Int) (privateKeys : List (List Byte)) :
    Option (mixnet.server × Option (List (List Byte)) × Option Err) :=
  match srv.verifier.Finalize Pt B round privateKeys with
  | none => none
  | some r => some ({ srv with verifier := r.1 }, r.2)

/-- The requests that change the state of a hosted server id, each with the values the
missing objects return while it is served. The remaining handlers (`AddMessages`,
`GetMessages`, `StartRound`, `SubmitCiphertexts`, `ConfirmVerification`, `GetInnerKey`)
read this state or work on `mixes[id]` only. -/
inductive mixnet.Request where
  | newRound (round : Int) (z : Nat) (mixErr : Option Err)
  | endRound (round : Int) (mixErr : Option Err)
  | verifyProof (round : Int) (proofErr submitErr : Option Err)
  | storeShuffled (round : Int) (shuffled : List (List Byte))
  | addInnerCiphertexts (round : Int) (inners : Option (List (List Byte)))
  | finalize (round : Int) (privateKeys : List (List Byte))
deriving DecidableEq, Repr

/-- The state after one request has been served; `none` when serving it panics. -/
def mixnet.server.step (Pt : Type) [Curve Pt] (B : SecretBox) (srv : mixnet.server) :
    mixnet.Request → Option mixnet.server
  | .newRound round z mixErr => (srv.NewRound Pt round z mixErr).map Prod.fst
  | .endRound round mixErr => some (srv.EndRound round mixErr).1
  | .verifyProof round proofErr submitErr =>
    (srv.VerifyProof round proofErr submitErr).map Prod.fst
  | .storeShuffled round shuffled => srv.storeShuffled round shuffled
  | .addInnerCiphertexts round inners => some (srv.AddInnerCiphertexts round inners).1
  | .finalize round privateKeys => (srv.Finalize Pt B round privateKeys).map Prod.fst

/-- The state after a sequence of requests, served one after the other. -/
def mixnet.server.run (Pt : Type) [Curve Pt] (B : SecretBox) :
    mixnet.server → List mixnet.Request → Option mixnet.server
  | srv, [] => some srv
  | srv, req :: rest =>
    match srv.step Pt B req with
    | none => none
    | some srv1 => mixnet.server.run Pt B srv1 rest

/-- The number of requests `VerifyProof` for `round` in a sequence whose proof the mix
accepted. -/
def mixnet.accepted (round : Int) : List mixnet.Request → Nat
  | [] => 0
  | .verifyProof r none _ :: rest => (if r = round then 1 else 0) + mixnet.accepted round rest
  | _ :: rest => mixnet.accepted round rest

/-- A server id that is first in a cascade of three, before any round. -/
def demoMixServer : mixnet.server :=
  { last := false, groupSize := 3, verifier := mixnet.NewVerifier 0 3, states := [] }

/-- The demo server id after `NewRound` for round 1 with the inner key `5`. -/
def demoMixServer1 : mixnet.server :=
  ((demoMixServer.NewRound (ZMod 7) 1 5 none).getD (demoMixServer, none)).1

/-- The demo server id after it accepted one shuffle proof for round 1. -/
def demoMixServer2 : mixnet.server :=
  ((demoMixServer1.VerifyProof 1 none none).getD (demoMixServer1, none)).1

/-! ## `mailbox/mailbox.go` and `mailbox/client.go`

The message types are generated from the protocol description, which is not part of the
sources; they are the records below. A handler serves the requests of its stream one after
the other and takes the lock of the round state for each of them, so the requests of
concurrent streams interleave as whole requests. -/

/-- The message `Mail`. -/
structure Mail where
  UserKey : List Byte
  Message : List Byte
deriving DecidableEq, Repr

/-- The message `Inbox`. -/
structure Inbox where
  UserKey : List Byte
  Messages : List (List Byte)
deriving DecidableEq, Repr

/-- The message `RegisterUsersRequest`; `Round` and the entries of `Expected` are `uint64`. -/
structure RegisterUsersRequest where
  Round : Nat
  UserKeys : List (List Byte)
  Expected : List Nat
deriving DecidableEq, Repr

/-- The message `DeliverMailsRequest`. -/
structure DeliverMailsRequest where
  Round : Nat
  Mails : List Mail
deriving DecidableEq, Repr

/-- The message `GetMailsRequest`. -/
structure GetMailsRequest where
  Round : Nat
  UserKeys : List (List Byte)
deriving DecidableEq, Repr

/-- The message `GetMailsResponse`. -/
structure GetMailsResponse where
  Inboxes : List Inbox
deriving DecidableEq, Repr

/-- How a handler ends: it returns `nil`, it returns an error, or it waits for a lock or a
wait group that the state it runs in does not release. -/
inductive Exit where
  | ok
  | err (e : Err)
  | blocked
deriving DecidableEq, Repr

/-- The conversion `int(e)` of a `uint64`. -/
def toInt64 (e : Nat) : Int :=
  if e % 2 ^ 64 < 2 ^ 63 then ((e % 2 ^ 64 : Nat) : Int) else ((e % 2 ^ 64 : Nat) : Int) - 2 ^ 64

/-- The Go struct `roundState` of package `mailbox`: the wait groups are their counters, and
`locked` tells that a handler returned while it held `mu`. -/
structure mailbox.roundState where
  locked : Bool
  inboxes : List (List Byte × List (List Byte))
  inboxwgs : List (List Byte × Int)
deriving DecidableEq, Repr

/-- The Go struct `mailbox`. -/
structure mailbox where
  states : List (Nat × mailbox.roundState)
deriving DecidableEq, Repr

/-- Go `NewMailboxServer(coordinator)`. -/
def mailbox.NewMailboxServer : mailbox := { states := [] }

/-- Go `(*mailbox).NewRound`. -/
def mailbox.NewRound (mb : mailbox) (round : Nat) : mailbox :=
  let state : mailbox.roundState := { locked := false, inboxes := [], inboxwgs := [] }
  { states := mapSet mb.states round state }

/-- Go `(*mailbox).EndRound`. -/
def mailbox.EndRound (mb : mailbox) (round : Nat) : mailbox :=
  { states := mapDelete mb.states round }

/-- The loop `for i, key := range in.UserKeys` of `RegisterUsers`, from index `i` on;
`in.Expected[i]` panics when `Expected` is the shorter list. -/
def mailbox.registerLoop (expected : List Nat) :
    mailbox.roundState → List Byte → Nat → List (List Byte) → Option mailbox.roundState
  | state, _, _, [] => some state
  | state, tmpKey, i, key :: rest =>
    let tmpKey1 := writeAt tmpKey 0 key
    match expected[i]? with
    | none => none
    | some e =>
      match wgAdd 0 (toInt64 e) with
      | none => none
      | some wg =>
        let state1 : mailbox.roundState :=
          { state with
            inboxes := mapSet state.inboxes tmpKey1 []
            inboxwgs := mapSet state.inboxwgs tmpKey1 wg }
        mailbox.registerLoop expected state1 tmpKey1 (i + 1) rest

/-- The body of the loop of `RegisterUsers` for one request of the stream. -/
def mailbox.registerRequest (mb : mailbox) (req : RegisterUsersRequest) :
    Option (mailbox × Exit) :=
  match mb.states.lookup req.Round with
  | none => some (mb, Exit.err Err.roundNotInitialized)
  | some state =>
    if state.locked then some (mb, Exit.blocked)
    else
      match mailbox.registerLoop req.Expected state (zeroBytes 32) 0 req.UserKeys with
      | none => none
      | some state1 => some ({ states := mapSet mb.states req.Round state1 }, Exit.ok)

/-- Go `(*mailbox).RegisterUsers` on the requests of a stream. -/
def mailbox.RegisterUsers :
    mailbox → List RegisterUsersRequest → Option (mailbox × Exit)
  | mb, [] => some (mb, Exit.ok)
  | mb, req :: rest =>
    match mb.registerRequest req with
    | none => none
    | some (mb1, Exit.ok) => mailbox.RegisterUsers mb1 rest
    | some (mb1, exit) => some (mb1, exit)

/-- The loop `for _, mail := range req.Mails` of `DeliverMails`: the round state, the array
`tmpKey` and the error, if the loop returns one. The message is appended before the wait
group is released; releasing a wait group whose counter is zero panics. -/
def mailbox.deliverLoop :
    mailbox.roundState → List Byte → List Mail → Option (mailbox.roundState × List Byte × Option Err)
  | state, tmpKey, [] => some (state, tmpKey, none)
  | state, tmpKey, mail :: rest =>
    let tmpKey1 := writeAt tmpKey 0 mail.UserKey
    match state.inboxes.lookup tmpKey1 with
    | none => some (state, tmpKey1, some Err.userkeyNotRegistered)
    | some box =>
      match state.inboxwgs.lookup tmpKey1 with
      | none => none
      | some counter =>
        match wgAdd counter (-1) with
        | none => none
        | some counter1 =>
          let state1 : mailbox.roundState :=
            { state with
              inboxes := mapSet state.inboxes tmpKey1 (box ++ [mail.Message])
              inboxwgs := mapSet state.inboxwgs tmpKey1 counter1 }
          mailbox.deliverLoop state1 tmpKey1 rest

/-- The body of the loop of `DeliverMails` for one request of the stream; `tmpKey` is the
array of the handler, which lives as long as the stream. The return inside the loop over
the mails leaves `state.mu` locked. -/
def mailbox.deliverRequest (mb : mailbox) (tmpKey : List Byte)
    (req : DeliverMailsRequest) : Option (mailbox × List Byte × Exit) :=
  match mb.states.lookup req.Round with
  | none => some (mb, tmpKey, Exit.err Err.roundNotInitialized)
  | some state =>
    if state.locked then some (mb, tmpKey, Exit.blocked)
    else
      match mailbox.deliverLoop state tmpKey req.Mails with
      | none => none
      | some (state1, tmpKey1, some e) =>
        let state2 : mailbox.roundState := { state1 with locked := true }
        some ({ states := mapSet mb.states req.Round state2 }, tmpKey1, Exit.err e)
      | some (state1, tmpKey1, none) =>
        some ({ states := mapSet mb.states req.Round state1 }, tmpKey1, Exit.ok)

/-- The loop of `DeliverMails` over the requests of a stream. -/
def mailbox.deliverStream :
    mailbox → List Byte → List DeliverMailsRequest → Option (mailbox × Exit)
  | mb, _, [] => some (mb, Exit.ok)
  | mb, tmpKey, req :: rest =>
    match mb.deliverRequest tmpKey req with
    | none => none
    | some (mb1, tmpKey1, Exit.ok) => mailbox.deliverStream mb1 tmpKey1 rest
    | some (mb1, _, exit) => some (mb1, exit)

/-- Go `(*mailbox).DeliverMails` on the requests of a stream. -/
def mailbox.DeliverMails (mb : mailbox) (stream : List DeliverMailsRequest) :
    Option (mailbox × Exit) :=
  mb.deliverStream (zeroBytes 32) stream

/-- The first loop of `GetMails` over the keys of a request: it waits until every inbox is
complete. Returns the array `tmpKey` after the loop. -/
def mailbox.waitLoop (state : mailbox.roundState) :
    List Byte → List (List Byte) → List Byte × Exit
  | tmpKey, [] => (tmpKey, Exit.ok)
  | tmpKey, key :: rest =>
    let tmpKey1 := writeAt tmpKey 0 key
    if state.locked then (tmpKey1, Exit.blocked)
    else
      match state.inboxwgs.lookup tmpKey1 with
      | none => (tmpKey1, Exit.err Err.userkeyNotRegistered)
      | some counter =>
        if counter ≠ 0 then (tmpKey1, Exit.blocked)
        else mailbox.waitLoop state tmpKey1 rest

/-- The loop `for i, key := range in.UserKeys[span.Start:span.End]` of `GetMails`: the
inboxes of one response. A key without inbox reads the `nil` list. -/
def mailbox.inboxLoop (state : mailbox.roundState) :
    List Byte → List (List Byte) → List Inbox × List Byte × Exit
  | tmpKey, [] => ([], tmpKey, Exit.ok)
  | tmpKey, key :: rest =>
    let tmpKey1 := writeAt tmpKey 0 key
    if state.locked then ([], tmpKey1, Exit.blocked)
    else
      match state.inboxwgs.lookup tmpKey1 with
      | none => ([], tmpKey1, Exit.err Err.userkeyNotRegistered)
      | some counter =>
        if counter ≠ 0 then ([], tmpKey1, Exit.blocked)
        else
          let inbox : Inbox :=
            { UserKey := key, Messages := (state.inboxes.lookup tmpKey1).getD [] }
          let r := mailbox.inboxLoop state tmpKey1 rest
          (inbox :: r.1, r.2)

/-- The loop `for _, span := range spans` of `GetMails`: the responses sent. -/
def mailbox.spanLoop (state : mailbox.roundState) (keys : List (List Byte)) :
    List Byte → List Span → List GetMailsResponse × List Byte × Exit
  | tmpKey, [] => ([], tmpKey, Exit.ok)
  | tmpKey, span :: rest =>
    match mailbox.inboxLoop state tmpKey (span.slice keys) with
    | (inboxes, tmpKey1, Exit.ok) =>
      let r := mailbox.spanLoop state keys tmpKey1 rest
      ({ Inboxes := inboxes } :: r.1, r.2)
    | (_, tmpKey1, exit) => ([], tmpKey1, exit)

/-- The body of the loop of `GetMails` for one request, given the constant
`config.StreamSize`, which is not part of the sources: the responses sent and how the
handler goes on. `state.inboxes[tmpKey][0]` panics on an empty inbox, and `StreamSpan`
panics when it divides by zero. -/
def mailbox.getRequest (StreamSize : Nat) (mb : mailbox)
    (req : GetMailsRequest) : Option (List GetMailsResponse × Exit) :=
  match mb.states.lookup req.Round with
  | none => some ([], Exit.err Err.roundNotInitialized)
  | some state =>
    match mailbox.waitLoop state (zeroBytes 32) req.UserKeys with
    | (tmpKey, Exit.ok) =>
      if state.locked then some ([], Exit.blocked)
      else
        match (state.inboxes.lookup tmpKey).getD [] with
        | [] => none
        | first :: more =>
          let msgSize := (first :: more).length * first.length
          match StreamSpan req.UserKeys.length StreamSize msgSize with
          | none => none
          | some spans =>
            let r := mailbox.spanLoop state req.UserKeys tmpKey spans
            some (r.1, r.2.2)
    | (_, exit) => some ([], exit)

/-- Go `(*mailbox).GetMails` on the requests of a stream: all responses sent. -/
def mailbox.GetMails (StreamSize : Nat) (mb : mailbox) :
    List GetMailsRequest → Option (List GetMailsResponse × Exit)
  | [] => some ([], Exit.ok)
  | req :: rest =>
    match mb.getRequest StreamSize req with
    | none => none
    | some (resps, Exit.ok) =>
      match mailbox.GetMails StreamSize mb rest with
      | none => none
      | some (resps1, exit) => some (resps ++ resps1, exit)
    | some (resps, exit) => some (resps, exit)

/-- Go `MarshalMail(mail)`. -/
def MarshalMail (mail : Mail) : List Byte :=
  let b := zeroBytes (32 + mail.Message.length)
  let b1 := writeAt (b.take 32) 0 mail.UserKey ++ b.drop 32
  b1.take 32 ++ writeAt (b1.drop 32) 0 mail.Message

/-- Go `UnmarshalMail(b)`; the slice expressions panic on fewer than 32 bytes. -/
def UnmarshalMail (b : List Byte) : Option Mail :=
  if b.length < 32 then none else some { UserKey := b.take 32, Message := b.drop 32 }

/-- The requests that change the state of the mailbox; a request `DeliverMails` comes with
the contents of the array `tmpKey` of its stream. -/
inductive mailbox.Request where
  | newRound (round : Nat)
  | endRound (round : Nat)
  | registerUsers (req : RegisterUsersRequest)
  | deliverMails (tmpKey : List Byte) (req : DeliverMailsRequest)
deriving DecidableEq, Repr

/-- The state after one request has been served; `none` when serving it panics. -/
def mailbox.step (mb : mailbox) : mailbox.Request → Option mailbox
  | .newRound round => some (mb.NewRound round)
  | .endRound round => some (mb.EndRound round)
  | .registerUsers req => (mb.registerRequest req).map Prod.fst
  | .deliverMails tmpKey req => (mb.deliverRequest tmpKey req).map Prod.fst

/-- The state after a sequence of requests, served one after the other. -/
def mailbox.run : mailbox → List mailbox.Request → Option mailbox
  | mb, [] => some mb
  | mb, req :: rest =>
    match mb.step req with
    | none => none
    | some mb1 => mailbox.run mb1 rest

/-- The inbox of key `u` in round `round`, if the round exists and the key is registered. -/
def mailbox.inboxOf (mb : mailbox) (round : Nat) (u : List Byte) :
    Option (List (List Byte)) :=
  match mb.states.lookup round with
  | none => none
  | some state => state.inboxes.lookup u

/-- The counter of the wait group of key `u` in round `round`. -/
def mailbox.counterOf (mb : mailbox) (round : Nat) (u : List Byte) :
    Option Int :=
  match mb.states.lookup round with
  | none => none
  | some state => state.inboxwgs.lookup u

/-- Whether a request leaves the registration of key `u` in round `round` alone: it is not
`NewRound` or `EndRound` for the round, and it does not register `u` in the round again. -/
def mailbox.keeps (round : Nat) (u : List Byte) : mailbox.Request → Bool
  | .newRound r => r != round
  | .endRound r => r != round
  | .registerUsers req =>
    req.Round != round || req.UserKeys.all (fun key => key.length == 32 && key != u)
  | .deliverMails _ _ => true

/-- Two user keys. -/
def demoKey1 : List Byte := List.replicate 32 1

/-- The second user key. -/
def demoKey2 : List Byte := List.replicate 32 2

/-- The registration of the two demo keys in round 0, expecting two mails and one mail. -/
def demoRegister : RegisterUsersRequest :=
  { Round := 0, UserKeys := [demoKey1, demoKey2], Expected := [2, 1] }

/-- The mailbox after `NewRound` for round 0 and the demo registration. -/
def demoMailbox : mailbox :=
  (((mailbox.NewMailboxServer.NewRound 0).registerRequest demoRegister).getD
    (mailbox.NewMailboxServer, Exit.ok)).1

/-- Two delivery requests that bring the three mails the demo keys expect. -/
def demoDeliveries : List mailbox.Request :=
  [mailbox.Request.deliverMails (zeroBytes 32)
     { Round := 0, Mails := [{ UserKey := demoKey1, Message := [7] },
                             { UserKey := demoKey2, Message := [8] }] },
   mailbox.Request.deliverMails demoKey2
     { Round := 0, Mails := [{ UserKey := demoKey1, Message := [9] }] }]

/-- The mailbox after the demo deliveries. -/
def demoMailbox2 : mailbox := (demoMailbox.run demoDeliveries).getD mailbox.NewMailboxServer

/-! ## `client/client.go`

A `*config.Group` is a value of a type `G` with the field `Gid` given by a function `gid`.
`encryptFor publicKey group` stands for the body of the inner loops of `clientWorker` for one
user and one group (`SealMail`, `MarshalMail`, `GenerateRoundInput` of the envelope client of
the group and `P256OnionEncrypt` under the keys of the group): the ciphertext and the proof,
or `none` when a step panics. -/

/-- The Go struct `clientResult`. -/
structure clientResult where
  key : List Byte
  ciphertexts : List (List Byte)
  prfs : List (List Byte)
deriving DecidableEq, Repr

/-- The loop `for g, group := range myGroups` of `clientWorker` that fills `ciphertexts[g]`
and `prfs[g]`. -/
def encryptLoop {G : Type} (encryptFor : List Byte → G → Option (List Byte × List Byte))
    (publicKey : List Byte) : List G → Option (List (List Byte) × List (List Byte))
  | [] => some ([], [])
  | group :: rest =>
    match encryptFor publicKey group, encryptLoop encryptFor publicKey rest with
    | some c, some r => some (c.1 :: r.1, c.2 :: r.2)
    | _, _ => none

/-- One job of Go `clientWorker`: the result sent for the user `publicKey`. A key without
assignment reads the `nil` template. -/
def clientWorker {G : Type} (encryptFor : List Byte → G → Option (List Byte × List Byte))
    (assignments : List (List Byte × List G)) (publicKey : List Byte) : Option clientResult :=
  let myGroups := (assignments.lookup publicKey).getD []
  match encryptLoop encryptFor publicKey myGroups with
  | none => none
  | some r => some { key := publicKey, ciphertexts := r.1, prfs := r.2 }

/-- The loop `for c, ciphertext := range res.ciphertexts` of `generateExperimentMessages`,
from index `c` on: the maps `ciphertexts` and `prfs` after the loop. -/
def collectResult {G : Type} (gid : G → List Byte) (assignments : List (List Byte × List G))
    (res : clientResult) :
    Nat → List (List Byte) →
    List (List Byte × List (List Byte)) × List (List Byte × List (List Byte)) →
    Option (List (List Byte × List (List Byte)) × List (List Byte × List (List Byte)))
  | _, [], maps => some maps
  | c, ciphertext :: rest, maps =>
    match ((assignments.lookup res.key).getD [])[c]?, res.prfs[c]? with
    | some group, some prf =>
      collectResult gid assignments res (c + 1) rest
        (mapSet maps.1 (gid group) ((maps.1.lookup (gid group)).getD [] ++ [ciphertext]),
          mapSet maps.2 (gid group) ((maps.2.lookup (gid group)).getD [] ++ [prf]))
    | _, _ => none

/-- The loop `for range clt.publicKeys { res := <-results ... }` of
`generateExperimentMessages`; `order` lists the users in the order in which the results of
their jobs arrive. A panic in a worker ends the program. -/
def collectLoop {G : Type} (gid : G → List Byte)
    (encryptFor : List Byte → G → Option (List Byte × List Byte))
    (assignments : List (List Byte × List G)) :
    List (List Byte) →
    List (List Byte × List (List Byte)) × List (List Byte × List (List Byte)) →
    Option (List (List Byte × List (List Byte)) × List (List Byte × List (List Byte)))
  | [], maps => some maps
  | u :: rest, maps =>
    match clientWorker encryptFor assignments u with
    | none => none
    | some res =>
      match collectResult gid assignments res 0 res.ciphertexts maps with
      | none => none
      | some maps1 => collectLoop gid encryptFor assignments rest maps1

/-- Go `(*client).generateExperimentMessages`, once the inner keys have been fetched: the
maps `ciphertexts` and `prfs`, keyed by gid. -/
def generateExperimentMessages {G : Type} (gid : G → List Byte)
    (encryptFor : List Byte → G → Option (List Byte × List Byte))
    (assignments : List (List Byte × List G)) (order : List (List Byte)) :
    Option (List (List Byte × List (List Byte)) × List (List Byte × List (List Byte))) :=
  collectLoop gid encryptFor assignments order ([], [])

/-- The requests Go `(*client).RegisterUsers` streams to the mailbox of one span of users,
given the constant `config.StreamSize`: `expected[k]` is `len(clt.assignments[key])` for the
key at offset `k` of the span. -/
def registerSpan {G : Type} (StreamSize round : Nat) (assignments : List (List Byte × List G))
    (publicKeys : List (List Byte)) (span : Span) : Option (List RegisterUsersRequest) :=
  if publicKeys.length < span.End then none
  else
    let numKeys := span.End - span.Start
    let keys := span.slice publicKeys
    let expected := keys.map (fun key => ((assignments.lookup key).getD []).length)
    match StreamSpan numKeys StreamSize 32 with
    | none => none
    | some streamSpan =>
      some (streamSpan.map (fun sspan =>
        { Round := round, UserKeys := sspan.slice keys, Expected := sspan.slice expected }))

/-- The loop `for i := range spans` of `RegisterUsers`. -/
def registerSpans {G : Type} (StreamSize round : Nat) (assignments : List (List Byte × List G))
    (publicKeys : List (List Byte)) : List Span → Option (List RegisterUsersRequest)
  | [] => some []
  | span :: rest =>
    match registerSpan StreamSize round assignments publicKeys span,
      registerSpans StreamSize round assignments publicKeys rest with
    | some reqs, some more => some (reqs ++ more)
    | _, _ => none

/-- The loop `for _, k := range mlist` of `mapUsers`, from index `i` on: `spans[i]` panics
when there are fewer spans than mailboxes, and the slice expression
`clt.publicKeys[spans[i].Start:spans[i].End]` panics on a span that does not lie in the key
list. -/
def mapUsersLoop (publicKeys : List (List Byte)) (spans : List Span) :
    List (List Byte) → Nat → List (List Byte × List Byte) →
    Option (List (List Byte × List Byte))
  | [], _, mailboxMap => some mailboxMap
  | k :: rest, i, mailboxMap =>
    match spans[i]? with
    | none => none
    | some span =>
      if publicKeys.length < span.End ∨ span.End < span.Start then none
      else mapUsersLoop publicKeys spans rest (i + 1)
        ((span.slice publicKeys).foldl (fun m pub => mapSet m pub k) mailboxMap)

/-- Go `(*client).mapUsers()`: the map from the user keys to the ids of their mailboxes.
`mailboxes` lists the keys of the map `clt.mailboxes`, and `clt.n` is the number of keys
`setupRound` generated. -/
def client.mapUsers (publicKeys : List (List Byte)) (mailboxes : List (List Byte)) :
    Option (List (List Byte × List Byte)) :=
  match NSpans publicKeys.length mailboxes.length with
  | none => none
  | some spans => mapUsersLoop publicKeys spans (sortStrings mailboxes) 0 []

/-- The requests Go `(*client).RegisterUsers` sends to the mailboxes, after `setupRound` has
set up the keys and the assignments; `mailboxes` lists the keys of the map `clt.mailboxes`.
The call of `mapUsers` comes first, and a panic in it ends the handler before a request is
sent. The requests of span `i` go to the mailbox `mailboxMap[publicKeys[spans[i].Start]]`,
which `mapUsers` has set for every key of every span when it returns. -/
def client.RegisterUsers {G : Type} (StreamSize round : Nat)
    (assignments : List (List Byte × List G)) (publicKeys : List (List Byte))
    (mailboxes : List (List Byte)) : Option (List RegisterUsersRequest) :=
  match client.mapUsers publicKeys mailboxes with
  | none => none
  | some _ =>
    match NSpans publicKeys.length mailboxes.length with
    | none => none
    | some spans => registerSpans StreamSize round assignments publicKeys spans

/-- Three users with the templates of three groups `10`, `20` and `30`, two groups each. -/
def demoAssignments : List (List Byte × List Nat) :=
  [([1], [10, 20]), ([2], [20, 30]), ([3], [10, 30])]

/-- A stand-in for the encryption of a user's mail for a group. -/
def demoEncryptFor (u : List Byte) (g : Nat) : Option (List Byte × List Byte) :=
  some (u ++ bytesBE g, bytesBE g)

/-! ## The calls of a verifier -/

/-- The methods of the interface `Verifier` that change a verifier, with their arguments;
`newRound` carries the scalar that `GenerateInnerKey` draws. -/
inductive mixnet.verifierCall where
  | newRound (round : Int) (z : Nat)
  | endRound (round : Int)
  | setPublicKey (round : Int) (x y : Nat)
  | addInnerCiphertexts (round : Int) (inners : Option (List (List Byte)))
  | finalize (round : Int) (privateKeys : List (List Byte))
deriving DecidableEq, Repr

/-- One call on a verifier: the verifier after the call and the error returned; `none` is a
panic. -/
def mixnet.verifier.call (Pt : Type) [Curve Pt] (B : SecretBox) (ver : mixnet.verifier) :
    mixnet.verifierCall → Option (mixnet.verifier × Option Err)
  | .newRound round z => some (ver.NewRound Pt round z)
  | .endRound round => some (ver.EndRound round)
  | .setPublicKey round x y => some (ver.SetPublicKey round x y)
  | .addInnerCiphertexts round inners => some (ver.AddInnerCiphertexts round inners)
  | .finalize round privateKeys =>
    (ver.Finalize Pt B round privateKeys).map (fun r => (r.1, r.2.2))

/-- A sequence of calls on a verifier, one after the other. -/
def mixnet.verifier.calls (Pt : Type) [Curve Pt] (B : SecretBox) :
    mixnet.verifier → List mixnet.verifierCall → Option mixnet.verifier
  | ver, [] => some ver
  | ver, c :: rest =>
    match ver.call Pt B c with
    | none => none
    | some (ver1, _) => mixnet.verifier.calls Pt B ver1 rest

/-- Whether the call is a `Finalize` of `round`. -/
def mixnet.verifierCall.finalizes (round : Int) : mixnet.verifierCall → Bool
  | .finalize r _ => decide (r = round)
  | _ => false

/-- Whether one of the calls of the sequence is a `Finalize` of `round` that returned no
error. -/
def mixnet.verifier.finalized (Pt : Type) [Curve Pt] (B : SecretBox) (round : Int) :
    mixnet.verifier → List mixnet.verifierCall → Bool
  | _, [] => false
  | ver, c :: rest =>
    match ver.call Pt B c with
    | none => false
    | some (ver1, err) =>
      (c.finalizes round && err.isNone) || mixnet.verifier.finalized Pt B round ver1 rest

/-- The demo verifier of round 1 after `AddInnerCiphertexts(1, a)` and
`AddInnerCiphertexts(1, b)`. -/
def demoVerifierTwice (a b : List (List Byte)) : mixnet.verifier :=
  ((demoVerifier a).AddInnerCiphertexts 1 (some b)).1

/-- The calls of the demo round 1: start, buffer, finalize. -/
def demoCalls : List mixnet.verifierCall :=
  [.newRound 1 2, .addInnerCiphertexts 1 (some demoInner), .finalize 1 ([2, 3].map bytesBE)]

/-- The demo verifier after the calls of the demo round. -/
def demoVerifierDone : mixnet.verifier :=
  (mixnet.verifier.calls (ZMod 7) demoBox (mixnet.NewVerifier 0 2) demoCalls).getD
    (mixnet.NewVerifier 0 2)

/-! ## The input of the challenge of `PoKLog` -/

/-- The bytes `PoKLog` and `VerifyPoKLog` write to `buf` and hash: `x.Bytes()`, `y.Bytes()`
and `prf[:64]`. -/
def challengeInput (x y : Nat) (prf : List Byte) : List Byte :=
  bytesBE x ++ bytesBE y ++ prf.take 64

/-- The input of the challenge in the words of the specification: the 64-byte serialization
of `X`, each coordinate left-padded with zeros to 32 bytes, followed by the 64-byte
serialization of `R`. -/
def paddedChallengeInput (x y : Nat) (prf : List Byte) : List Byte :=
  encodePoint (x, y) ++ prf.take 64

/-- A stand-in for the library primitives whose hash tells the length of its input. -/
def lengthPrimitives : Primitives where
  hkdf secret salt i := checksum secret + 3 * checksum salt + Fin.ofNat i
  ctr key iv i := checksum key + checksum iv + Fin.ofNat (5 * i)
  hmac key data := List.replicate 31 0 ++ [checksum (key ++ 255 :: data)]
  sha256 data := List.replicate 31 0 ++ [Fin.ofNat data.length]
  hmac_length := by intros; simp
  sha256_length := by intros; simp

/-! ## `verifiable_mixnet.Nonce` -/

/-- Go `Nonce(round, row, index)` of package `verifiable_mixnet`: three calls of
`binary.PutUvarint`, on `nonce[:8]`, `nonce[8:16]` and `nonce[16:]` of a zeroed array of 24
bytes; a call that writes past its slice panics. -/
def Nonce (round row index : Int) : Option (List Byte) :=
  let nonce := zeroBytes NONCE_SIZE
  match PutUvarint (nonce.take 8) (toUint64 round) with
  | none => none
  | some f0 =>
    let nonce1 := f0 ++ nonce.drop 8
    match PutUvarint ((nonce1.drop 8).take 8) (toUint64 row) with
    | none => none
    | some f1 =>
      let nonce2 := nonce1.take 8 ++ f1 ++ nonce1.drop 16
      match PutUvarint (nonce2.drop 16) (toUint64 index) with
      | none => none
      | some f2 => some (nonce2.take 16 ++ f2)

/-- The value `binary.Uvarint` reads from the start of a buffer: seven bits from each byte,
up to and including the first byte below 128. -/
def Uvarint : List Byte → Nat
  | [] => 0
  | b :: rest => if b.val < 128 then b.val else (b.val - 128) + 128 * Uvarint rest

/-- The all-zero key registered in round 1 with one expected mail, and that mail
delivered. -/
def demoZeroKeyMailbox : mailbox :=
  ((mailbox.NewMailboxServer.NewRound 1).run
    [mailbox.Request.registerUsers (RegisterUsersRequest.mk 1 [zeroBytes 32] [1]),
     mailbox.Request.deliverMails (zeroBytes 32)
       (DeliverMailsRequest.mk 1 [Mail.mk (zeroBytes 32) [9]])]).getD mailbox.NewMailboxServer

/-- Round 1 with the first demo key expecting one mail, which is delivered, and the second
demo key expecting none. -/
def demoEmptyLastMailbox : mailbox :=
  ((mailbox.NewMailboxServer.NewRound 1).run
    [mailbox.Request.registerUsers (RegisterUsersRequest.mk 1 [demoKey1, demoKey2] [1, 0]),
     mailbox.Request.deliverMails (zeroBytes 32)
       (DeliverMailsRequest.mk 1 [Mail.mk demoKey1 [9]])]).getD mailbox.NewMailboxServer

/-- The state of round 1 in `demoEmptyLastMailbox`. -/
def demoEmptyLastState : mailbox.roundState :=
  (demoEmptyLastMailbox.states.lookup 1).getD (mailbox.roundState.mk false [] [])

/-! ## `client/lp.go`

The solver `lpsimplex.LPSimplex` belongs to a library; it is a parameter. The entries of the
vectors and matrices built for it are the `float64` values 0, 1 and -1, modelled as
integers. -/

/-- The arguments `findOptimalAssignment` builds for `lpsimplex.LPSimplex`, under the names of
its variables. -/
structure LPArguments where
  maximize : List Int
  Aub : List (List Int)
  bub : List Int
  Aeq : List (List Int)
  beq : List Int
deriving DecidableEq, Repr

/-- The part of Go `findOptimalAssignment(groups, assignments)` before the call of the solver.
The map `groups` is the list of its entries, a `*Group` is an `Option α` with `none` for
`nil`, and `assignments[i][k] == cur` compares pointers. -/
def lpArguments {α : Type} [DecidableEq α] (groups : List (List Byte × α))
    (assignments : List (List (Option α))) : LPArguments :=
  let l := assignments.length
  let n := groups.length
  let glist := sortStrings (groups.map Prod.fst)
  let maximize := (List.range (l + 1)).map (fun i => if i = 0 then (1 : Int) else 0)
  let xjs := glist.map (fun gid =>
    let cur := groups.lookup gid
    assignments.map (fun t => if cur ∈ t then (1 : Int) else 0))
  let Aub := (List.range n).map (fun j =>
    (-1 : Int) :: (List.range l).map (fun i => (xjs.getD j []).getD i 0))
  let bub := (List.range n).map (fun _ => (0 : Int))
  let Aeq := [(0 : Int) :: (List.range l).map (fun _ => (1 : Int))]
  let beq := [(1 : Int)]
  { maximize := maximize, Aub := Aub, bub := bub, Aeq := Aeq, beq := beq }

/-- Go `findOptimalAssignment(groups, assignments)`, given the solver as the map from its
arguments to `result.X`; the results are `float64` values, modelled as rationals. Reading
`result.X[0]` of an empty result panics. -/
def findOptimalAssignment {α : Type} [DecidableEq α] (LPSimplex : LPArguments → List ℚ)
    (groups : List (List Byte × α)) (assignments : List (List (Option α))) :
    Option (List ℚ × ℚ) :=
  match LPSimplex (lpArguments groups assignments) with
  | [] => none
  | m :: xs => some (xs, m)

/-- The product of a row of coefficients with a point. -/
def rowValue (row : List Int) (x : List ℚ) : ℚ :=
  (List.zipWith (fun a v => (a : ℚ) * v) row x).sum

/-- The problem form of `lpsimplex.LPSimplex(c, Aub, bub, Aeq, beq, ...)`: the inequality rows
are upper bounds, `Aub·x ≤ bub`. -/
def LPArguments.upperBoundsHold (p : LPArguments) (x : List ℚ) : Prop :=
  List.Forall₂ (fun (row : List Int) (b : Int) => rowValue row x ≤ (b : ℚ)) p.Aub p.bub

/-- The problem form of `lpsimplex.LPSimplex`: the equality rows, `Aeq·x = beq`. -/
def LPArguments.equalitiesHold (p : LPArguments) (x : List ℚ) : Prop :=
  List.Forall₂ (fun (row : List Int) (b : Int) => rowValue row x = (b : ℚ)) p.Aeq p.beq

/-- The problem form of `lpsimplex.LPSimplex`: the value `c·x` that the solver minimises. -/
def LPArguments.cost (p : LPArguments) (x : List ℚ) : ℚ := rowValue p.maximize x

/-- The load of group `g` under the fractions `x`: the sum of `x_a` over the templates `T_a`
that hold `g`. -/
def groupLoad {α : Type} [DecidableEq α] (g : Option α) (assignments : List (List (Option α)))
    (x : List ℚ) : ℚ :=
  (List.zipWith (fun t v => if g ∈ t then v else 0) assignments x).sum

/-- The templates of the demo groups. -/
def demoTemplates : List (List (Option Nat)) := (Assignments demoGroups).getD []

/-! ## The partition of the users in `setupRound` -/

/-- The exact value of `math.Ceil(d * float64(n))`; the `float64` evaluation returns it up to
the rounding of the product. -/
def exactCeilMul (d : ℚ) (n : Nat) : Int := ⌈d * (n : ℚ)⌉

/-- The loop `for a := range tmpAssign` of `setupRound`, from template index `a` on; `e` is the
variable `end`, `n` the number of users and `len` the number of templates. The `float64`
arithmetic is a parameter: `ceilMul d n` is the value of `int(math.Ceil(d * float64(n)))`.
`division[a]` panics past the end of `division`, and the slice expression `pubs[start:end]`
panics unless `0 ≤ start ≤ end ≤ len(pubs)`. -/
def partitionLoop {G : Type} (ceilMul : ℚ → Nat → Int) (pubs : List (List Byte)) (n : Nat)
    (division : List ℚ) (len : Nat) :
    List (List G) → Nat → Int → List (List Byte × List G) → Option (List (List Byte × List G))
  | [], _, _, assignments => some assignments
  | t :: rest, a, e, assignments =>
    match division[a]? with
    | none => none
    | some d =>
      let start := e
      let offset : Int := ceilMul d n
      let end1 : Int := if start + offset > (n : Int) ∨ a = len - 1 then (n : Int)
        else start + offset
      if 0 ≤ start ∧ start ≤ end1 ∧ end1 ≤ (pubs.length : Int) then
        let users := (pubs.drop start.toNat).take (end1.toNat - start.toNat)
        partitionLoop ceilMul pubs n division len rest (a + 1) end1
          (users.foldl (fun m pub => mapSet m pub t) assignments)
      else none

/-- The map `assignments` that Go `setupRound(round, n)` builds for the `n` keys `pubs` it
generated, given the templates `tmpAssign` and the fractions `division` the solver
returned. -/
def setupRoundAssignments {G : Type} (ceilMul : ℚ → Nat → Int) (pubs : List (List Byte))
    (tmpAssign : List (List G)) (division : List ℚ) : Option (List (List Byte × List G)) :=
  partitionLoop ceilMul pubs pubs.length division tmpAssign.length tmpAssign 0 0 []

/-- Five user keys. -/
def demoPubs : List (List Byte) :=
  [List.replicate 32 1, List.replicate 32 2, List.replicate 32 3, List.replicate 32 4,
   List.replicate 32 5]

/-! # Theorems -/

/-! ### Shuffle only permutes -/

theorem randInt_lt {rand : List Byte} {m j : Nat} {rest : List Byte} (hm : 0 < m)
    (h : randInt rand m = some (j, rest)) : j < m ∧ rest.length + 4 = rand.length := by
  unfold randInt at h
  split at h
  · simp only [Option.some.injEq, Prod.mk.injEq] at h
    obtain ⟨rfl, rfl⟩ := h
    exact ⟨Nat.mod_lt _ hm, by simp⟩
  · simp at h

theorem randInt_isSome {rand : List Byte} (m : Nat) (h : 4 ≤ rand.length) :
    ∃ j rest, randInt rand m = some (j, rest) := by
  match rand, h with
  | b0 :: b1 :: b2 :: b3 :: rest, _ => exact ⟨_, _, rfl⟩

theorem swapAt_perm {arr : List Nat} {i j : Nat} (hi : i < arr.length) (hj : j < arr.length) :
    ∃ arr1, swapAt arr i j = some arr1 ∧ arr1.Perm arr := by
  refine ⟨(arr.set i arr[j]).set j arr[i], ?_, ?_⟩
  · simp [swapAt, List.getElem?_eq_getElem hi, List.getElem?_eq_getElem hj]
  · rw [List.perm_iff_count]
    intro a
    rw [List.count_set _ _ _ _ (by simpa using hj), List.count_set _ _ _ _ hi]
    have h1 : arr[i] = a → 0 < List.count a arr := fun h =>
      h ▸ List.count_pos_iff.mpr (List.getElem_mem _)
    have h2 : arr[j] = a → 0 < List.count a arr := fun h =>
      h ▸ List.count_pos_iff.mpr (List.getElem_mem _)
    simp only [List.getElem_set, beq_iff_eq]
    by_cases hij : i = j
    · subst hij
      by_cases ha : arr[i] = a
      · have := h1 ha
        simp only [ha, if_true]
        omega
      · simp [ha]
    · by_cases ha : arr[i] = a <;> by_cases hb : arr[j] = a
      · have := h1 ha
        simp only [hij, ha, hb, if_true, if_false]
        omega
      · have := h1 ha
        simp only [hij, ha, hb, if_true, if_false]
        omega
      · have := h2 hb
        simp only [hij, ha, hb, if_true, if_false]
        omega
      · simp only [hij, ha, hb, if_true, if_false]
        omega

theorem permutationLoop_perm (k : Nat) : ∀ (arr : List Nat) (rand : List Byte),
    k ≤ arr.length → 4 * k ≤ rand.length →
    ∃ p rest, permutationLoop k arr rand = some (p, rest) ∧ p.Perm arr ∧
      rest.length + 4 * k = rand.length := by
  induction k with
  | zero => intro arr rand _ _; exact ⟨arr, rand, rfl, List.Perm.refl _, by simp⟩
  | succ i ih =>
    intro arr rand hk hr
    obtain ⟨j, rand1, hj⟩ := randInt_isSome (i + 1) (show 4 ≤ rand.length by omega)
    obtain ⟨hjlt, hlen⟩ := randInt_lt (Nat.succ_pos i) hj
    obtain ⟨arr1, hs, hp⟩ := swapAt_perm (show i < arr.length by omega)
      (show j < arr.length by omega)
    obtain ⟨p, rest, hloop, hperm, hrest⟩ := ih arr1 rand1 (by rw [hp.length_eq]; omega)
      (by omega)
    refine ⟨p, rest, ?_, hperm.trans hp, by omega⟩
    simp [permutationLoop, hj, hs, hloop]

theorem shuffleLoop_spec (orig : List (List Byte)) (p : List Nat)
    (hp : ∀ m, m < orig.length → ∃ q, p[m]? = some q ∧ q < orig.length) (k : Nat) :
    ∀ (i : Nat) (inp : List (List Byte)), i + k = orig.length → inp.length = orig.length →
    ∃ out, shuffleLoop orig p k i inp = some out ∧ out.length = orig.length ∧
      (∀ m, m < i → out[m]? = inp[m]?) ∧
      (∀ m, i ≤ m → m < orig.length → out[m]? = (p[m]?).bind (fun q => orig[q]?)) := by
  induction k with
  | zero =>
    intro i inp hik hlen
    exact ⟨inp, rfl, hlen, fun _ _ => rfl, fun m h1 h2 => by omega⟩
  | succ k ih =>
    intro i inp hik hlen
    obtain ⟨q, hq, hqlt⟩ := hp i (by omega)
    obtain ⟨out, hout, hl, hlo, hhi⟩ := ih (i + 1) (inp.set i orig[q]) (by omega)
      (by simpa using hlen)
    refine ⟨out, ?_, hl, ?_, ?_⟩
    · simp [shuffleLoop, hq, List.getElem?_eq_getElem hqlt, hout]
    · intro m hm
      rw [hlo m (by omega), List.getElem?_set]
      simp [show i ≠ m by omega]
    · intro m h1 h2
      by_cases hmi : m = i
      · subst hmi
        rw [hlo m (by omega), List.getElem?_set]
        simp [hq, List.getElem?_eq_getElem hqlt, hlen, h2]
      · exact hhi m (by omega) h2

theorem shuffleLoop_perm (orig : List (List Byte)) (p : List Nat)
    (hp : p.Perm (List.range orig.length)) :
    ∃ out, shuffleLoop orig p orig.length 0 orig = some out ∧ out.length = orig.length ∧
      out.Perm orig := by
  have hplen : p.length = orig.length := by simpa using hp.length_eq
  have hmem : ∀ m, m < orig.length → ∃ q, p[m]? = some q ∧ q < orig.length := by
    intro m hm
    have hm2 : m < p.length := by omega
    refine ⟨p[m], List.getElem?_eq_getElem hm2, ?_⟩
    have : p[m] ∈ List.range orig.length := hp.subset (List.getElem_mem _)
    simpa using this
  obtain ⟨out, hout, hl, -, hhi⟩ := shuffleLoop_spec orig p hmem orig.length 0 orig
    (by simp) rfl
  refine ⟨out, hout, hl, ?_⟩
  have h1 : out = p.map (fun q => orig.getD q []) := by
    apply List.ext_getElem?
    intro m
    by_cases hm : m < orig.length
    · obtain ⟨q, hq, hqlt⟩ := hmem m hm
      rw [hhi m (Nat.zero_le _) hm, List.getElem?_map, hq]
      simp [List.getD_eq_getElem?_getD, List.getElem?_eq_getElem hqlt]
    · rw [List.getElem?_eq_none (by omega), List.getElem?_eq_none (by simp; omega)]
  have h2 : orig = (List.range orig.length).map (fun q => orig.getD q []) := by
    apply List.ext_getElem?
    intro m
    by_cases hm : m < orig.length
    · simp [List.getElem?_map, List.getElem?_range hm, List.getD_eq_getElem?_getD,
        List.getElem?_eq_getElem hm]
    · rw [List.getElem?_eq_none (by omega), List.getElem?_eq_none (by simp; omega)]
  rw [h1]
  exact (hp.map _).trans (List.Perm.of_eq h2.symm)

/-- Claim C2. On a fresh `Shuffler` whose entropy reader can deliver four bytes for each of
the `len(in)` draws, `Shuffle(in)` does not panic and leaves in `in` an array of the same
length holding the same multiset of records; `permutation(n)` returns a list holding each of
`0..n-1` exactly once; and every index drawn by `randInt(i+1)` is at most `i`. -/
theorem Shuffle_permutes (inp : List (List Byte)) (rand : List Byte)
    (hrand : 4 * inp.length ≤ rand.length) :
    (∃ sr out, (NewShuffler rand).Shuffle inp = some (sr, out) ∧
        out.length = inp.length ∧ out.Perm inp) ∧
    (∃ p rest, permutation rand inp.length = some (p, rest) ∧
        p.Perm (List.range inp.length) ∧ p.Nodup ∧
        ∀ v, v ∈ p ↔ v < inp.length) ∧
    (∀ (r : List Byte) (i j : Nat) (rest : List Byte),
        randInt r (i + 1) = some (j, rest) → j ≤ i) := by
  obtain ⟨p, rest, hperm, hp, -⟩ := permutationLoop_perm inp.length (List.range inp.length)
    rand (by simp) hrand
  refine ⟨?_, ⟨p, rest, hperm, hp, ?_, ?_⟩, ?_⟩
  · obtain ⟨out, hout, hl, hpo⟩ := shuffleLoop_perm inp p hp
    refine ⟨{ perm := some p, rand := rest }, out, ?_, hl, hpo⟩
    simp only [Shuffler.Shuffle, NewShuffler]
    have hperm2 : permutation rand inp.length = some (p, rest) := hperm
    simp [hperm2, hout]
  · exact hp.nodup_iff.mpr (List.nodup_range _)
  · intro v
    rw [hp.mem_iff]
    simp
  · intro r i j rest h
    have := (randInt_lt (Nat.succ_pos i) h).1
    omega

/-- Witness for C2: three records shuffled with twelve bytes of entropy. -/
theorem Shuffle_permutes_witness :
    4 * [[(1 : Byte)], [2], [3]].length ≤ [(0 : Byte), 0, 0, 1, 0, 0, 0, 0, 0, 0, 0, 5].length ∧
    (∃ sr out, (NewShuffler [0, 0, 0, 1, 0, 0, 0, 0, 0, 0, 0, 5]).Shuffle [[1], [2], [3]]
        = some (sr, out) ∧ out.length = 3 ∧ out.Perm [[1], [2], [3]]) :=
  ⟨by decide,
    (Shuffle_permutes [[1], [2], [3]] [0, 0, 0, 1, 0, 0, 0, 0, 0, 0, 0, 5] (by decide)).1⟩

/-! ### Byte-string lemmas -/

theorem byte_xor_xor (a b : Byte) : (a ^^^ b) ^^^ b = a := by
  apply Fin.ext
  have ha : a.val < 2 ^ 8 := a.isLt
  have hb : b.val < 2 ^ 8 := b.isLt
  have h : a.val ^^^ b.val < 256 := Nat.xor_lt_two_pow ha hb
  have e1 : (a ^^^ b).val = a.val ^^^ b.val := by
    show (a.val ^^^ b.val) % 256 = _
    exact Nat.mod_eq_of_lt h
  have e2 : ((a ^^^ b) ^^^ b).val = ((a ^^^ b).val ^^^ b.val) % 256 := rfl
  rw [e2, e1, Nat.xor_assoc, Nat.xor_self, Nat.xor_zero]
  exact Nat.mod_eq_of_lt a.isLt

theorem writeAt_length (dst : List Byte) (pos : Nat) (src : List Byte) :
    (writeAt dst pos src).length = dst.length := by
  simp only [writeAt, List.length_append, List.length_take, List.length_drop]
  omega

theorem writeAt_append (a b c src : List Byte) (h : src.length = b.length) :
    writeAt (a ++ b ++ c) a.length src = a ++ src ++ c := by
  simp only [writeAt]
  congr 1
  · congr 1
    · simp
    · simp only [List.length_append]
      apply List.take_of_length_le
      omega
  · rw [h, List.append_assoc, ← List.length_append, ← List.append_assoc, List.drop_left]

theorem writeAt_append_nil (a b src : List Byte) (h : src.length = b.length) :
    writeAt (a ++ b) a.length src = a ++ src := by
  simpa using writeAt_append a b [] src h

theorem xorKeyStream_length (ks : Nat → Byte) (src : List Byte) :
    (xorKeyStream ks src).length = src.length := by
  simp [xorKeyStream]

theorem xorKeyStream_involutive (ks : Nat → Byte) (src : List Byte) :
    xorKeyStream ks (xorKeyStream ks src) = src := by
  apply List.ext_getElem
  · simp [xorKeyStream_length]
  · intro i h1 h2
    simp only [xorKeyStream, List.getElem_zipWith, List.getElem_map, List.getElem_range,
      List.length_zipWith, List.length_map, List.length_range]
    exact byte_xor_xor _ _

/-! ### The seal -/

theorem sealBody_length (P : Primitives) (message nonce key : List Byte) :
    (sealBody P message nonce key).length = message.length := by
  simp [sealBody, xorKeyStream_length]

theorem sealTag_length (P : Primitives) (nonce key : List Byte) :
    (sealTag P nonce key).length = 32 := by
  simp [sealTag, P.hmac_length]

theorem sealBody_sealBody (P : Primitives) (message nonce key : List Byte) :
    sealBody P (sealBody P message nonce key) nonce key = message := by
  simp [sealBody, xorKeyStream_involutive]

/-- Go `SecretSeal` into a slice with room: `out` shows `shown` inside
`pre ++ shown ++ hole ++ post` and `hole` has the size of the sealed box. The box is
written over `hole`. -/
theorem SecretSeal_in_place (P : Primitives) (pre shown hole post message nonce key : List Byte)
    (hhole : hole.length = message.length + Overhead) :
    SecretSeal P { arr := pre ++ shown ++ hole ++ post, off := pre.length, len := shown.length }
        message nonce key =
      ({ arr := pre ++ shown ++ (sealBody P message nonce key ++ sealTag P nonce key) ++ post,
         off := pre.length, len := shown.length + (message.length + Overhead) },
       pre ++ shown ++ (sealBody P message nonce key ++ sealTag P nonce key) ++ post) := by
  have hcap : (Slice.mk (pre ++ shown ++ hole ++ post) pre.length shown.length).cap ≥
      shown.length + (message.length + Overhead) := by
    simp only [Slice.cap, List.length_append]
    omega
  have hb := sealBody_length P message nonce key
  have ht := sealTag_length P nonce key
  have hO : Overhead = 32 := rfl
  obtain ⟨h1, h2, hh⟩ : ∃ h1 h2 : List Byte, hole = h1 ++ h2 ∧ h1.length = message.length ∧
      h2.length = 32 := by
    refine ⟨hole.take message.length, hole.drop message.length,
      (List.take_append_drop _ _).symm, ?_, ?_⟩
    · simp; omega
    · simp; omega
  obtain ⟨rfl, hl1, hl2⟩ := hh
  have w1 : writeAt (pre ++ shown ++ (h1 ++ h2) ++ post) (pre.length + shown.length)
      (sealBody P message nonce key) =
      pre ++ shown ++ (sealBody P message nonce key ++ h2) ++ post := by
    have := writeAt_append (pre ++ shown) h1 (h2 ++ post) (sealBody P message nonce key)
      (by omega)
    simpa [List.append_assoc] using this
  have w2 : writeAt (pre ++ shown ++ (sealBody P message nonce key ++ h2) ++ post)
      (pre.length + shown.length + message.length) (sealTag P nonce key) =
      pre ++ shown ++ (sealBody P message nonce key ++ sealTag P nonce key) ++ post := by
    have := writeAt_append (pre ++ shown ++ sealBody P message nonce key) h2 post
      (sealTag P nonce key) (by omega)
    simpa [List.append_assoc, hb, Nat.add_assoc] using this
  have hm : (pre ++ shown ++ (sealBody P message nonce key ++ h2) ++ post).length -
      (pre.length + shown.length) ≥ message.length + Overhead := by
    simp only [List.length_append]
    omega
  simp only [SecretSeal, sliceForAppend, if_pos hcap, macSumInto]
  rw [show xorKeyStream (P.ctr (deriveKeys P nonce key).1 (List.take aesBlockSize nonce)) message
      = sealBody P message nonce key from rfl, w1, if_pos hm,
    show P.hmac (deriveKeys P nonce key).2 [] = sealTag P nonce key from rfl, w2]

theorem zeroBytes_length (n : Nat) : (zeroBytes n).length = n := by
  simp [zeroBytes]

theorem zeroBytes_add (m n : Nat) : zeroBytes (m + n) = zeroBytes m ++ zeroBytes n := by
  unfold zeroBytes
  exact List.replicate_add m n 0

theorem Slice_bytes_mk (pre shown post : List Byte) :
    (Slice.mk (pre ++ shown ++ post) pre.length shown.length).bytes = shown := by
  simp [Slice.bytes, List.append_assoc]

/-- The bytes of the slice `sliceForAppend` returns, once its last `n` bytes have been
overwritten by `data`: the old contents followed by `data`, in place or not. -/
theorem sliceForAppend_write (pre shown post data : List Byte) :
    (Slice.mk (writeAt (sliceForAppend (Slice.mk (pre ++ shown ++ post) pre.length
        shown.length) data.length).arr
      ((sliceForAppend (Slice.mk (pre ++ shown ++ post) pre.length shown.length)
        data.length).off + shown.length) data)
      (sliceForAppend (Slice.mk (pre ++ shown ++ post) pre.length shown.length)
        data.length).off
      (sliceForAppend (Slice.mk (pre ++ shown ++ post) pre.length shown.length)
        data.length).len).bytes = shown ++ data := by
  by_cases hcap : (Slice.mk (pre ++ shown ++ post) pre.length shown.length).cap ≥
      shown.length + data.length
  · have hpost : data.length ≤ post.length := by
      simp only [Slice.cap, List.length_append] at hcap
      omega
    obtain ⟨h1, h2, rfl, hl1⟩ : ∃ h1 h2 : List Byte, post = h1 ++ h2 ∧
        h1.length = data.length :=
      ⟨post.take data.length, post.drop data.length, (List.take_append_drop _ _).symm,
        by simp; omega⟩
    simp only [sliceForAppend, if_pos hcap]
    have := writeAt_append (pre ++ shown) h1 h2 data hl1.symm
    simp only [List.length_append, List.append_assoc] at this
    simp only [List.append_assoc, this]
    have e := Slice_bytes_mk pre (shown ++ data) h2
    simpa [List.append_assoc] using e
  · simp only [sliceForAppend, if_neg hcap, Slice_bytes_mk]
    have e1 : writeAt (zeroBytes (shown.length + data.length)) 0 shown =
        shown ++ zeroBytes data.length := by
      have := writeAt_append [] (zeroBytes shown.length) (zeroBytes data.length) shown
        (by simp [zeroBytes_length])
      simpa [zeroBytes_add] using this
    rw [e1]
    have e2 := writeAt_append_nil shown (zeroBytes data.length) data
      (by simp [zeroBytes_length])
    simp only [Nat.zero_add, e2]
    have e := Slice_bytes_mk [] (shown ++ data) []
    simpa using e

/-- Go `SecretSeal(nil, message, nonce, key)` returns cipher text followed by tag. -/
theorem SecretSeal_nil_bytes (P : Primitives) (message nonce key : List Byte) :
    (SecretSeal P Slice.nil message nonce key).1.bytes =
      sealBody P message nonce key ++ sealTag P nonce key := by
  have hb := sealBody_length P message nonce key
  have ht := sealTag_length P nonce key
  have hO : Overhead = 32 := rfl
  have hcap : ¬ (Slice.nil.cap ≥ Slice.nil.len + (message.length + Overhead)) := by
    simp [Slice.cap, Slice.nil, hO]
  have e0 : writeAt (zeroBytes (message.length + Overhead)) 0 [] =
      zeroBytes message.length ++ zeroBytes 32 := by
    simp [writeAt, zeroBytes_add, hO]
  have w1 : writeAt (zeroBytes message.length ++ zeroBytes 32) 0
      (sealBody P message nonce key) = sealBody P message nonce key ++ zeroBytes 32 := by
    have := writeAt_append [] (zeroBytes message.length) (zeroBytes 32)
      (sealBody P message nonce key) (by simp [zeroBytes_length, hb])
    simpa using this
  have w2 : writeAt (sealBody P message nonce key ++ zeroBytes 32) message.length
      (sealTag P nonce key) = sealBody P message nonce key ++ sealTag P nonce key := by
    have := writeAt_append_nil (sealBody P message nonce key) (zeroBytes 32)
      (sealTag P nonce key) (by simp [zeroBytes_length, ht])
    simpa [hb] using this
  have hm : (sealBody P message nonce key ++ zeroBytes 32).length - 0 ≥
      message.length + Overhead := by
    simp [zeroBytes_length, hb, hO]
  simp only [SecretSeal, sliceForAppend, if_neg hcap, macSumInto]
  simp only [Slice.nil, Slice.bytes, List.drop_nil, List.take_nil, Nat.zero_add, e0]
  rw [show xorKeyStream (P.ctr (deriveKeys P nonce key).1 (List.take aesBlockSize nonce)) message
      = sealBody P message nonce key from rfl, w1, if_pos hm,
    show P.hmac (deriveKeys P nonce key).2 [] = sealTag P nonce key from rfl, w2]
  simp [hb, ht, hO]

/-- What `SecretOpen` returns on a box `body ++ tag` with a 32-byte `tag`, for `out` showing
`shown`: the tag is compared with the HMAC of the empty message, and on equality the
result is `shown` followed by `body` xored with the key stream. -/
theorem SecretOpen_eq (P : Primitives) (pre shown post body tag nonce key : List Byte)
    (htag : tag.length = 32) :
    SecretOpen P (Slice.mk (pre ++ shown ++ post) pre.length shown.length) (body ++ tag)
        nonce key =
      some (if tag = sealTag P nonce key then (shown ++ sealBody P body nonce key, true)
            else ([], false)) := by
  have ht := sealTag_length P nonce key
  have hO : Overhead = 32 := rfl
  have hlen : ¬ ((body ++ tag).length < Overhead) := by simp [hO, htag]
  have hbl : (body ++ tag).length - Overhead = body.length := by simp [hO, htag]
  have hm : (body ++ tag).length - 0 ≥ body.length + Overhead := by simp [hO, htag]
  have w : writeAt (body ++ tag) (0 + body.length) (sealTag P nonce key) =
      body ++ sealTag P nonce key := by
    have := writeAt_append_nil body tag (sealTag P nonce key) (by omega)
    simpa using this
  simp only [SecretOpen, if_neg hlen, hbl, macSumInto, if_pos hm]
  rw [show P.hmac (deriveKeys P nonce key).2 [] = sealTag P nonce key from rfl, w]
  simp only [List.drop_left, List.take_left]
  by_cases h : tag = sealTag P nonce key
  · rw [if_neg (by simpa using h.symm), if_pos h]
    have := sliceForAppend_write pre shown post (sealBody P body nonce key)
    rw [sealBody_length] at this
    simp only [Option.some.injEq, Prod.mk.injEq, and_true]
    exact this
  · rw [if_pos (by simpa using fun e => h e.symm), if_neg h]

/-- Claim C3 (the code differs). For every message, nonce and key the box returned by
`SecretSeal(nil, m, nonce, key)` is the AES-CTR cipher text of `m` followed by 32 bytes that
are HMAC-SHA-256 of the *empty* message under the second HKDF subkey: the tag does not
depend on the cipher text, nor on `m`. -/
theorem SecretSeal_tag_is_hmac_of_empty (P : Primitives) (m nonce key : List Byte) :
    ((SecretSeal P Slice.nil m nonce key).1.bytes.take m.length =
        xorKeyStream (P.ctr (deriveKeys P nonce key).1 (nonce.take aesBlockSize)) m) ∧
    ((SecretSeal P Slice.nil m nonce key).1.bytes.drop m.length =
        P.hmac (deriveKeys P nonce key).2 []) := by
  rw [SecretSeal_nil_bytes]
  have hb := sealBody_length P m nonce key
  constructor
  · rw [← hb, List.take_left]; rfl
  · rw [← hb, List.drop_left]; rfl

set_option maxRecDepth 100000 in
/-- Claim C3 at the failing input (all-zero key and nonce, message `[0x41]`), on the demo
primitives: the tag is the HMAC of the empty message and is not the HMAC of the cipher
text. -/
theorem SecretSeal_tag_is_hmac_of_empty_witness :
    ((SecretSeal demoPrimitives Slice.nil [0x41] (zeroBytes 24) (zeroBytes 32)).1.bytes.drop 1 =
        demoPrimitives.hmac (deriveKeys demoPrimitives (zeroBytes 24) (zeroBytes 32)).2 []) ∧
    ((SecretSeal demoPrimitives Slice.nil [0x41] (zeroBytes 24) (zeroBytes 32)).1.bytes.drop 1 ≠
        demoPrimitives.hmac (deriveKeys demoPrimitives (zeroBytes 24) (zeroBytes 32)).2
          ((SecretSeal demoPrimitives Slice.nil [0x41] (zeroBytes 24)
            (zeroBytes 32)).1.bytes.take 1)) :=
  ⟨(SecretSeal_tag_is_hmac_of_empty demoPrimitives [0x41] (zeroBytes 24) (zeroBytes 32)).2,
    by decide⟩

/-- Claim C4 (the code differs). Take the tag of any sealed box and put it behind an
arbitrary body: `SecretOpen` accepts the forged box and returns the body xored with the key
stream. A change to the cipher text body is therefore not detected; only a change to the
trailing 32 bytes is. -/
theorem SecretOpen_accepts_any_body (P : Primitives) (m body nonce key : List Byte) :
    SecretOpen P Slice.nil
        (body ++ (SecretSeal P Slice.nil m nonce key).1.bytes.drop m.length) nonce key =
      some (xorKeyStream (P.ctr (deriveKeys P nonce key).1 (nonce.take aesBlockSize)) body,
        true) := by
  rw [SecretSeal_nil_bytes, ← sealBody_length P m nonce key, List.drop_left]
  have := SecretOpen_eq P [] [] [] body (sealTag P nonce key) nonce key
    (sealTag_length P nonce key)
  simp only [List.append_nil, List.length_nil, if_true, List.nil_append] at this
  exact this

set_option maxRecDepth 100000 in
/-- Claim C4 at the failing input, on the demo primitives: the box sealed for `[0x41]` with
the lowest bit of its first byte flipped opens successfully (to a different message). -/
theorem SecretOpen_accepts_any_body_witness :
    (SecretSeal demoPrimitives Slice.nil [0x41] (zeroBytes 24) (zeroBytes 32)).1.bytes.take 1 =
        [0x57] ∧
    SecretOpen demoPrimitives Slice.nil
        ([0x56] ++ (SecretSeal demoPrimitives Slice.nil [0x41] (zeroBytes 24)
          (zeroBytes 32)).1.bytes.drop 1) (zeroBytes 24) (zeroBytes 32) =
      some ([0x40], true) :=
  ⟨by decide,
    (SecretOpen_accepts_any_body demoPrimitives [0x41] [0x56] (zeroBytes 24)
      (zeroBytes 32)).trans (by decide)⟩

/-- Claim C5. Seal round trip: for every key, every nonce and every message `m` (the empty
one included), `SecretOpen(nil, SecretSeal(nil, m, nonce, key), nonce, key)` returns
`(m, true)`. -/
theorem SecretOpen_SecretSeal (P : Primitives) (m nonce key : List Byte) :
    SecretOpen P Slice.nil (SecretSeal P Slice.nil m nonce key).1.bytes nonce key =
      some (m, true) := by
  rw [SecretSeal_nil_bytes]
  have := SecretOpen_eq P [] [] [] (sealBody P m nonce key) (sealTag P nonce key) nonce key
    (sealTag_length P nonce key)
  simp only [List.append_nil, List.length_nil, if_true, List.nil_append,
    sealBody_sealBody] at this
  exact this


/-! ### `math/big` conversions -/

theorem setBytes_foldl (bs : List Byte) (acc : Nat) :
    bs.foldl (fun a b => a * 256 + b.val) acc = acc * 256 ^ bs.length + setBytes bs := by
  induction bs generalizing acc with
  | nil => simp [setBytes]
  | cons b bs ih =>
    simp only [List.foldl_cons, List.length_cons, setBytes]
    rw [ih, ih (0 * 256 + b.val)]
    ring

theorem setBytes_cons (b : Byte) (bs : List Byte) :
    setBytes (b :: bs) = b.val * 256 ^ bs.length + setBytes bs := by
  show List.foldl (fun a b => a * 256 + b.val) (0 * 256 + b.val) bs = _
  rw [setBytes_foldl]
  simp

theorem setBytes_append (a b : List Byte) :
    setBytes (a ++ b) = setBytes a * 256 ^ b.length + setBytes b := by
  simp only [setBytes, List.foldl_append]
  rw [setBytes_foldl]
  rfl

theorem setBytes_zeroBytes (n : Nat) : setBytes (zeroBytes n) = 0 := by
  induction n with
  | zero => rfl
  | succ n ih =>
    have : zeroBytes (n + 1) = 0 :: zeroBytes n := rfl
    rw [this, setBytes_cons, ih]
    simp

theorem setBytes_padLeft (w : Nat) (bs : List Byte) : setBytes (padLeft w bs) = setBytes bs := by
  simp [padLeft, setBytes_append, setBytes_zeroBytes]

theorem padLeft_length (w : Nat) (bs : List Byte) (h : bs.length ≤ w) :
    (padLeft w bs).length = w := by
  simp only [padLeft, List.length_append, zeroBytes_length]
  omega

theorem setBytes_lt (bs : List Byte) : setBytes bs < 256 ^ bs.length := by
  induction bs using List.reverseRecOn with
  | nil => simp [setBytes]
  | append_singleton bs b ih =>
    rw [setBytes_append, List.length_append, pow_add]
    have hb : setBytes [b] = b.val := by simp [setBytes]
    have := b.isLt
    simp only [List.length_singleton, pow_one, hb]
    nlinarith

theorem bytesBEAux_spec (fuel : Nat) : ∀ (n : Nat) (acc : List Byte), n ≤ fuel →
    setBytes (bytesBEAux fuel n acc) = n * 256 ^ acc.length + setBytes acc ∧
    ∀ k, n < 256 ^ k → (bytesBEAux fuel n acc).length ≤ acc.length + k := by
  induction fuel with
  | zero =>
    intro n acc h
    have : n = 0 := by omega
    subst this
    simp [bytesBEAux]
  | succ fuel ih =>
    intro n acc h
    unfold bytesBEAux
    by_cases hn : n = 0
    · subst hn
      simp
    · rw [if_neg hn]
      have hdiv : n / 256 ≤ fuel := by
        have : n / 256 < n := Nat.div_lt_self (by omega) (by norm_num)
        omega
      obtain ⟨h1, h2⟩ := ih (n / 256) (Fin.ofNat (n % 256) :: acc) hdiv
      refine ⟨?_, ?_⟩
      · rw [h1, setBytes_cons]
        have hv : (Fin.ofNat (n % 256) : Byte).val = n % 256 := by
          show (n % 256) % 256 = n % 256
          exact Nat.mod_mod _ _
        rw [hv, List.length_cons, pow_succ]
        have h3 := Nat.div_add_mod n 256
        have h4 : n * 256 ^ acc.length = (256 * (n / 256) + n % 256) * 256 ^ acc.length := by
          rw [h3]
        rw [h4]
        ring
      · intro k hk
        cases k with
        | zero => simp at hk; omega
        | succ k =>
          have := h2 k (by
            rw [pow_succ] at hk
            exact Nat.div_lt_of_lt_mul (by rw [Nat.mul_comm]; exact hk))
          simp only [List.length_cons] at this
          omega

theorem setBytes_bytesBE (n : Nat) : setBytes (bytesBE n) = n := by
  have := (bytesBEAux_spec n n [] (Nat.le_refl n)).1
  simpa [bytesBE, setBytes] using this

theorem bytesBE_length_le (n k : Nat) (h : n < 256 ^ k) : (bytesBE n).length ≤ k := by
  have := (bytesBEAux_spec n n [] (Nat.le_refl n)).2 k h
  simpa [bytesBE] using this

theorem bytesBE_length_le_32 (n : Nat) (h : n < 2 ^ 256) : (bytesBE n).length ≤ 32 :=
  bytesBE_length_le n 32 (by norm_num; exact h)

theorem copyRight_zero (a c src : List Byte) (w : Nat) (h : src.length ≤ w) :
    copyRight (a ++ zeroBytes w ++ c) (a.length + w) src = some (a ++ padLeft w src ++ c) := by
  have hw : zeroBytes w = zeroBytes (w - src.length) ++ zeroBytes src.length := by
    rw [← zeroBytes_add]
    congr 1
    omega
  have hc : src.length ≤ a.length + w ∧ a.length + w ≤ (a ++ zeroBytes w ++ c).length := by
    simp only [List.length_append, zeroBytes_length]
    omega
  simp only [copyRight, if_pos hc]
  have := writeAt_append (a ++ zeroBytes (w - src.length)) (zeroBytes src.length) c src
    (by simp [zeroBytes_length])
  simp only [List.length_append, zeroBytes_length] at this
  rw [show a.length + w - src.length = a.length + (w - src.length) by omega]
  rw [hw]
  simp only [padLeft, List.append_assoc] at this ⊢
  rw [this]

theorem encodePoint_length (xy : Nat × Nat) (h1 : xy.1 < 2 ^ 256) (h2 : xy.2 < 2 ^ 256) :
    (encodePoint xy).length = 64 := by
  simp [encodePoint, padLeft_length _ _ (bytesBE_length_le_32 _ h1),
    padLeft_length _ _ (bytesBE_length_le_32 _ h2)]

theorem encodePoint_take (xy : Nat × Nat) (h1 : xy.1 < 2 ^ 256) :
    setBytes ((encodePoint xy).take 32) = xy.1 := by
  have := padLeft_length _ _ (bytesBE_length_le_32 _ h1)
  rw [encodePoint, List.take_left' this, setBytes_padLeft, setBytes_bytesBE]

theorem encodePoint_drop (xy : Nat × Nat) (h1 : xy.1 < 2 ^ 256) :
    setBytes ((encodePoint xy).drop 32) = xy.2 := by
  have := padLeft_length _ _ (bytesBE_length_le_32 _ h1)
  rw [encodePoint, List.drop_left' this, setBytes_padLeft, setBytes_bytesBE]

/-! ### Group facts behind the proofs -/

section CurveFacts

variable {Pt : Type} [Curve Pt]

theorem coords_injective {p q : Pt} (h : Curve.coords p = Curve.coords q) : p = q := by
  have hp := Curve.ofCoords_coords p
  have hq := Curve.ofCoords_coords q
  rw [h, hq] at hp
  exact (Option.some.inj hp).symm

theorem N_pos : 0 < Curve.N Pt := (@Curve.N_prime Pt _).pos

theorem N_dvd_of_zsmul_eq_zero {B : Pt} (hB : B ≠ 0) {k : Int} (h : k • B = 0) :
    (Curve.N Pt : Int) ∣ k := by
  have hdvd : addOrderOf B ∣ Curve.N Pt :=
    addOrderOf_dvd_iff_nsmul_eq_zero.mpr (Curve.N_nsmul B)
  have hord : addOrderOf B = Curve.N Pt := by
    rcases (@Curve.N_prime Pt _).eq_one_or_self_of_dvd _ hdvd with h1 | h1
    · exact absurd (AddMonoid.addOrderOf_eq_one_iff.mp h1) hB
    · exact h1
  rw [← hord]
  exact addOrderOf_dvd_iff_zsmul_eq_zero.mpr h

theorem N_zsmul (B : Pt) (k : Int) : ((Curve.N Pt : Int) * k) • B = 0 := by
  rw [mul_comm, mul_zsmul, natCast_zsmul, Curve.N_nsmul, zsmul_zero]

/-- The response scalar `s = (r - c*x) mod N` satisfies `s·B + c·(x·B) = r·B`. -/
theorem response_smul (B : Pt) (r c x : Nat) :
    (((r : Int) - (c : Int) * (x : Int)) % (Curve.N Pt : Int)).toNat • B + c • (x • B)
      = r • B := by
  have hN : (Curve.N Pt : Int) ≠ 0 := by
    have := @N_pos Pt _
    omega
  have hk := Int.emod_nonneg ((r : Int) - (c : Int) * (x : Int)) hN
  have e1 : (((r : Int) - (c : Int) * (x : Int)) % (Curve.N Pt : Int)).toNat • B =
      (((r : Int) - (c : Int) * (x : Int)) % (Curve.N Pt : Int)) • B := by
    rw [← natCast_zsmul, Int.toNat_of_nonneg hk]
  have e2 : (((r : Int) - (c : Int) * (x : Int)) % (Curve.N Pt : Int)) • B =
      ((r : Int) - (c : Int) * (x : Int)) • B := by
    rw [Int.emod_def, sub_zsmul, N_zsmul]
    simp
  have e3 : c • (x • B) = ((c : Int) * (x : Int)) • B := by
    rw [mul_zsmul, natCast_zsmul, natCast_zsmul, smul_comm]
  rw [e1, e2, e3, ← add_zsmul, sub_add_cancel, natCast_zsmul]

/-- A response `s'` that verifies against a valid commitment is congruent to the honest
response modulo `N`, provided the base is not the point at infinity. -/
theorem response_unique {B : Pt} (hB : B ≠ 0) (r c x s : Nat)
    (h : s • B + c • (x • B) = r • B) :
    s % Curve.N Pt =
      (((r : Int) - (c : Int) * (x : Int)) % (Curve.N Pt : Int)).toNat % Curve.N Pt := by
  have h0 := response_smul B r c x
  rw [← h] at h0
  have h1 := add_right_cancel h0
  have hN : (Curve.N Pt : Int) ≠ 0 := by
    have := @N_pos Pt _
    omega
  have hk := Int.emod_nonneg ((r : Int) - (c : Int) * (x : Int)) hN
  set t := (((r : Int) - (c : Int) * (x : Int)) % (Curve.N Pt : Int)).toNat with ht
  have h2 : ((t : Int) - (s : Int)) • B = 0 := by
    rw [sub_zsmul, natCast_zsmul, natCast_zsmul, h1]
    simp
  have h3 := N_dvd_of_zsmul_eq_zero hB h2
  have h4 : (t : Int) % (Curve.N Pt : Int) = (s : Int) % (Curve.N Pt : Int) :=
    Int.emod_eq_emod_iff_emod_sub_eq_zero.mpr (Int.emod_eq_zero_of_dvd h3)
  have h5 : ((t % Curve.N Pt : Nat) : Int) = ((s % Curve.N Pt : Nat) : Int) := by
    push_cast
    exact h4
  exact (Int.ofNat_inj.mp h5).symm

theorem responseBytes_length (r c x : Nat) :
    (responseBytes (Curve.N Pt) r c x).length ≤ 32 := by
  apply bytesBE_length_le_32
  have hN : (0 : Int) < (Curve.N Pt : Int) := by
    have := @N_pos Pt _
    omega
  have h1 := Int.emod_lt_of_pos ((r : Int) - (c : Int) * (x : Int)) hN
  have h2 := Int.emod_nonneg ((r : Int) - (c : Int) * (x : Int)) (ne_of_gt hN)
  have h3 := @Curve.N_lt Pt _
  omega

theorem setBytes_responseBytes (r c x : Nat) :
    setBytes (padLeft 32 (responseBytes (Curve.N Pt) r c x)) =
      (((r : Int) - (c : Int) * (x : Int)) % (Curve.N Pt : Int)).toNat := by
  rw [setBytes_padLeft, responseBytes, setBytes_bytesBE]

/-- The challenge of a proof of knowledge: the hash of the unpadded coordinates of the
public point followed by the 64 commitment bytes of the proof. -/
theorem PoKLog_eq (P : Primitives) (exp x y r : Nat) :
    PoKLog Pt P exp x y r =
      some (encodePoint (Curve.coords (r • (Curve.G : Pt))) ++
        padLeft 32 (responseBytes (Curve.N Pt) r
          (setBytes (P.sha256 (bytesBE x ++ bytesBE y ++
            encodePoint (Curve.coords (r • (Curve.G : Pt)))))) exp)) := by
  obtain ⟨hx, hy⟩ := Curve.coords_lt (r • (Curve.G : Pt))
  have lx := bytesBE_length_le_32 _ hx
  have ly := bytesBE_length_le_32 _ hy
  have c1 := copyRight_zero [] (zeroBytes 32 ++ zeroBytes 32)
    (bytesBE (Curve.coords (r • (Curve.G : Pt))).1) 32 lx
  have c2 := copyRight_zero (padLeft 32 (bytesBE (Curve.coords (r • (Curve.G : Pt))).1))
    (zeroBytes 32) (bytesBE (Curve.coords (r • (Curve.G : Pt))).2) 32 ly
  have hz : zeroBytes (32 * 3) = [] ++ zeroBytes 32 ++ (zeroBytes 32 ++ zeroBytes 32) := by
    simp [← zeroBytes_add]
  have hl := encodePoint_length (Curve.coords (r • (Curve.G : Pt))) hx hy
  have c3 := fun src h => copyRight_zero (encodePoint (Curve.coords (r • (Curve.G : Pt)))) []
    src 32 h
  rw [padLeft_length _ _ lx] at c2
  simp only [List.length_nil, Nat.zero_add, List.nil_append, ← List.append_assoc] at c1 c2
  simp only [hl, List.append_nil, Nat.reduceAdd] at c3
  simp only [Nat.reduceAdd] at c2
  have t64 : (encodePoint (Curve.coords (r • (Curve.G : Pt))) ++ zeroBytes 32).take 64 =
      encodePoint (Curve.coords (r • (Curve.G : Pt))) := List.take_left' hl
  simp only [PoKLog, ScalarBaseMult, setBytes_bytesBE, hz, List.nil_append,
    ← List.append_assoc, c1, c2, Option.bind_eq_bind, Option.some_bind]
  rw [show padLeft 32 (bytesBE (Curve.coords (r • (Curve.G : Pt))).1) ++
      padLeft 32 (bytesBE (Curve.coords (r • (Curve.G : Pt))).2) =
      encodePoint (Curve.coords (r • (Curve.G : Pt))) from rfl, t64]
  exact c3 _ (@responseBytes_length Pt _ _ _ _)

/-- What `VerifyPoKLog` computes on a proof made of a 64-byte commitment `hdr` and a response
`sb`, for a public key that decodes to the point `X`. -/
theorem VerifyPoKLog_eq (P : Primitives) (X : Pt) (hdr sb : List Byte) (hh : hdr.length = 64) :
    VerifyPoKLog Pt P (Curve.coords X).1 (Curve.coords X).2 (hdr ++ sb) =
      some (decide (Curve.coords (setBytes sb • (Curve.G : Pt) +
          setBytes (P.sha256 (bytesBE (Curve.coords X).1 ++ bytesBE (Curve.coords X).2 ++ hdr))
            • X) = (setBytes (hdr.take 32), setBytes (hdr.drop 32)))) := by
  have hlen : ¬ ((hdr ++ sb).length < 64) := by simp [hh]
  have t64 : (hdr ++ sb).take 64 = hdr := by rw [← hh, List.take_left]
  have t32 : (hdr ++ sb).take 32 = hdr.take 32 := by
    rw [List.take_append_of_le_length (by omega)]
  have d64 : (hdr ++ sb).drop 64 = sb := by rw [← hh, List.drop_left]
  simp only [VerifyPoKLog, if_neg hlen, t64, t32, d64, ScalarBaseMult, ScalarMult, curveAdd,
    Curve.ofCoords_coords, Option.bind_eq_bind, Option.some_bind, Option.pure_def]
  congr 1
  rw [Bool.and_eq_decide]
  congr 1
  rw [Prod.ext_iff]

/-- Go `LogEquivalence` on bases and points given by their coordinates. -/
theorem LogEquivalence_eq (P : Primitives) (B1 X1 B2 X2 : Pt) (exp r : Nat) :
    LogEquivalence Pt P exp (Curve.coords B1).1 (Curve.coords B1).2 (Curve.coords X1).1
        (Curve.coords X1).2 (Curve.coords B2).1 (Curve.coords B2).2 (Curve.coords X2).1
        (Curve.coords X2).2 r =
      some (encodePoint (Curve.coords (r • B1)) ++ encodePoint (Curve.coords (r • B2)) ++
        padLeft 32 (responseBytes (Curve.N Pt) r
          (setBytes (P.sha256 (bytesBE (Curve.coords B1).1 ++ bytesBE (Curve.coords B1).2 ++
            bytesBE (Curve.coords X1).1 ++ bytesBE (Curve.coords X1).2 ++
            bytesBE (Curve.coords B2).1 ++ bytesBE (Curve.coords B2).2 ++
            bytesBE (Curve.coords X2).1 ++ bytesBE (Curve.coords X2).2 ++
            (encodePoint (Curve.coords (r • B1)) ++ encodePoint (Curve.coords (r • B2))))))
          exp)) := by
  obtain ⟨hx1, hy1⟩ := Curve.coords_lt (r • B1)
  obtain ⟨hx2, hy2⟩ := Curve.coords_lt (r • B2)
  have lx1 := bytesBE_length_le_32 _ hx1
  have ly1 := bytesBE_length_le_32 _ hy1
  have lx2 := bytesBE_length_le_32 _ hx2
  have ly2 := bytesBE_length_le_32 _ hy2
  have hl1 := encodePoint_length (Curve.coords (r • B1)) hx1 hy1
  have hl2 := encodePoint_length (Curve.coords (r • B2)) hx2 hy2
  have hz : zeroBytes (32 * 5) = [] ++ zeroBytes 32 ++
      (zeroBytes 32 ++ (zeroBytes 32 ++ (zeroBytes 32 ++ zeroBytes 32))) := by
    simp [← zeroBytes_add]
  have c1 := copyRight_zero [] (zeroBytes 32 ++ (zeroBytes 32 ++ (zeroBytes 32 ++ zeroBytes 32)))
    (bytesBE (Curve.coords (r • B1)).1) 32 lx1
  have c2 := copyRight_zero (padLeft 32 (bytesBE (Curve.coords (r • B1)).1))
    (zeroBytes 32 ++ (zeroBytes 32 ++ zeroBytes 32)) (bytesBE (Curve.coords (r • B1)).2) 32 ly1
  have c3 := copyRight_zero (encodePoint (Curve.coords (r • B1)))
    (zeroBytes 32 ++ zeroBytes 32) (bytesBE (Curve.coords (r • B2)).1) 32 lx2
  have c4 := copyRight_zero (encodePoint (Curve.coords (r • B1)) ++
    padLeft 32 (bytesBE (Curve.coords (r • B2)).1))
    (zeroBytes 32) (bytesBE (Curve.coords (r • B2)).2) 32 ly2
  have c5 := fun src h => copyRight_zero (encodePoint (Curve.coords (r • B1)) ++
    encodePoint (Curve.coords (r • B2))) [] src 32 h
  rw [padLeft_length _ _ lx1] at c2
  rw [hl1] at c3
  rw [List.length_append, hl1, padLeft_length _ _ lx2] at c4
  rw [List.length_append, hl1, hl2] at c5
  have t128 : (encodePoint (Curve.coords (r • B1)) ++ encodePoint (Curve.coords (r • B2)) ++
      zeroBytes 32).take 128 =
      encodePoint (Curve.coords (r • B1)) ++ encodePoint (Curve.coords (r • B2)) := by
    apply List.take_left'
    simp [hl1, hl2]
  have c5r := c5 _ (@responseBytes_length Pt _ r
    (setBytes (P.sha256 (bytesBE (Curve.coords B1).1 ++ bytesBE (Curve.coords B1).2 ++
            bytesBE (Curve.coords X1).1 ++ bytesBE (Curve.coords X1).2 ++
            bytesBE (Curve.coords B2).1 ++ bytesBE (Curve.coords B2).2 ++
            bytesBE (Curve.coords X2).1 ++ bytesBE (Curve.coords X2).2 ++
            (encodePoint (Curve.coords (r • B1)) ++ encodePoint (Curve.coords (r • B2))))))
    exp)
  simp only [List.length_nil, Nat.zero_add, List.nil_append, List.append_nil,
    Nat.reduceAdd, encodePoint, List.append_assoc] at c1 c2 c3 c4 c5r t128
  simp only [LogEquivalence, ScalarMult, Curve.ofCoords_coords, setBytes_bytesBE, hz,
    List.nil_append, Option.bind_eq_bind, Option.some_bind, encodePoint, List.append_assoc,
    c1, c2, c3, c4, t128]
  exact c5r

/-- What `VerifyLogEquivalence` computes on a proof made of a 128-byte commitment `hdr` and
a response `sb`. -/
theorem VerifyLogEquivalence_eq (P : Primitives) (B1 X1 B2 X2 : Pt) (hdr sb : List Byte)
    (hh : hdr.length = 128) :
    VerifyLogEquivalence Pt P (Curve.coords B1).1 (Curve.coords B1).2 (Curve.coords X1).1
        (Curve.coords X1).2 (Curve.coords B2).1 (Curve.coords B2).2 (Curve.coords X2).1
        (Curve.coords X2).2 (hdr ++ sb) =
      some (decide (
        Curve.coords (setBytes sb • B1 +
          setBytes (P.sha256 (bytesBE (Curve.coords B1).1 ++ bytesBE (Curve.coords B1).2 ++
            bytesBE (Curve.coords X1).1 ++ bytesBE (Curve.coords X1).2 ++
            bytesBE (Curve.coords B2).1 ++ bytesBE (Curve.coords B2).2 ++
            bytesBE (Curve.coords X2).1 ++ bytesBE (Curve.coords X2).2 ++ hdr)) • X1) =
          (setBytes (hdr.take 32), setBytes ((hdr.take 64).drop 32)) ∧
        Curve.coords (setBytes sb • B2 +
          setBytes (P.sha256 (bytesBE (Curve.coords B1).1 ++ bytesBE (Curve.coords B1).2 ++
            bytesBE (Curve.coords X1).1 ++ bytesBE (Curve.coords X1).2 ++
            bytesBE (Curve.coords B2).1 ++ bytesBE (Curve.coords B2).2 ++
            bytesBE (Curve.coords X2).1 ++ bytesBE (Curve.coords X2).2 ++ hdr)) • X2) =
          (setBytes ((hdr.take 96).drop 64), setBytes (hdr.drop 96)))) := by
  have hlen : ¬ ((hdr ++ sb).length < 128) := by simp [hh]
  have t128 : (hdr ++ sb).take 128 = hdr := by rw [← hh, List.take_left]
  have t32 : (hdr ++ sb).take 32 = hdr.take 32 := by
    rw [List.take_append_of_le_length (by omega)]
  have t64 : (hdr ++ sb).take 64 = hdr.take 64 := by
    rw [List.take_append_of_le_length (by omega)]
  have t96 : (hdr ++ sb).take 96 = hdr.take 96 := by
    rw [List.take_append_of_le_length (by omega)]
  have d128 : (hdr ++ sb).drop 128 = sb := by rw [← hh, List.drop_left]
  have d96 : (hdr.take 128).drop 96 = hdr.drop 96 := by
    rw [List.take_of_length_le (by omega)]
  simp only [VerifyLogEquivalence, if_neg hlen, t128, t32, t64, t96, d128, d96, ScalarMult,
    curveAdd, Curve.ofCoords_coords, Option.bind_eq_bind, Option.some_bind, Option.pure_def]
  congr 1
  simp only [Prod.ext_iff, Bool.decide_and, Bool.and_assoc]

end CurveFacts

/-! ### Bit flips -/

set_option maxRecDepth 100000 in
theorem byte_flip (b : Byte) (k : Fin 8) :
    (b ^^^ (Fin.ofNat (2 ^ k.val) : Byte)).val = b.val + 2 ^ k.val ∨
    (b ^^^ (Fin.ofNat (2 ^ k.val) : Byte)).val + 2 ^ k.val = b.val := by
  revert b k
  decide

theorem flipBit_length (bs : List Byte) : ∀ k, (flipBit bs k).length = bs.length := by
  induction bs with
  | nil => intro k; rfl
  | cons b bs ih =>
    intro k
    unfold flipBit
    split
    · rfl
    · simp [ih]

/-- Flipping one bit of a byte string moves its big-endian value by a power of two. -/
theorem setBytes_flipBit (bs : List Byte) : ∀ k, k < 8 * bs.length →
    ∃ e, setBytes (flipBit bs k) = setBytes bs + 2 ^ e ∨
      setBytes (flipBit bs k) + 2 ^ e = setBytes bs := by
  induction bs with
  | nil => intro k hk; simp at hk
  | cons b bs ih =>
    intro k hk
    unfold flipBit
    by_cases h8 : k < 8
    · rw [if_pos h8, setBytes_cons, setBytes_cons]
      refine ⟨k + 8 * bs.length, ?_⟩
      have hp : (2 : Nat) ^ (k + 8 * bs.length) = 2 ^ k * 256 ^ bs.length := by
        rw [pow_add, pow_mul]
        norm_num
      rw [hp]
      rcases byte_flip b ⟨k, h8⟩ with h | h
      · left
        simp only at h
        rw [h]
        ring
      · right
        simp only at h
        rw [← h]
        ring
    · rw [if_neg h8, setBytes_cons, setBytes_cons, flipBit_length]
      obtain ⟨e, he⟩ := ih (k - 8) (by simp only [List.length_cons] at hk; omega)
      refine ⟨e, ?_⟩
      rcases he with h | h
      · left; rw [h]; ring
      · right; rw [← h]; ring

section Rejection

variable {Pt : Type} [Curve Pt]

theorem N_not_dvd_two_pow (e : Nat) : ¬ (Curve.N Pt ∣ 2 ^ e) := by
  intro h
  have h2 := (@Curve.N_prime Pt _).dvd_of_dvd_pow h
  have h3 := Nat.le_of_dvd (by norm_num) h2
  have h4 := (@Curve.N_prime Pt _).two_le
  have h5 := @Curve.N_odd Pt _
  have : Curve.N Pt = 2 := by omega
  rw [this] at h5
  simp at h5

/-- A bit flip changes the residue of a byte string modulo the group order. -/
theorem flipBit_mod_ne (bs : List Byte) (k : Nat) (hk : k < 8 * bs.length) :
    setBytes (flipBit bs k) % Curve.N Pt ≠ setBytes bs % Curve.N Pt := by
  obtain ⟨e, he⟩ := setBytes_flipBit bs k hk
  intro h
  apply @N_not_dvd_two_pow Pt _ e
  rcases he with h1 | h1
  · have : setBytes bs ≤ setBytes (flipBit bs k) := by rw [h1]; exact Nat.le_add_right _ _
    have h2 := (Nat.modEq_iff_dvd' this).mp h.symm
    rwa [h1, Nat.add_sub_cancel_left] at h2
  · have : setBytes (flipBit bs k) ≤ setBytes bs := by rw [← h1]; exact Nat.le_add_right _ _
    have h2 := (Nat.modEq_iff_dvd' this).mp h
    rwa [← h1, Nat.add_sub_cancel_left] at h2

end Rejection

/-! ### The proofs of knowledge -/

/-- Claim C6. PoKDL completeness: for every scalar `x` (in particular every `x` in `[0, N)`),
with `X = x·G`, and every commitment nonce `r`, `PoKLog(x, X.x, X.y)` returns a proof and
`VerifyPoKLog(X.x, X.y, proof)` returns true. -/
theorem PoKLog_complete (Pt : Type) [Curve Pt] (P : Primitives) (x r : Nat) :
    ∃ prf, PoKLog Pt P x (Curve.coords (x • (Curve.G : Pt))).1
        (Curve.coords (x • (Curve.G : Pt))).2 r = some prf ∧
      VerifyPoKLog Pt P (Curve.coords (x • (Curve.G : Pt))).1
        (Curve.coords (x • (Curve.G : Pt))).2 prf = some true := by
  refine ⟨_, PoKLog_eq P x _ _ r, ?_⟩
  obtain ⟨hx, hy⟩ := Curve.coords_lt (r • (Curve.G : Pt))
  rw [VerifyPoKLog_eq P _ _ _ (encodePoint_length _ hx hy), encodePoint_take _ hx,
    encodePoint_drop _ hx, setBytes_responseBytes, response_smul]
  simp

/-- Claim C7. LogEq completeness: for every scalar `x`, all points `B1`, `B2` of the curve
with `X1 = x·B1` and `X2 = x·B2`, and every commitment nonce `r`, `LogEquivalence` returns a
proof and `VerifyLogEquivalence` returns true on it. -/
theorem LogEquivalence_complete (Pt : Type) [Curve Pt] (P : Primitives) (B1 B2 : Pt)
    (x r : Nat) :
    ∃ prf, LogEquivalence Pt P x (Curve.coords B1).1 (Curve.coords B1).2
        (Curve.coords (x • B1)).1 (Curve.coords (x • B1)).2
        (Curve.coords B2).1 (Curve.coords B2).2
        (Curve.coords (x • B2)).1 (Curve.coords (x • B2)).2 r = some prf ∧
      VerifyLogEquivalence Pt P (Curve.coords B1).1 (Curve.coords B1).2
        (Curve.coords (x • B1)).1 (Curve.coords (x • B1)).2
        (Curve.coords B2).1 (Curve.coords B2).2
        (Curve.coords (x • B2)).1 (Curve.coords (x • B2)).2 prf = some true := by
  refine ⟨_, LogEquivalence_eq P B1 (x • B1) B2 (x • B2) x r, ?_⟩
  obtain ⟨hx1, hy1⟩ := Curve.coords_lt (r • B1)
  obtain ⟨hx2, hy2⟩ := Curve.coords_lt (r • B2)
  have hl1 := encodePoint_length _ hx1 hy1
  have hl2 := encodePoint_length _ hx2 hy2
  have t32 : (encodePoint (Curve.coords (r • B1)) ++ encodePoint (Curve.coords (r • B2))).take 32
      = (encodePoint (Curve.coords (r • B1))).take 32 :=
    List.take_append_of_le_length (by omega)
  have t64 : (encodePoint (Curve.coords (r • B1)) ++ encodePoint (Curve.coords (r • B2))).take 64
      = encodePoint (Curve.coords (r • B1)) := List.take_left' hl1
  have t96 : ((encodePoint (Curve.coords (r • B1)) ++
      encodePoint (Curve.coords (r • B2))).take 96).drop 64
      = (encodePoint (Curve.coords (r • B2))).take 32 := by
    rw [List.take_append_eq_append_take, List.take_of_length_le (by omega), hl1,
      List.drop_left' hl1]
  have d96 : (encodePoint (Curve.coords (r • B1)) ++ encodePoint (Curve.coords (r • B2))).drop 96
      = (encodePoint (Curve.coords (r • B2))).drop 32 := by
    rw [List.drop_append_eq_append_drop, List.drop_of_length_le (by omega), hl1]
    rfl
  rw [VerifyLogEquivalence_eq P _ _ _ _ _ _ (by simp [hl1, hl2]), t32, t64, t96, d96,
    encodePoint_take _ hx1, encodePoint_drop _ hx1, encodePoint_take _ hx2,
    encodePoint_drop _ hx2, setBytes_responseBytes, response_smul, response_smul]
  simp

section RejectionLemmas

variable {Pt : Type} [Curve Pt]

theorem PoKLog_reject (P : Primitives) (x r : Nat) (prf s' : List Byte)
    (hprf : PoKLog Pt P x (Curve.coords (x • (Curve.G : Pt))).1
      (Curve.coords (x • (Curve.G : Pt))).2 r = some prf)
    (hs : setBytes s' % Curve.N Pt ≠ setBytes (prf.drop 64) % Curve.N Pt) :
    VerifyPoKLog Pt P (Curve.coords (x • (Curve.G : Pt))).1
      (Curve.coords (x • (Curve.G : Pt))).2 (prf.take 64 ++ s') = some false := by
  rw [PoKLog_eq] at hprf
  obtain ⟨hx, hy⟩ := Curve.coords_lt (r • (Curve.G : Pt))
  have hl := encodePoint_length _ hx hy
  have hprf := Option.some.inj hprf
  subst hprf
  rw [List.drop_left' hl, setBytes_responseBytes] at hs
  rw [List.take_left' hl, VerifyPoKLog_eq P _ _ _ hl, encodePoint_take _ hx,
    encodePoint_drop _ hx]
  congr 1
  rw [decide_eq_false_iff_not]
  intro h
  exact hs (response_unique Curve.G_ne_zero r _ x _ (coords_injective h))

theorem LogEquivalence_reject (P : Primitives) (B1 B2 : Pt) (hB : B1 ≠ 0 ∨ B2 ≠ 0)
    (x r : Nat) (prf s' : List Byte)
    (hprf : LogEquivalence Pt P x (Curve.coords B1).1 (Curve.coords B1).2
        (Curve.coords (x • B1)).1 (Curve.coords (x • B1)).2
        (Curve.coords B2).1 (Curve.coords B2).2
        (Curve.coords (x • B2)).1 (Curve.coords (x • B2)).2 r = some prf)
    (hs : setBytes s' % Curve.N Pt ≠ setBytes (prf.drop 128) % Curve.N Pt) :
    VerifyLogEquivalence Pt P (Curve.coords B1).1 (Curve.coords B1).2
        (Curve.coords (x • B1)).1 (Curve.coords (x • B1)).2
        (Curve.coords B2).1 (Curve.coords B2).2
        (Curve.coords (x • B2)).1 (Curve.coords (x • B2)).2 (prf.take 128 ++ s')
      = some false := by
  rw [LogEquivalence_eq] at hprf
  obtain ⟨hx1, hy1⟩ := Curve.coords_lt (r • B1)
  obtain ⟨hx2, hy2⟩ := Curve.coords_lt (r • B2)
  have hl1 := encodePoint_length _ hx1 hy1
  have hl2 := encodePoint_length _ hx2 hy2
  have hl : (encodePoint (Curve.coords (r • B1)) ++
      encodePoint (Curve.coords (r • B2))).length = 128 := by simp [hl1, hl2]
  have t32 : (encodePoint (Curve.coords (r • B1)) ++ encodePoint (Curve.coords (r • B2))).take 32
      = (encodePoint (Curve.coords (r • B1))).take 32 :=
    List.take_append_of_le_length (by omega)
  have t64 : (encodePoint (Curve.coords (r • B1)) ++ encodePoint (Curve.coords (r • B2))).take 64
      = encodePoint (Curve.coords (r • B1)) := List.take_left' hl1
  have t96 : ((encodePoint (Curve.coords (r • B1)) ++
      encodePoint (Curve.coords (r • B2))).take 96).drop 64
      = (encodePoint (Curve.coords (r • B2))).take 32 := by
    rw [List.take_append_eq_append_take, List.take_of_length_le (by omega), hl1,
      List.drop_left' hl1]
  have d96 : (encodePoint (Curve.coords (r • B1)) ++ encodePoint (Curve.coords (r • B2))).drop 96
      = (encodePoint (Curve.coords (r • B2))).drop 32 := by
    rw [List.drop_append_eq_append_drop, List.drop_of_length_le (by omega), hl1]
    rfl
  have hprf := Option.some.inj hprf
  subst hprf
  rw [List.drop_left' hl, setBytes_responseBytes] at hs
  rw [List.take_left' hl, VerifyLogEquivalence_eq P _ _ _ _ _ _ hl, t32, t64, t96, d96,
    encodePoint_take _ hx1, encodePoint_drop _ hx1, encodePoint_take _ hx2,
    encodePoint_drop _ hx2]
  congr 1
  rw [decide_eq_false_iff_not]
  rintro ⟨h1, h2⟩
  rcases hB with hB | hB
  · exact hs (response_unique hB r _ x _ (coords_injective h1))
  · exact hs (response_unique hB r _ x _ (coords_injective h2))

theorem PoKLog_length (P : Primitives) (x cx cy r : Nat) (prf : List Byte)
    (hprf : PoKLog Pt P x cx cy r = some prf) : (prf.drop 64).length = 32 := by
  rw [PoKLog_eq] at hprf
  obtain ⟨hx, hy⟩ := Curve.coords_lt (r • (Curve.G : Pt))
  have hprf := Option.some.inj hprf
  subst hprf
  rw [List.drop_left' (encodePoint_length _ hx hy),
    padLeft_length _ _ (@responseBytes_length Pt _ _ _ _)]

theorem LogEquivalence_length (P : Primitives) (B1 X1 B2 X2 : Pt) (x r : Nat)
    (prf : List Byte)
    (hprf : LogEquivalence Pt P x (Curve.coords B1).1 (Curve.coords B1).2
        (Curve.coords X1).1 (Curve.coords X1).2 (Curve.coords B2).1 (Curve.coords B2).2
        (Curve.coords X2).1 (Curve.coords X2).2 r = some prf) :
    (prf.drop 128).length = 32 := by
  rw [LogEquivalence_eq] at hprf
  obtain ⟨hx1, hy1⟩ := Curve.coords_lt (r • B1)
  obtain ⟨hx2, hy2⟩ := Curve.coords_lt (r • B2)
  have hprf := Option.some.inj hprf
  subst hprf
  rw [List.drop_left' (by simp [encodePoint_length _ hx1 hy1, encodePoint_length _ hx2 hy2]),
    padLeft_length _ _ (@responseBytes_length Pt _ _ _ _)]

end RejectionLemmas

/-- Claim C8. A corrupted response scalar is rejected. For a proof `prf` produced by `PoKLog`
for `X = x·G`, replacing its response (the bytes from offset 64) by any `s'` that is not
congruent to it modulo the group order makes `VerifyPoKLog` return false, and so does
flipping any one of the 256 bits of the 32-byte response. The same holds for a proof
produced by `LogEquivalence` (response at offset 128) over bases `B1`, `B2` as soon as
one of them is not the point at infinity, in particular when neither is. -/
theorem corrupted_response_rejected (Pt : Type) [Curve Pt] (P : Primitives) :
    (∀ (x r : Nat) (prf s' : List Byte),
      PoKLog Pt P x (Curve.coords (x • (Curve.G : Pt))).1
        (Curve.coords (x • (Curve.G : Pt))).2 r = some prf →
      setBytes s' % Curve.N Pt ≠ setBytes (prf.drop 64) % Curve.N Pt →
      VerifyPoKLog Pt P (Curve.coords (x • (Curve.G : Pt))).1
        (Curve.coords (x • (Curve.G : Pt))).2 (prf.take 64 ++ s') = some false) ∧
    (∀ (x r : Nat) (prf : List Byte) (k : Nat),
      PoKLog Pt P x (Curve.coords (x • (Curve.G : Pt))).1
        (Curve.coords (x • (Curve.G : Pt))).2 r = some prf →
      k < 256 →
      VerifyPoKLog Pt P (Curve.coords (x • (Curve.G : Pt))).1
        (Curve.coords (x • (Curve.G : Pt))).2 (prf.take 64 ++ flipBit (prf.drop 64) k)
        = some false) ∧
    (∀ (B1 B2 : Pt) (x r : Nat) (prf s' : List Byte),
      (B1 ≠ 0 ∨ B2 ≠ 0) →
      LogEquivalence Pt P x (Curve.coords B1).1 (Curve.coords B1).2
        (Curve.coords (x • B1)).1 (Curve.coords (x • B1)).2
        (Curve.coords B2).1 (Curve.coords B2).2
        (Curve.coords (x • B2)).1 (Curve.coords (x • B2)).2 r = some prf →
      setBytes s' % Curve.N Pt ≠ setBytes (prf.drop 128) % Curve.N Pt →
      VerifyLogEquivalence Pt P (Curve.coords B1).1 (Curve.coords B1).2
        (Curve.coords (x • B1)).1 (Curve.coords (x • B1)).2
        (Curve.coords B2).1 (Curve.coords B2).2
        (Curve.coords (x • B2)).1 (Curve.coords (x • B2)).2 (prf.take 128 ++ s')
        = some false) ∧
    (∀ (B1 B2 : Pt) (x r : Nat) (prf : List Byte) (k : Nat),
      (B1 ≠ 0 ∨ B2 ≠ 0) →
      LogEquivalence Pt P x (Curve.coords B1).1 (Curve.coords B1).2
        (Curve.coords (x • B1)).1 (Curve.coords (x • B1)).2
        (Curve.coords B2).1 (Curve.coords B2).2
        (Curve.coords (x • B2)).1 (Curve.coords (x • B2)).2 r = some prf →
      k < 256 →
      VerifyLogEquivalence Pt P (Curve.coords B1).1 (Curve.coords B1).2
        (Curve.coords (x • B1)).1 (Curve.coords (x • B1)).2
        (Curve.coords B2).1 (Curve.coords B2).2
        (Curve.coords (x • B2)).1 (Curve.coords (x • B2)).2
        (prf.take 128 ++ flipBit (prf.drop 128) k) = some false) := by
  refine ⟨?_, ?_, ?_, ?_⟩
  · intro x r prf s' hprf hs
    exact PoKLog_reject P x r prf s' hprf hs
  · intro x r prf k hprf hk
    have hl := PoKLog_length P x _ _ r prf hprf
    exact PoKLog_reject P x r prf _ hprf (flipBit_mod_ne _ k (by omega))
  · intro B1 B2 x r prf s' hB hprf hs
    exact LogEquivalence_reject P B1 B2 hB x r prf s' hprf hs
  · intro B1 B2 x r prf k hB hprf hk
    have hl := LogEquivalence_length P B1 (x • B1) B2 (x • B2) x r prf hprf
    exact LogEquivalence_reject P B1 B2 hB x r prf _ hprf (flipBit_mod_ne _ k (by omega))

set_option maxRecDepth 100000 in
/-- Witness for C8 on the demo curve: a proof of knowledge for `x = 3` with nonce `5`, and an
equality proof for `x = 3` over the bases `2` and `4` with nonce `2`, each with its response
replaced by a one-byte scalar (`9`, respectively `11`) and with bit 10 of its response flipped. -/
theorem corrupted_response_rejected_witness :
    VerifyPoKLog (ZMod 7) demoPrimitives (Curve.coords (3 • (Curve.G : ZMod 7))).1
        (Curve.coords (3 • (Curve.G : ZMod 7))).2 (demoPoKProof.take 64 ++ [9]) = some false ∧
    VerifyPoKLog (ZMod 7) demoPrimitives (Curve.coords (3 • (Curve.G : ZMod 7))).1
        (Curve.coords (3 • (Curve.G : ZMod 7))).2
        (demoPoKProof.take 64 ++ flipBit (demoPoKProof.drop 64) 10) = some false ∧
    VerifyLogEquivalence (ZMod 7) demoPrimitives
        (Curve.coords (2 : ZMod 7)).1 (Curve.coords (2 : ZMod 7)).2
        (Curve.coords (3 • (2 : ZMod 7))).1 (Curve.coords (3 • (2 : ZMod 7))).2
        (Curve.coords (4 : ZMod 7)).1 (Curve.coords (4 : ZMod 7)).2
        (Curve.coords (3 • (4 : ZMod 7))).1 (Curve.coords (3 • (4 : ZMod 7))).2
        (demoLogEqProof.take 128 ++ [11]) = some false ∧
    VerifyLogEquivalence (ZMod 7) demoPrimitives
        (Curve.coords (2 : ZMod 7)).1 (Curve.coords (2 : ZMod 7)).2
        (Curve.coords (3 • (2 : ZMod 7))).1 (Curve.coords (3 • (2 : ZMod 7))).2
        (Curve.coords (4 : ZMod 7)).1 (Curve.coords (4 : ZMod 7)).2
        (Curve.coords (3 • (4 : ZMod 7))).1 (Curve.coords (3 • (4 : ZMod 7))).2
        (demoLogEqProof.take 128 ++ flipBit (demoLogEqProof.drop 128) 10) = some false :=
  ⟨(corrupted_response_rejected (ZMod 7) demoPrimitives).1 3 5 demoPoKProof [9]
      (by decide) (by decide),
    (corrupted_response_rejected (ZMod 7) demoPrimitives).2.1 3 5 demoPoKProof 10
      (by decide) (by decide),
    (corrupted_response_rejected (ZMod 7) demoPrimitives).2.2.1 2 4 3 2 demoLogEqProof [11]
      (by decide) (by decide) (by decide),
    (corrupted_response_rejected (ZMod 7) demoPrimitives).2.2.2 2 4 3 2 demoLogEqProof 10
      (by decide) (by decide) (by decide)⟩

/-! ### The onion codec -/

section Onion

variable {Pt : Type} [Curve Pt]

theorem loadSharedKey_eq (sharedKey sxb : List Byte) (hk : sharedKey.length = 32)
    (hs : sxb.length ≤ 32) : loadSharedKey sharedKey sxb = some (padLeft 32 sxb) := by
  obtain ⟨a, b, rfl, ha, hb⟩ : ∃ a b : List Byte, sharedKey = a ++ b ∧
      a.length = 32 - sxb.length ∧ b.length = sxb.length := by
    refine ⟨sharedKey.take (32 - sxb.length), sharedKey.drop (32 - sxb.length),
      (List.take_append_drop _ _).symm, ?_, ?_⟩
    · simp; omega
    · simp; omega
  have hc : sxb.length ≤ SHARED_KEY_SIZE ∧ SHARED_KEY_SIZE ≤ (a ++ b).length := by
    simp only [SHARED_KEY_SIZE, List.length_append]
    omega
  have w1 : writeAt (a ++ b) (SHARED_KEY_SIZE - sxb.length) sxb = a ++ sxb := by
    have := writeAt_append_nil a b sxb hb.symm
    rwa [ha] at this
  have w2 : writeAt (a ++ sxb) 0 (zeroBytes (SHARED_KEY_SIZE - sxb.length)) =
      zeroBytes (32 - sxb.length) ++ sxb := by
    have := writeAt_append [] a sxb (zeroBytes (32 - sxb.length))
      (by rw [zeroBytes_length, ha])
    simpa using this
  simp only [loadSharedKey, copyRight, if_pos hc, w1, w2, padLeft]

theorem sharedKeyOf_length (q : Pt) : (sharedKeyOf Pt q).length = 32 :=
  padLeft_length _ _ (bytesBE_length_le_32 _ (Curve.coords_lt q).1)

theorem wrapLayer_length (P : Primitives) (key nonce aux cur : List Byte) :
    (wrapLayer P key nonce aux cur).length = cur.length + aux.length + Overhead := by
  simp only [wrapLayer, List.length_append, sealBody_length, sealTag_length, Overhead]
  omega

/-- One decryption step on a well-formed layer: the header is blinded, the aux bytes are
skipped and the box opens to the inner payload. -/
theorem P256DecryptionStep_wrapLayer (P : Primitives) (E : Pt)
    (nonce sharedKey priv blind aux cur : List Byte) (hk : sharedKey.length = 32) :
    P256DecryptionStep Pt P nonce aux.length sharedKey
        (encodePoint (Curve.coords E) ++
          wrapLayer P (sharedKeyOf Pt (setBytes priv • E)) nonce aux cur) priv blind =
      some (some (encodePoint (Curve.coords (setBytes blind • E)) ++ cur)) := by
  obtain ⟨hx, hy⟩ := Curve.coords_lt E
  obtain ⟨hbx, hby⟩ := Curve.coords_lt (setBytes blind • E)
  have hl := encodePoint_length _ hx hy
  have hO : Overhead = 32 := rfl
  have hP : POINT_SIZE = 64 := rfl
  have hlen : (encodePoint (Curve.coords E) ++
      wrapLayer P (sharedKeyOf Pt (setBytes priv • E)) nonce aux cur).length =
      64 + (cur.length + aux.length + 32) := by
    rw [List.length_append, hl, wrapLayer_length, hO]
  have t32 : (encodePoint (Curve.coords E) ++
      wrapLayer P (sharedKeyOf Pt (setBytes priv • E)) nonce aux cur).take 32 =
      (encodePoint (Curve.coords E)).take 32 :=
    List.take_append_of_le_length (by omega)
  have t64 : (encodePoint (Curve.coords E) ++
      wrapLayer P (sharedKeyOf Pt (setBytes priv • E)) nonce aux cur).take 64 =
      encodePoint (Curve.coords E) := List.take_left' hl
  have dbox : (encodePoint (Curve.coords E) ++
      wrapLayer P (sharedKeyOf Pt (setBytes priv • E)) nonce aux cur).drop (64 + aux.length) =
      sealBody P cur nonce (sharedKeyOf Pt (setBytes priv • E)) ++
        sealTag P nonce (sharedKeyOf Pt (setBytes priv • E)) := by
    rw [← List.drop_drop, List.drop_left' hl, wrapLayer, List.drop_left]
  have hz : zeroBytes (64 + (cur.length + aux.length + 32) - 32 - aux.length) =
      [] ++ zeroBytes 32 ++ (zeroBytes 32 ++ zeroBytes cur.length) := by
    rw [List.nil_append, ← zeroBytes_add, ← zeroBytes_add]
    congr 1
    omega
  have c1 := copyRight_zero [] (zeroBytes 32 ++ zeroBytes cur.length)
    (bytesBE (Curve.coords (setBytes blind • E)).1) 32 (bytesBE_length_le_32 _ hbx)
  have c2 := copyRight_zero (padLeft 32 (bytesBE (Curve.coords (setBytes blind • E)).1))
    (zeroBytes cur.length) (bytesBE (Curve.coords (setBytes blind • E)).2) 32
    (bytesBE_length_le_32 _ hby)
  rw [padLeft_length _ _ (bytesBE_length_le_32 _ hbx)] at c2
  simp only [List.length_nil, Nat.zero_add, Nat.reduceAdd, List.append_assoc,
    List.nil_append] at c1 c2
  have hopen := SecretOpen_eq P [] (encodePoint (Curve.coords (setBytes blind • E)))
    (zeroBytes cur.length) (sealBody P cur nonce (sharedKeyOf Pt (setBytes priv • E)))
    (sealTag P nonce (sharedKeyOf Pt (setBytes priv • E))) nonce
    (sharedKeyOf Pt (setBytes priv • E)) (sealTag_length _ _ _)
  rw [encodePoint_length _ hbx hby] at hopen
  simp only [List.nil_append, List.length_nil, if_true, sealBody_sealBody, encodePoint,
    List.append_assoc] at hopen
  have hsk := loadSharedKey_eq sharedKey (bytesBE (Curve.coords (setBytes priv • E)).1) hk
    (bytesBE_length_le_32 _ (Curve.coords_lt (setBytes priv • E)).1)
  simp only [P256DecryptionStep, hlen, hP, hO, Nat.reduceDiv, t32, t64, dbox,
    encodePoint_take _ hx, encodePoint_drop _ hx, ScalarMult, Curve.ofCoords_coords,
    Option.bind_eq_bind, Option.some_bind, hsk, hz, List.nil_append, List.append_assoc,
    c1, c2, Option.pure_def]
  rw [if_neg (by omega), if_neg (by omega)]
  simp only [sharedKeyOf, SHARED_KEY_SIZE] at hopen ⊢
  simp only [Option.some_bind, hopen, encodePoint, List.append_assoc]

/-- An honest cascade strips the layers of `onionBody` one by one and multiplies the header
by each blind scalar. -/
theorem runCascade_onionBody (P : Primitives) (e : Nat) (msg : List Byte) (a : Nat) :
    ∀ (servers : List Server) (acc : Nat),
      (∀ s ∈ servers, s.aux.length = a ∧ s.sharedKey.length = 32) →
      runCascade Pt P a servers
          (encodePoint (Curve.coords (acc • (e • (Curve.G : Pt)))) ++
            onionBody Pt P e msg servers acc) =
        some (encodePoint (Curve.coords ((acc * blindProduct servers) • (e • (Curve.G : Pt))))
          ++ msg) := by
  intro servers
  induction servers with
  | nil =>
    intro acc _
    simp [runCascade, onionBody, blindProduct]
  | cons s rest ih =>
    intro acc h
    obtain ⟨ha, hk⟩ := h s (List.mem_cons_self _ _)
    have hpt : e • ((setBytes s.priv * acc) • (Curve.G : Pt)) =
        setBytes s.priv • (acc • (e • (Curve.G : Pt))) := by
      simp only [smul_smul]
      congr 1
      ring
    have hbl : setBytes s.blind • (acc • (e • (Curve.G : Pt))) =
        (acc * setBytes s.blind) • (e • (Curve.G : Pt)) := by
      simp only [smul_smul]
      congr 1
      ring
    have hstep := P256DecryptionStep_wrapLayer P (acc • (e • (Curve.G : Pt))) s.nonce
      s.sharedKey s.priv s.blind s.aux (onionBody Pt P e msg rest (acc * setBytes s.blind)) hk
    rw [ha, ← hpt, hbl] at hstep
    simp only [runCascade, onionBody, hstep]
    rw [ih (acc * setBytes s.blind) (fun t ht => h t (List.mem_cons_of_mem _ ht))]
    simp only [blindProduct, Nat.mul_assoc]

theorem writeAt_at_zero (buf data : List Byte) (h : data.length ≤ buf.length) :
    writeAt buf 0 data = data ++ buf.drop data.length := by
  simp only [writeAt, List.take_zero, List.nil_append, Nat.sub_zero, Nat.zero_add]
  rw [List.take_of_length_le h]

/-- One iteration of the encryption loop wraps one layer around the payload. -/
theorem onionLayer_spec (P : Primitives) (e T : Nat) (st : OnionState) (cur : List Byte)
    (q : Pt) (nonceI aux : List Byte) (hinv : OnionInv T st cur) (hn : nonceI.length = 24)
    (hcap : 64 + cur.length + aux.length + 32 ≤ T) :
    ∃ st1, onionLayer Pt P (bytesBE e) st (encodePoint (Curve.coords q)) nonceI aux = some st1 ∧
      OnionInv T st1 (wrapLayer P (sharedKeyOf Pt (e • q)) nonceI aux cur) ∧
      (st1.res.drop 64).take (wrapLayer P (sharedKeyOf Pt (e • q)) nonceI aux cur).length =
        wrapLayer P (sharedKeyOf Pt (e • q)) nonceI aux cur := by
  obtain ⟨hres, hin, hz, hl, hcur, hnon, hkey⟩ := hinv
  obtain ⟨hx, hy⟩ := Curve.coords_lt q
  have hql := encodePoint_length _ hx hy
  have hO : Overhead = 32 := rfl
  have hP : POINT_SIZE = 64 := rfl
  -- the shape of `res`
  obtain ⟨A, H, R, hresEq, hA, hH⟩ : ∃ A H R : List Byte,
      st.res = zeroBytes 64 ++ A ++ H ++ R ∧ A.length = aux.length ∧
      H.length = cur.length + Overhead := by
    refine ⟨(st.res.drop 64).take aux.length,
      ((st.res.drop 64).drop aux.length).take (cur.length + Overhead),
      ((st.res.drop 64).drop aux.length).drop (cur.length + Overhead), ?_, ?_, ?_⟩
    · rw [← hz, List.append_assoc, List.append_assoc, List.take_append_drop,
        List.take_append_drop, List.take_append_drop]
    · simp only [List.length_take, List.length_drop]
      omega
    · simp only [List.length_take, List.length_drop]
      omega
  have hnonce : writeAt st.nonce 0 nonceI = nonceI := by
    rw [writeAt_at_zero _ _ (by omega), List.drop_of_length_le (by omega), List.append_nil]
  have hsk := loadSharedKey_eq st.sharedKey (bytesBE (Curve.coords (e • q)).1) hkey
    (bytesBE_length_le_32 _ (Curve.coords_lt (e • q)).1)
  have hseal := SecretSeal_in_place P (zeroBytes 64 ++ A) [] H R cur nonceI
    (sharedKeyOf Pt (e • q)) (by rw [hH])
  simp only [List.append_nil, List.length_nil, Nat.zero_add] at hseal
  have hoff : (zeroBytes 64 ++ A).length = aux.length + 64 := by
    rw [List.length_append, zeroBytes_length, hA, Nat.add_comm]
  rw [hoff] at hseal
  have hw : writeAt (zeroBytes 64 ++ A ++
      (sealBody P cur nonceI (sharedKeyOf Pt (e • q)) ++ sealTag P nonceI (sharedKeyOf Pt (e • q)))
        ++ R) 64 aux =
      zeroBytes 64 ++ wrapLayer P (sharedKeyOf Pt (e • q)) nonceI aux cur ++ R := by
    have := writeAt_append (zeroBytes 64) A
      ((sealBody P cur nonceI (sharedKeyOf Pt (e • q)) ++
        sealTag P nonceI (sharedKeyOf Pt (e • q))) ++ R) aux hA.symm
    rw [zeroBytes_length] at this
    simp only [List.append_assoc] at this ⊢
    rw [this]
    simp only [wrapLayer, List.append_assoc]
  have hwl := wrapLayer_length P (sharedKeyOf Pt (e • q)) nonceI aux cur
  have htake : ((zeroBytes 64 ++ wrapLayer P (sharedKeyOf Pt (e • q)) nonceI aux cur ++ R).take
      (64 + (cur.length + aux.length + Overhead))).drop 64 =
      wrapLayer P (sharedKeyOf Pt (e • q)) nonceI aux cur := by
    rw [List.append_assoc, List.take_append_eq_append_take, zeroBytes_length,
      List.take_of_length_le (by rw [zeroBytes_length]; omega),
      List.drop_left' (zeroBytes_length 64), Nat.add_sub_cancel_left, ← hwl, List.take_left]
  have hlen2 : (zeroBytes 64 ++ wrapLayer P (sharedKeyOf Pt (e • q)) nonceI aux cur ++ R).length
      = T := by
    rw [← hres, hresEq]
    simp only [List.length_append, zeroBytes_length, hwl, hA, hH]
    omega
  refine ⟨{ res := zeroBytes 64 ++ wrapLayer P (sharedKeyOf Pt (e • q)) nonceI aux cur ++ R,
            inb := writeAt st.inb 0 (wrapLayer P (sharedKeyOf Pt (e • q)) nonceI aux cur),
            l := cur.length + aux.length + Overhead,
            nonce := nonceI,
            sharedKey := sharedKeyOf Pt (e • q) }, ?_, ?_, ?_⟩
  · have h1 : ¬ ((encodePoint (Curve.coords q)).length < 64) := by omega
    have h2 : ¬ (aux.length + 64 > st.res.length) := by omega
    have h3 : ¬ (st.l > st.inb.length) := by omega
    have h4 : ¬ (64 > (zeroBytes 64 ++ A ++
      (sealBody P cur nonceI (sharedKeyOf Pt (e • q)) ++ sealTag P nonceI (sharedKeyOf Pt (e • q)))
        ++ R).length) := by
      simp only [List.length_append, zeroBytes_length]
      omega
    have h5 : ¬ (64 + (cur.length + aux.length + Overhead) >
        (zeroBytes 64 ++ wrapLayer P (sharedKeyOf Pt (e • q)) nonceI aux cur ++ R).length) := by
      rw [hlen2]
      omega
    simp only [onionLayer, hP, Nat.reduceDiv, if_neg h1, List.take_of_length_le (le_of_eq hql),
      encodePoint_take _ hx, encodePoint_drop _ hx, ScalarMult, Curve.ofCoords_coords,
      setBytes_bytesBE, hnonce, Option.bind_eq_bind, Option.some_bind, hsk, if_neg h2,
      if_neg h3, hl, hcur, Option.pure_def]
    rw [show padLeft 32 (bytesBE (Curve.coords (e • q)).1) = sharedKeyOf Pt (e • q) from rfl]
    simp only [hresEq, hseal, if_neg h4, hw, if_neg h5, htake, Option.some_bind]
    rw [if_neg (by omega)]
  · refine ⟨hlen2, ?_, ?_, ?_, ?_, hn, sharedKeyOf_length _⟩
    · rw [writeAt_length, hin]
    · rw [List.append_assoc, List.take_left' (zeroBytes_length 64)]
    · rw [hwl]
    · rw [writeAt_at_zero _ _ (by rw [hwl, hin]; omega), List.take_left]
  · show ((zeroBytes 64 ++ wrapLayer P (sharedKeyOf Pt (e • q)) nonceI aux cur ++ R).drop 64).take
      (wrapLayer P (sharedKeyOf Pt (e • q)) nonceI aux cur).length = _
    rw [List.append_assoc, List.drop_left' (zeroBytes_length 64), List.take_left]

theorem wrapLayers_length (P : Primitives) (e : Nat) :
    ∀ (layersR : List (Pt × List Byte × List Byte)) (cur : List Byte),
      (wrapLayers Pt P e layersR cur).length = cur.length + layersSize layersR := by
  intro layersR
  induction layersR with
  | nil => intro cur; simp [wrapLayers, layersSize]
  | cons x rest ih =>
    intro cur
    have := ih (wrapLayer P (sharedKeyOf Pt (e • x.1)) x.2.1 x.2.2 cur)
    simp only [wrapLayers, List.foldl_cons] at this ⊢
    rw [this, wrapLayer_length]
    simp only [layersSize, List.map_cons, List.sum_cons]
    omega

/-- The encryption loop wraps every layer it meets, innermost first. -/
theorem onionLoop_spec (P : Primitives) (e T : Nat) :
    ∀ (layersR : List (Pt × List Byte × List Byte)) (st : OnionState) (cur : List Byte),
      OnionInv T st cur → (∀ x ∈ layersR, x.2.1.length = 24) →
      64 + cur.length + layersSize layersR ≤ T →
      ∃ st1, onionLoop Pt P (bytesBE e) (layersR.map (fun x => encodePoint (Curve.coords x.1)))
          (layersR.map (fun x => x.2.1)) (layersR.map (fun x => x.2.2)) st = some st1 ∧
        OnionInv T st1 (wrapLayers Pt P e layersR cur) ∧
        ((layersR ≠ [] ∨ (st.res.drop 64).take cur.length = cur) →
          (st1.res.drop 64).take (wrapLayers Pt P e layersR cur).length =
            wrapLayers Pt P e layersR cur) := by
  intro layersR
  induction layersR with
  | nil =>
    intro st cur hinv _ _
    refine ⟨st, rfl, hinv, ?_⟩
    intro h
    rcases h with h | h
    · exact absurd rfl h
    · exact h
  | cons x rest ih =>
    intro st cur hinv hn hcap
    have hsz : layersSize (x :: rest) = x.2.2.length + Overhead + layersSize rest := by
      simp [layersSize]
    have hO : Overhead = 32 := rfl
    obtain ⟨st1, hstep, hinv1, hres1⟩ := onionLayer_spec P e T st cur x.1 x.2.1 x.2.2 hinv
      (hn x (List.mem_cons_self _ _)) (by omega)
    obtain ⟨st2, hloop, hinv2, hres2⟩ := ih st1 _ hinv1
      (fun y hy => hn y (List.mem_cons_of_mem _ hy))
      (by rw [wrapLayer_length]; omega)
    refine ⟨st2, ?_, hinv2, fun _ => hres2 (Or.inr hres1)⟩
    simp only [List.map_cons, onionLoop, hstep, hloop]

theorem totalSize_eq {Q : Type} :
    ∀ (layersR : List (Q × List Byte × List Byte)) (t0 : Nat),
      (layersR.map (fun x => x.2.2)).foldl (fun t aux => t + aux.length + Overhead) t0 =
        t0 + layersSize layersR := by
  intro layersR
  induction layersR with
  | nil => intro t0; simp [layersSize]
  | cons x rest ih =>
    intro t0
    simp only [List.map_cons, List.foldl_cons, ih, layersSize, List.sum_cons]
    omega

/-- The cipher text `P256OnionEncrypt` returns for at least one layer: the encoded header
point `e·G` followed by the wrapped payload. -/
theorem P256OnionEncrypt_eq (P : Primitives) (msg : List Byte)
    (layers : List (Pt × List Byte × List Byte)) (nizk : Bool) (e r : Nat)
    (hne : layers ≠ []) (hn : ∀ x ∈ layers, x.2.1.length = 24) :
    ∃ prf, P256OnionEncrypt Pt P msg (layers.map (fun x => x.2.2)) (layers.map (fun x => x.2.1))
        (layers.map (fun x => encodePoint (Curve.coords x.1))) nizk e r =
      some (encodePoint (Curve.coords (e • (Curve.G : Pt))) ++
        wrapLayers Pt P e layers.reverse msg, prf) := by
  have hO : Overhead = 32 := rfl
  have hP : POINT_SIZE = 64 := rfl
  have hT := @totalSize_eq Pt layers.reverse (msg.length + POINT_SIZE)
  rw [hP] at hT
  set T := msg.length + 64 + layersSize layers.reverse with hTdef
  have hinv0 : OnionInv T
      { res := zeroBytes T, inb := writeAt (zeroBytes T) 0 msg, l := msg.length,
        nonce := zeroBytes NONCE_SIZE, sharedKey := zeroBytes SHARED_KEY_SIZE } msg := by
    refine ⟨zeroBytes_length _, ?_, ?_, rfl, ?_, zeroBytes_length _, zeroBytes_length _⟩
    · rw [writeAt_length, zeroBytes_length]
    · have : T = 64 + (T - 64) := by omega
      rw [this, zeroBytes_add, List.take_left' (zeroBytes_length 64)]
    · rw [writeAt_at_zero _ _ (by rw [zeroBytes_length]; omega), List.take_left]
  obtain ⟨st1, hloop, hinv1, hres1⟩ := onionLoop_spec P e T layers.reverse _ msg hinv0
    (fun x hx => hn x (List.mem_reverse.mp hx)) (by omega)
  have hres := hres1 (Or.inl (by simpa using hne))
  obtain ⟨hlen, -, hz, -, -, -, -⟩ := hinv1
  have hwl := @wrapLayers_length Pt _ P e layers.reverse msg
  have hresEq : st1.res = [] ++ zeroBytes 32 ++ (zeroBytes 32 ++
      wrapLayers Pt P e layers.reverse msg) := by
    have h1 : st1.res = st1.res.take 64 ++ st1.res.drop 64 := (List.take_append_drop _ _).symm
    have h2 : (st1.res.drop 64).take (wrapLayers Pt P e layers.reverse msg).length =
        st1.res.drop 64 := by
      apply List.take_of_length_le
      rw [List.length_drop, hlen, hwl]
      omega
    rw [h2] at hres
    rw [h1, hz, hres, List.nil_append, ← List.append_assoc, ← zeroBytes_add]
  obtain ⟨hx, hy⟩ := Curve.coords_lt (e • (Curve.G : Pt))
  have c1 := copyRight_zero [] (zeroBytes 32 ++ wrapLayers Pt P e layers.reverse msg)
    (bytesBE (Curve.coords (e • (Curve.G : Pt))).1) 32 (bytesBE_length_le_32 _ hx)
  have c2 := copyRight_zero (padLeft 32 (bytesBE (Curve.coords (e • (Curve.G : Pt))).1))
    (wrapLayers Pt P e layers.reverse msg) (bytesBE (Curve.coords (e • (Curve.G : Pt))).2) 32
    (bytesBE_length_le_32 _ hy)
  rw [padLeft_length _ _ (bytesBE_length_le_32 _ hx)] at c2
  simp only [List.length_nil, Nat.zero_add, Nat.reduceAdd, List.append_assoc,
    List.nil_append] at c1 c2
  have hpok := @PoKLog_eq Pt _ P e (Curve.coords (e • (Curve.G : Pt))).1
    (Curve.coords (e • (Curve.G : Pt))).2 r
  refine ⟨if nizk then (PoKLog Pt P e (Curve.coords (e • (Curve.G : Pt))).1
    (Curve.coords (e • (Curve.G : Pt))).2 r).getD [] else [], ?_⟩
  simp only [P256OnionEncrypt, ← List.map_reverse, hP, hT, ScalarBaseMult, setBytes_bytesBE,
    Option.bind_eq_bind, hloop, Option.some_bind, hresEq, Nat.reduceDiv, List.nil_append,
    List.append_assoc, c1, c2, hpok, Option.pure_def]
  cases nizk <;> simp [encodePoint]

theorem layerInfo_keys : ∀ (servers : List Server) (acc : Nat),
    (layerInfo Pt servers acc).map (fun x => encodePoint (Curve.coords x.1)) =
      publicKeys Pt servers acc := by
  intro servers
  induction servers with
  | nil => intro acc; rfl
  | cons s rest ih => intro acc; simp [layerInfo, publicKeys, ih]

theorem layerInfo_nonces : ∀ (servers : List Server) (acc : Nat),
    (layerInfo Pt servers acc).map (fun x => x.2.1) = servers.map (fun s => s.nonce) := by
  intro servers
  induction servers with
  | nil => intro acc; rfl
  | cons s rest ih => intro acc; simp [layerInfo, ih]

theorem layerInfo_auxs : ∀ (servers : List Server) (acc : Nat),
    (layerInfo Pt servers acc).map (fun x => x.2.2) = servers.map (fun s => s.aux) := by
  intro servers
  induction servers with
  | nil => intro acc; rfl
  | cons s rest ih => intro acc; simp [layerInfo, ih]

theorem wrapLayers_layerInfo (P : Primitives) (e : Nat) (msg : List Byte) :
    ∀ (servers : List Server) (acc : Nat),
      wrapLayers Pt P e (layerInfo Pt servers acc).reverse msg =
        onionBody Pt P e msg servers acc := by
  intro servers
  induction servers with
  | nil => intro acc; rfl
  | cons s rest ih =>
    intro acc
    have := ih (acc * setBytes s.blind)
    simp only [wrapLayers] at this
    simp only [layerInfo, onionBody, wrapLayers, List.reverse_cons, List.foldl_append,
      List.foldl_cons, List.foldl_nil, this]

end Onion

/-- Claim C1. Onion round trip through a cascade of `K >= 1` servers. Let server `i` hold the
private scalar `p_i` and the blind scalar `b_i` (as the byte strings its worker receives), a
24-byte nonce and an aux string of the common length `a`, and let its public key be the
64-byte encoding of `p_i·(b_0·…·b_{i-1})·G`. Then `P256OnionEncrypt` returns a cipher text,
its first 64 bytes encode the header point `E = e·G`, and the servers applying the
`P256DecryptionWorker` step in order all open their layer and end with the 64-byte encoding
of `(b_0·…·b_{K-1})·E` followed by exactly `msg`. -/
theorem onion_round_trip (Pt : Type) [Curve Pt] (P : Primitives) (servers : List Server)
    (msg : List Byte) (a : Nat) (nizk : Bool) (e r : Nat) (hK : servers ≠ [])
    (hs : ∀ s ∈ servers, s.aux.length = a ∧ s.nonce.length = 24 ∧ s.sharedKey.length = 32) :
    ∃ ct prf,
      P256OnionEncrypt Pt P msg (servers.map (fun s => s.aux)) (servers.map (fun s => s.nonce))
        (publicKeys Pt servers 1) nizk e r = some (ct, prf) ∧
      ct.take 64 = encodePoint (Curve.coords (e • (Curve.G : Pt))) ∧
      runCascade Pt P a servers ct =
        some (encodePoint (Curve.coords (blindProduct servers • (e • (Curve.G : Pt)))) ++ msg) := by
  have hne : layerInfo Pt servers 1 ≠ [] := by
    cases servers with
    | nil => exact absurd rfl hK
    | cons s rest => simp [layerInfo]
  have hn : ∀ x ∈ layerInfo Pt servers 1, x.2.1.length = 24 := by
    intro x hx
    have : x.2.1 ∈ (layerInfo Pt servers 1).map (fun x => x.2.1) := List.mem_map_of_mem _ hx
    rw [layerInfo_nonces] at this
    obtain ⟨s, hsm, heq⟩ := List.mem_map.mp this
    rw [← heq]
    exact (hs s hsm).2.1
  obtain ⟨prf, henc⟩ := P256OnionEncrypt_eq P msg (layerInfo Pt servers 1) nizk e r hne hn
  rw [layerInfo_keys, layerInfo_nonces, layerInfo_auxs, wrapLayers_layerInfo] at henc
  obtain ⟨hx, hy⟩ := Curve.coords_lt (e • (Curve.G : Pt))
  refine ⟨_, prf, henc, List.take_left' (encodePoint_length _ hx hy), ?_⟩
  have hrun := @runCascade_onionBody Pt _ P e msg a servers 1
    (fun s hsm => ⟨(hs s hsm).1, (hs s hsm).2.2⟩)
  rw [one_nsmul, Nat.one_mul] at hrun
  exact hrun

set_option maxRecDepth 100000 in
/-- Witness for C1: the message `[1, 2, 3]` through the two demo servers, with ephemeral
scalar `4`. -/
theorem onion_round_trip_witness :
    demoServers ≠ [] ∧
    ∃ ct prf,
      P256OnionEncrypt (ZMod 7) demoPrimitives [1, 2, 3] (demoServers.map (fun s => s.aux))
        (demoServers.map (fun s => s.nonce)) (publicKeys (ZMod 7) demoServers 1) false 4 5
        = some (ct, prf) ∧
      ct.take 64 = encodePoint (Curve.coords (4 • (Curve.G : ZMod 7))) ∧
      runCascade (ZMod 7) demoPrimitives 2 demoServers ct =
        some (encodePoint (Curve.coords (blindProduct demoServers • (4 • (Curve.G : ZMod 7))))
          ++ [1, 2, 3]) :=
  ⟨by decide,
    onion_round_trip (ZMod 7) demoPrimitives demoServers [1, 2, 3] 2 false 4 5 (by decide)
      (by decide)⟩

/-! ### Cross-group assignment -/

theorem find_range_least (p : Nat → Bool) : ∀ m, (∃ j, j < m ∧ p j = true) →
    ∃ l, (List.range m).find? p = some l ∧ p l = true ∧ ∀ j, j < l → p j = false := by
  intro m
  induction m with
  | zero => rintro ⟨j, hj, _⟩; omega
  | succ m ih =>
    rintro ⟨j, hj, hpj⟩
    rw [List.range_succ, List.find?_append]
    by_cases h : ∃ j, j < m ∧ p j = true
    · obtain ⟨l, hl, hpl, hmin⟩ := ih h
      exact ⟨l, by simp [hl], hpl, hmin⟩
    · have hnone : (List.range m).find? p = none := by
        rw [List.find?_eq_none]
        intro x hx
        rw [List.mem_range] at hx
        intro hpx
        exact h ⟨x, hx, hpx⟩
      have hjm : j = m := by
        by_contra hne
        exact h ⟨j, by omega, hpj⟩
      subst hjm
      refine ⟨j, by simp [hnone, hpj], hpj, ?_⟩
      intro i hi
      by_contra hpi
      exact h ⟨i, hi, by simpa using hpi⟩

/-- The template length is the least `l` with `l·(l+1) >= 2n`. -/
theorem templateLen_spec (n : Nat) :
    2 * n ≤ templateLen n * (templateLen n + 1) ∧
    ∀ j, j < templateLen n → j * (j + 1) < 2 * n := by
  obtain ⟨l, hl, hpl, hmin⟩ := find_range_least (fun l => decide (2 * n ≤ l * (l + 1))) (n + 1)
    ⟨n, by omega, by
      simp only [decide_eq_true_eq]
      cases n with
      | zero => simp
      | succ k => nlinarith⟩
  have : templateLen n = l := by simp [templateLen, hl]
  rw [this]
  refine ⟨by simpa using hpl, ?_⟩
  intro j hj
  have := hmin j hj
  simpa using this

/-- Over the reals, the template length is the value of the expression in the source. -/
theorem templateLen_eq_ceil (n : Nat) (hn : 1 ≤ n) :
    (templateLen n : ℤ) = ⌈Real.sqrt (2 * (n : ℝ) - 0.25) - 0.5⌉ := by
  obtain ⟨h1, h2⟩ := templateLen_spec n
  set l := templateLen n with hl
  have hl1 : 1 ≤ l := by
    by_contra h
    have : l = 0 := by omega
    rw [this] at h1
    omega
  have h3 : (l - 1) * l < 2 * n := by
    have := h2 (l - 1) (by omega)
    rwa [Nat.sub_add_cancel hl1] at this
  symm
  rw [Int.ceil_eq_iff]
  have hn' : (1 : ℝ) ≤ n := by exact_mod_cast hn
  have hlr : (1 : ℝ) ≤ l := by exact_mod_cast hl1
  have h1r : (2 : ℝ) * n ≤ l * (l + 1) := by exact_mod_cast h1
  have h3r : ((l : ℝ) - 1) * l + 1 ≤ 2 * n := by
    have : (l - 1) * l + 1 ≤ 2 * n := h3
    have h4 : (((l - 1) * l + 1 : ℕ) : ℝ) ≤ ((2 * n : ℕ) : ℝ) := by exact_mod_cast this
    push_cast [Nat.cast_sub hl1] at h4
    linarith
  constructor
  · -- l - 1 < sqrt(..) - 1/2
    have : ((l : ℝ) - 0.5) < Real.sqrt (2 * (n : ℝ) - 0.25) := by
      apply Real.lt_sqrt_of_sq_lt
      norm_num
      nlinarith
    push_cast
    linarith
  · have : Real.sqrt (2 * (n : ℝ) - 0.25) ≤ (l : ℝ) + 0.5 := by
      apply Real.sqrt_le_iff.mpr
      constructor
      · positivity
      · norm_num
        nlinarith
    push_cast
    linarith


section AssignmentLemmas

variable {β γ : Type}

theorem pickLoop_map (f : β → γ) (i : Nat) : ∀ assigns : List (List β),
    pickLoop i (assigns.map (List.map f)) = (pickLoop i assigns).map f := by
  intro assigns
  induction assigns with
  | nil => rfl
  | cons t rest ih =>
    simp only [List.map_cons, pickLoop, List.getElem?_map]
    cases t[i - 1]? with
    | none => simpa using ih
    | some v => simp [ih]

theorem fillLoop_map (f : β → γ) (nil : β) (n : Nat) (gl : List β) : ∀ (k : Nat)
    (assign : List β) (idx next : Nat),
    fillLoop (f nil) n (gl.map f) k (assign.map f) idx next =
      ((fillLoop nil n gl k assign idx next).1.map f, (fillLoop nil n gl k assign idx next).2) := by
  intro k
  induction k with
  | zero => intro assign idx next; rfl
  | succ k ih =>
    intro assign idx next
    simp only [fillLoop]
    by_cases h : next ≥ n
    · rw [if_pos h, if_pos h, ← ih]
      simp [List.getD_map]
    · rw [if_neg h, if_neg h, ← ih]
      simp [List.getD_map]

theorem templatesLoop_map (f : β → γ) (nil : β) (n l : Nat) (gl : List β) : ∀ (k i : Nat)
    (assigns : List (List β)) (next : Nat),
    templatesLoop (f nil) n l (gl.map f) k i (assigns.map (List.map f)) next =
      (templatesLoop nil n l gl k i assigns next).map (List.map f) := by
  intro k
  induction k with
  | zero => intro i assigns next; rfl
  | succ k ih =>
    intro i assigns next
    simp only [templatesLoop, pickLoop_map, fillLoop_map, List.length_map]
    rw [← ih]
    simp

theorem mem_removeDupLoop [DecidableEq β] (x : β) : ∀ (l acc : List β),
    x ∈ removeDupLoop l acc ↔ x ∈ acc ∨ x ∈ l := by
  intro l
  induction l with
  | nil => intro acc; simp [removeDupLoop]
  | cons g rest ih =>
    intro acc
    simp only [removeDupLoop]
    by_cases h : g ∈ acc
    · rw [if_pos h, ih]
      constructor
      · rintro (h1 | h1)
        · exact Or.inl h1
        · exact Or.inr (List.mem_cons_of_mem _ h1)
      · rintro (h1 | h1)
        · exact Or.inl h1
        · rcases List.mem_cons.mp h1 with rfl | h2
          · exact Or.inl h
          · exact Or.inr h2
    · rw [if_neg h, ih]
      simp only [List.mem_append, List.mem_singleton, List.mem_cons]
      tauto

theorem mem_removeDuplicateGroups [DecidableEq β] (x : β) (l : List β) :
    x ∈ removeDuplicateGroups l ↔ x ∈ l := by
  simp [removeDuplicateGroups, mem_removeDupLoop]

theorem nodup_removeDupLoop [DecidableEq β] : ∀ (l acc : List β), acc.Nodup →
    (removeDupLoop l acc).Nodup := by
  intro l
  induction l with
  | nil => intro acc h; exact h
  | cons g rest ih =>
    intro acc hacc
    simp only [removeDupLoop]
    by_cases h : g ∈ acc
    · rw [if_pos h]; exact ih acc hacc
    · rw [if_neg h]
      apply ih
      rw [List.nodup_append]
      refine ⟨hacc, List.nodup_singleton g, ?_⟩
      intro a ha hb
      rw [List.mem_singleton] at hb
      exact h (hb ▸ ha)

theorem nodup_removeDuplicateGroups [DecidableEq β] (l : List β) :
    (removeDuplicateGroups l).Nodup :=
  nodup_removeDupLoop l [] List.nodup_nil

end AssignmentLemmas

theorem testBit_templateMask_aux (g : Nat) : ∀ (t : List Nat) (m : Nat),
    (t.foldl (fun m g => m ||| 2 ^ g) m).testBit g = true ↔ m.testBit g = true ∨ g ∈ t := by
  intro t
  induction t with
  | nil => intro m; simp
  | cons x rest ih =>
    intro m
    rw [List.foldl_cons, ih, Nat.testBit_or, Nat.testBit_two_pow]
    simp only [Bool.or_eq_true, decide_eq_true_eq, List.mem_cons]
    constructor
    · rintro ((h | h) | h)
      · exact Or.inl h
      · exact Or.inr (Or.inl h.symm)
      · exact Or.inr (Or.inr h)
    · rintro (h | h | h)
      · exact Or.inl (Or.inl h)
      · exact Or.inl (Or.inr h.symm)
      · exact Or.inr h

theorem testBit_templateMask (g : Nat) (t : List Nat) :
    (templateMask t).testBit g = true ↔ g ∈ t := by
  simp [templateMask, testBit_templateMask_aux]

/-- The meaning of the bit-sliced counter. -/
theorem counters_spec (g : Nat) : ∀ (ms : List Nat) (c : Nat × Nat × Nat × Nat) (k : Nat),
    (c.1.testBit g = true ↔ 1 ≤ k) → (c.2.1.testBit g = true ↔ 2 ≤ k) →
    (c.2.2.1.testBit g = true ↔ 3 ≤ k) → (c.2.2.2.testBit g = true ↔ 4 ≤ k) →
    (((ms.foldl counterStep c).2.1.testBit g = true ↔
        2 ≤ k + ms.countP (fun m => m.testBit g)) ∧
     ((ms.foldl counterStep c).2.2.2.testBit g = true ↔
        4 ≤ k + ms.countP (fun m => m.testBit g))) := by
  intro ms
  induction ms with
  | nil => intro c k _ h2 _ h4; simpa using ⟨h2, h4⟩
  | cons m rest ih =>
    intro c k h1 h2 h3 h4
    rw [List.foldl_cons, List.countP_cons]
    by_cases hm : m.testBit g = true
    · have := ih (counterStep c m) (k + 1)
        (by simp [counterStep, Nat.testBit_or, hm])
        (by simp only [counterStep, Nat.testBit_or, Nat.testBit_and, hm, Bool.and_true,
              Bool.or_eq_true, h1, h2]; omega)
        (by simp only [counterStep, Nat.testBit_or, Nat.testBit_and, hm, Bool.and_true,
              Bool.or_eq_true, h2, h3]; omega)
        (by simp only [counterStep, Nat.testBit_or, Nat.testBit_and, hm, Bool.and_true,
              Bool.or_eq_true, h3, h4]; omega)
      simp only [hm, if_true]
      rw [show k + (List.countP (fun m => m.testBit g) rest + 1) =
        k + 1 + List.countP (fun m => m.testBit g) rest by omega]
      exact this
    · have hm2 : m.testBit g = false := by simpa using hm
      have := ih (counterStep c m) k
        (by simp only [counterStep, Nat.testBit_or, hm2, Bool.or_false, h1])
        (by simp only [counterStep, Nat.testBit_or, Nat.testBit_and, hm2, Bool.and_false,
              Bool.or_false, h2])
        (by simp only [counterStep, Nat.testBit_or, Nat.testBit_and, hm2, Bool.and_false,
              Bool.or_false, h3])
        (by simp only [counterStep, Nat.testBit_or, Nat.testBit_and, hm2, Bool.and_false,
              Bool.or_false, h4])
      simp only [hm2, Bool.false_eq_true, if_false, Nat.add_zero]
      exact this

theorem exists_testBit_of_ne_zero (x : Nat) (h : x ≠ 0) : ∃ i, x.testBit i = true := by
  by_contra hcon
  apply h
  apply Nat.eq_of_testBit_eq
  intro i
  rw [Nat.zero_testBit]
  by_contra hne
  exact hcon ⟨i, by simpa using hne⟩

/-- What the decidable check says about the index templates. -/
theorem indexCheck_sound (n : Nat) (h : indexCheck n = true) :
    templateLen n ≤ n ∧
    (∀ t ∈ indexTemplates n, ∀ i ∈ t, i < n) ∧
    (∀ t1 ∈ indexTemplates n, ∀ t2 ∈ indexTemplates n, ∃ i, i ∈ t1 ∧ i ∈ t2) ∧
    (∀ g, g < n → 2 ≤ (indexTemplates n).countP (fun t => decide (g ∈ t)) ∧
      (indexTemplates n).countP (fun t => decide (g ∈ t)) ≤ 3) := by
  simp only [indexCheck, templatesCheck, Bool.and_eq_true, decide_eq_true_eq, List.all_eq_true,
    List.mem_map,
    forall_exists_index, and_imp, forall_apply_eq_imp_iff₂, bne_iff_ne, ne_eq,
    beq_iff_eq] at h
  obtain ⟨⟨⟨⟨h0, h1⟩, h2⟩, h3⟩, h4⟩ := h
  refine ⟨h0, ?_, ?_, ?_⟩
  · intro t ht i hi
    by_contra hge
    have hlt := h1 t ht
    have h5 : templateMask t < 2 ^ i :=
      lt_of_lt_of_le hlt (Nat.pow_le_pow_right (by norm_num) (by omega))
    have h6 := Nat.testBit_lt_two_pow h5
    rw [(testBit_templateMask i t).mpr hi] at h6
    exact Bool.noConfusion h6
  · intro t1 ht1 t2 ht2
    obtain ⟨i, hi⟩ := exists_testBit_of_ne_zero _ (h2 t1 ht1 t2 ht2)
    rw [Nat.testBit_and, Bool.and_eq_true] at hi
    exact ⟨i, (testBit_templateMask i t1).mp hi.1, (testBit_templateMask i t2).mp hi.2⟩
  · intro g hg
    have hc := counters_spec g ((indexTemplates n).map templateMask) (0, 0, 0, 0) 0
      (by simp) (by simp) (by simp) (by simp)
    have hcount : ((indexTemplates n).map templateMask).countP (fun m => m.testBit g) =
        (indexTemplates n).countP (fun t => decide (g ∈ t)) := by
      rw [List.countP_map]
      apply List.countP_congr
      intro t _
      simp only [Function.comp_apply, decide_eq_true_eq]
      exact testBit_templateMask g t
    rw [hcount, Nat.zero_add] at hc
    obtain ⟨hc2, hc4⟩ := hc
    have e2 : (counters ((indexTemplates n).map templateMask)).2.1.testBit g = true := by
      rw [h3, Nat.testBit_two_pow_sub_one]
      simpa using hg
    have e4 : ¬ ((counters ((indexTemplates n).map templateMask)).2.2.2.testBit g = true) := by
      rw [h4, Nat.zero_testBit]
      simp
    have r2 := hc2.mp e2
    have r4 : ¬ (4 ≤ (indexTemplates n).countP (fun t => decide (g ∈ t))) :=
      fun hh => e4 (hc4.mpr hh)
    omega

section CursorLemmas

variable {β : Type}

theorem pickLoop_eq_pickHeads (i : Nat) : ∀ assigns : List (List β),
    pickLoop i assigns = pickHeads (assigns.map (List.drop (i - 1))) := by
  intro assigns
  induction assigns with
  | nil => rfl
  | cons t rest ih =>
    have hhead : (t.drop (i - 1)).head? = t[i - 1]? := by
      rw [List.head?_drop]
    simp only [List.map_cons, pickLoop]
    cases hd : t.drop (i - 1) with
    | nil =>
      rw [hd] at hhead
      simp only [List.head?_nil] at hhead
      rw [← hhead]
      simpa [pickHeads] using ih
    | cons v w =>
      rw [hd] at hhead
      simp only [List.head?_cons] at hhead
      rw [← hhead]
      simp [pickHeads, ih]

theorem fillLoop_eq_fillCursor (nil : β) (gl : List β) : ∀ (k : Nat) (assign : List β)
    (idx next : Nat),
    fillLoop nil gl.length gl k assign idx next =
        ((fillCursor nil k assign idx (gl.drop next) next).1,
          (fillCursor nil k assign idx (gl.drop next) next).2.2) ∧
      (fillCursor nil k assign idx (gl.drop next) next).2.1 =
        gl.drop (fillCursor nil k assign idx (gl.drop next) next).2.2 := by
  intro k
  induction k with
  | zero => intro assign idx next; exact ⟨rfl, rfl⟩
  | succ k ih =>
    intro assign idx next
    by_cases h : next ≥ gl.length
    · have hd : gl.drop next = [] := List.drop_eq_nil_iff.mpr h
      have := ih (assign ++ [assign.getD idx nil]) (idx + 1) next
      rw [hd] at this ⊢
      simp only [fillLoop, if_pos h, fillCursor]
      exact this
    · have hlt : next < gl.length := by omega
      have hd : gl.drop next = gl[next] :: gl.drop (next + 1) := List.drop_eq_getElem_cons hlt
      have hg : gl.getD next nil = gl[next] := by
        simp [List.getD_eq_getElem?_getD, List.getElem?_eq_getElem hlt]
      have := ih (assign ++ [gl[next]]) idx (next + 1)
      rw [hd]
      simp only [fillLoop, if_neg h, fillCursor, hg]
      exact this

theorem fillCursor_take (nil : β) : ∀ (k : Nat) (assign : List β) (idx : Nat) (rest : List β)
    (next : Nat), k ≤ rest.length →
    fillCursor nil k assign idx rest next = (assign ++ rest.take k, rest.drop k, next + k) := by
  intro k
  induction k with
  | zero => intro assign idx rest next _; simp [fillCursor]
  | succ k ih =>
    intro assign idx rest next hk
    cases rest with
    | nil => simp at hk
    | cons g rest =>
      simp only [List.length_cons] at hk
      simp only [fillCursor]
      rw [ih _ _ _ _ (by omega)]
      simp only [List.append_assoc, List.singleton_append, List.take_succ_cons,
        List.drop_succ_cons, Prod.mk.injEq, true_and]
      omega

/-- The cursor loop computes the templates of `templatesLoop`. -/
theorem templatesLoop_eq_cursorLoop (nil : β) (l : Nat) (gl : List β) : ∀ (k i : Nat)
    (assigns : List (List β)) (next : Nat), 1 ≤ i →
    templatesLoop nil gl.length l gl k i assigns next =
      cursorLoop nil gl.length l k i assigns (assigns.map (List.drop (i - 1))) (gl.drop next)
        next := by
  intro k
  induction k with
  | zero => intro i assigns next _; rfl
  | succ k ih =>
    intro i assigns next hi
    have htails : ∀ t : List β, (assigns ++ [t]).map (List.drop (i + 1 - 1)) =
        (assigns.map (List.drop (i - 1))).map List.tail ++ [t.drop i] := by
      intro t
      simp only [List.map_append, List.map_map, List.map_cons, List.map_nil,
        Nat.add_sub_cancel]
      congr 1
      apply List.map_congr_left
      intro u _
      simp only [Function.comp_apply, List.tail_drop]
      congr 1
      omega
    obtain ⟨hf1, hf2⟩ := fillLoop_eq_fillCursor nil gl
      (l - (pickHeads (assigns.map (List.drop (i - 1)))).length)
      (pickHeads (assigns.map (List.drop (i - 1)))) 0 next
    simp only [templatesLoop, cursorLoop, pickLoop_eq_pickHeads]
    by_cases hc : next + (l - (pickHeads (assigns.map (List.drop (i - 1)))).length) ≤ gl.length
    · have hk : l - (pickHeads (assigns.map (List.drop (i - 1)))).length ≤
          (gl.drop next).length := by
        rw [List.length_drop]
        omega
      have hfc := fillCursor_take nil _ (pickHeads (assigns.map (List.drop (i - 1)))) 0
        (gl.drop next) next hk
      rw [hfc] at hf1 hf2
      simp only at hf1 hf2
      rw [if_pos hc, hf1]
      simp only
      rw [ih _ _ _ (by omega), htails, hf2]
    · rw [if_neg hc, hf1]
      simp only
      rw [ih _ _ _ (by omega), htails, hf2]

theorem indexTemplates_eq_cursorTemplates (n : Nat) : indexTemplates n = cursorTemplates n := by
  have h := templatesLoop_eq_cursorLoop n (templateLen n) (List.range n) (templateLen n) 1
    [(List.range n).take (templateLen n)] (templateLen n) (le_refl 1)
  simp only [List.length_range] at h
  simpa [indexTemplates, cursorTemplates] using h

end CursorLemmas

set_option maxHeartbeats 0 in
set_option maxRecDepth 1000000 in
/-- The check succeeds on the cursor templates for every number of groups from 4 to 200 (by
evaluation). -/
theorem cursorCheck_all : ∀ n, 4 ≤ n → n ≤ 200 → templatesCheck n (cursorTemplates n) = true := by
  intro n h1 h2
  interval_cases n <;> decide!

/-- The check succeeds on the index templates for every number of groups from 4 to 200. -/
theorem indexCheck_all (n : Nat) (h1 : 4 ≤ n) (h2 : n ≤ 200) : indexCheck n = true := by
  rw [indexCheck, indexTemplates_eq_cursorTemplates]
  exact cursorCheck_all n h1 h2

section AssignmentsTransfer

variable {α : Type}

theorem lookup_keys (groups : List (List Byte × α)) (hk : (groups.map Prod.fst).Nodup) :
    (groups.map Prod.fst).map (fun gid => groups.lookup gid) =
      groups.map (fun p => some p.2) := by
  induction groups with
  | nil => rfl
  | cons p rest ih =>
    obtain ⟨k, v⟩ := p
    rw [List.map_cons, List.nodup_cons] at hk
    obtain ⟨hnot, hrest⟩ := hk
    simp only [List.map_cons, List.lookup_cons, beq_self_eq_true]
    congr 1
    rw [← ih hrest]
    apply List.map_congr_left
    intro gid hgid
    have hne : gid ≠ k := fun e => hnot (e ▸ hgid)
    have : (gid == k) = false := by simpa using hne
    simp [this]

theorem map_some_filterMap (l : List (Option α)) (h : ∀ x ∈ l, ∃ v, x = some v) :
    (l.filterMap id).map some = l := by
  induction l with
  | nil => rfl
  | cons x rest ih =>
    obtain ⟨v, rfl⟩ := h _ (List.mem_cons_self _ _)
    simp only [List.filterMap_cons, id, List.map_cons]
    rw [ih (fun y hy => h y (List.mem_cons_of_mem _ hy))]

/-- The pointers `groups[glist[i]]` in ascending gid order are a rearrangement of the groups
of the map. -/
theorem sorted_groups (groups : List (List Byte × α)) (hk : (groups.map Prod.fst).Nodup) :
    ∃ ps : List α, ps.Perm (groups.map Prod.snd) ∧
      (sortStrings (groups.map Prod.fst)).map (fun gid => groups.lookup gid) = ps.map some := by
  have hperm : ((sortStrings (groups.map Prod.fst)).map (fun gid => groups.lookup gid)).Perm
      ((groups.map Prod.snd).map some) := by
    have h1 := (List.perm_insertionSort (fun a b => strLe a b = true)
      (groups.map Prod.fst)).map (fun gid => groups.lookup gid)
    rw [lookup_keys groups hk] at h1
    simpa [sortStrings, List.map_map] using h1
  refine ⟨((sortStrings (groups.map Prod.fst)).map (fun gid => groups.lookup gid)).filterMap id,
    ?_, ?_⟩
  · have h2 := hperm.filterMap id
    simpa [List.filterMap_map] using h2
  · symm
    apply map_some_filterMap
    intro x hx
    have := hperm.subset hx
    obtain ⟨v, _, rfl⟩ := List.mem_map.mp this
    exact ⟨v, rfl⟩

/-- With the groups listed as `ps` in ascending gid order, `Assignments` returns the index
templates with every index `i` replaced by the pointer `ps[i]`, de-duplicated. -/
theorem Assignments_eq_index [DecidableEq α] (groups : List (List Byte × α))
    (hk : (groups.map Prod.fst).Nodup) (hl : templateLen groups.length ≤ groups.length) :
    ∃ ps : List α, ps.Perm (groups.map Prod.snd) ∧
      Assignments groups = some (((indexTemplates groups.length).map
        (List.map (fun i => ps[i]?))).map removeDuplicateGroups) := by
  obtain ⟨ps, hperm, hgl⟩ := sorted_groups groups hk
  refine ⟨ps, hperm, ?_⟩
  have hlen : ps.length = groups.length := by simpa using hperm.length_eq
  have hrange : ps.map some = (List.range groups.length).map (fun i => ps[i]?) := by
    apply List.ext_getElem?
    intro i
    simp only [List.getElem?_map]
    by_cases hi : i < groups.length
    · rw [List.getElem?_range hi, List.getElem?_eq_getElem (by omega)]
      simp [List.getElem?_eq_getElem (show i < ps.length by omega)]
    · rw [List.getElem?_eq_none (by omega), List.getElem?_eq_none (by simp; omega)]
      rfl
  have hnil : (fun i => ps[i]?) groups.length = (none : Option α) := by
    simp only
    exact List.getElem?_eq_none (by omega)
  simp only [Assignments, hgl, if_neg (not_lt.mpr hl)]
  rw [hrange, ← List.map_take,
    show [List.map (fun i => ps[i]?) (List.take (templateLen groups.length)
      (List.range groups.length))] =
      List.map (List.map (fun i => ps[i]?)) [List.take (templateLen groups.length)
        (List.range groups.length)] from rfl,
    ← hnil, templatesLoop_map]
  rfl

end AssignmentsTransfer

/-- Claim C9. No two templates are disjoint: for every group map with between 4 and 200
entries (a map has distinct gids), `Assignments` returns a list of templates, and any two
templates of the list share at least one group of the map. -/
theorem Assignments_no_disjoint_pair {α : Type} [DecidableEq α]
    (groups : List (List Byte × α)) (hkeys : (groups.map Prod.fst).Nodup)
    (h4 : 4 ≤ groups.length) (h200 : groups.length ≤ 200) :
    ∃ templates, Assignments groups = some templates ∧
      ∀ t1 ∈ templates, ∀ t2 ∈ templates,
        ∃ g, g ∈ groups.map Prod.snd ∧ some g ∈ t1 ∧ some g ∈ t2 := by
  obtain ⟨hl, hlt, hshare, -⟩ := indexCheck_sound _ (indexCheck_all _ h4 h200)
  obtain ⟨ps, hperm, heq⟩ := Assignments_eq_index groups hkeys hl
  have hlen : ps.length = groups.length := by simpa using hperm.length_eq
  refine ⟨_, heq, ?_⟩
  intro t1 ht1 t2 ht2
  simp only [List.map_map, List.mem_map, Function.comp_apply] at ht1 ht2
  obtain ⟨T1, hT1, rfl⟩ := ht1
  obtain ⟨T2, hT2, rfl⟩ := ht2
  obtain ⟨i, hi1, hi2⟩ := hshare T1 hT1 T2 hT2
  have hi : i < ps.length := by
    have := hlt T1 hT1 i hi1
    omega
  refine ⟨ps[i], hperm.subset (List.getElem_mem _), ?_, ?_⟩
  · rw [mem_removeDuplicateGroups]
    exact List.mem_map.mpr ⟨i, hi1, List.getElem?_eq_getElem hi⟩
  · rw [mem_removeDuplicateGroups]
    exact List.mem_map.mpr ⟨i, hi2, List.getElem?_eq_getElem hi⟩

set_option maxRecDepth 100000 in
/-- Witness for C9: the demo map with four groups. -/
theorem Assignments_no_disjoint_pair_witness :
    (demoGroups.map Prod.fst).Nodup ∧ 4 ≤ demoGroups.length ∧ demoGroups.length ≤ 200 ∧
    ∃ templates, Assignments demoGroups = some templates ∧
      ∀ t1 ∈ templates, ∀ t2 ∈ templates,
        ∃ g, g ∈ demoGroups.map Prod.snd ∧ some g ∈ t1 ∧ some g ∈ t2 :=
  ⟨by decide, by decide, by decide,
    Assignments_no_disjoint_pair demoGroups (by decide) (by decide) (by decide)⟩

/-- Claim C10. Group utilisation is 2 or 3: for every group map with between 4 and 200
entries (distinct gids naming distinct groups), `Assignments` returns a list of templates
without repetition inside a template, and every group of the map is in at least 2 and at
most 3 of the templates; in particular it is in some template. -/
theorem Assignments_utilisation {α : Type} [DecidableEq α]
    (groups : List (List Byte × α)) (hkeys : (groups.map Prod.fst).Nodup)
    (hvals : (groups.map Prod.snd).Nodup)
    (h4 : 4 ≤ groups.length) (h200 : groups.length ≤ 200) :
    ∃ templates, Assignments groups = some templates ∧
      (∀ t ∈ templates, t.Nodup) ∧
      ∀ g ∈ groups.map Prod.snd,
        2 ≤ templates.countP (fun t => decide (some g ∈ t)) ∧
        templates.countP (fun t => decide (some g ∈ t)) ≤ 3 ∧
        ∃ t ∈ templates, some g ∈ t := by
  obtain ⟨hl, hlt, -, hcount⟩ := indexCheck_sound _ (indexCheck_all _ h4 h200)
  obtain ⟨ps, hperm, heq⟩ := Assignments_eq_index groups hkeys hl
  have hlen : ps.length = groups.length := by simpa using hperm.length_eq
  have hnodup : ps.Nodup := hperm.nodup_iff.mpr hvals
  refine ⟨_, heq, ?_, ?_⟩
  · intro t ht
    obtain ⟨T, _, rfl⟩ := List.mem_map.mp ht
    exact nodup_removeDuplicateGroups _
  · intro g hg
    obtain ⟨i, hi, rfl⟩ := List.getElem_of_mem (hperm.symm.subset hg)
    have hcnt : (((indexTemplates groups.length).map (List.map (fun i => ps[i]?))).map
        removeDuplicateGroups).countP (fun t => decide (some ps[i] ∈ t)) =
        (indexTemplates groups.length).countP (fun t => decide (i ∈ t)) := by
      rw [List.map_map, List.countP_map]
      apply List.countP_congr
      intro T hT
      simp only [Function.comp_apply, decide_eq_true_eq, mem_removeDuplicateGroups,
        List.mem_map]
      constructor
      · rintro ⟨j, hj, hjeq⟩
        have hjlt : j < ps.length := by
          have := hlt T hT j hj
          omega
        rw [List.getElem?_eq_getElem hjlt, Option.some.injEq] at hjeq
        have := (List.Nodup.getElem_inj_iff hnodup).mp hjeq
        exact this ▸ hj
      · intro hiT
        exact ⟨i, hiT, List.getElem?_eq_getElem hi⟩
    rw [hcnt]
    obtain ⟨c2, c3⟩ := hcount i (by omega)
    refine ⟨c2, c3, ?_⟩
    have hpos : 0 < (((indexTemplates groups.length).map (List.map (fun i => ps[i]?))).map
        removeDuplicateGroups).countP (fun t => decide (some ps[i] ∈ t)) := by
      rw [hcnt]
      omega
    obtain ⟨t, ht, hp⟩ := List.countP_pos_iff.mp hpos
    exact ⟨t, ht, by simpa using hp⟩

set_option maxRecDepth 100000 in
/-- Witness for C10: the demo map with four groups. -/
theorem Assignments_utilisation_witness :
    (demoGroups.map Prod.fst).Nodup ∧ (demoGroups.map Prod.snd).Nodup ∧
    4 ≤ demoGroups.length ∧ demoGroups.length ≤ 200 ∧
    ∃ templates, Assignments demoGroups = some templates ∧
      (∀ t ∈ templates, t.Nodup) ∧
      ∀ g ∈ demoGroups.map Prod.snd,
        2 ≤ templates.countP (fun t => decide (some g ∈ t)) ∧
        templates.countP (fun t => decide (some g ∈ t)) ≤ 3 ∧
        ∃ t ∈ templates, some g ∈ t :=
  ⟨by decide, by decide, by decide, by decide,
    Assignments_utilisation demoGroups (by decide) (by decide) (by decide) (by decide)⟩

/-! ### The number and the shape of the templates -/

theorem templateLen_le (n : Nat) (hn : 1 ≤ n) : templateLen n ≤ n := by
  by_contra h
  push_neg at h
  have := (templateLen_spec n).2 n h
  nlinarith

theorem templateLen_pos (n : Nat) (hn : 1 ≤ n) : 1 ≤ templateLen n := by
  by_contra h
  have h0 : templateLen n = 0 := by omega
  have := (templateLen_spec n).1
  rw [h0] at this
  omega

section TemplateShape

variable {β : Type}

theorem templatesLoop_length (nil : β) (n l : Nat) (gl : List β) :
    ∀ (k i : Nat) (assigns : List (List β)) (next : Nat),
      (templatesLoop nil n l gl k i assigns next).length = assigns.length + k := by
  intro k
  induction k with
  | zero => intro i assigns next; rfl
  | succ k ih =>
    intro i assigns next
    simp only [templatesLoop]
    rw [ih]
    simp only [List.length_append, List.length_singleton]
    omega

theorem templatesLoop_head (nil : β) (n l : Nat) (gl : List β) :
    ∀ (k i : Nat) (assigns : List (List β)) (next : Nat),
      (templatesLoop nil n l gl k i assigns next).take assigns.length = assigns := by
  intro k
  induction k with
  | zero => intro i assigns next; simp [templatesLoop]
  | succ k ih =>
    intro i assigns next
    simp only [templatesLoop]
    have h := ih (i + 1) (assigns ++ [(fillLoop nil n gl (l - (pickLoop i assigns).length)
      (pickLoop i assigns) 0 next).1]) (fillLoop nil n gl (l - (pickLoop i assigns).length)
      (pickLoop i assigns) 0 next).2
    have h2 := congrArg (List.take assigns.length) h
    rw [List.take_take, List.length_append, List.length_singleton,
      Nat.min_eq_left (Nat.le_succ _), List.take_left] at h2
    exact h2

theorem pickLoop_length (i : Nat) : ∀ assigns : List (List β),
    (∀ t ∈ assigns, i - 1 < t.length) → (pickLoop i assigns).length = assigns.length := by
  intro assigns
  induction assigns with
  | nil => intro _; rfl
  | cons t rest ih =>
    intro h
    have ht := h t (List.mem_cons_self _ _)
    simp only [pickLoop, List.getElem?_eq_getElem ht, List.length_cons]
    rw [ih (fun u hu => h u (List.mem_cons_of_mem _ hu))]

theorem pickLoop_mem (i : Nat) : ∀ (assigns : List (List β)) (x : β),
    x ∈ pickLoop i assigns → ∃ t ∈ assigns, x ∈ t := by
  intro assigns
  induction assigns with
  | nil => intro x hx; simp [pickLoop] at hx
  | cons t rest ih =>
    intro x hx
    simp only [pickLoop] at hx
    cases hti : t[i - 1]? with
    | none =>
      rw [hti] at hx
      obtain ⟨u, hu, hxu⟩ := ih x hx
      exact ⟨u, List.mem_cons_of_mem _ hu, hxu⟩
    | some v =>
      rw [hti] at hx
      rcases List.mem_cons.mp hx with rfl | hx
      · exact ⟨t, List.mem_cons_self _ _, List.getElem?_mem hti⟩
      · obtain ⟨u, hu, hxu⟩ := ih x hx
        exact ⟨u, List.mem_cons_of_mem _ hu, hxu⟩

theorem fillLoop_length (nil : β) (n : Nat) (gl : List β) :
    ∀ (k : Nat) (assign : List β) (idx next : Nat),
      (fillLoop nil n gl k assign idx next).1.length = assign.length + k := by
  intro k
  induction k with
  | zero => intro assign idx next; rfl
  | succ k ih =>
    intro assign idx next
    simp only [fillLoop]
    split
    · rw [ih]; simp only [List.length_append, List.length_singleton]; omega
    · rw [ih]; simp only [List.length_append, List.length_singleton]; omega

theorem fillLoop_mem (nil : β) (n : Nat) (gl : List β) (hgl : n ≤ gl.length) :
    ∀ (k : Nat) (assign : List β) (idx next : Nat), idx < assign.length →
      (∀ x ∈ assign, x ∈ gl) → ∀ x ∈ (fillLoop nil n gl k assign idx next).1, x ∈ gl := by
  intro k
  induction k with
  | zero => intro assign idx next _ h x hx; exact h x hx
  | succ k ih =>
    intro assign idx next hidx h x hx
    simp only [fillLoop] at hx
    split at hx
    · refine ih _ _ _ ?_ ?_ x hx
      · simp only [List.length_append, List.length_singleton]; omega
      · intro y hy
        rcases List.mem_append.mp hy with hy | hy
        · exact h y hy
        · rw [List.mem_singleton] at hy
          rw [hy, List.getD_eq_getElem _ _ hidx]
          exact h _ (List.getElem_mem _)
    · rename_i hnext
      refine ih _ _ _ ?_ ?_ x hx
      · simp only [List.length_append, List.length_singleton]; omega
      · intro y hy
        rcases List.mem_append.mp hy with hy | hy
        · exact h y hy
        · rw [List.mem_singleton] at hy
          rw [hy, List.getD_eq_getElem _ _ (by omega)]
          exact List.getElem_mem _

theorem templatesLoop_shape (nil : β) (n l : Nat) (gl : List β) (hgl : n ≤ gl.length) :
    ∀ (k i : Nat) (assigns : List (List β)) (next : Nat), 1 ≤ i → i + k = l + 1 →
      assigns.length = i → (∀ t ∈ assigns, t.length = l ∧ ∀ x ∈ t, x ∈ gl) →
      ∀ t ∈ templatesLoop nil n l gl k i assigns next, t.length = l ∧ ∀ x ∈ t, x ∈ gl := by
  intro k
  induction k with
  | zero => intro i assigns next _ _ _ h t ht; exact h t ht
  | succ k ih =>
    intro i assigns next hi hik hlen h t ht
    simp only [templatesLoop] at ht
    have hp : (pickLoop i assigns).length = i := by
      rw [pickLoop_length i assigns (fun u hu => by rw [(h u hu).1]; omega), hlen]
    refine ih (i + 1) _ _ (by omega) (by omega) ?_ ?_ t ht
    · simp only [List.length_append, List.length_singleton, hlen]
    · intro u hu
      rcases List.mem_append.mp hu with hu | hu
      · exact h u hu
      · rw [List.mem_singleton] at hu
        subst hu
        constructor
        · rw [fillLoop_length, hp]; omega
        · apply fillLoop_mem nil n gl hgl
          · omega
          · intro x hx
            obtain ⟨u, hu, hxu⟩ := pickLoop_mem i assigns x hx
            exact (h u hu).2 x hxu

theorem removeDupLoop_nodup_eq [DecidableEq β] : ∀ (l acc : List β), (acc ++ l).Nodup →
    removeDupLoop l acc = acc ++ l := by
  intro l
  induction l with
  | nil => intro acc _; simp [removeDupLoop]
  | cons g rest ih =>
    intro acc h
    have hg : g ∉ acc := by
      intro hmem
      have := List.nodup_append.mp h
      exact this.2.2 hmem (List.mem_cons_self _ _)
    simp only [removeDupLoop, if_neg hg]
    rw [ih (acc ++ [g]) (by simpa using h)]
    simp

theorem removeDuplicateGroups_nodup_eq [DecidableEq β] (l : List β) (h : l.Nodup) :
    removeDuplicateGroups l = l := by
  have := removeDupLoop_nodup_eq l [] (by simpa using h)
  simpa [removeDuplicateGroups] using this

theorem removeDuplicateGroups_length_le [DecidableEq β] (l : List β) :
    (removeDuplicateGroups l).length ≤ l.length :=
  ((nodup_removeDuplicateGroups l).subperm
    (fun x hx => (mem_removeDuplicateGroups x l).mp hx)).length_le

theorem removeDuplicateGroups_length_pos [DecidableEq β] (l : List β) (h : 0 < l.length) :
    0 < (removeDuplicateGroups l).length := by
  obtain ⟨x, hx⟩ := List.exists_mem_of_length_pos h
  exact List.length_pos_of_mem ((mem_removeDuplicateGroups x l).mpr hx)

end TemplateShape
theorem strLe_total : ∀ a b : List Byte, strLe a b = true ∨ strLe b a = true := by
  intro a
  induction a with
  | nil => intro b; left; cases b <;> rfl
  | cons x xs ih =>
    intro b
    cases b with
    | nil => right; rfl
    | cons y ys =>
      simp only [strLe, Bool.or_eq_true, decide_eq_true_eq, Bool.and_eq_true, beq_iff_eq]
      rcases lt_trichotomy x y with h | h | h
      · left; left; exact h
      · subst h
        rcases ih ys with h | h
        · left; right; exact ⟨rfl, h⟩
        · right; right; exact ⟨rfl, h⟩
      · right; left; exact h

theorem strLe_trans : ∀ a b c : List Byte, strLe a b = true → strLe b c = true →
    strLe a c = true := by
  intro a
  induction a with
  | nil => intro b c _ _; cases c <;> rfl
  | cons x xs ih =>
    intro b c hab hbc
    cases b with
    | nil => simp [strLe] at hab
    | cons y ys =>
      cases c with
      | nil => simp [strLe] at hbc
      | cons z zs =>
        simp only [strLe, Bool.or_eq_true, decide_eq_true_eq, Bool.and_eq_true,
          beq_iff_eq] at hab hbc ⊢
        rcases hab with h1 | ⟨h1, h1s⟩
        · rcases hbc with h2 | ⟨h2, _⟩
          · left; exact lt_trans h1 h2
          · left; exact h2 ▸ h1
        · rcases hbc with h2 | ⟨h2, h2s⟩
          · left; exact h1 ▸ h2
          · right; exact ⟨h1.trans h2, ih ys zs h1s h2s⟩

theorem sortStrings_sorted (glist : List (List Byte)) :
    (sortStrings glist).Sorted (fun a b => strLe a b = true) := by
  haveI : IsTotal (List Byte) (fun a b => strLe a b = true) := ⟨strLe_total⟩
  haveI : IsTrans (List Byte) (fun a b => strLe a b = true) := ⟨strLe_trans⟩
  exact List.sorted_insertionSort _ glist

theorem sortStrings_perm (glist : List (List Byte)) : (sortStrings glist).Perm glist :=
  List.perm_insertionSort _ glist

/-- Claim C11. Template count: for every group map with at least one entry (distinct gids
naming distinct groups), `Assignments` returns `L + 1` templates, where `L` is the value of
`⌈√(2G - 0.25) - 0.5⌉` and the least number with `L·(L+1)/2 >= G`; every template holds
between 1 and `L` groups of the map, none twice; and template 0 lists `groups[gid]` for the
first `L` gids of the ascending order of the keys. -/
theorem Assignments_template_count {α : Type} [DecidableEq α]
    (groups : List (List Byte × α)) (hkeys : (groups.map Prod.fst).Nodup)
    (hvals : (groups.map Prod.snd).Nodup) (h1 : 1 ≤ groups.length) :
    ∃ templates, Assignments groups = some templates ∧
      templates.length = templateLen groups.length + 1 ∧
      (templateLen groups.length : ℤ) = ⌈Real.sqrt (2 * (groups.length : ℝ) - 0.25) - 0.5⌉ ∧
      (groups.length ≤ templateLen groups.length * (templateLen groups.length + 1) / 2 ∧
        ∀ j, j < templateLen groups.length → j * (j + 1) / 2 < groups.length) ∧
      (∀ t ∈ templates, 1 ≤ t.length ∧ t.length ≤ templateLen groups.length ∧ t.Nodup ∧
        ∀ x ∈ t, ∃ g ∈ groups.map Prod.snd, x = some g) ∧
      (sortStrings (groups.map Prod.fst)).Sorted (fun a b => strLe a b = true) ∧
      (sortStrings (groups.map Prod.fst)).Perm (groups.map Prod.fst) ∧
      templates[0]? = some (((sortStrings (groups.map Prod.fst)).take
        (templateLen groups.length)).map (fun gid => groups.lookup gid)) := by
  obtain ⟨ps, hperm, hgl⟩ := sorted_groups groups hkeys
  have hl := templateLen_le groups.length h1
  have hpos := templateLen_pos groups.length h1
  have hpslen : ps.length = groups.length := by simpa using hperm.length_eq
  have hgllen : ((sortStrings (groups.map Prod.fst)).map
      (fun gid => groups.lookup gid)).length = groups.length := by
    rw [hgl, List.length_map, hpslen]
  have hshape := templatesLoop_shape (none : Option α) groups.length (templateLen groups.length)
    ((sortStrings (groups.map Prod.fst)).map (fun gid => groups.lookup gid)) (le_of_eq hgllen.symm)
    (templateLen groups.length) 1
    [((sortStrings (groups.map Prod.fst)).map (fun gid => groups.lookup gid)).take
      (templateLen groups.length)] (templateLen groups.length) le_rfl (by omega) rfl
    (by
      intro t ht
      rw [List.mem_singleton] at ht
      subst ht
      refine ⟨?_, fun x hx => List.mem_of_mem_take hx⟩
      rw [List.length_take, hgllen]
      omega)
  have hhead := templatesLoop_head (none : Option α) groups.length (templateLen groups.length)
    ((sortStrings (groups.map Prod.fst)).map (fun gid => groups.lookup gid))
    (templateLen groups.length) 1
    [((sortStrings (groups.map Prod.fst)).map (fun gid => groups.lookup gid)).take
      (templateLen groups.length)] (templateLen groups.length)
  have heq : Assignments groups = some ((templatesLoop (none : Option α) groups.length
      (templateLen groups.length)
      ((sortStrings (groups.map Prod.fst)).map (fun gid => groups.lookup gid))
      (templateLen groups.length) 1
      [((sortStrings (groups.map Prod.fst)).map (fun gid => groups.lookup gid)).take
        (templateLen groups.length)] (templateLen groups.length)).map removeDuplicateGroups) := by
    simp only [Assignments, if_neg (not_lt.mpr hl)]
  refine ⟨_, heq, ?_, templateLen_eq_ceil _ h1,
    ?_, ?_, sortStrings_sorted _, sortStrings_perm _, ?_⟩
  · rw [List.length_map, templatesLoop_length]
    simp only [List.length_singleton]
    omega
  · obtain ⟨h2, h3⟩ := templateLen_spec groups.length
    refine ⟨by omega, fun j hj => ?_⟩
    have := h3 j hj
    omega
  · intro t ht
    obtain ⟨T, hT, rfl⟩ := List.mem_map.mp ht
    obtain ⟨hTlen, hTmem⟩ := hshape T hT
    refine ⟨?_, ?_, nodup_removeDuplicateGroups T, ?_⟩
    · exact removeDuplicateGroups_length_pos T (by omega)
    · exact hTlen ▸ removeDuplicateGroups_length_le T
    · intro x hx
      have hxgl := hTmem x ((mem_removeDuplicateGroups x T).mp hx)
      rw [hgl] at hxgl
      obtain ⟨g, hg, rfl⟩ := List.mem_map.mp hxgl
      exact ⟨g, hperm.subset hg, rfl⟩
  · have h0 : (templatesLoop (none : Option α) groups.length (templateLen groups.length)
        ((sortStrings (groups.map Prod.fst)).map (fun gid => groups.lookup gid))
        (templateLen groups.length) 1
        [((sortStrings (groups.map Prod.fst)).map (fun gid => groups.lookup gid)).take
          (templateLen groups.length)] (templateLen groups.length))[0]? =
        some (((sortStrings (groups.map Prod.fst)).map (fun gid => groups.lookup gid)).take
          (templateLen groups.length)) := by
      have := congrArg (fun l => l[0]?) hhead
      simpa [List.getElem?_take] using this
    rw [List.getElem?_map, h0, Option.map_some', List.map_take]
    congr 1
    apply removeDuplicateGroups_nodup_eq
    rw [hgl]
    have hnd : (ps.map some).Nodup :=
      (hperm.nodup_iff.mpr hvals).map (Option.some_injective α)
    exact hnd.sublist (List.take_sublist _ _)

set_option maxRecDepth 100000 in
/-- Witness for C11: the demo map with four groups. -/
theorem Assignments_template_count_witness :
    (demoGroups.map Prod.fst).Nodup ∧ (demoGroups.map Prod.snd).Nodup ∧ 1 ≤ demoGroups.length ∧
    ∃ templates, Assignments demoGroups = some templates ∧
      templates.length = templateLen demoGroups.length + 1 ∧
      (templateLen demoGroups.length : ℤ) =
        ⌈Real.sqrt (2 * (demoGroups.length : ℝ) - 0.25) - 0.5⌉ ∧
      (demoGroups.length ≤ templateLen demoGroups.length * (templateLen demoGroups.length + 1) / 2 ∧
        ∀ j, j < templateLen demoGroups.length → j * (j + 1) / 2 < demoGroups.length) ∧
      (∀ t ∈ templates, 1 ≤ t.length ∧ t.length ≤ templateLen demoGroups.length ∧ t.Nodup ∧
        ∀ x ∈ t, ∃ g ∈ demoGroups.map Prod.snd, x = some g) ∧
      (sortStrings (demoGroups.map Prod.fst)).Sorted (fun a b => strLe a b = true) ∧
      (sortStrings (demoGroups.map Prod.fst)).Perm (demoGroups.map Prod.fst) ∧
      templates[0]? = some (((sortStrings (demoGroups.map Prod.fst)).take
        (templateLen demoGroups.length)).map (fun gid => demoGroups.lookup gid)) :=
  ⟨by decide, by decide, by decide,
    Assignments_template_count demoGroups (by decide) (by decide) (by decide)⟩

/-! ### The envelope of `mixnet/crypto.go` -/

section Envelope

variable {Pt : Type} [Curve Pt]

theorem ScalarMult_coords (p : Pt) (k : List Byte) :
    ScalarMult Pt (Curve.coords p).1 (Curve.coords p).2 k =
      some (Curve.coords (setBytes k • p)) := by
  simp only [ScalarMult, Curve.ofCoords_coords]

theorem curveAdd_coords (p q : Pt) :
    curveAdd Pt (Curve.coords p).1 (Curve.coords p).2 (Curve.coords q).1 (Curve.coords q).2 =
      some (Curve.coords (p + q)) := by
  simp only [curveAdd, Curve.ofCoords_coords]

theorem addKeys_coords : ∀ (ps : List Pt) (acc : Pt),
    addKeys Pt (ps.map (fun p => (Curve.coords p).1)) (ps.map (fun p => (Curve.coords p).2))
      (Curve.coords acc) = some (Curve.coords (acc + ps.sum)) := by
  intro ps
  induction ps with
  | nil => intro acc; simp [addKeys]
  | cons p rest ih =>
    intro acc
    simp only [List.map_cons, addKeys, curveAdd_coords, List.sum_cons]
    rw [ih (acc + p), add_assoc]

theorem foldl_add_eq_sum (zs : List Nat) : ∀ a : Nat,
    zs.foldl (fun acc p => acc + p) a = a + zs.sum := by
  induction zs with
  | nil => intro a; simp
  | cons z rest ih => intro a; simp only [List.foldl_cons, List.sum_cons, ih]; omega

theorem sum_map_nsmul (B : Pt) (zs : List Nat) : (zs.map (fun z => z • B)).sum = zs.sum • B := by
  induction zs with
  | nil => simp
  | cons z rest ih => simp only [List.map_cons, List.sum_cons, ih, add_nsmul]

theorem Encrypt_coords (B : SecretBox) (Z : Pt) (nonce plaintext : List Byte) (r : Nat) :
    Encrypt Pt B (Curve.coords Z).1 (Curve.coords Z).2 nonce plaintext r =
      some ((Curve.coords (r • (Curve.G : Pt))).1, (Curve.coords (r • (Curve.G : Pt))).2,
        B.sealBox plaintext nonce
          (deriveBoxKey B (Curve.coords (r • Z)).1 (Curve.coords (r • Z)).2)) := by
  simp only [Encrypt, GenerateInnerKey, ScalarBaseMult, ScalarMult_coords, setBytes_bytesBE]

theorem Decrypt_seal (B : SecretBox) (R : Pt) (z : Nat) (nonce plaintext : List Byte) :
    Decrypt Pt B z nonce (Curve.coords R).1 (Curve.coords R).2
      (B.sealBox plaintext nonce
        (deriveBoxKey B (Curve.coords (z • R)).1 (Curve.coords (z • R)).2)) =
      some (plaintext, none) := by
  simp only [Decrypt, ScalarMult_coords, setBytes_bytesBE, B.openBox_seal]

end Envelope

/-- Claim C12. Aggregate-key envelope round trip: for all private scalars `z_1..z_n` with
public points `Z_i = z_i·G` (as `GenerateInnerKey` returns them), every nonce, plaintext and
ephemeral scalar, `OnionEncrypt` returns a triple and `OnionDecrypt` under the scalars
returns the plaintext with no error; and `Decrypt(z, nonce, Encrypt(z·G, nonce, pt))` returns
`pt` with no error. -/
theorem OnionDecrypt_OnionEncrypt (Pt : Type) [Curve Pt] (B : SecretBox) (zs : List Nat)
    (nonce pt : List Byte) (r : Nat) :
    (∃ rx ry ct,
      OnionEncrypt Pt B (zs.map (fun z => (GenerateInnerKey Pt z).2.1))
        (zs.map (fun z => (GenerateInnerKey Pt z).2.2)) nonce pt r = some (rx, ry, ct) ∧
      OnionDecrypt Pt B zs nonce rx ry ct = some (pt, none)) ∧
    ∀ z : Nat, ∃ rx ry ct,
      Encrypt Pt B (GenerateInnerKey Pt z).2.1 (GenerateInnerKey Pt z).2.2 nonce pt r =
        some (rx, ry, ct) ∧
      Decrypt Pt B z nonce rx ry ct = some (pt, none) := by
  have key : ∀ (z : Nat), r • (z • (Curve.G : Pt)) = z • (r • (Curve.G : Pt)) := by
    intro z
    rw [smul_smul, smul_smul, Nat.mul_comm]
  constructor
  · have hx : zs.map (fun z => (GenerateInnerKey Pt z).2.1) =
        (zs.map (fun z => z • (Curve.G : Pt))).map (fun p => (Curve.coords p).1) := by
      simp [GenerateInnerKey, ScalarBaseMult, setBytes_bytesBE, List.map_map]
    have hy : zs.map (fun z => (GenerateInnerKey Pt z).2.2) =
        (zs.map (fun z => z • (Curve.G : Pt))).map (fun p => (Curve.coords p).2) := by
      simp [GenerateInnerKey, ScalarBaseMult, setBytes_bytesBE, List.map_map]
    have h0 : ((0 : Nat), (0 : Nat)) = Curve.coords (0 : Pt) := (Curve.coords_zero).symm
    have henc : OnionEncrypt Pt B (zs.map (fun z => (GenerateInnerKey Pt z).2.1))
        (zs.map (fun z => (GenerateInnerKey Pt z).2.2)) nonce pt r =
        some ((Curve.coords (r • (Curve.G : Pt))).1, (Curve.coords (r • (Curve.G : Pt))).2,
          B.sealBox pt nonce (deriveBoxKey B
            (Curve.coords (r • (0 + (zs.map (fun z => z • (Curve.G : Pt))).sum))).1
            (Curve.coords (r • (0 + (zs.map (fun z => z • (Curve.G : Pt))).sum))).2)) := by
      simp only [OnionEncrypt, hx, hy, h0, addKeys_coords, Encrypt_coords]
    refine ⟨_, _, _, henc, ?_⟩
    simp only [OnionDecrypt, foldl_add_eq_sum, zero_add, sum_map_nsmul, key]
    exact Decrypt_seal B _ _ _ _
  · intro z
    have henc : Encrypt Pt B (GenerateInnerKey Pt z).2.1 (GenerateInnerKey Pt z).2.2 nonce pt r =
        some ((Curve.coords (r • (Curve.G : Pt))).1, (Curve.coords (r • (Curve.G : Pt))).2,
          B.sealBox pt nonce (deriveBoxKey B (Curve.coords (r • (z • (Curve.G : Pt)))).1
            (Curve.coords (r • (z • (Curve.G : Pt)))).2)) := by
      simp only [GenerateInnerKey, ScalarBaseMult, setBytes_bytesBE]
      exact Encrypt_coords B _ _ _ _
    refine ⟨_, _, _, henc, ?_⟩
    rw [key]
    exact Decrypt_seal B _ _ _ _

/-! ### Spans -/

theorem covers_append : ∀ (l1 l2 : List Span) (a b c : Nat), covers l1 a b = true →
    covers l2 b c = true → covers (l1 ++ l2) a c = true := by
  intro l1
  induction l1 with
  | nil =>
    intro l2 a b c h1 h2
    simp only [covers, beq_iff_eq] at h1
    subst h1
    simpa using h2
  | cons s rest ih =>
    intro l2 a b c h1 h2
    simp only [covers, Bool.and_eq_true, beq_iff_eq, decide_eq_true_eq] at h1
    simp only [List.cons_append, covers, Bool.and_eq_true, beq_iff_eq, decide_eq_true_eq]
    exact ⟨h1.1, ih l2 _ _ _ h1.2 h2⟩

theorem covers_le : ∀ (l : List Span) (a b : Nat), covers l a b = true → a ≤ b := by
  intro l
  induction l with
  | nil => intro a b h; simp only [covers, beq_iff_eq] at h; omega
  | cons s rest ih =>
    intro a b h
    simp only [covers, Bool.and_eq_true, beq_iff_eq, decide_eq_true_eq] at h
    have := ih _ _ h.2
    omega

theorem covers_chain : ∀ (l : List Span) (a b : Nat), covers l a b = true →
    List.Chain' (fun s t => t.Start = s.End) l := by
  intro l
  induction l with
  | nil => intro a b _; exact List.chain'_nil
  | cons s rest ih =>
    intro a b h
    simp only [covers, Bool.and_eq_true, beq_iff_eq, decide_eq_true_eq] at h
    cases rest with
    | nil => exact List.chain'_singleton _
    | cons t rest2 =>
      have h2 := h.2
      simp only [covers, Bool.and_eq_true, beq_iff_eq, decide_eq_true_eq] at h2
      exact List.Chain'.cons h2.1.1 (ih _ _ h.2)

theorem covers_head : ∀ (l : List Span) (a b : Nat), covers l a b = true → l ≠ [] →
    l.head?.map Span.Start = some a := by
  intro l a b h hne
  cases l with
  | nil => exact absurd rfl hne
  | cons s rest =>
    simp only [covers, Bool.and_eq_true, beq_iff_eq, decide_eq_true_eq] at h
    simp [h.1.1]

theorem covers_getLast : ∀ (l : List Span) (a b : Nat), covers l a b = true → l ≠ [] →
    l.getLast?.map Span.End = some b := by
  intro l
  induction l with
  | nil => intro a b _ hne; exact absurd rfl hne
  | cons s rest ih =>
    intro a b h _
    simp only [covers, Bool.and_eq_true, beq_iff_eq, decide_eq_true_eq] at h
    cases rest with
    | nil =>
      have h2 := h.2
      simp only [covers, beq_iff_eq] at h2
      simp [h2]
    | cons t rest2 =>
      have := ih _ _ h.2 (List.cons_ne_nil _ _)
      simpa [List.getLast?_cons_cons] using this

theorem covers_slices {α : Type} (xs : List α) : ∀ (l : List Span) (a b : Nat),
    covers l a b = true → b ≤ xs.length →
    (l.map (Span.slice xs)).flatten = (xs.drop a).take (b - a) := by
  intro l
  induction l with
  | nil =>
    intro a b h _
    simp only [covers, beq_iff_eq] at h
    subst h
    simp
  | cons s rest ih =>
    intro a b h hb
    simp only [covers, Bool.and_eq_true, beq_iff_eq, decide_eq_true_eq] at h
    obtain ⟨⟨hs, hle⟩, hrest⟩ := h
    have hle2 := covers_le _ _ _ hrest
    rw [List.map_cons, List.flatten_cons, ih _ _ hrest hb]
    subst hs
    simp only [Span.slice]
    have hsplit : b - s.Start = (s.End - s.Start) + (b - s.End) := by omega
    rw [hsplit, List.take_add, List.drop_drop]
    congr 3
    omega


theorem covers_range_min (n p : Nat) : ∀ q : Nat,
    covers ((List.range q).map (fun i => Span.mk (min (i * p) n) (min ((i + 1) * p) n))) 0 (min (q * p) n) = true := by
  intro q
  induction q with
  | zero => simp [covers]
  | succ q ih =>
    rw [List.range_succ, List.map_append]
    refine covers_append _ _ _ _ _ ih ?_
    simp only [List.map_cons, List.map_nil, covers, beq_self_eq_true, Bool.and_true,
      Bool.true_and, decide_eq_true_eq]
    have : q * p ≤ (q + 1) * p := Nat.mul_le_mul_right p (Nat.le_succ q)
    omega

theorem SpanWithSize_eq (n p : Nat) (hp : 0 < p) :
    SpanWithSize n p = some ((List.range (if n % p ≠ 0 then n / p + 1 else n / p)).map
      (fun i => Span.mk (min (i * p) n) (min ((i + 1) * p) n))) := by
  have hdm := Nat.div_add_mod n p
  have hmod := Nat.mod_lt n hp
  simp only [SpanWithSize, if_neg (Nat.pos_iff_ne_zero.mp hp)]
  congr 1
  apply List.map_congr_left
  intro i hi
  rw [List.mem_range] at hi
  have hi1 : (i + 1) * p = i * p + p := by ring
  by_cases hm : n % p = 0
  · have hq : (if n % p ≠ 0 then n / p + 1 else n / p) = n / p := by simp [hm]
    rw [hq] at hi
    have h1 : (i + 1) * p ≤ n / p * p := Nat.mul_le_mul_right p hi
    have h2 : n / p * p = n := by rw [Nat.mul_comm]; omega
    have h3 : i * p ≤ (i + 1) * p := Nat.mul_le_mul_right p (Nat.le_succ i)
    have hoff : (if i = (if n % p ≠ 0 then n / p + 1 else n / p) - 1 ∧ n % p ≠ 0 then n % p
        else p) = p := by
      rw [if_neg]
      exact fun h => h.2 hm
    simp only [hoff]
    rw [Nat.min_eq_left (by omega), Nat.min_eq_left (by omega), hi1]
  · have hq : (if n % p ≠ 0 then n / p + 1 else n / p) = n / p + 1 := by simp [hm]
    rw [hq] at hi
    have h0 : i * p ≤ n / p * p := Nat.mul_le_mul_right p (Nat.lt_succ_iff.mp hi)
    have h2 : n / p * p + n % p = n := by rw [Nat.mul_comm]; omega
    by_cases hlast : i = n / p
    · have hoff : (if i = (if n % p ≠ 0 then n / p + 1 else n / p) - 1 ∧ n % p ≠ 0 then n % p
          else p) = n % p := by
        rw [if_pos]
        exact ⟨by rw [hq]; omega, hm⟩
      simp only [hoff]
      subst hlast
      rw [Nat.min_eq_left (by omega), Nat.min_eq_right (by omega)]
      congr 1
    · have hlt : i + 1 ≤ n / p := by omega
      have h1 : (i + 1) * p ≤ n / p * p := Nat.mul_le_mul_right p hlt
      have hoff : (if i = (if n % p ≠ 0 then n / p + 1 else n / p) - 1 ∧ n % p ≠ 0 then n % p
          else p) = p := by
        rw [if_neg]
        rw [hq]
        exact fun h => hlast (by omega)
      simp only [hoff]
      rw [Nat.min_eq_left (by omega), Nat.min_eq_left (by omega), hi1]

theorem ceil_div_eq (n p : Nat) (hp : 0 < p) :
    ((if n % p ≠ 0 then n / p + 1 else n / p : Nat) : ℤ) = ⌈(n : ℚ) / (p : ℚ)⌉ := by
  have hdm := Nat.div_add_mod n p
  have hmod := Nat.mod_lt n hp
  generalize n / p = d at hdm
  generalize n % p = m at hdm hmod
  have hpq : (0 : ℚ) < (p : ℚ) := by exact_mod_cast hp
  have hn : (n : ℚ) = (p : ℚ) * (d : ℚ) + (m : ℚ) := by exact_mod_cast hdm.symm
  have hm0 : (0 : ℚ) ≤ (m : ℚ) := by positivity
  have hmp : (m : ℚ) < (p : ℚ) := by exact_mod_cast hmod
  symm
  rw [Int.ceil_eq_iff]
  by_cases hm : m = 0
  · rw [if_neg (by simpa using hm)]
    subst hm
    constructor
    · rw [lt_div_iff₀ hpq]
      push_cast
      push_cast at hn
      nlinarith
    · rw [div_le_iff₀ hpq]
      push_cast
      push_cast at hn
      nlinarith
  · rw [if_pos hm]
    have hm1 : (1 : ℚ) ≤ (m : ℚ) := by
      exact_mod_cast Nat.one_le_iff_ne_zero.mpr hm
    constructor
    · rw [lt_div_iff₀ hpq]
      push_cast
      nlinarith
    · rw [div_le_iff₀ hpq]
      push_cast
      nlinarith


theorem SpanWithSize_spec (n p : Nat) (hp : 0 < p) :
    ∃ spans, SpanWithSize n p = some spans ∧
      (spans.length : ℤ) = ⌈(n : ℚ) / (p : ℚ)⌉ ∧
      covers spans 0 n = true ∧ (n = 0 → spans = []) ∧ (0 < n → spans ≠ []) ∧
      ∀ s ∈ spans, s.Start < s.End ∧ s.End - s.Start ≤ p := by
  have hdm := Nat.div_add_mod n p
  have hmod := Nat.mod_lt n hp
  have hd : n / p * p + n % p = n := by rw [Nat.mul_comm]; omega
  have hq : n ≤ (if n % p ≠ 0 then n / p + 1 else n / p) * p ∧
      ∀ i, i < (if n % p ≠ 0 then n / p + 1 else n / p) → i * p < n := by
    by_cases hm : n % p = 0
    · rw [if_neg (by simpa using hm)]
      refine ⟨by omega, fun i hi => ?_⟩
      have : (i + 1) * p ≤ n / p * p := Nat.mul_le_mul_right p hi
      have h1 : (i + 1) * p = i * p + p := by ring
      omega
    · rw [if_pos hm]
      refine ⟨?_, fun i hi => ?_⟩
      · have h1 : (n / p + 1) * p = n / p * p + p := by ring
        omega
      · have : i * p ≤ n / p * p := Nat.mul_le_mul_right p (Nat.lt_succ_iff.mp hi)
        omega
  refine ⟨_, SpanWithSize_eq n p hp, ?_, ?_, ?_, ?_, ?_⟩
  · rw [List.length_map, List.length_range]
    exact ceil_div_eq n p hp
  · have := covers_range_min n p (if n % p ≠ 0 then n / p + 1 else n / p)
    rwa [Nat.min_eq_right hq.1] at this
  · intro hn
    subst hn
    simp
  · intro hn hnil
    have hlen := congrArg List.length hnil
    rw [List.length_map, List.length_range, List.length_nil] at hlen
    rw [hlen] at hq
    omega
  · intro s hs
    obtain ⟨i, hi, rfl⟩ := List.mem_map.mp hs
    rw [List.mem_range] at hi
    have h1 := hq.2 i hi
    have h2 : (i + 1) * p = i * p + p := by ring
    simp only
    omega

/-- Claim C19. Stream chunking covers the list and respects the size budget: for
`0 < msgSize <= streamSize`, `StreamSpan(n, streamSize, msgSize)` returns
`⌈n / ⌊streamSize/msgSize⌋⌉` spans (none when `n = 0`); the first starts at 0, each starts
where the one before ends, the last ends at `n`; each is non-empty and holds at most
`streamSize` bytes of records; and the chunks of a list of length `n`, concatenated, are the
list. -/
theorem StreamSpan_covers (n streamSize msgSize : Nat) (h0 : 0 < msgSize)
    (hle : msgSize ≤ streamSize) :
    ∃ spans, StreamSpan n streamSize msgSize = some spans ∧
      (spans.length : ℤ) = ⌈(n : ℚ) / ((streamSize / msgSize : Nat) : ℚ)⌉ ∧
      (n = 0 → spans = []) ∧
      (0 < n → spans.head?.map Span.Start = some 0 ∧ spans.getLast?.map Span.End = some n) ∧
      List.Chain' (fun s t => t.Start = s.End) spans ∧
      (∀ s ∈ spans, s.Start < s.End ∧ (s.End - s.Start) * msgSize ≤ streamSize) ∧
      ∀ (α : Type) (xs : List α), xs.length = n → (spans.map (Span.slice xs)).flatten = xs := by
  have hp : 0 < streamSize / msgSize := Nat.div_pos hle h0
  have hbudget : streamSize / msgSize * msgSize ≤ streamSize := Nat.div_mul_le_self _ _
  obtain ⟨spans, heq, hlen, hcov, hzero, hpos, hspan⟩ :=
    SpanWithSize_spec n (streamSize / msgSize) hp
  refine ⟨spans, ?_, hlen, hzero, ?_, covers_chain _ _ _ hcov, ?_, ?_⟩
  · simp only [StreamSpan, if_neg (Nat.pos_iff_ne_zero.mp h0), heq]
  · intro hn
    exact ⟨covers_head _ _ _ hcov (hpos hn), covers_getLast _ _ _ hcov (hpos hn)⟩
  · intro s hs
    obtain ⟨h1, h2⟩ := hspan s hs
    exact ⟨h1, le_trans (Nat.mul_le_mul_right msgSize h2) hbudget⟩
  · intro α xs hxs
    rw [covers_slices xs spans 0 n hcov (le_of_eq hxs.symm), List.drop_zero, Nat.sub_zero,
      ← hxs, List.take_length]

set_option maxRecDepth 100000 in
/-- Witness for C19: five records of four bytes in a stream of ten bytes. -/
theorem StreamSpan_covers_witness :
    0 < 4 ∧ 4 ≤ 10 ∧
    ∃ spans, StreamSpan 5 10 4 = some spans ∧
      (spans.length : ℤ) = ⌈((5 : Nat) : ℚ) / ((10 / 4 : Nat) : ℚ)⌉ ∧
      ((5 : Nat) = 0 → spans = []) ∧
      (0 < 5 → spans.head?.map Span.Start = some 0 ∧ spans.getLast?.map Span.End = some 5) ∧
      List.Chain' (fun s t => t.Start = s.End) spans ∧
      (∀ s ∈ spans, s.Start < s.End ∧ (s.End - s.Start) * 4 ≤ 10) ∧
      ∀ (α : Type) (xs : List α), xs.length = 5 → (spans.map (Span.slice xs)).flatten = xs :=
  ⟨by decide, by decide, StreamSpan_covers 5 10 4 (by decide) (by decide)⟩


theorem nSpansLoop_length (size mod : Nat) : ∀ (k i e : Nat),
    (nSpansLoop size mod k i e).length = k := by
  intro k
  induction k with
  | zero => intro i e; rfl
  | succ k ih => intro i e; simp only [nSpansLoop, List.length_cons, ih]

theorem nSpansLoop_covers (size mod : Nat) : ∀ (k i e : Nat),
    covers (nSpansLoop size mod k i e) e
      (e + k * size + (min mod (i + k) - min mod i)) = true := by
  intro k
  induction k with
  | zero => intro i e; simp [nSpansLoop, covers]
  | succ k ih =>
    intro i e
    simp only [nSpansLoop, covers, beq_self_eq_true, Bool.true_and, Bool.and_eq_true,
      decide_eq_true_eq]
    refine ⟨by omega, ?_⟩
    have h := ih (i + 1) (e + if i < mod then size + 1 else size)
    have h1 : (k + 1) * size = k * size + size := by ring
    have heq : (e + if i < mod then size + 1 else size) + k * size +
        (min mod (i + 1 + k) - min mod (i + 1)) =
        e + (k + 1) * size + (min mod (i + (k + 1)) - min mod i) := by
      rw [h1]
      split <;> omega
    rw [heq] at h
    exact h

theorem nSpansLoop_getElem (size mod : Nat) : ∀ (k i e j : Nat) (s : Span),
    (nSpansLoop size mod k i e)[j]? = some s →
      s.End = s.Start + (if i + j < mod then size + 1 else size) := by
  intro k
  induction k with
  | zero => intro i e j s h; simp [nSpansLoop] at h
  | succ k ih =>
    intro i e j s h
    cases j with
    | zero =>
      simp only [nSpansLoop, List.getElem?_cons_zero, Option.some.injEq] at h
      subst h
      simp
    | succ j =>
      simp only [nSpansLoop, List.getElem?_cons_succ] at h
      have := ih _ _ _ _ h
      rw [show i + 1 + j = i + (j + 1) by omega] at this
      exact this

/-- Claim C20. `NSpans` divides into mostly equal pieces: for `n >= 1` and
`numSpans >= 1`, with `k = min(n, numSpans)`, `NSpans(n, numSpans)` returns `k` spans; the
first starts at 0, each starts where the one before ends, the last ends at `n`; span `i` has
length `⌊n/k⌋ + 1` when `i < n mod k` and `⌊n/k⌋` otherwise; so every span is non-empty,
two lengths differ by at most one, and no span is longer than the first. -/
theorem NSpans_mostly_equal (n numSpans : Nat) (hn : 1 ≤ n) (hk : 1 ≤ numSpans) :
    ∃ spans, NSpans n numSpans = some spans ∧
      spans.length = min n numSpans ∧
      spans.head?.map Span.Start = some 0 ∧ spans.getLast?.map Span.End = some n ∧
      List.Chain' (fun s t => t.Start = s.End) spans ∧
      (∀ (i : Nat) (s : Span), spans[i]? = some s →
        s.End - s.Start = if i < n % min n numSpans then n / min n numSpans + 1
          else n / min n numSpans) ∧
      (∀ s ∈ spans, s.Start < s.End) ∧
      (∀ s ∈ spans, ∀ t ∈ spans, s.End - s.Start ≤ t.End - t.Start + 1) ∧
      (∀ s ∈ spans, ∀ f, spans.head? = some f → s.End - s.Start ≤ f.End - f.Start) ∧
      ∀ (α : Type) (xs : List α), xs.length = n → (spans.map (Span.slice xs)).flatten = xs := by
  have hkk : (if n < numSpans then n else numSpans) = min n numSpans := by
    split <;> omega
  have hk1 : 1 ≤ min n numSpans := by omega
  have hkn : min n numSpans ≤ n := Nat.min_le_left _ _
  generalize min n numSpans = k at hkk hk1 hkn
  have hdm := Nat.div_add_mod n k
  have hmod := Nat.mod_lt n (show 0 < k by omega)
  have hsize : 1 ≤ n / k := (Nat.one_le_div_iff (by omega)).mpr hkn
  have heq : NSpans n numSpans = some (nSpansLoop (n / k) (n % k) k 0 0) := by
    simp only [NSpans, hkk, if_neg (show ¬ k = 0 by omega)]
  have hlen := nSpansLoop_length (n / k) (n % k) k 0 0
  have hcov := nSpansLoop_covers (n / k) (n % k) k 0 0
  have htot : 0 + k * (n / k) + (min (n % k) (0 + k) - min (n % k) 0) = n := by
    have : min (n % k) (0 + k) = n % k := by omega
    omega
  rw [htot] at hcov
  have hne : nSpansLoop (n / k) (n % k) k 0 0 ≠ [] := by
    intro h
    rw [h] at hlen
    simp at hlen
    omega
  have hget : ∀ (i : Nat) (s : Span), (nSpansLoop (n / k) (n % k) k 0 0)[i]? = some s →
      s.End = s.Start + if i < n % k then n / k + 1 else n / k := by
    intro i s h
    have := nSpansLoop_getElem _ _ _ _ _ _ _ h
    simpa using this
  have hmem : ∀ s ∈ nSpansLoop (n / k) (n % k) k 0 0,
      s.End = s.Start + n / k ∨ s.End = s.Start + (n / k + 1) := by
    intro s hs
    obtain ⟨i, hi⟩ := List.mem_iff_getElem?.mp hs
    have := hget i s hi
    split at this
    · right; exact this
    · left; exact this
  refine ⟨_, heq, hlen, covers_head _ _ _ hcov hne, covers_getLast _ _ _ hcov hne,
    covers_chain _ _ _ hcov, ?_, ?_, ?_, ?_, ?_⟩
  · intro i s h
    have := hget i s h
    split at this <;> rename_i hi <;> simp only [hi, if_true, if_false] <;> omega
  · intro s hs
    rcases hmem s hs with h | h <;> omega
  · intro s hs t ht
    rcases hmem s hs with h | h <;> rcases hmem t ht with h2 | h2 <;> omega
  · intro s hs f hf
    have hf0 : (nSpansLoop (n / k) (n % k) k 0 0)[0]? = some f := by
      rw [← hf]; exact (List.head?_eq_getElem? _).symm
    have h1 := hget 0 f hf0
    obtain ⟨i, hi⟩ := List.mem_iff_getElem?.mp hs
    have h2 := hget i s hi
    by_cases hm : 0 < n % k
    · rw [if_pos hm] at h1
      split at h2 <;> omega
    · rw [if_neg hm] at h1
      rw [if_neg (by omega)] at h2
      omega
  · intro α xs hxs
    rw [covers_slices xs _ 0 n hcov (le_of_eq hxs.symm), List.drop_zero, Nat.sub_zero,
      ← hxs, List.take_length]

set_option maxRecDepth 100000 in
/-- Witness for C20: seven items in three spans. -/
theorem NSpans_mostly_equal_witness :
    1 ≤ 7 ∧ 1 ≤ 3 ∧
    ∃ spans, NSpans 7 3 = some spans ∧
      spans.length = min 7 3 ∧
      spans.head?.map Span.Start = some 0 ∧ spans.getLast?.map Span.End = some 7 ∧
      List.Chain' (fun s t => t.Start = s.End) spans ∧
      (∀ (i : Nat) (s : Span), spans[i]? = some s →
        s.End - s.Start = if i < 7 % min 7 3 then 7 / min 7 3 + 1 else 7 / min 7 3) ∧
      (∀ s ∈ spans, s.Start < s.End) ∧
      (∀ s ∈ spans, ∀ t ∈ spans, s.End - s.Start ≤ t.End - t.Start + 1) ∧
      (∀ s ∈ spans, ∀ f, spans.head? = some f → s.End - s.Start ≤ f.End - f.Start) ∧
      ∀ (α : Type) (xs : List α), xs.length = 7 → (spans.map (Span.slice xs)).flatten = xs :=
  ⟨by decide, by decide, NSpans_mostly_equal 7 3 (by decide) (by decide)⟩

/-! ### Maps -/

section Maps

variable {K V : Type} [BEq K] [LawfulBEq K]

theorem lookup_filter_ne (m : List (K × V)) (k k1 : K) (h : (k1 == k) = false) :
    (m.filter (fun p => !(p.1 == k))).lookup k1 = m.lookup k1 := by
  induction m with
  | nil => rfl
  | cons p rest ih =>
    obtain ⟨a, b⟩ := p
    by_cases ha : (a == k) = true
    · have hak : a = k := eq_of_beq ha
      subst hak
      simp only [List.filter_cons, ha, Bool.not_true, Bool.false_eq_true, if_false,
        List.lookup_cons, h, ih]
    · have ha2 : (a == k) = false := by simpa using ha
      simp only [List.filter_cons, ha2, Bool.not_false, if_true, List.lookup_cons, ih]

theorem lookup_filter_self (m : List (K × V)) (k : K) :
    (m.filter (fun p => !(p.1 == k))).lookup k = none := by
  induction m with
  | nil => rfl
  | cons p rest ih =>
    obtain ⟨a, b⟩ := p
    by_cases ha : (a == k) = true
    · simp only [List.filter_cons, ha, Bool.not_true, Bool.false_eq_true, if_false, ih]
    · have ha2 : (a == k) = false := by simpa using ha
      have hka : (k == a) = false := by
        rw [beq_eq_false_iff_ne] at ha2 ⊢
        exact fun e => ha2 e.symm
      simp only [List.filter_cons, ha2, Bool.not_false, if_true, List.lookup_cons, hka, ih]

theorem lookup_mapSet_self (m : List (K × V)) (k : K) (v : V) :
    (mapSet m k v).lookup k = some v := by
  simp [mapSet, List.lookup_cons]

theorem lookup_mapSet_ne (m : List (K × V)) (k k1 : K) (v : V) (h : (k1 == k) = false) :
    (mapSet m k v).lookup k1 = m.lookup k1 := by
  simp only [mapSet, List.lookup_cons, h]
  exact lookup_filter_ne m k k1 h

theorem lookup_mapDelete_self (m : List (K × V)) (k : K) : (mapDelete m k).lookup k = none :=
  lookup_filter_self m k

theorem lookup_mapDelete_ne (m : List (K × V)) (k k1 : K) (h : (k1 == k) = false) :
    (mapDelete m k).lookup k1 = m.lookup k1 :=
  lookup_filter_ne m k k1 h

end Maps

/-! ### The envelope layer: `Finalize` -/

theorem uvarintAux_length_le : ∀ (fuel x : Nat), (uvarintAux fuel x).length ≤ fuel := by
  intro fuel
  induction fuel with
  | zero => intro x; simp [uvarintAux]
  | succ fuel ih =>
    intro x
    simp only [uvarintAux]
    split
    · simp
    · simp only [List.length_cons]
      have := ih (x / 128)
      omega

theorem roundNonce_eq (round : Int) :
    roundNonce round = some (writeAt (zeroBytes 24) 0 (uvarintAux 10 (toUint64 round))) := by
  have := uvarintAux_length_le 10 (toUint64 round)
  simp only [roundNonce, PutUvarint, zeroBytes_length]
  rw [if_pos (by omega)]

section Finalize

variable {Pt : Type} [Curve Pt]

theorem foldl_setBytes_bytesBE (zs : List Nat) : ∀ a : Nat,
    (zs.map bytesBE).foldl (fun acc priv => acc + setBytes priv) a = a + zs.sum := by
  induction zs with
  | nil => intro a; simp
  | cons z rest ih =>
    intro a
    simp only [List.map_cons, List.foldl_cons, List.sum_cons, ih, setBytes_bytesBE]
    omega

theorem client_NewRound_lookup (clt0 clt : mixnet.client) (round : Int) (zs : List Nat)
    (h : clt0.NewRound Pt round (zs.map (fun z => (GenerateInnerKey Pt z).2.1))
      (zs.map (fun z => (GenerateInnerKey Pt z).2.2)) = some clt) :
    ∃ state, clt.states.lookup round = some state ∧
      (state.X, state.Y) = Curve.coords (zs.sum • (Curve.G : Pt)) := by
  have hx : zs.map (fun z => (GenerateInnerKey Pt z).2.1) =
      (zs.map (fun z => z • (Curve.G : Pt))).map (fun p => (Curve.coords p).1) := by
    simp [GenerateInnerKey, ScalarBaseMult, setBytes_bytesBE, List.map_map]
  have hy : zs.map (fun z => (GenerateInnerKey Pt z).2.2) =
      (zs.map (fun z => z • (Curve.G : Pt))).map (fun p => (Curve.coords p).2) := by
    simp [GenerateInnerKey, ScalarBaseMult, setBytes_bytesBE, List.map_map]
  have h0 : ((0 : Nat), (0 : Nat)) = Curve.coords (0 : Pt) := (Curve.coords_zero).symm
  simp only [mixnet.client.NewRound, hx, hy, h0, addKeys_coords, zero_add, sum_map_nsmul,
    Option.some.injEq] at h
  subst h
  exact ⟨_, lookup_mapSet_self _ _ _, rfl⟩

theorem GenerateRoundInput_eq (B : SecretBox) (clt : mixnet.client) (round : Int)
    (state : mixnet.clientRoundState) (Z : Pt) (plaintext : List Byte) (r : Nat)
    (hst : clt.states.lookup round = some state) (hZ : (state.X, state.Y) = Curve.coords Z) :
    clt.GenerateRoundInput Pt B round plaintext r =
      some (encodePoint (Curve.coords (r • (Curve.G : Pt))) ++
        B.sealBox plaintext (writeAt (zeroBytes 24) 0 (uvarintAux 10 (toUint64 round)))
          (deriveBoxKey B (Curve.coords (r • Z)).1 (Curve.coords (r • Z)).2)) := by
  have hX : state.X = (Curve.coords Z).1 := congrArg Prod.fst hZ
  have hY : state.Y = (Curve.coords Z).2 := congrArg Prod.snd hZ
  simp only [mixnet.client.GenerateRoundInput, hst, roundNonce_eq, hX, hY, Encrypt_coords,
    encodePoint]

theorem decryptionWorker_input (B : SecretBox) (round : Int) (R : Pt) (z : Nat)
    (plaintext : List Byte) :
    decryptionWorker Pt B round z (encodePoint (Curve.coords R) ++
      B.sealBox plaintext (writeAt (zeroBytes 24) 0 (uvarintAux 10 (toUint64 round)))
        (deriveBoxKey B (Curve.coords (z • R)).1 (Curve.coords (z • R)).2)) =
      some (plaintext, none) := by
  obtain ⟨h1, h2⟩ := Curve.coords_lt R
  have hlen := encodePoint_length (Curve.coords R) h1 h2
  simp only [decryptionWorker, roundNonce_eq, List.length_append, hlen]
  rw [if_neg (by omega), List.take_append_of_le_length (by omega),
    List.take_left' hlen, List.drop_left' hlen, encodePoint_take _ h1,
    encodePoint_drop _ h1]
  exact Decrypt_seal B R z _ plaintext

theorem runJobs_forall₂ (job : List Byte → Option (List Byte × Option Err))
    (msgs : List (List Byte × Nat)) (inner : List (List Byte))
    (h : List.Forall₂ (fun m c => job c = some (m.1, none)) msgs inner) :
    runJobs job inner = some (msgs.map (fun m => (m.1, none))) := by
  induction h with
  | nil => rfl
  | cons hmc _ ih => simp only [runJobs, hmc, ih, List.map_cons]

end Finalize

/-- The round state `NewRound` stores records the round number it is stored under, and the
key drawn. -/
theorem verifier_NewRound_state (Pt : Type) [Curve Pt] (ver ver1 : mixnet.verifier)
    (round : Int) (z : Nat) (h : ver.NewRound Pt round z = (ver1, none)) :
    ∃ state, ver1.states.lookup round = some state ∧ state.round = round ∧ state.priv = z ∧
      state.innerCiphertexts = none ∧ state.done = false := by
  simp only [mixnet.verifier.NewRound] at h
  split at h
  · simp at h
  · split at h
    · simp at h
    · simp only [Prod.mk.injEq, and_true] at h
      subst h
      exact ⟨_, lookup_mapSet_self _ _ _, rfl, rfl, rfl, rfl⟩

/-- Claim C13. `Finalize` returns the plaintexts in input order: when the buffer of the round
holds the inner ciphertexts `c_0..c_{m-1}`, each produced by `GenerateRoundInput(round, pt_j)`
of a client whose round was set up with the public inner keys `Z_i = z_i·G`, then
`Finalize(round, [z_1..z_K])` returns the list `pt_0..pt_{m-1}` and no error, and marks the
round done. -/
theorem Finalize_returns_plaintexts (Pt : Type) [Curve Pt] (B : SecretBox)
    (ver : mixnet.verifier) (round : Int) (state : mixnet.verifierRoundState)
    (clt0 clt : mixnet.client) (zs : List Nat) (msgs : List (List Byte × Nat))
    (inner : List (List Byte))
    (hst : ver.states.lookup round = some state) (hround : state.round = round)
    (hclt : clt0.NewRound Pt round (zs.map (fun z => (GenerateInnerKey Pt z).2.1))
      (zs.map (fun z => (GenerateInnerKey Pt z).2.2)) = some clt)
    (hin : List.Forall₂ (fun m c => clt.GenerateRoundInput Pt B round m.1 m.2 = some c)
      msgs inner)
    (hbuf : state.innerCiphertexts = some inner) :
    ver.Finalize Pt B round (zs.map bytesBE) =
      some ({ ver with states := mapSet ver.states round { state with done := true } },
        some (msgs.map Prod.fst), none) ∧
    (msgs.map Prod.fst).length = inner.length := by
  obtain ⟨cst, hcst, hZ⟩ := @client_NewRound_lookup Pt _ clt0 clt round zs hclt
  have key : ∀ (r : Nat), r • (zs.sum • (Curve.G : Pt)) = zs.sum • (r • (Curve.G : Pt)) := by
    intro r
    rw [smul_smul, smul_smul, Nat.mul_comm]
  have hjobs : List.Forall₂ (fun m c =>
      decryptionWorker Pt B state.round (0 + zs.sum) c = some (m.1, none)) msgs inner := by
    refine hin.imp ?_
    intro m c hc
    rw [GenerateRoundInput_eq B clt round cst _ m.1 m.2 hcst hZ, Option.some.injEq] at hc
    rw [← hc, key, zero_add, hround]
    exact decryptionWorker_input B round _ _ _
  have hres := runJobs_forall₂ _ msgs inner hjobs
  refine ⟨?_, by simpa using hin.length_eq⟩
  simp only [mixnet.verifier.Finalize, hst, hbuf, foldl_setBytes_bytesBE, hres]
  have hnil : (msgs.map (fun m => ((m.1, none) : List Byte × Option Err))).filterMap Prod.snd
      = [] := by
    simp [List.filterMap_map]
  rw [hnil]
  simp [List.map_map, Function.comp_def]

set_option maxRecDepth 100000 in
/-- Witness for C13: two plaintexts sent in round 1 to a group with inner keys `2·G` and
`3·G`. -/
theorem Finalize_returns_plaintexts_witness :
    (demoVerifier demoInner).Finalize (ZMod 7) demoBox 1 ([2, 3].map bytesBE) =
      some ({ demoVerifier demoInner with
          states := mapSet (demoVerifier demoInner).states 1
            { round := 1, priv := 2, publicX := 2, publicY := 5,
              innerCiphertexts := some demoInner, done := true } },
        some [[0x41], [0x42, 0x43]], none) ∧
    ([[0x41], [0x42, 0x43]] : List (List Byte)).length = demoInner.length :=
  Finalize_returns_plaintexts (ZMod 7) demoBox (demoVerifier demoInner) 1
    { round := 1, priv := 2, publicX := 2, publicY := 5,
      innerCiphertexts := some demoInner, done := false }
    mixnet.NewClient demoEnvClient [2, 3] [([0x41], 4), ([0x42, 0x43], 6)] demoInner
    (by decide) rfl (by decide)
    (List.Forall₂.cons (by decide) (List.Forall₂.cons (by decide) List.Forall₂.nil)) rfl

section FinalizeFailure

variable {Pt : Type} [Curve Pt]

theorem Decrypt_err (B : SecretBox) (priv : Nat) (nonce : List Byte) (rx ry : Nat)
    (ciphertext msg : List Byte) (e : Err)
    (h : Decrypt Pt B priv nonce rx ry ciphertext = some (msg, some e)) :
    e = Err.misauthenticated := by
  unfold Decrypt at h
  split at h
  · cases h
  · simp only at h
    split at h
    · simp only [Option.some.injEq, Prod.mk.injEq] at h
      exact h.2.symm
    · simp at h

theorem decryptionWorker_err (B : SecretBox) (round : Int) (k : Nat) (c msg : List Byte)
    (e : Err) (h : decryptionWorker Pt B round k c = some (msg, some e)) :
    e = Err.misauthenticated := by
  unfold decryptionWorker at h
  split at h
  · cases h
  · split at h
    · cases h
    · exact Decrypt_err B _ _ _ _ _ _ _ h

theorem runJobs_mem (job : List Byte → Option (List Byte × Option Err)) :
    ∀ (inner : List (List Byte)) (results : List (List Byte × Option Err)),
      runJobs job inner = some results →
      (∀ c ∈ inner, ∃ r ∈ results, job c = some r) ∧ ∀ r ∈ results, ∃ c ∈ inner, job c = some r := by
  intro inner
  induction inner with
  | nil =>
    intro results h
    simp only [runJobs, Option.some.injEq] at h
    subst h
    simp
  | cons c rest ih =>
    intro results h
    simp only [runJobs] at h
    cases hc : job c with
    | none => simp [hc] at h
    | some r =>
      cases hr : runJobs job rest with
      | none => simp [hc, hr] at h
      | some rs =>
        simp only [hc, hr, Option.some.injEq] at h
        subst h
        obtain ⟨ih1, ih2⟩ := ih rs hr
        constructor
        · intro c1 hc1
          rcases List.mem_cons.mp hc1 with rfl | hc1
          · exact ⟨r, List.mem_cons_self _ _, hc⟩
          · obtain ⟨r1, hr1, hj⟩ := ih1 c1 hc1
            exact ⟨r1, List.mem_cons_of_mem _ hr1, hj⟩
        · intro r1 hr1
          rcases List.mem_cons.mp hr1 with rfl | hr1
          · exact ⟨c, List.mem_cons_self _ _, hc⟩
          · obtain ⟨c1, hc1, hj⟩ := ih2 r1 hr1
            exact ⟨c1, List.mem_cons_of_mem _ hc1, hj⟩

theorem runJobs_isSome (job : List Byte → Option (List Byte × Option Err)) :
    ∀ (inner : List (List Byte)), (∀ c ∈ inner, (job c).isSome = true) →
      ∃ results, runJobs job inner = some results := by
  intro inner
  induction inner with
  | nil => intro _; exact ⟨[], rfl⟩
  | cons c rest ih =>
    intro h
    obtain ⟨rs, hrs⟩ := ih (fun c1 hc1 => h c1 (List.mem_cons_of_mem _ hc1))
    obtain ⟨r, hr⟩ := Option.isSome_iff_exists.mp (h c (List.mem_cons_self _ _))
    exact ⟨r :: rs, by simp only [runJobs, hr, hrs]⟩

end FinalizeFailure

/-- Claim C14. `Finalize` releases nothing on an authentication failure: when one buffered
ciphertext fails to authenticate under the aggregate key, `Finalize` never returns a
plaintext list: it returns the error `Misauthenticated msg` with the `nil` list and leaves
the verifier as it was (the round is not marked done), unless a worker panics on another
ciphertext; and it does return that error when no worker panics. -/
theorem Finalize_releases_nothing (Pt : Type) [Curve Pt] (B : SecretBox)
    (ver : mixnet.verifier) (round : Int) (state : mixnet.verifierRoundState)
    (inner : List (List Byte)) (privateKeys : List (List Byte)) (c msg : List Byte)
    (hst : ver.states.lookup round = some state)
    (hbuf : state.innerCiphertexts = some inner) (hc : c ∈ inner)
    (hfail : decryptionWorker Pt B state.round
      (privateKeys.foldl (fun acc priv => acc + setBytes priv) 0) c =
        some (msg, some Err.misauthenticated)) :
    (ver.Finalize Pt B round privateKeys = none ∨
      ver.Finalize Pt B round privateKeys = some (ver, none, some Err.misauthenticated)) ∧
    ((∀ c1 ∈ inner, (decryptionWorker Pt B state.round
        (privateKeys.foldl (fun acc priv => acc + setBytes priv) 0) c1).isSome = true) →
      ver.Finalize Pt B round privateKeys = some (ver, none, some Err.misauthenticated)) := by
  have hmain : ∀ results, runJobs (decryptionWorker Pt B state.round
      (privateKeys.foldl (fun acc priv => acc + setBytes priv) 0)) inner = some results →
      ver.Finalize Pt B round privateKeys = some (ver, none, some Err.misauthenticated) := by
    intro results hres
    obtain ⟨h1, h2⟩ := runJobs_mem _ _ _ hres
    obtain ⟨r, hr, hjob⟩ := h1 c hc
    rw [hfail, Option.some.injEq] at hjob
    subst hjob
    simp only [mixnet.verifier.Finalize, hst, hbuf, hres]
    cases herrs : results.filterMap Prod.snd with
    | nil =>
      have : Err.misauthenticated ∈ results.filterMap Prod.snd :=
        List.mem_filterMap.mpr ⟨_, hr, rfl⟩
      rw [herrs] at this
      simp at this
    | cons e rest =>
      have he : e ∈ results.filterMap Prod.snd := by rw [herrs]; exact List.mem_cons_self _ _
      obtain ⟨r1, hr1, hsnd⟩ := List.mem_filterMap.mp he
      obtain ⟨c1, _, hj1⟩ := h2 r1 hr1
      obtain ⟨m1, e1⟩ := r1
      simp only at hsnd
      subst hsnd
      rw [decryptionWorker_err B _ _ _ _ _ hj1]
  constructor
  · cases hres : runJobs (decryptionWorker Pt B state.round
        (privateKeys.foldl (fun acc priv => acc + setBytes priv) 0)) inner with
    | none =>
      left
      simp only [mixnet.verifier.Finalize, hst, hbuf, hres]
    | some results => exact Or.inr (hmain results hres)
  · intro hall
    obtain ⟨results, hres⟩ := runJobs_isSome _ inner hall
    exact hmain results hres

set_option maxRecDepth 100000 in
/-- Witness for C14: the second ciphertext of the demo batch with one bit of its checksum
flipped; nothing is released, the first plaintext included, and the verifier is unchanged. -/
theorem Finalize_releases_nothing_witness :
    (demoVerifier demoForgedInner).Finalize (ZMod 7) demoBox 1 [[2], [3]] =
      some (demoVerifier demoForgedInner, none, some Err.misauthenticated) ∧
    decryptionWorker (ZMod 7) demoBox 1 5 (demoForgedInner.getD 0 []) = some ([0x41], none) :=
  ⟨(Finalize_releases_nothing (ZMod 7) demoBox (demoVerifier demoForgedInner) 1
    { round := 1, priv := 2, publicX := 2, publicY := 5,
      innerCiphertexts := some demoForgedInner, done := false }
    demoForgedInner [[2], [3]] (demoForgedInner.getD 1 []) []
    (by decide) rfl (by decide) (by decide)).2 (by decide), by decide⟩

/-! ### The release of the envelope key -/

section KeyGate

variable {Pt : Type} [Curve Pt]

/-- What the requests keep true of a round once `NewRound` has armed it with `armed`
acceptances: the verifier holds the key `z`, and the wait group of the round state, as long
as the state exists, stands at `armed` minus the number `k` of proofs accepted since. -/
theorem step_gate (B : SecretBox) (round : Int) (z : Nat) (armed : Int) (srv srv1 : mixnet.server)
    (k : Nat) (req : mixnet.Request)
    (hv : ∃ vst, srv.verifier.states.lookup round = some vst ∧ vst.priv = z)
    (hs : ∀ st, srv.states.lookup round = some st → st.shuffleWg = armed - k)
    (hstep : srv.step Pt B req = some srv1) :
    (∃ vst, srv1.verifier.states.lookup round = some vst ∧ vst.priv = z) ∧
    ∀ st, srv1.states.lookup round = some st →
      st.shuffleWg = armed - (k + mixnet.accepted round [req] : Nat) := by
  obtain ⟨vst, hvst, hpriv⟩ := hv
  cases req with
  | newRound r z1 mixErr =>
    simp only [mixnet.accepted, Nat.add_zero]
    simp only [mixnet.server.step, mixnet.server.NewRound, mixnet.verifier.NewRound] at hstep
    by_cases hr : r = round
    · subst hr
      by_cases hlt : r < srv.verifier.round
      · simp only [if_pos hlt, Option.map_some', Option.some.injEq] at hstep
        subst hstep
        exact ⟨⟨vst, hvst, hpriv⟩, hs⟩
      · simp only [if_neg hlt, hvst, Option.isSome_some, if_true, Option.map_some',
          Option.some.injEq] at hstep
        subst hstep
        exact ⟨⟨vst, hvst, hpriv⟩, hs⟩
    · have hne : (round == r) = false := beq_eq_false_iff_ne.mpr (fun e => hr e.symm)
      by_cases hlt : r < srv.verifier.round
      · simp only [if_pos hlt, Option.map_some', Option.some.injEq] at hstep
        subst hstep
        exact ⟨⟨vst, hvst, hpriv⟩, hs⟩
      · by_cases hex : (srv.verifier.states.lookup r).isSome = true
        · simp only [if_neg hlt, hex, if_true, Option.map_some', Option.some.injEq] at hstep
          subst hstep
          exact ⟨⟨vst, hvst, hpriv⟩, hs⟩
        · simp only [if_neg hlt, hex, Bool.false_eq_true, if_false] at hstep
          cases mixErr with
          | some err =>
            simp only [Option.map_some', Option.some.injEq] at hstep
            subst hstep
            refine ⟨⟨vst, ?_, hpriv⟩, hs⟩
            simp only [lookup_mapSet_ne _ _ _ _ hne, hvst]
          | none =>
            simp only at hstep
            split at hstep
            · simp only [Option.map_some', Option.some.injEq] at hstep
              subst hstep
              refine ⟨⟨vst, ?_, hpriv⟩, ?_⟩
              · simp only [lookup_mapSet_ne _ _ _ _ hne, hvst]
              · intro st hst
                simp only [lookup_mapSet_ne _ _ _ _ hne] at hst
                exact hs st hst
            · simp at hstep
  | endRound r mixErr =>
    simp only [mixnet.accepted, Nat.add_zero]
    simp only [mixnet.server.step, mixnet.server.EndRound, Option.some.injEq] at hstep
    subst hstep
    refine ⟨⟨vst, hvst, hpriv⟩, ?_⟩
    intro st hst
    by_cases hr : r = round
    · subst hr
      simp only [lookup_mapDelete_self] at hst
      cases hst
    · have hne : (round == r) = false := beq_eq_false_iff_ne.mpr (fun e => hr e.symm)
      simp only [lookup_mapDelete_ne _ _ _ hne] at hst
      exact hs st hst
  | verifyProof r proofErr submitErr =>
    simp only [mixnet.server.step, mixnet.server.VerifyProof] at hstep
    cases proofErr with
    | some err =>
      simp only [Option.map_some', Option.some.injEq] at hstep
      subst hstep
      simp only [mixnet.accepted, Nat.add_zero]
      exact ⟨⟨vst, hvst, hpriv⟩, hs⟩
    | none =>
      simp only at hstep
      cases hlook : srv.states.lookup r with
      | none => simp [hlook] at hstep
      | some state =>
        simp only [hlook] at hstep
        cases hwg : wgAdd state.shuffleWg (-1) with
        | none => simp [hwg] at hstep
        | some c =>
          simp only [hwg, Option.map_some', Option.some.injEq] at hstep
          subst hstep
          refine ⟨⟨vst, hvst, hpriv⟩, ?_⟩
          intro st hst
          have hc : c = state.shuffleWg + -1 := by
            unfold wgAdd at hwg
            split at hwg
            · cases hwg
            · exact (Option.some.inj hwg).symm
          by_cases hr : r = round
          · subst hr
            simp only [lookup_mapSet_self, Option.some.injEq] at hst
            subst hst
            have := hs state hlook
            simp only [mixnet.accepted, if_true, Nat.add_zero, hc, this]
            push_cast
            ring
          · have hne : (round == r) = false := beq_eq_false_iff_ne.mpr (fun e => hr e.symm)
            simp only [lookup_mapSet_ne _ _ _ _ hne] at hst
            simp only [mixnet.accepted, if_neg hr, Nat.add_zero]
            exact hs st hst
  | storeShuffled r shuffled =>
    simp only [mixnet.accepted, Nat.add_zero]
    simp only [mixnet.server.step, mixnet.server.storeShuffled] at hstep
    cases hlook : srv.states.lookup r with
    | none => simp [hlook] at hstep
    | some state =>
      simp only [hlook] at hstep
      split at hstep
      · cases hstep
      · cases hwg : wgAdd state.msgwg (-1) with
        | none => simp [hwg] at hstep
        | some c =>
          simp only [hwg, Option.some.injEq] at hstep
          subst hstep
          refine ⟨⟨vst, hvst, hpriv⟩, ?_⟩
          intro st hst
          by_cases hr : r = round
          · subst hr
            simp only [lookup_mapSet_self, Option.some.injEq] at hst
            subst hst
            exact hs state hlook
          · have hne : (round == r) = false := beq_eq_false_iff_ne.mpr (fun e => hr e.symm)
            simp only [lookup_mapSet_ne _ _ _ _ hne] at hst
            exact hs st hst
  | addInnerCiphertexts r inners =>
    simp only [mixnet.accepted, Nat.add_zero]
    simp only [mixnet.server.step, mixnet.server.AddInnerCiphertexts,
      mixnet.verifier.AddInnerCiphertexts, Option.some.injEq] at hstep
    subst hstep
    refine ⟨?_, hs⟩
    cases hlook : srv.verifier.states.lookup r with
    | none => exact ⟨vst, by simp only [hvst], hpriv⟩
    | some state =>
      by_cases hr : r = round
      · subst hr
        rw [hvst, Option.some.injEq] at hlook
        subst hlook
        refine ⟨_, lookup_mapSet_self _ _ _, ?_⟩
        exact hpriv
      · have hne : (round == r) = false := beq_eq_false_iff_ne.mpr (fun e => hr e.symm)
        exact ⟨vst, by simp only [lookup_mapSet_ne _ _ _ _ hne, hvst], hpriv⟩
  | finalize r privateKeys =>
    simp only [mixnet.accepted, Nat.add_zero]
    simp only [mixnet.server.step, mixnet.server.Finalize] at hstep
    cases hfin : srv.verifier.Finalize Pt B r privateKeys with
    | none => simp [hfin] at hstep
    | some res =>
      simp only [hfin, Option.map_some', Option.some.injEq] at hstep
      subst hstep
      refine ⟨?_, hs⟩
      simp only
      unfold mixnet.verifier.Finalize at hfin
      split at hfin
      · cases hfin; exact ⟨vst, hvst, hpriv⟩
      · rename_i state hlook
        split at hfin
        · cases hfin; exact ⟨vst, hvst, hpriv⟩
        · simp only at hfin
          split at hfin
          · cases hfin
          · split at hfin
            · cases hfin; exact ⟨vst, hvst, hpriv⟩
            · cases hfin
              by_cases hr : r = round
              · subst hr
                rw [hvst, Option.some.injEq] at hlook
                subst hlook
                refine ⟨_, lookup_mapSet_self _ _ _, ?_⟩
                exact hpriv
              · have hne : (round == r) = false :=
                  beq_eq_false_iff_ne.mpr (fun e => hr e.symm)
                exact ⟨vst, by simp only [lookup_mapSet_ne _ _ _ _ hne, hvst], hpriv⟩

theorem accepted_cons (round : Int) (req : mixnet.Request) (rest : List mixnet.Request) :
    mixnet.accepted round (req :: rest) =
      mixnet.accepted round [req] + mixnet.accepted round rest := by
  cases req with
  | verifyProof r proofErr submitErr =>
    cases proofErr <;> simp [mixnet.accepted]
  | _ => simp [mixnet.accepted]

theorem run_gate (B : SecretBox) (round : Int) (z : Nat) (armed : Int) :
    ∀ (trace : List mixnet.Request) (srv srv1 : mixnet.server) (k : Nat),
      (∃ vst, srv.verifier.states.lookup round = some vst ∧ vst.priv = z) →
      (∀ st, srv.states.lookup round = some st → st.shuffleWg = armed - k) →
      mixnet.server.run Pt B srv trace = some srv1 →
      (∃ vst, srv1.verifier.states.lookup round = some vst ∧ vst.priv = z) ∧
      ∀ st, srv1.states.lookup round = some st →
        st.shuffleWg = armed - (k + mixnet.accepted round trace : Nat) := by
  intro trace
  induction trace with
  | nil =>
    intro srv srv1 k hv hs hrun
    simp only [mixnet.server.run, Option.some.injEq] at hrun
    subst hrun
    exact ⟨hv, by simpa [mixnet.accepted] using hs⟩
  | cons req rest ih =>
    intro srv srv1 k hv hs hrun
    simp only [mixnet.server.run] at hrun
    cases hstep : srv.step Pt B req with
    | none => simp [hstep] at hrun
    | some srv2 =>
      simp only [hstep] at hrun
      obtain ⟨hv2, hs2⟩ := step_gate B round z armed srv srv2 k req hv hs hstep
      have := ih srv2 srv1 (k + mixnet.accepted round [req]) hv2 hs2 hrun
      rw [accepted_cons, ← Nat.add_assoc]
      exact this

end KeyGate

theorem wgAdd_eq_some (counter delta c : Int) (h : wgAdd counter delta = some c) :
    c = counter + delta ∧ 0 ≤ counter + delta := by
  unfold wgAdd at h
  by_cases hlt : counter + delta < 0
  · rw [if_pos hlt] at h
    cases h
  · rw [if_neg hlt] at h
    exact ⟨(Option.some.inj h).symm, not_lt.mp hlt⟩

/-- Claim C15, amended. Over the wire the envelope key is gated on the shuffle proofs this
server accepted: when `NewRound` has set up a round with the inner key `z`, and
`GetPrivateInnerKey` returns a key in a state reached by serving any sequence of requests,
then the key is `z` and the number of `VerifyProof` requests for the round whose proof was
accepted equals what `NewRound` armed the wait group with, `groupSize - 1` on the last
server of the cascade and `groupSize - 2` on the others. `Verifier.PrivateKey` has no gate:
it returns `z` right after `NewRound`. -/
theorem GetPrivateInnerKey_gated (Pt : Type) [Curve Pt] (B : SecretBox)
    (srv0 srv1 srv2 : mixnet.server) (round : Int) (z : Nat) (trace : List mixnet.Request)
    (key : List Byte)
    (hnew : srv0.NewRound Pt round z none = some (srv1, none))
    (hrun : mixnet.server.run Pt B srv1 trace = some srv2)
    (hkey : srv2.GetPrivateInnerKey round = some (Call.returned (some key, none))) :
    key = bytesBE z ∧
    (mixnet.accepted round trace : Int) =
      (if srv0.last then srv0.groupSize - 1 else srv0.groupSize - 2) ∧
    srv1.verifier.PrivateKey round = (some z, none) := by
  have hinit : (∃ vst, srv1.verifier.states.lookup round = some vst ∧ vst.priv = z) ∧
      ∀ st, srv1.states.lookup round = some st →
        st.shuffleWg = (if srv0.last then srv0.groupSize - 1 else srv0.groupSize - 2) -
          ((0 : Nat) : Int) := by
    simp only [mixnet.server.NewRound, mixnet.verifier.NewRound] at hnew
    split at hnew
    · rename_i ver err hver
      simp only [Option.some.injEq, Prod.mk.injEq] at hnew
      exact absurd hnew.2 (by simp)
    · rename_i ver hver
      split at hnew
      · rename_i swg1 swg hwg1 hwg
        simp only [Option.some.injEq, Prod.mk.injEq] at hnew
        obtain ⟨hsrv, -⟩ := hnew
        subst hsrv
        have hswg : swg = (if srv0.last then srv0.groupSize - 1 else srv0.groupSize - 2) := by
          have := (wgAdd_eq_some _ _ _ hwg).1
          simpa using this
        split at hver
        · cases hver
        · split at hver
          · cases hver
          · simp only [Prod.mk.injEq, and_true] at hver
            subst hver
            refine ⟨⟨_, lookup_mapSet_self _ _ _, rfl⟩, ?_⟩
            intro st hst
            simp only [lookup_mapSet_self, Option.some.injEq] at hst
            subst hst
            simp only [hswg, Nat.cast_zero, sub_zero]
      · cases hnew
  obtain ⟨vst1, hvst1, hpriv1⟩ := hinit.1
  obtain ⟨⟨vst, hvst, hpriv⟩, hs⟩ := run_gate B round z _ trace srv1 srv2 0 hinit.1 hinit.2 hrun
  simp only [mixnet.server.GetPrivateInnerKey] at hkey
  cases hlook : srv2.states.lookup round with
  | none => simp [hlook] at hkey
  | some st =>
    simp only [hlook] at hkey
    by_cases hz : st.shuffleWg = 0
    · simp only [hz, ne_eq, not_true_eq_false, if_false, mixnet.verifier.PrivateKey, hvst,
        Option.some.injEq, Call.returned.injEq, Prod.mk.injEq, and_true] at hkey
      have h0 := hs st hlook
      rw [hz] at h0
      refine ⟨by rw [← hkey, hpriv], ?_, ?_⟩
      · simp only [Nat.zero_add] at h0
        split_ifs at h0 ⊢ <;> omega
      · simp only [mixnet.verifier.PrivateKey, hvst1, hpriv1]
    · simp [hz] at hkey

set_option maxRecDepth 100000 in
/-- Witness for the amended C15: the first server of a cascade of three is armed with one
acceptance and returns its key `5` after one accepted proof. -/
theorem GetPrivateInnerKey_gated_witness :
    ([5] : List Byte) = bytesBE 5 ∧
    (mixnet.accepted 1 [mixnet.Request.verifyProof 1 none none] : Int) =
      (if demoMixServer.last then demoMixServer.groupSize - 1
        else demoMixServer.groupSize - 2) ∧
    demoMixServer1.verifier.PrivateKey 1 = (some 5, none) :=
  GetPrivateInnerKey_gated (ZMod 7) demoBox demoMixServer demoMixServer1 demoMixServer2 1 5
    [mixnet.Request.verifyProof 1 none none] [5] (by decide) (by decide) (by decide)

set_option maxRecDepth 100000 in
/-- Counterexample for C15 as stated: right after `NewRound`, when no shuffle proof has been
accepted and `GetPrivateInnerKey` is still blocked on the wait group, `Verifier.PrivateKey`
returns the inner key. -/
theorem PrivateKey_before_shuffle_proofs :
    demoMixServer.NewRound (ZMod 7) 1 5 none = some (demoMixServer1, none) ∧
    mixnet.accepted 1 [] = 0 ∧
    demoMixServer1.GetPrivateInnerKey 1 = some Call.blocked ∧
    demoMixServer1.verifier.PrivateKey 1 = (some 5, none) := by
  decide

/-! ### The mailbox -/

theorem writeAt_key (tmpKey key : List Byte) (ht : tmpKey.length = 32) (hk : key.length = 32) :
    writeAt tmpKey 0 key = key := by
  simp only [writeAt, List.take_zero, List.nil_append, ht, Nat.sub_zero, Nat.zero_add, hk]
  rw [List.drop_of_length_le (by omega), List.append_nil, List.take_of_length_le (by omega)]

theorem writeAt_length32 (tmpKey key : List Byte) (ht : tmpKey.length = 32) :
    (writeAt tmpKey 0 key).length = 32 := by
  rw [writeAt_length, ht]

theorem deliverLoop_conserves (u : List Byte) : ∀ (mails : List Mail) (state state1 : mailbox.roundState)
    (tmpKey tmpKey1 : List Byte) (oe : Option Err) (box : List (List Byte)) (c : Int),
    mailbox.deliverLoop state tmpKey mails = some (state1, tmpKey1, oe) →
    state.inboxes.lookup u = some box → state.inboxwgs.lookup u = some c → 0 ≤ c →
    ∃ box1 c1, state1.inboxes.lookup u = some box1 ∧ state1.inboxwgs.lookup u = some c1 ∧
      0 ≤ c1 ∧ (box1.length : Int) + c1 = box.length + c ∧ state1.locked = state.locked := by
  intro mails
  induction mails with
  | nil =>
    intro state state1 tmpKey tmpKey1 oe box c h hbox hc hc0
    simp only [mailbox.deliverLoop, Option.some.injEq, Prod.mk.injEq] at h
    obtain ⟨rfl, -, -⟩ := h
    exact ⟨box, c, hbox, hc, hc0, rfl, rfl⟩
  | cons mail rest ih =>
    intro state state1 tmpKey tmpKey1 oe box c h hbox hc hc0
    simp only [mailbox.deliverLoop] at h
    cases hin : state.inboxes.lookup (writeAt tmpKey 0 mail.UserKey) with
    | none =>
      simp only [hin, Option.some.injEq, Prod.mk.injEq] at h
      obtain ⟨rfl, -, -⟩ := h
      exact ⟨box, c, hbox, hc, hc0, rfl, rfl⟩
    | some b =>
      simp only [hin] at h
      cases hwg : state.inboxwgs.lookup (writeAt tmpKey 0 mail.UserKey) with
      | none => simp [hwg] at h
      | some counter =>
        simp only [hwg] at h
        cases hadd : wgAdd counter (-1) with
        | none => simp [hadd] at h
        | some counter1 =>
          simp only [hadd] at h
          obtain ⟨hc1, hpos⟩ := wgAdd_eq_some _ _ _ hadd
          by_cases hkey : writeAt tmpKey 0 mail.UserKey = u
          · rw [hkey] at hin hwg h
            rw [hbox, Option.some.injEq] at hin
            rw [hc, Option.some.injEq] at hwg
            subst hin hwg
            obtain ⟨box1, c2, h1, h2, h3, h4, h5⟩ := ih _ _ _ _ _ (box ++ [mail.Message]) counter1 h
              (lookup_mapSet_self _ _ _) (lookup_mapSet_self _ _ _) (by omega)
            refine ⟨box1, c2, h1, h2, h3, ?_, h5⟩
            rw [h4, List.length_append, List.length_singleton, hc1]
            push_cast
            ring
          · have hne : (u == writeAt tmpKey 0 mail.UserKey) = false :=
              beq_eq_false_iff_ne.mpr (fun e => hkey e.symm)
            have := ih _ _ _ _ _ box c h (by simp only [lookup_mapSet_ne _ _ _ _ hne, hbox])
              (by simp only [lookup_mapSet_ne _ _ _ _ hne, hc]) hc0
            exact this

theorem registerLoop_other (expected : List Nat) (u : List Byte) :
    ∀ (keys : List (List Byte)) (state state1 : mailbox.roundState) (tmpKey : List Byte) (i : Nat),
    tmpKey.length = 32 → (∀ key ∈ keys, key.length = 32 ∧ key ≠ u) →
    mailbox.registerLoop expected state tmpKey i keys = some state1 →
    state1.inboxes.lookup u = state.inboxes.lookup u ∧
    state1.inboxwgs.lookup u = state.inboxwgs.lookup u ∧ state1.locked = state.locked := by
  intro keys
  induction keys with
  | nil =>
    intro state state1 tmpKey i _ _ h
    simp only [mailbox.registerLoop, Option.some.injEq] at h
    subst h
    exact ⟨rfl, rfl, rfl⟩
  | cons key rest ih =>
    intro state state1 tmpKey i ht hkeys h
    obtain ⟨hk32, hku⟩ := hkeys key (List.mem_cons_self _ _)
    simp only [mailbox.registerLoop, writeAt_key tmpKey key ht hk32] at h
    cases he : expected[i]? with
    | none => simp [he] at h
    | some e =>
      simp only [he] at h
      cases hadd : wgAdd 0 (toInt64 e) with
      | none => simp [hadd] at h
      | some wg =>
        simp only [hadd] at h
        obtain ⟨h1, h2, h3⟩ := ih _ _ _ _ hk32
          (fun k hk => hkeys k (List.mem_cons_of_mem _ hk)) h
        have hne : (u == key) = false := beq_eq_false_iff_ne.mpr (fun e => hku e.symm)
        refine ⟨?_, ?_, h3⟩
        · rw [h1]; exact lookup_mapSet_ne _ _ _ _ hne
        · rw [h2]; exact lookup_mapSet_ne _ _ _ _ hne

theorem toInt64_small (e : Nat) (h : e < 2 ^ 63) : toInt64 e = (e : Int) := by
  have h1 : e % 2 ^ 64 = e := Nat.mod_eq_of_lt (by omega)
  simp only [toInt64, h1, if_pos h]

theorem toInt64_nonneg (e : Nat) (h64 : e < 2 ^ 64) (h : 0 ≤ toInt64 e) : e < 2 ^ 63 := by
  have h1 : e % 2 ^ 64 = e := Nat.mod_eq_of_lt h64
  by_contra hge
  simp only [toInt64, h1, if_neg hge] at h
  omega

theorem registerLoop_last (expected : List Nat) (u : List Byte) (e : Nat) (he64 : e < 2 ^ 64) :
    ∀ (keys : List (List Byte)) (state state1 : mailbox.roundState) (tmpKey : List Byte)
      (i j : Nat),
    tmpKey.length = 32 → (∀ key ∈ keys, key.length = 32) →
    keys[j]? = some u → (∀ j1, j < j1 → keys[j1]? ≠ some u) → expected[i + j]? = some e →
    mailbox.registerLoop expected state tmpKey i keys = some state1 →
    state1.inboxes.lookup u = some [] ∧ state1.inboxwgs.lookup u = some (e : Int) ∧
      state1.locked = state.locked := by
  intro keys
  induction keys with
  | nil => intro state state1 tmpKey i j _ _ hj; simp at hj
  | cons key rest ih =>
    intro state state1 tmpKey i j ht hkeys hj hlast hexp h
    have hk32 := hkeys key (List.mem_cons_self _ _)
    simp only [mailbox.registerLoop, writeAt_key tmpKey key ht hk32] at h
    cases he : expected[i]? with
    | none => simp [he] at h
    | some e1 =>
      simp only [he] at h
      cases hadd : wgAdd 0 (toInt64 e1) with
      | none => simp [hadd] at h
      | some wg =>
        simp only [hadd] at h
        cases j with
        | zero =>
          simp only [List.getElem?_cons_zero, Option.some.injEq] at hj
          subst hj
          rw [Nat.add_zero, he, Option.some.injEq] at hexp
          subst hexp
          have hrest : ∀ k ∈ rest, k.length = 32 ∧ k ≠ key := by
            intro k hk
            refine ⟨hkeys k (List.mem_cons_of_mem _ hk), ?_⟩
            intro hkk
            subst hkk
            obtain ⟨n, hn⟩ := List.mem_iff_getElem?.mp hk
            exact hlast (n + 1) (by omega) (by simpa using hn)
          obtain ⟨h1, h2, h3⟩ := registerLoop_other expected key rest _ _ _ _ hk32 hrest h
          obtain ⟨hwg, hwg0⟩ := wgAdd_eq_some _ _ _ hadd
          rw [zero_add] at hwg0
          rw [toInt64_small e1 (toInt64_nonneg e1 he64 hwg0), zero_add] at hwg
          refine ⟨?_, ?_, h3⟩
          · rw [h1]; exact lookup_mapSet_self _ _ _
          · rw [h2, hwg]; exact lookup_mapSet_self _ _ _
        | succ j =>
          simp only [List.getElem?_cons_succ] at hj
          obtain ⟨h1, h2, h3⟩ := ih _ _ _ (i + 1) j hk32
            (fun k hk => hkeys k (List.mem_cons_of_mem _ hk)) hj
            (fun j1 hj1 => by
              have := hlast (j1 + 1) (by omega)
              simpa using this)
            (by rw [show i + 1 + j = i + (j + 1) by omega]; exact hexp) h
          exact ⟨h1, h2, h3⟩

theorem inboxOf_eq (mb : mailbox) (round : Nat) (u : List Byte) (state : mailbox.roundState)
    (h : mb.states.lookup round = some state) :
    mb.inboxOf round u = state.inboxes.lookup u ∧ mb.counterOf round u = state.inboxwgs.lookup u := by
  simp only [mailbox.inboxOf, mailbox.counterOf, h, and_self]

theorem inboxOf_congr (mb mb1 : mailbox) (round : Nat) (u : List Byte)
    (h : mb1.states.lookup round = mb.states.lookup round) :
    mb1.inboxOf round u = mb.inboxOf round u ∧ mb1.counterOf round u = mb.counterOf round u := by
  simp only [mailbox.inboxOf, mailbox.counterOf, h, and_self]

theorem step_keeps (mb mb1 : mailbox) (round : Nat) (u : List Byte) (e : Int)
    (req : mailbox.Request) (hk : mailbox.keeps round u req = true)
    (hinv : ∃ box c, mb.inboxOf round u = some box ∧ mb.counterOf round u = some c ∧ 0 ≤ c ∧
      (box.length : Int) + c = e)
    (hstep : mb.step req = some mb1) :
    ∃ box c, mb1.inboxOf round u = some box ∧ mb1.counterOf round u = some c ∧ 0 ≤ c ∧
      (box.length : Int) + c = e := by
  obtain ⟨box, c, hbox, hc, hc0, hsum⟩ := hinv
  have hsame : mb1.states.lookup round = mb.states.lookup round →
      ∃ box c, mb1.inboxOf round u = some box ∧ mb1.counterOf round u = some c ∧ 0 ≤ c ∧
        (box.length : Int) + c = e := by
    intro h
    obtain ⟨h1, h2⟩ := inboxOf_congr mb mb1 round u h
    exact ⟨box, c, h1 ▸ hbox, h2 ▸ hc, hc0, hsum⟩
  obtain ⟨state, hstate⟩ : ∃ state, mb.states.lookup round = some state := by
    cases h : mb.states.lookup round with
    | none => simp [mailbox.inboxOf, h] at hbox
    | some state => exact ⟨state, rfl⟩
  obtain ⟨hb, hw⟩ := inboxOf_eq mb round u state hstate
  rw [hb] at hbox
  rw [hw] at hc
  cases req with
  | newRound r =>
    simp only [mailbox.keeps, bne_iff_ne, ne_eq] at hk
    simp only [mailbox.step, mailbox.NewRound, Option.some.injEq] at hstep
    subst hstep
    exact hsame (lookup_mapSet_ne _ _ _ _ (beq_eq_false_iff_ne.mpr (fun e => hk e.symm)))
  | endRound r =>
    simp only [mailbox.keeps, bne_iff_ne, ne_eq] at hk
    simp only [mailbox.step, mailbox.EndRound, Option.some.injEq] at hstep
    subst hstep
    exact hsame (lookup_mapDelete_ne _ _ _ (beq_eq_false_iff_ne.mpr (fun e => hk e.symm)))
  | registerUsers req =>
    simp only [mailbox.step, mailbox.registerRequest] at hstep
    cases hl : mb.states.lookup req.Round with
    | none =>
      simp only [hl, Option.map_some', Option.some.injEq] at hstep
      subst hstep
      exact hsame rfl
    | some st =>
      simp only [hl] at hstep
      by_cases hlock : st.locked = true
      · simp only [hlock, if_true, Option.map_some', Option.some.injEq] at hstep
        subst hstep
        exact hsame rfl
      · simp only [hlock, Bool.false_eq_true, if_false] at hstep
        cases hloop : mailbox.registerLoop req.Expected st (zeroBytes 32) 0 req.UserKeys with
        | none => simp [hloop] at hstep
        | some st1 =>
          simp only [hloop, Option.map_some', Option.some.injEq] at hstep
          subst hstep
          by_cases hr : req.Round = round
          · rw [hr, hstate, Option.some.injEq] at hl
            subst hl
            have hkeys : ∀ key ∈ req.UserKeys, key.length = 32 ∧ key ≠ u := by
              simp only [mailbox.keeps, hr, bne_self_eq_false, Bool.false_or, List.all_eq_true,
                Bool.and_eq_true, beq_iff_eq, bne_iff_ne, ne_eq] at hk
              exact hk
            obtain ⟨h1, h2, -⟩ := registerLoop_other req.Expected u req.UserKeys _ _ _ _
              (zeroBytes_length 32) hkeys hloop
            obtain ⟨h3, h4⟩ := inboxOf_eq { states := mapSet mb.states req.Round st1 } round u st1
              (by rw [hr]; exact lookup_mapSet_self _ _ _)
            exact ⟨box, c, by rw [h3, h1, hbox], by rw [h4, h2, hc], hc0, hsum⟩
          · exact hsame (lookup_mapSet_ne _ _ _ _
              (beq_eq_false_iff_ne.mpr (fun e => hr e.symm)))
  | deliverMails tmpKey req =>
    simp only [mailbox.step, mailbox.deliverRequest] at hstep
    cases hl : mb.states.lookup req.Round with
    | none =>
      simp only [hl, Option.map_some', Option.some.injEq] at hstep
      subst hstep
      exact hsame rfl
    | some st =>
      simp only [hl] at hstep
      by_cases hlock : st.locked = true
      · simp only [hlock, if_true, Option.map_some', Option.some.injEq] at hstep
        subst hstep
        exact hsame rfl
      · simp only [hlock, Bool.false_eq_true, if_false] at hstep
        cases hloop : mailbox.deliverLoop st tmpKey req.Mails with
        | none => simp [hloop] at hstep
        | some res =>
          obtain ⟨st1, tmpKey1, oe⟩ := res
          by_cases hr : req.Round = round
          · rw [hr, hstate, Option.some.injEq] at hl
            subst hl
            obtain ⟨box1, c1, h1, h2, h3, h4, -⟩ := deliverLoop_conserves u req.Mails _ _ _ _ _
              box c hloop hbox hc hc0
            cases oe with
            | none =>
              simp only [hloop, Option.map_some', Option.some.injEq] at hstep
              subst hstep
              obtain ⟨h5, h6⟩ := inboxOf_eq { states := mapSet mb.states req.Round st1 } round u
                st1 (by rw [hr]; exact lookup_mapSet_self _ _ _)
              exact ⟨box1, c1, by rw [h5, h1], by rw [h6, h2], h3, by rw [h4, hsum]⟩
            | some err =>
              simp only [hloop, Option.map_some', Option.some.injEq] at hstep
              subst hstep
              obtain ⟨h5, h6⟩ := inboxOf_eq
                { states := mapSet mb.states req.Round { st1 with locked := true } } round u
                { st1 with locked := true } (by rw [hr]; exact lookup_mapSet_self _ _ _)
              exact ⟨box1, c1, by rw [h5]; exact h1, by rw [h6]; exact h2, h3,
                by rw [h4, hsum]⟩
          · have : mb1.states.lookup round = mb.states.lookup round := by
              cases oe with
              | none =>
                simp only [hloop, Option.map_some', Option.some.injEq] at hstep
                subst hstep
                exact lookup_mapSet_ne _ _ _ _ (beq_eq_false_iff_ne.mpr (fun e => hr e.symm))
              | some err =>
                simp only [hloop, Option.map_some', Option.some.injEq] at hstep
                subst hstep
                exact lookup_mapSet_ne _ _ _ _ (beq_eq_false_iff_ne.mpr (fun e => hr e.symm))
            exact hsame this

theorem run_keeps (round : Nat) (u : List Byte) (e : Int) : ∀ (trace : List mailbox.Request)
    (mb mb1 : mailbox), (∀ req ∈ trace, mailbox.keeps round u req = true) →
    (∃ box c, mb.inboxOf round u = some box ∧ mb.counterOf round u = some c ∧ 0 ≤ c ∧
      (box.length : Int) + c = e) →
    mb.run trace = some mb1 →
    ∃ box c, mb1.inboxOf round u = some box ∧ mb1.counterOf round u = some c ∧ 0 ≤ c ∧
      (box.length : Int) + c = e := by
  intro trace
  induction trace with
  | nil =>
    intro mb mb1 _ hinv hrun
    simp only [mailbox.run, Option.some.injEq] at hrun
    subst hrun
    exact hinv
  | cons req rest ih =>
    intro mb mb1 hk hinv hrun
    simp only [mailbox.run] at hrun
    cases hstep : mb.step req with
    | none => simp [hstep] at hrun
    | some mb2 =>
      simp only [hstep] at hrun
      exact ih mb2 mb1 (fun r hr => hk r (List.mem_cons_of_mem _ hr))
        (step_keeps mb mb2 round u e req (hk req (List.mem_cons_self _ _)) hinv hstep) hrun

/-- Claim C16, the failing flow. For every key and every stream size: after `NewRound`, the
registration of the key with one expected mail and the delivery of one mail whose message is
empty, the inbox of the key holds that mail and its wait group is released, and `GetMails`
for the key panics: the size it computes from the inbox is zero and `StreamSpan` divides by
it. -/
theorem GetMails_empty_message_panics (StreamSize round : Nat) (k : List Byte) (mb0 : mailbox) :
    ∃ mb1 mb2,
      (mb0.NewRound round).RegisterUsers [{ Round := round, UserKeys := [k], Expected := [1] }] =
        some (mb1, Exit.ok) ∧
      mb1.DeliverMails [{ Round := round, Mails := [{ UserKey := k, Message := [] }] }] =
        some (mb2, Exit.ok) ∧
      mb2.inboxOf round (writeAt (zeroBytes 32) 0 k) = some [[]] ∧
      mb2.counterOf round (writeAt (zeroBytes 32) 0 k) = some 0 ∧
      mb2.GetMails StreamSize [{ Round := round, UserKeys := [k] }] = none := by
  have hadd1 : wgAdd 0 (toInt64 1) = some 1 := by decide
  have hadd2 : wgAdd 1 (-1) = some 0 := by decide
  have hreg : (mb0.NewRound round).RegisterUsers
      [{ Round := round, UserKeys := [k], Expected := [1] }] =
      some (mailbox.mk (mapSet (mb0.NewRound round).states round
        (mailbox.roundState.mk false (mapSet [] (writeAt (zeroBytes 32) 0 k) [])
          (mapSet [] (writeAt (zeroBytes 32) 0 k) 1))), Exit.ok) := by
    simp only [mailbox.RegisterUsers, mailbox.registerRequest, mailbox.NewRound,
      lookup_mapSet_self, Bool.false_eq_true, if_false, mailbox.registerLoop,
      List.getElem?_cons_zero, hadd1]
  refine ⟨_, mailbox.mk (mapSet (mapSet (mb0.NewRound round).states round
      (mailbox.roundState.mk false (mapSet [] (writeAt (zeroBytes 32) 0 k) [])
        (mapSet [] (writeAt (zeroBytes 32) 0 k) 1))) round
      (mailbox.roundState.mk false
        (mapSet (mapSet [] (writeAt (zeroBytes 32) 0 k) []) (writeAt (zeroBytes 32) 0 k) [[]])
        (mapSet (mapSet [] (writeAt (zeroBytes 32) 0 k) 1) (writeAt (zeroBytes 32) 0 k) 0))),
    hreg, ?_, ?_, ?_, ?_⟩
  · simp only [mailbox.DeliverMails, mailbox.deliverStream, mailbox.deliverRequest,
      lookup_mapSet_self, Bool.false_eq_true, if_false, mailbox.deliverLoop, hadd2,
      List.nil_append]
  · simp only [mailbox.inboxOf, lookup_mapSet_self]
  · simp only [mailbox.counterOf, lookup_mapSet_self]
  · simp only [mailbox.GetMails, mailbox.getRequest, lookup_mapSet_self, mailbox.waitLoop,
      Bool.false_eq_true, if_false, ne_eq, not_true_eq_false, Option.getD_some,
      List.length_nil, Nat.mul_zero, StreamSpan, if_true]

/-- Claim C17. A mailbox accepts exactly the expected number of deliveries: when a request
`RegisterUsers` has registered the 32-byte key `u` with the expected count `e`, then in
every state reached by serving requests that leave the registration alone (`DeliverMails`
in any number, registrations of other keys, other rounds) the inbox of `u` holds `e` minus
the counter of its wait group, hence at most `e` messages; and once it holds `e` messages a
`DeliverMails` with a mail for `u` adds nothing: the handler panics when it releases the
wait group, or waits for the lock, and no state with a longer inbox is reached. -/
theorem inbox_holds_at_most_expected (mb0 mb mb1 : mailbox) (reg : RegisterUsersRequest)
    (i : Nat) (u : List Byte) (e : Nat) (trace : List mailbox.Request)
    (hkeys : ∀ key ∈ reg.UserKeys, key.length = 32)
    (hu : reg.UserKeys[i]? = some u) (hlast : ∀ j, i < j → reg.UserKeys[j]? ≠ some u)
    (he : reg.Expected[i]? = some e) (he64 : e < 2 ^ 64)
    (hreg : mb0.registerRequest reg = some (mb, Exit.ok))
    (htrace : ∀ req ∈ trace, mailbox.keeps reg.Round u req = true)
    (hrun : mb.run trace = some mb1) :
    mb.inboxOf reg.Round u = some [] ∧
    ∃ box c, mb1.inboxOf reg.Round u = some box ∧ mb1.counterOf reg.Round u = some c ∧
      (box.length : Int) + c = e ∧ box.length ≤ e ∧
      (box.length = e → ∀ (tmpKey : List Byte) (mail : Mail) (rest : List Mail),
        writeAt tmpKey 0 mail.UserKey = u →
        mb1.deliverRequest tmpKey { Round := reg.Round, Mails := mail :: rest } = none ∨
        mb1.deliverRequest tmpKey { Round := reg.Round, Mails := mail :: rest } =
          some (mb1, tmpKey, Exit.blocked)) := by
  have hinit : mb.inboxOf reg.Round u = some [] ∧ mb.counterOf reg.Round u = some (e : Int) := by
    simp only [mailbox.registerRequest] at hreg
    cases hl : mb0.states.lookup reg.Round with
    | none => simp [hl] at hreg
    | some st =>
      simp only [hl] at hreg
      by_cases hlock : st.locked = true
      · simp [hlock] at hreg
      · simp only [hlock, Bool.false_eq_true, if_false] at hreg
        cases hloop : mailbox.registerLoop reg.Expected st (zeroBytes 32) 0 reg.UserKeys with
        | none => simp [hloop] at hreg
        | some st1 =>
          simp only [hloop, Option.some.injEq, Prod.mk.injEq, and_true] at hreg
          subst hreg
          obtain ⟨h1, h2, -⟩ := registerLoop_last reg.Expected u e he64 reg.UserKeys _ _ _ 0 i
            (zeroBytes_length 32) hkeys hu hlast (by rw [Nat.zero_add]; exact he) hloop
          obtain ⟨h3, h4⟩ := inboxOf_eq { states := mapSet mb0.states reg.Round st1 }
            reg.Round u st1 (lookup_mapSet_self _ _ _)
          exact ⟨by rw [h3, h1], by rw [h4, h2]⟩
  refine ⟨hinit.1, ?_⟩
  obtain ⟨box, c, hbox, hc, hc0, hsum⟩ := run_keeps reg.Round u (e : Int) trace mb mb1 htrace
    ⟨[], (e : Int), hinit.1, hinit.2, by omega, by simp⟩ hrun
  refine ⟨box, c, hbox, hc, hsum, by omega, ?_⟩
  intro hfull tmpKey mail rest hkey
  have hzero : c = 0 := by omega
  subst hzero
  obtain ⟨state, hstate⟩ : ∃ state, mb1.states.lookup reg.Round = some state := by
    cases h : mb1.states.lookup reg.Round with
    | none => simp [mailbox.inboxOf, h] at hbox
    | some state => exact ⟨state, rfl⟩
  obtain ⟨hb, hw⟩ := inboxOf_eq mb1 reg.Round u state hstate
  rw [hb] at hbox
  rw [hw] at hc
  by_cases hlock : state.locked = true
  · right
    simp only [mailbox.deliverRequest, hstate, hlock, if_true]
  · left
    simp only [mailbox.deliverRequest, hstate, hlock, Bool.false_eq_true, if_false,
      mailbox.deliverLoop, hkey, hbox, hc]
    rfl

set_option maxRecDepth 100000 in
/-- Witness for C17: the first demo key, registered with two expected mails, after the demo
deliveries. -/
theorem inbox_holds_at_most_expected_witness :
    demoMailbox.inboxOf 0 demoKey1 = some [] ∧
    ∃ box c, demoMailbox2.inboxOf 0 demoKey1 = some box ∧
      demoMailbox2.counterOf 0 demoKey1 = some c ∧
      (box.length : Int) + c = (2 : Nat) ∧ box.length ≤ 2 ∧
      (box.length = 2 → ∀ (tmpKey : List Byte) (mail : Mail) (rest : List Mail),
        writeAt tmpKey 0 mail.UserKey = demoKey1 →
        demoMailbox2.deliverRequest tmpKey { Round := 0, Mails := mail :: rest } = none ∨
        demoMailbox2.deliverRequest tmpKey { Round := 0, Mails := mail :: rest } =
          some (demoMailbox2, tmpKey, Exit.blocked)) :=
  inbox_holds_at_most_expected (mailbox.NewMailboxServer.NewRound 0) demoMailbox demoMailbox2
    demoRegister 0 demoKey1 2 demoDeliveries (by decide) (by decide)
    (fun j hj => by
      match j, hj with
      | 1, _ => decide
      | n + 2, _ => simp [demoRegister])
    (by decide) (by decide) (by decide) (by decide) (by decide)

/-! ### One ciphertext per assigned group -/

section ClientMessages

variable {G : Type}

theorem encryptLoop_spec (encryptFor : List Byte → G → Option (List Byte × List Byte))
    (u : List Byte) : ∀ (gs : List G), (∀ g ∈ gs, (encryptFor u g).isSome = true) →
    ∃ r, encryptLoop encryptFor u gs = some r ∧
      List.Forall₂ (fun ct g => ∃ prf, encryptFor u g = some (ct, prf)) r.1 gs ∧
      r.2.length = gs.length := by
  intro gs
  induction gs with
  | nil => intro _; exact ⟨([], []), rfl, List.Forall₂.nil, rfl⟩
  | cons g rest ih =>
    intro h
    obtain ⟨r, hr, hf, hl⟩ := ih (fun g1 hg1 => h g1 (List.mem_cons_of_mem _ hg1))
    obtain ⟨c, hc⟩ := Option.isSome_iff_exists.mp (h g (List.mem_cons_self _ _))
    refine ⟨(c.1 :: r.1, c.2 :: r.2), by simp only [encryptLoop, hc, hr], ?_, ?_⟩
    · exact List.Forall₂.cons ⟨c.2, hc⟩ hf
    · simp only [List.length_cons, hl]

theorem collectResult_spec (gid : G → List Byte)
    (encryptFor : List Byte → G → Option (List Byte × List Byte))
    (assignments : List (List Byte × List G)) (res : clientResult) :
    ∀ (cts : List (List Byte)) (gs : List G) (c : Nat)
      (maps : List (List Byte × List (List Byte)) × List (List Byte × List (List Byte))),
    List.Forall₂ (fun ct g => ∃ prf, encryptFor res.key g = some (ct, prf)) cts gs →
    (∀ j, j < gs.length → ((assignments.lookup res.key).getD [])[c + j]? = gs[j]?) →
    (∀ j, j < gs.length → (res.prfs[c + j]?).isSome = true) →
    ∃ maps1, collectResult gid assignments res c cts maps = some maps1 ∧
      ∀ (i : List Byte) (L : List (List Byte × G)),
        List.Forall₂ (fun ct p => ∃ prf, encryptFor p.1 p.2 = some (ct, prf))
          ((maps.1.lookup i).getD []) L →
        List.Forall₂ (fun ct p => ∃ prf, encryptFor p.1 p.2 = some (ct, prf))
          ((maps1.1.lookup i).getD [])
          (L ++ (gs.filter (fun g => decide (gid g = i))).map (fun g => (res.key, g))) := by
  intro cts gs c maps hf
  induction hf generalizing c maps with
  | nil =>
    intro _ _
    refine ⟨maps, rfl, ?_⟩
    intro i L hL
    simpa using hL
  | @cons ct g cts gs hhead _ ih =>
    intro hT hP
    have hT0 := hT 0 (by simp)
    simp only [Nat.add_zero, List.getElem?_cons_zero] at hT0
    obtain ⟨prf, hprf⟩ := Option.isSome_iff_exists.mp (hP 0 (by simp))
    simp only [Nat.add_zero] at hprf
    obtain ⟨maps1, hm1, hspec⟩ := ih (c + 1)
      (mapSet maps.1 (gid g) ((maps.1.lookup (gid g)).getD [] ++ [ct]),
        mapSet maps.2 (gid g) ((maps.2.lookup (gid g)).getD [] ++ [prf]))
      (fun j hj => by
        have := hT (j + 1) (by simp; omega)
        rw [show c + (j + 1) = c + 1 + j by omega] at this
        simpa using this)
      (fun j hj => by
        have := hP (j + 1) (by simp; omega)
        rw [show c + (j + 1) = c + 1 + j by omega] at this
        exact this)
    refine ⟨maps1, by simp only [collectResult, hT0, hprf, hm1], ?_⟩
    intro i L hL
    by_cases hi : gid g = i
    · subst hi
      have h1 := hspec (gid g) (L ++ [(res.key, g)]) (by
        simp only [lookup_mapSet_self, Option.getD_some]
        exact List.rel_append hL (List.Forall₂.cons hhead List.Forall₂.nil))
      simpa [List.filter_cons, List.append_assoc] using h1
    · have hne : (i == gid g) = false := beq_eq_false_iff_ne.mpr (fun e => hi e.symm)
      have h1 := hspec i L (by
        simp only [lookup_mapSet_ne _ _ _ _ hne]
        exact hL)
      simpa [List.filter_cons, hi] using h1

theorem collectLoop_spec (gid : G → List Byte)
    (encryptFor : List Byte → G → Option (List Byte × List Byte))
    (assignments : List (List Byte × List G)) :
    ∀ (order : List (List Byte))
      (maps : List (List Byte × List (List Byte)) × List (List Byte × List (List Byte))),
    (∀ u ∈ order, ∀ g ∈ (assignments.lookup u).getD [], (encryptFor u g).isSome = true) →
    ∃ maps1, collectLoop gid encryptFor assignments order maps = some maps1 ∧
      ∀ (i : List Byte) (L : List (List Byte × G)),
        List.Forall₂ (fun ct p => ∃ prf, encryptFor p.1 p.2 = some (ct, prf))
          ((maps.1.lookup i).getD []) L →
        List.Forall₂ (fun ct p => ∃ prf, encryptFor p.1 p.2 = some (ct, prf))
          ((maps1.1.lookup i).getD [])
          (L ++ order.flatMap (fun u =>
            (((assignments.lookup u).getD []).filter (fun g => decide (gid g = i))).map
              (fun g => (u, g)))) := by
  intro order
  induction order with
  | nil =>
    intro maps _
    refine ⟨maps, rfl, ?_⟩
    intro i L hL
    simpa using hL
  | cons u rest ih =>
    intro maps henc
    obtain ⟨r, hr, hf, hl⟩ := encryptLoop_spec encryptFor u ((assignments.lookup u).getD [])
      (henc u (List.mem_cons_self _ _))
    have hw : clientWorker encryptFor assignments u =
        some { key := u, ciphertexts := r.1, prfs := r.2 } := by
      simp only [clientWorker, hr]
    obtain ⟨maps1, hm1, hspec1⟩ := collectResult_spec gid encryptFor assignments
      { key := u, ciphertexts := r.1, prfs := r.2 } r.1 ((assignments.lookup u).getD []) 0 maps
      hf (fun j _ => by simp) (fun j hj => by
        simp only [Nat.zero_add]
        rw [List.getElem?_eq_getElem (by omega)]
        rfl)
    obtain ⟨maps2, hm2, hspec2⟩ := ih maps1 (fun u1 hu1 => henc u1 (List.mem_cons_of_mem _ hu1))
    refine ⟨maps2, by simp only [collectLoop, hw, hm1, hm2], ?_⟩
    intro i L hL
    have := hspec2 i _ (hspec1 i L hL)
    simpa [List.flatMap_cons, List.append_assoc] using this

theorem length_filter_gid [DecidableEq G] (gid : G → List Byte) (hgid : Function.Injective gid)
    (t : List G) (ht : t.Nodup) (g : G) :
    (t.filter (fun g1 => decide (gid g1 = gid g))).length = if g ∈ t then 1 else 0 := by
  have hf : t.filter (fun g1 => decide (gid g1 = gid g)) = t.filter (fun g1 => g1 == g) := by
    apply List.filter_congr
    intro x _
    by_cases hx : x = g
    · subst hx; simp
    · have : gid x ≠ gid g := fun e => hx (hgid e)
      simp [hx, this]
  rw [hf, ← List.countP_eq_length_filter, ← List.count.eq_1]
  by_cases hg : g ∈ t
  · rw [if_pos hg, List.count_eq_one_of_mem ht hg]
  · rw [if_neg hg, List.count_eq_zero_of_not_mem hg]

theorem length_flatMap_indicator {α β : Type} (f : α → List β) (p : α → Bool)
    (h : ∀ a, (f a).length = if p a = true then 1 else 0) :
    ∀ l : List α, (l.flatMap f).length = l.countP p := by
  intro l
  induction l with
  | nil => rfl
  | cons a rest ih =>
    rw [List.flatMap_cons, List.length_append, ih, List.countP_cons, h a]
    omega

end ClientMessages

/-! ### The registration requests of the client -/

theorem covers_mem_le : ∀ (l : List Span) (a b : Nat), covers l a b = true →
    ∀ s ∈ l, a ≤ s.Start ∧ s.End ≤ b := by
  intro l
  induction l with
  | nil => intro a b _ s hs; simp at hs
  | cons t rest ih =>
    intro a b h s hs
    simp only [covers, Bool.and_eq_true, beq_iff_eq, decide_eq_true_eq] at h
    obtain ⟨⟨h1, h2⟩, h3⟩ := h
    have hle := covers_le _ _ _ h3
    rcases List.mem_cons.mp hs with rfl | hs
    · omega
    · have := ih _ _ h3 s hs
      omega

theorem NSpans_covers (n numSpans : Nat) (hn : 1 ≤ n) (hk : 1 ≤ numSpans) :
    ∃ spans, NSpans n numSpans = some spans ∧ covers spans 0 n = true := by
  have hkk : (if n < numSpans then n else numSpans) = min n numSpans := by
    split <;> omega
  have hk1 : 1 ≤ min n numSpans := by omega
  generalize min n numSpans = k at hkk hk1
  have hdm := Nat.div_add_mod n k
  have hmod := Nat.mod_lt n (show 0 < k by omega)
  refine ⟨nSpansLoop (n / k) (n % k) k 0 0, ?_, ?_⟩
  · simp only [NSpans, hkk, if_neg (show ¬ k = 0 by omega)]
  · have hcov := nSpansLoop_covers (n / k) (n % k) k 0 0
    have htot : 0 + k * (n / k) + (min (n % k) (0 + k) - min (n % k) 0) = n := by
      have : min (n % k) (0 + k) = n % k := by omega
      omega
    rwa [htot] at hcov

theorem slice_map {α β : Type} (f : α → β) (xs : List α) (s : Span) :
    s.slice (xs.map f) = (s.slice xs).map f := by
  simp only [Span.slice, List.map_take, List.map_drop]

theorem covers_mem_start_le : ∀ (l : List Span) (a b : Nat), covers l a b = true →
    ∀ s ∈ l, s.Start ≤ s.End := by
  intro l
  induction l with
  | nil => intro a b _ s hs; simp at hs
  | cons t rest ih =>
    intro a b h s hs
    simp only [covers, Bool.and_eq_true, beq_iff_eq, decide_eq_true_eq] at h
    rcases List.mem_cons.mp hs with rfl | hs
    · exact h.1.2
    · exact ih _ _ h.2 s hs

theorem NSpans_length_covers (n numSpans : Nat) (hn : 1 ≤ n) (hk : 1 ≤ numSpans) :
    ∃ spans, NSpans n numSpans = some spans ∧ spans.length = min n numSpans ∧
      covers spans 0 n = true := by
  obtain ⟨spans, hsp, hcov⟩ := NSpans_covers n numSpans hn hk
  refine ⟨spans, hsp, ?_, hcov⟩
  have hkk : (if n < numSpans then n else numSpans) = min n numSpans := by
    split <;> omega
  simp only [NSpans, hkk, if_neg (show ¬ min n numSpans = 0 by omega),
    Option.some.injEq] at hsp
  rw [← hsp, nSpansLoop_length]

/-- With no more mailboxes left than spans, the loop of `mapUsers` returns a map. -/
theorem mapUsersLoop_ok (publicKeys : List (List Byte)) (spans : List Span)
    (hsp : ∀ s ∈ spans, s.Start ≤ s.End ∧ s.End ≤ publicKeys.length) :
    ∀ (mlist : List (List Byte)) (i : Nat) (m0 : List (List Byte × List Byte)),
      i + mlist.length ≤ spans.length →
      ∃ m, mapUsersLoop publicKeys spans mlist i m0 = some m := by
  intro mlist
  induction mlist with
  | nil => intro i m0 _; exact ⟨m0, rfl⟩
  | cons k rest ih =>
    intro i m0 h
    simp only [List.length_cons] at h
    have hi : i < spans.length := by omega
    obtain ⟨h1, h2⟩ := hsp spans[i] (List.getElem_mem _)
    obtain ⟨m, hm⟩ := ih (i + 1)
      ((spans[i].slice publicKeys).foldl (fun m pub => mapSet m pub k) m0) (by omega)
    refine ⟨m, ?_⟩
    simp only [mapUsersLoop, List.getElem?_eq_getElem hi]
    rw [if_neg (by omega)]
    exact hm

/-- With more mailboxes left than spans, the loop of `mapUsers` indexes past the spans. -/
theorem mapUsersLoop_short (publicKeys : List (List Byte)) (spans : List Span) :
    ∀ (mlist : List (List Byte)) (i : Nat) (m0 : List (List Byte × List Byte)),
      i ≤ spans.length → spans.length < i + mlist.length →
      mapUsersLoop publicKeys spans mlist i m0 = none := by
  intro mlist
  induction mlist with
  | nil => intro i m0 h1 h2; simp at h2; omega
  | cons k rest ih =>
    intro i m0 h1 h2
    simp only [List.length_cons] at h2
    by_cases hi : i < spans.length
    · simp only [mapUsersLoop, List.getElem?_eq_getElem hi]
      split
      · rfl
      · exact ih (i + 1) _ (by omega) (by omega)
    · simp only [mapUsersLoop, List.getElem?_eq_none (not_lt.mp hi)]

section ClientRegister

variable {G : Type}

theorem registerSpan_spec (StreamSize round : Nat) (assignments : List (List Byte × List G))
    (publicKeys : List (List Byte)) (span : Span) (hS : 32 ≤ StreamSize)
    (hle : span.Start ≤ span.End) (hend : span.End ≤ publicKeys.length) :
    ∃ reqs, registerSpan StreamSize round assignments publicKeys span = some reqs ∧
      reqs.flatMap (fun r => r.UserKeys) = span.slice publicKeys ∧
      ∀ r ∈ reqs, r.Round = round ∧
        r.Expected = r.UserKeys.map (fun key => ((assignments.lookup key).getD []).length) := by
  have hp : 0 < StreamSize / 32 := Nat.div_pos hS (by decide)
  obtain ⟨spans, heq, -, hcov, -, -, -⟩ := SpanWithSize_spec (span.End - span.Start)
    (StreamSize / 32) hp
  have hlen : (span.slice publicKeys).length = span.End - span.Start := by
    simp only [Span.slice, List.length_take, List.length_drop]
    omega
  have hreg : registerSpan StreamSize round assignments publicKeys span =
      some (spans.map (fun sspan => RegisterUsersRequest.mk round
        (sspan.slice (span.slice publicKeys))
        (sspan.slice ((span.slice publicKeys).map
          (fun key => ((assignments.lookup key).getD []).length))))) := by
    simp only [registerSpan, if_neg (not_lt.mpr hend), StreamSpan,
      if_neg (show ¬ (32 = 0) by decide), heq]
  refine ⟨_, hreg, ?_, ?_⟩
  · rw [List.flatMap_def, List.map_map]
    have := covers_slices (span.slice publicKeys) spans 0 (span.End - span.Start) hcov
      (le_of_eq hlen.symm)
    rw [List.drop_zero, Nat.sub_zero, ← hlen, List.take_length] at this
    exact this
  · intro r hr
    obtain ⟨sspan, _, rfl⟩ := List.mem_map.mp hr
    exact ⟨rfl, slice_map _ _ _⟩

theorem registerSpans_spec (StreamSize round : Nat) (assignments : List (List Byte × List G))
    (publicKeys : List (List Byte)) (hS : 32 ≤ StreamSize) :
    ∀ (spans : List Span) (a b : Nat), covers spans a b = true → b ≤ publicKeys.length →
    ∃ reqs, registerSpans StreamSize round assignments publicKeys spans = some reqs ∧
      reqs.flatMap (fun r => r.UserKeys) = (publicKeys.drop a).take (b - a) ∧
      ∀ r ∈ reqs, r.Round = round ∧
        r.Expected = r.UserKeys.map (fun key => ((assignments.lookup key).getD []).length) := by
  intro spans
  induction spans with
  | nil =>
    intro a b h _
    simp only [covers, beq_iff_eq] at h
    subst h
    exact ⟨[], rfl, by simp, by simp⟩
  | cons s rest ih =>
    intro a b h hb
    simp only [covers, Bool.and_eq_true, beq_iff_eq, decide_eq_true_eq] at h
    obtain ⟨⟨hs, hle⟩, hrest⟩ := h
    have hle2 := covers_le _ _ _ hrest
    obtain ⟨reqs1, h1, hk1, hr1⟩ := registerSpan_spec StreamSize round assignments publicKeys s
      hS hle (by omega)
    obtain ⟨reqs2, h2, hk2, hr2⟩ := ih _ _ hrest hb
    refine ⟨reqs1 ++ reqs2, by simp only [registerSpans, h1, h2], ?_, ?_⟩
    · rw [List.flatMap_append, hk1, hk2]
      subst hs
      simp only [Span.slice]
      have hsplit : b - s.Start = (s.End - s.Start) + (b - s.End) := by omega
      rw [hsplit, List.take_add, List.drop_drop]
      congr 3
      omega
    · intro r hr
      rcases List.mem_append.mp hr with hr | hr
      · exact hr1 r hr
      · exact hr2 r hr

theorem client_RegisterUsers_spec (StreamSize round : Nat)
    (assignments : List (List Byte × List G)) (publicKeys : List (List Byte))
    (mailboxes : List (List Byte)) (hS : 32 ≤ StreamSize) (hm : 1 ≤ mailboxes.length)
    (hmn : mailboxes.length ≤ publicKeys.length) :
    ∃ reqs, client.RegisterUsers StreamSize round assignments publicKeys mailboxes =
        some reqs ∧
      reqs.flatMap (fun r => r.UserKeys) = publicKeys ∧
      ∀ r ∈ reqs, r.Round = round ∧
        r.Expected = r.UserKeys.map (fun key => ((assignments.lookup key).getD []).length) := by
  have hn1 : 1 ≤ publicKeys.length := by omega
  obtain ⟨spans, hsp, hlen, hcov⟩ := NSpans_length_covers publicKeys.length mailboxes.length
    hn1 hm
  obtain ⟨reqs, h1, h2, h3⟩ := registerSpans_spec StreamSize round assignments publicKeys hS
    spans 0 publicKeys.length hcov le_rfl
  obtain ⟨m, hmap⟩ := mapUsersLoop_ok publicKeys spans
    (fun s hs => ⟨covers_mem_start_le _ _ _ hcov s hs, (covers_mem_le _ _ _ hcov s hs).2⟩)
    (sortStrings mailboxes) 0 []
    (by rw [(sortStrings_perm _).length_eq, hlen]; omega)
  refine ⟨reqs, by simp only [client.RegisterUsers, client.mapUsers, hsp, hmap, h1], ?_, h3⟩
  rw [h2, List.drop_zero, Nat.sub_zero, List.take_length]

/-- With fewer users than mailboxes `mapUsers` panics, and so does `RegisterUsers`. -/
theorem client_RegisterUsers_few (StreamSize round : Nat)
    (assignments : List (List Byte × List G)) (publicKeys : List (List Byte))
    (mailboxes : List (List Byte)) (hfew : publicKeys.length < mailboxes.length) :
    client.mapUsers publicKeys mailboxes = none ∧
    client.RegisterUsers StreamSize round assignments publicKeys mailboxes = none := by
  have hmap : client.mapUsers publicKeys mailboxes = none := by
    simp only [client.mapUsers]
    cases hsp : NSpans publicKeys.length mailboxes.length with
    | none => rfl
    | some spans =>
      have hlen : spans.length = publicKeys.length := by
        simp only [NSpans, if_pos hfew] at hsp
        split at hsp
        · cases hsp
        · simp only [Option.some.injEq] at hsp
          rw [← hsp, nSpansLoop_length]
      exact mapUsersLoop_short publicKeys spans (sortStrings mailboxes) 0 [] (Nat.zero_le _)
        (by rw [(sortStrings_perm _).length_eq, hlen]; omega)
  exact ⟨hmap, by simp only [client.RegisterUsers, hmap]⟩

end ClientRegister

/-- Claim C18. One ciphertext per assigned group: for the users and assignments of a round
(templates without repetition, distinct groups having distinct gids, no encryption
panicking), the job of every user `u` returns `len(assignments[u])` ciphertexts, the one at
position `c` being the encryption for the group at position `c` of the template of `u`;
whatever the order in which the results arrive, the list collected under a gid holds the
encryptions of exactly the pairs of a user and a group of its template with that gid, so the
number collected for a group `g` is the number of users whose template contains `g`; and with
at least as many users as mailboxes `RegisterUsers` sends every user key once, with that same
number as expected count. With fewer users than mailboxes (`mailboxes2`) `RegisterUsers` sends
nothing: `mapUsers` reads `spans[i]` for every mailbox, `NSpans` returned one span for each
user only, and the index out of range ends the handler before the first request. -/
theorem one_ciphertext_per_group {G : Type} [DecidableEq G] (gid : G → List Byte)
    (encryptFor : List Byte → G → Option (List Byte × List Byte))
    (assignments : List (List Byte × List G)) (publicKeys order : List (List Byte))
    (StreamSize round : Nat) (mailboxes mailboxes2 : List (List Byte))
    (hperm : order.Perm publicKeys)
    (hnodup : ∀ u ∈ publicKeys, ((assignments.lookup u).getD []).Nodup)
    (hgid : Function.Injective gid)
    (henc : ∀ u ∈ publicKeys, ∀ g ∈ (assignments.lookup u).getD [],
      (encryptFor u g).isSome = true)
    (hS : 32 ≤ StreamSize) (hm : 1 ≤ mailboxes.length)
    (hmn : mailboxes.length ≤ publicKeys.length)
    (hfew : publicKeys.length < mailboxes2.length) :
    (∀ u ∈ publicKeys, ∃ res, clientWorker encryptFor assignments u = some res ∧ res.key = u ∧
      res.ciphertexts.length = ((assignments.lookup u).getD []).length ∧
      List.Forall₂ (fun ct g => ∃ prf, encryptFor u g = some (ct, prf)) res.ciphertexts
        ((assignments.lookup u).getD [])) ∧
    (∃ reqs, client.RegisterUsers StreamSize round assignments publicKeys mailboxes =
        some reqs ∧
      reqs.flatMap (fun r => r.UserKeys) = publicKeys ∧
      ∀ r ∈ reqs,
        r.Expected = r.UserKeys.map (fun key => ((assignments.lookup key).getD []).length)) ∧
    (client.mapUsers publicKeys mailboxes2 = none ∧
      client.RegisterUsers StreamSize round assignments publicKeys mailboxes2 = none) ∧
    ∃ maps, generateExperimentMessages gid encryptFor assignments order = some maps ∧
      (∀ i : List Byte,
        List.Forall₂ (fun ct p => ∃ prf, encryptFor p.1 p.2 = some (ct, prf))
          ((maps.1.lookup i).getD [])
          (order.flatMap (fun u =>
            (((assignments.lookup u).getD []).filter (fun g => decide (gid g = i))).map
              (fun g => (u, g))))) ∧
      ∀ g : G, ((maps.1.lookup (gid g)).getD []).length =
        publicKeys.countP (fun u => decide (g ∈ (assignments.lookup u).getD [])) := by
  refine ⟨?_, ?_, ?_, ?_⟩
  · intro u hu
    obtain ⟨r, hr, hf, -⟩ := encryptLoop_spec encryptFor u ((assignments.lookup u).getD [])
      (henc u hu)
    exact ⟨{ key := u, ciphertexts := r.1, prfs := r.2 }, by simp only [clientWorker, hr], rfl,
      hf.length_eq, hf⟩
  · obtain ⟨reqs, h1, h2, h3⟩ := client_RegisterUsers_spec StreamSize round assignments
      publicKeys mailboxes hS hm hmn
    exact ⟨reqs, h1, h2, fun r hr => (h3 r hr).2⟩
  · exact client_RegisterUsers_few StreamSize round assignments publicKeys mailboxes2 hfew
  · obtain ⟨maps, hm1, hspec⟩ := collectLoop_spec gid encryptFor assignments order ([], [])
      (fun u hu => henc u (hperm.subset hu))
    have hall : ∀ i : List Byte,
        List.Forall₂ (fun ct p => ∃ prf, encryptFor p.1 p.2 = some (ct, prf))
          ((maps.1.lookup i).getD [])
          (order.flatMap (fun u =>
            (((assignments.lookup u).getD []).filter (fun g => decide (gid g = i))).map
              (fun g => (u, g)))) := by
      intro i
      have := hspec i [] (by simp)
      simpa using this
    refine ⟨maps, hm1, hall, ?_⟩
    intro g
    rw [(hall (gid g)).length_eq, ← hperm.countP_eq]
    have hind : ∀ l : List (List Byte), (∀ u ∈ l, ((assignments.lookup u).getD []).Nodup) →
        (l.flatMap (fun u =>
          (((assignments.lookup u).getD []).filter (fun g1 => decide (gid g1 = gid g))).map
            (fun g1 => (u, g1)))).length =
        l.countP (fun u => decide (g ∈ (assignments.lookup u).getD [])) := by
      intro l
      induction l with
      | nil => intro _; rfl
      | cons u rest ih =>
        intro hl
        rw [List.flatMap_cons, List.length_append, List.length_map,
          length_filter_gid gid hgid _ (hl u (List.mem_cons_self _ _)) g,
          ih (fun u1 hu1 => hl u1 (List.mem_cons_of_mem _ hu1)), List.countP_cons]
        simp only [decide_eq_true_eq]
        omega
    exact hind order (fun u hu => hnodup u (hperm.subset hu))

set_option maxRecDepth 100000 in
/-- Witness for C18: the three demo users with two mailboxes, the results arriving out of
order; and the same users with four mailboxes. -/
theorem one_ciphertext_per_group_witness :
    (∀ u ∈ [[1], [2], [3]], ∃ res, clientWorker demoEncryptFor demoAssignments u = some res ∧
      res.key = u ∧
      res.ciphertexts.length = ((demoAssignments.lookup u).getD []).length ∧
      List.Forall₂ (fun ct g => ∃ prf, demoEncryptFor u g = some (ct, prf)) res.ciphertexts
        ((demoAssignments.lookup u).getD [])) ∧
    (∃ reqs, client.RegisterUsers 64 0 demoAssignments [[1], [2], [3]] [[0x6d, 1], [0x6d, 2]]
        = some reqs ∧
      reqs.flatMap (fun r => r.UserKeys) = [[1], [2], [3]] ∧
      ∀ r ∈ reqs,
        r.Expected = r.UserKeys.map (fun key => ((demoAssignments.lookup key).getD []).length)) ∧
    (client.mapUsers [[1], [2], [3]] [[0x6d, 1], [0x6d, 2], [0x6d, 3], [0x6d, 4]] = none ∧
      client.RegisterUsers 64 0 demoAssignments [[1], [2], [3]]
        [[0x6d, 1], [0x6d, 2], [0x6d, 3], [0x6d, 4]] = none) ∧
    ∃ maps, generateExperimentMessages bytesBE demoEncryptFor demoAssignments [[2], [1], [3]] =
        some maps ∧
      (∀ i : List Byte,
        List.Forall₂ (fun ct p => ∃ prf, demoEncryptFor p.1 p.2 = some (ct, prf))
          ((maps.1.lookup i).getD [])
          (([[2], [1], [3]] : List (List Byte)).flatMap (fun u =>
            (((demoAssignments.lookup u).getD []).filter (fun g => decide (bytesBE g = i))).map
              (fun g => (u, g))))) ∧
      ∀ g : Nat, ((maps.1.lookup (bytesBE g)).getD []).length =
        ([[1], [2], [3]] : List (List Byte)).countP
          (fun u => decide (g ∈ (demoAssignments.lookup u).getD [])) :=
  one_ciphertext_per_group bytesBE demoEncryptFor demoAssignments [[1], [2], [3]]
    [[2], [1], [3]] 64 0 [[0x6d, 1], [0x6d, 2]] [[0x6d, 1], [0x6d, 2], [0x6d, 3], [0x6d, 4]]
    (by decide) (by decide)
    (Function.LeftInverse.injective setBytes_bytesBE) (fun _ _ _ _ => rfl) (by decide)
    (by decide) (by decide) (by decide)

/-- The failing input of C18: one user and two mailboxes. `NSpans(1, 2)` returns one span,
`mapUsers` reads `spans[1]` for the second mailbox, and `RegisterUsers` panics before it sends
a request, whatever the assignments and the stream size. -/
theorem RegisterUsers_one_user_two_mailboxes :
    NSpans 1 2 = some [Span.mk 0 1] ∧
    client.mapUsers [demoKey1] [[0x6d, 1], [0x6d, 2]] = none ∧
    client.RegisterUsers 64 0 demoAssignments [demoKey1] [[0x6d, 1], [0x6d, 2]] = none ∧
    client.RegisterUsers 64 0 demoAssignments [demoKey1] [[0x6d, 1]]
      = some [RegisterUsersRequest.mk 0 [demoKey1] [0]] := by
  refine ⟨by decide, by decide, by decide, by decide⟩

/-! ### The buffer of the verifier -/

theorem runJobs_length (job : List Byte → Option (List Byte × Option Err)) :
    ∀ (inner : List (List Byte)) (results : List (List Byte × Option Err)),
      runJobs job inner = some results → results.length = inner.length := by
  intro inner
  induction inner with
  | nil =>
    intro results h
    simp only [runJobs, Option.some.injEq] at h
    subst h
    rfl
  | cons c rest ih =>
    intro results h
    simp only [runJobs] at h
    cases hc : job c with
    | none => simp [hc] at h
    | some r =>
      cases hr : runJobs job rest with
      | none => simp [hc, hr] at h
      | some rs =>
        simp only [hc, hr, Option.some.injEq] at h
        subst h
        simp [ih rs hr]

/-- A `Finalize` that returns plaintexts returns one for each buffered ciphertext, and marks
the round done. -/
theorem Finalize_ok (Pt : Type) [Curve Pt] (B : SecretBox) (ver ver1 : mixnet.verifier)
    (round : Int) (privateKeys : List (List Byte)) (r : Option (List (List Byte)))
    (h : ver.Finalize Pt B round privateKeys = some (ver1, r, none)) :
    ∃ state inner pts, ver.states.lookup round = some state ∧
      state.innerCiphertexts = some inner ∧ r = some pts ∧ pts.length = inner.length ∧
      ver1 = { ver with states := mapSet ver.states round { state with done := true } } := by
  simp only [mixnet.verifier.Finalize] at h
  cases hst : ver.states.lookup round with
  | none => simp [hst] at h
  | some state =>
    simp only [hst] at h
    cases hbuf : state.innerCiphertexts with
    | none => simp [hbuf] at h
    | some inner =>
      simp only [hbuf] at h
      cases hres : runJobs (decryptionWorker Pt B state.round
          (privateKeys.foldl (fun acc priv => acc + setBytes priv) 0)) inner with
      | none => simp [hres] at h
      | some results =>
        simp only [hres] at h
        cases herr : results.filterMap Prod.snd with
        | cons e es => simp [herr] at h
        | nil =>
          simp only [herr, Option.some.injEq, Prod.mk.injEq, and_true] at h
          obtain ⟨h1, h2⟩ := h
          refine ⟨state, inner, results.map Prod.fst, rfl, hbuf, h2.symm, ?_, ?_⟩
          · simp [runJobs_length _ _ _ hres]
          · rw [hbuf]
            exact h1.symm

/-- A `Finalize` that returns an error leaves the verifier as it was. -/
theorem Finalize_err (Pt : Type) [Curve Pt] (B : SecretBox) (ver ver1 : mixnet.verifier)
    (round : Int) (privateKeys : List (List Byte)) (r : Option (List (List Byte))) (e : Err)
    (h : ver.Finalize Pt B round privateKeys = some (ver1, r, some e)) : ver1 = ver := by
  simp only [mixnet.verifier.Finalize] at h
  cases hst : ver.states.lookup round with
  | none =>
    simp only [hst, Option.some.injEq, Prod.mk.injEq] at h
    exact h.1.symm
  | some state =>
    simp only [hst] at h
    cases hbuf : state.innerCiphertexts with
    | none =>
      simp only [hbuf, Option.some.injEq, Prod.mk.injEq] at h
      exact h.1.symm
    | some inner =>
      simp only [hbuf] at h
      cases hres : runJobs (decryptionWorker Pt B state.round
          (privateKeys.foldl (fun acc priv => acc + setBytes priv) 0)) inner with
      | none => simp [hres] at h
      | some results =>
        simp only [hres] at h
        cases herr : results.filterMap Prod.snd with
        | cons e es =>
          simp only [herr, Option.some.injEq, Prod.mk.injEq] at h
          exact h.1.symm
        | nil => simp [herr] at h

/-- Claim C22, as the code has it. `AddInnerCiphertexts` replaces the buffer: on a round that
was started, `AddInnerCiphertexts(round, a)` followed by `AddInnerCiphertexts(round, b)`
both return no error and leave the round state with the buffer `b` alone, and a `Finalize`
that succeeds afterwards returns `len(b)` plaintexts. -/
theorem AddInnerCiphertexts_replaces (Pt : Type) [Curve Pt] (B : SecretBox)
    (ver : mixnet.verifier) (round : Int) (state : mixnet.verifierRoundState)
    (a b : List (List Byte))
    (hst : ver.states.lookup round = some state) :
    (ver.AddInnerCiphertexts round (some a)).2 = none ∧
    ((ver.AddInnerCiphertexts round (some a)).1.AddInnerCiphertexts round (some b)).2 = none ∧
    ((ver.AddInnerCiphertexts round (some a)).1.AddInnerCiphertexts round (some b)).1.states.lookup
      round = some { state with innerCiphertexts := some b } ∧
    ∀ (privateKeys : List (List Byte)) (ver1 : mixnet.verifier) (pts : List (List Byte)),
      ((ver.AddInnerCiphertexts round (some a)).1.AddInnerCiphertexts round (some b)).1.Finalize
        Pt B round privateKeys = some (ver1, some pts, none) →
      pts.length = b.length := by
  have h1 : ver.AddInnerCiphertexts round (some a) =
      (mixnet.verifier.mk ver.round ver.index ver.groupSize
        (mapSet ver.states round { state with innerCiphertexts := some a }), none) := by
    simp only [mixnet.verifier.AddInnerCiphertexts, hst]
  have h2 : (ver.AddInnerCiphertexts round (some a)).1.AddInnerCiphertexts round (some b) =
      (mixnet.verifier.mk ver.round ver.index ver.groupSize
        (mapSet (mapSet ver.states round { state with innerCiphertexts := some a }) round
          { state with innerCiphertexts := some b }), none) := by
    rw [h1]
    simp only [mixnet.verifier.AddInnerCiphertexts, lookup_mapSet_self]
  have h3 : ((ver.AddInnerCiphertexts round (some a)).1.AddInnerCiphertexts round
      (some b)).1.states.lookup round = some { state with innerCiphertexts := some b } := by
    rw [h2]
    exact lookup_mapSet_self _ _ _
  refine ⟨by rw [h1], by rw [h2], h3, ?_⟩
  intro privateKeys ver1 pts hfin
  obtain ⟨st, inner, pts1, hl, hb, hp, hlen, -⟩ := Finalize_ok Pt B _ _ _ _ _ hfin
  rw [h3, Option.some.injEq] at hl
  subst hl
  simp only [Option.some.injEq] at hb hp
  subst hb
  subst hp
  exact hlen

set_option maxRecDepth 100000 in
/-- Witness for C22: the demo round with the buffer set twice. -/
theorem AddInnerCiphertexts_replaces_witness :
    (((mixnet.NewVerifier 0 2).NewRound (ZMod 7) 1 2).1.AddInnerCiphertexts 1
      (some (demoInner.take 1))).2 = none ∧
    ((((mixnet.NewVerifier 0 2).NewRound (ZMod 7) 1 2).1.AddInnerCiphertexts 1
      (some (demoInner.take 1))).1.AddInnerCiphertexts 1 (some (demoInner.drop 1))).2 = none :=
  ⟨(AddInnerCiphertexts_replaces (ZMod 7) demoBox ((mixnet.NewVerifier 0 2).NewRound (ZMod 7) 1 2).1
      1 { round := 1, priv := 2, publicX := 2, publicY := 5, innerCiphertexts := none,
          done := false } (demoInner.take 1) (demoInner.drop 1) (by decide)).1,
   (AddInnerCiphertexts_replaces (ZMod 7) demoBox ((mixnet.NewVerifier 0 2).NewRound (ZMod 7) 1 2).1
      1 { round := 1, priv := 2, publicX := 2, publicY := 5, innerCiphertexts := none,
          done := false } (demoInner.take 1) (demoInner.drop 1) (by decide)).2.1⟩

set_option maxRecDepth 100000 in
/-- Counterexample for C22 as stated: in the demo round, after `AddInnerCiphertexts(1, a)` and
`AddInnerCiphertexts(1, b)` with one ciphertext each, the buffer is `b` and not `a` followed
by `b`, and `Finalize` succeeds with one plaintext, not `len(a) + len(b) = 2`. -/
theorem AddInnerCiphertexts_does_not_append :
    ((demoVerifierTwice (demoInner.take 1) (demoInner.drop 1)).states.lookup 1).map
        (fun st => st.innerCiphertexts) = some (some (demoInner.drop 1)) ∧
    demoInner.drop 1 ≠ demoInner.take 1 ++ demoInner.drop 1 ∧
    ((demoVerifierTwice (demoInner.take 1) (demoInner.drop 1)).Finalize (ZMod 7) demoBox 1
        ([2, 3].map bytesBE)).map (fun r => (r.2.1, r.2.2)) = some (some [[0x42, 0x43]], none) ∧
    ([[0x42, 0x43]] : List (List Byte)).length ≠
      (demoInner.take 1).length + (demoInner.drop 1).length := by
  refine ⟨by decide, by decide, by decide, by decide⟩

/-! ### The erasure of the envelope key -/

section Erasure

variable {Pt : Type} [Curve Pt]

/-- A call leaves a round done only if the round was done before, or the call is a
`Finalize` of that round which returned no error. -/
theorem call_done (B : SecretBox) (ver ver1 : mixnet.verifier) (c : mixnet.verifierCall)
    (err : Option Err) (round : Int) (st1 : mixnet.verifierRoundState)
    (h : ver.call Pt B c = some (ver1, err))
    (hst : ver1.states.lookup round = some st1) (hdone : st1.done = true) :
    (∃ st, ver.states.lookup round = some st ∧ st.done = true) ∨
    (c.finalizes round && err.isNone) = true := by
  cases c with
  | newRound r z =>
    simp only [mixnet.verifier.call, mixnet.verifier.NewRound, Option.some.injEq] at h
    split at h
    · simp only [Prod.mk.injEq] at h
      obtain ⟨rfl, -⟩ := h
      exact Or.inl ⟨st1, hst, hdone⟩
    · split at h
      · simp only [Prod.mk.injEq] at h
        obtain ⟨rfl, -⟩ := h
        exact Or.inl ⟨st1, hst, hdone⟩
      · simp only [Prod.mk.injEq] at h
        obtain ⟨rfl, -⟩ := h
        by_cases hr : round = r
        · subst hr
          simp only [lookup_mapSet_self, Option.some.injEq] at hst
          subst hst
          simp at hdone
        · rw [lookup_mapSet_ne _ _ _ _ (by simpa using hr)] at hst
          exact Or.inl ⟨st1, hst, hdone⟩
  | endRound r =>
    simp only [mixnet.verifier.call, mixnet.verifier.EndRound, Option.some.injEq] at h
    split at h
    · simp only [Prod.mk.injEq] at h
      obtain ⟨rfl, -⟩ := h
      exact Or.inl ⟨st1, hst, hdone⟩
    · split at h
      · simp only [Prod.mk.injEq] at h
        obtain ⟨rfl, -⟩ := h
        exact Or.inl ⟨st1, hst, hdone⟩
      · split at h
        · simp only [Prod.mk.injEq] at h
          obtain ⟨rfl, -⟩ := h
          exact Or.inl ⟨st1, hst, hdone⟩
        · simp only [Prod.mk.injEq] at h
          obtain ⟨rfl, -⟩ := h
          by_cases hr : round = r
          · subst hr
            simp only [lookup_mapDelete_self] at hst
            cases hst
          · rw [lookup_mapDelete_ne _ _ _ (by simpa using hr)] at hst
            exact Or.inl ⟨st1, hst, hdone⟩
  | setPublicKey r x y =>
    simp only [mixnet.verifier.call, mixnet.verifier.SetPublicKey, Option.some.injEq] at h
    split at h
    · simp only [Prod.mk.injEq] at h
      obtain ⟨rfl, -⟩ := h
      exact Or.inl ⟨st1, hst, hdone⟩
    · rename_i st0 hst0
      simp only [Prod.mk.injEq] at h
      obtain ⟨rfl, -⟩ := h
      by_cases hr : round = r
      · subst hr
        simp only [lookup_mapSet_self, Option.some.injEq] at hst
        subst hst
        exact Or.inl ⟨st0, hst0, hdone⟩
      · rw [lookup_mapSet_ne _ _ _ _ (by simpa using hr)] at hst
        exact Or.inl ⟨st1, hst, hdone⟩
  | addInnerCiphertexts r inners =>
    simp only [mixnet.verifier.call, mixnet.verifier.AddInnerCiphertexts,
      Option.some.injEq] at h
    split at h
    · simp only [Prod.mk.injEq] at h
      obtain ⟨rfl, -⟩ := h
      exact Or.inl ⟨st1, hst, hdone⟩
    · rename_i st0 hst0
      simp only [Prod.mk.injEq] at h
      obtain ⟨rfl, -⟩ := h
      by_cases hr : round = r
      · subst hr
        simp only [lookup_mapSet_self, Option.some.injEq] at hst
        subst hst
        exact Or.inl ⟨st0, hst0, hdone⟩
      · rw [lookup_mapSet_ne _ _ _ _ (by simpa using hr)] at hst
        exact Or.inl ⟨st1, hst, hdone⟩
  | finalize r privateKeys =>
    simp only [mixnet.verifier.call, Option.map_eq_some'] at h
    obtain ⟨⟨v, pts, e⟩, hfin, hv⟩ := h
    simp only [Prod.mk.injEq] at hv
    obtain ⟨rfl, rfl⟩ := hv
    cases e with
    | some e =>
      have := Finalize_err Pt B _ _ _ _ _ _ hfin
      subst this
      exact Or.inl ⟨st1, hst, hdone⟩
    | none =>
      by_cases hr : round = r
      · subst hr
        exact Or.inr (by simp [mixnet.verifierCall.finalizes])
      · obtain ⟨state, inner, pts1, -, -, -, -, hv⟩ := Finalize_ok Pt B _ _ _ _ _ hfin
        subst hv
        rw [lookup_mapSet_ne _ _ _ _ (by simpa using hr)] at hst
        exact Or.inl ⟨st1, hst, hdone⟩

/-- A round that is done at the end of a sequence of calls was done at its start, or one of
the calls is a `Finalize` of that round which returned no error. -/
theorem calls_done (B : SecretBox) (round : Int) : ∀ (trace : List mixnet.verifierCall)
    (ver0 ver : mixnet.verifier) (st : mixnet.verifierRoundState),
    mixnet.verifier.calls Pt B ver0 trace = some ver →
    ver.states.lookup round = some st → st.done = true →
    (∃ st0, ver0.states.lookup round = some st0 ∧ st0.done = true) ∨
      mixnet.verifier.finalized Pt B round ver0 trace = true := by
  intro trace
  induction trace with
  | nil =>
    intro ver0 ver st h hst hdone
    simp only [mixnet.verifier.calls, Option.some.injEq] at h
    subst h
    exact Or.inl ⟨st, hst, hdone⟩
  | cons c rest ih =>
    intro ver0 ver st h hst hdone
    simp only [mixnet.verifier.calls] at h
    cases hc : ver0.call Pt B c with
    | none => simp [hc] at h
    | some r =>
      obtain ⟨ver1, err⟩ := r
      simp only [hc] at h
      rcases ih ver1 ver st h hst hdone with ⟨st1, hst1, hd1⟩ | hfin
      · rcases call_done B ver0 ver1 c err round st1 hc hst1 hd1 with h0 | hnow
        · exact Or.inl h0
        · refine Or.inr ?_
          simp only [mixnet.verifier.finalized, hc, hnow, Bool.true_or]
      · refine Or.inr ?_
        simp only [mixnet.verifier.finalized, hc, hfin, Bool.or_true]

end Erasure

/-- Claim C23. Key erasure is gated by the done flag. In every verifier state, `EndRound(round)`
returns an error and leaves the verifier unchanged when `round` is greater than the latest
started round, when the round has no state, or when its state is not done; otherwise it
returns no error and deletes the state of the round. In a verifier reached from `NewVerifier`
by calls of its methods, a round is deleted only if one of the calls was a `Finalize` of that
round which returned no error. -/
theorem EndRound_gated_by_done (Pt : Type) [Curve Pt] (B : SecretBox) (index groupSize : Int)
    (trace : List mixnet.verifierCall) (ver : mixnet.verifier) (round : Int)
    (hrun : mixnet.verifier.calls Pt B (mixnet.NewVerifier index groupSize) trace = some ver) :
    (round > ver.round → ver.EndRound round = (ver, some Err.futureRound)) ∧
    (round ≤ ver.round → ver.states.lookup round = none →
      ver.EndRound round = (ver, some Err.roundAlreadyDeleted)) ∧
    (∀ st, round ≤ ver.round → ver.states.lookup round = some st → st.done = false →
      ver.EndRound round = (ver, some Err.roundNotFinished)) ∧
    (∀ ver1, ver.EndRound round = (ver1, none) →
      mixnet.verifier.finalized Pt B round (mixnet.NewVerifier index groupSize) trace = true ∧
      (∃ st, ver.states.lookup round = some st ∧ st.done = true) ∧
      ver1.states = mapDelete ver.states round ∧ ver1.states.lookup round = none) ∧
    (∀ ver1 e, ver.EndRound round = (ver1, some e) → ver1 = ver) := by
  refine ⟨?_, ?_, ?_, ?_, ?_⟩
  · intro h
    simp only [mixnet.verifier.EndRound, h, if_true]
  · intro h hst
    simp only [mixnet.verifier.EndRound, not_lt.mpr h, hst, if_false]
  · intro st h hst hdone
    simp [mixnet.verifier.EndRound, not_lt.mpr h, hst, hdone]
  · intro ver1 h
    simp only [mixnet.verifier.EndRound] at h
    split at h
    · simp at h
    · split at h
      · simp at h
      · rename_i st hst
        split at h
        · simp at h
        · rename_i hdone
          simp only [Bool.not_eq_true, Bool.not_eq_false_eq_eq_true, Bool.not_eq_true',
            Bool.not_eq_false] at hdone
          simp only [Prod.mk.injEq, and_true] at h
          subst h
          have hd : st.done = true := by simpa using hdone
          refine ⟨?_, ⟨st, hst, hd⟩, rfl, lookup_mapDelete_self _ _⟩
          rcases calls_done B round trace _ ver st hrun hst hd with ⟨st0, h0, -⟩ | hfin
          · simp [mixnet.NewVerifier] at h0
          · exact hfin
  · intro ver1 e h
    simp only [mixnet.verifier.EndRound] at h
    split at h
    · simp only [Prod.mk.injEq] at h
      exact h.1.symm
    · split at h
      · simp only [Prod.mk.injEq] at h
        exact h.1.symm
      · split at h
        · simp only [Prod.mk.injEq] at h
          exact h.1.symm
        · simp at h

set_option maxRecDepth 100000 in
/-- Witness for C23: the demo round, started, filled, finalized and then ended. -/
theorem EndRound_gated_by_done_witness :
    mixnet.verifier.calls (ZMod 7) demoBox (mixnet.NewVerifier 0 2) demoCalls
      = some demoVerifierDone ∧
    (demoVerifierDone.EndRound 1).2 = none ∧
    ∀ ver1, demoVerifierDone.EndRound 1 = (ver1, none) →
      mixnet.verifier.finalized (ZMod 7) demoBox 1 (mixnet.NewVerifier 0 2) demoCalls = true ∧
      (∃ st, demoVerifierDone.states.lookup 1 = some st ∧ st.done = true) ∧
      ver1.states = mapDelete demoVerifierDone.states 1 ∧ ver1.states.lookup 1 = none :=
  ⟨by decide, by decide, (EndRound_gated_by_done (ZMod 7) demoBox 0 2 demoCalls demoVerifierDone 1
    (by decide)).2.2.2.1⟩

/-! ### The mail record -/

/-- Claim C24. The mail record codec round trip: for a mail whose `UserKey` has 32 bytes,
`MarshalMail` yields the key bytes followed by the message bytes, `32 + len(Message)` bytes in
all, and `UnmarshalMail` of that record has the same `UserKey` and `Message`; and for a byte
string `b` of at least 32 bytes, `MarshalMail(UnmarshalMail(b)) = b`. -/
theorem MarshalMail_round_trip (mail : Mail) (b : List Byte)
    (hkey : mail.UserKey.length = 32) (hb : 32 ≤ b.length) :
    MarshalMail mail = mail.UserKey ++ mail.Message ∧
    (MarshalMail mail).length = 32 + mail.Message.length ∧
    UnmarshalMail (MarshalMail mail) = some mail ∧
    (UnmarshalMail b).map MarshalMail = some b := by
  have hm : ∀ m : Mail, m.UserKey.length = 32 → MarshalMail m = m.UserKey ++ m.Message := by
    intro m hk
    have h1 : writeAt (zeroBytes 32) 0 m.UserKey = m.UserKey := by
      simp [writeAt, hk, zeroBytes]
    have h2 : writeAt (zeroBytes m.Message.length) 0 m.Message = m.Message := by
      simp [writeAt, zeroBytes]
    have h3 : (zeroBytes (32 + m.Message.length)).take 32 = zeroBytes 32 := by
      simp [zeroBytes, List.take_replicate]
    have h4 : (zeroBytes (32 + m.Message.length)).drop 32 = zeroBytes m.Message.length := by
      simp [zeroBytes, List.drop_replicate]
    simp only [MarshalMail, h3, h4, h1]
    rw [List.take_left' hk, List.drop_left' hk, h2]
  have h := hm mail hkey
  refine ⟨h, by rw [h, List.length_append, hkey], ?_, ?_⟩
  · rw [h]
    simp only [UnmarshalMail, List.length_append, hkey]
    rw [if_neg (by omega), List.take_left' hkey, List.drop_left' hkey]
  · simp only [UnmarshalMail, if_neg (not_lt.mpr hb), Option.map_some', Option.some.injEq]
    rw [hm _ (by simp [hb])]
    exact List.take_append_drop 32 b

/-- Witness for C24: a mail for the key of 32 bytes `1` with a message of two bytes, and a
record of 33 bytes. -/
theorem MarshalMail_round_trip_witness :
    MarshalMail { UserKey := demoKey1, Message := [7, 8] } = demoKey1 ++ [7, 8] ∧
    (MarshalMail { UserKey := demoKey1, Message := [7, 8] }).length = 32 + 2 ∧
    UnmarshalMail (MarshalMail { UserKey := demoKey1, Message := [7, 8] })
      = some { UserKey := demoKey1, Message := [7, 8] } ∧
    (UnmarshalMail (demoKey2 ++ [9])).map MarshalMail = some (demoKey2 ++ [9]) :=
  MarshalMail_round_trip { UserKey := demoKey1, Message := [7, 8] } (demoKey2 ++ [9])
    (by decide) (by decide)

/-! ### `StreamSpan` is not total -/

/-- Claim C30. `StreamSpan` is not total: for every `n` and every `streamSize`,
`StreamSpan(n, streamSize, msgSize)` fails with an integer division by zero when
`msgSize > streamSize`, which gives a count of zero records for a chunk, or when
`msgSize = 0`, and in no other case; it never falls back to one record per chunk. -/
theorem StreamSpan_not_total (n streamSize msgSize : Nat) :
    StreamSpan n streamSize msgSize = none ↔ (msgSize > streamSize ∨ msgSize = 0) := by
  unfold StreamSpan SpanWithSize
  by_cases h0 : msgSize = 0
  · simp [h0]
  · have hpos : 0 < msgSize := Nat.pos_of_ne_zero h0
    simp only [h0, if_false, or_false]
    by_cases h1 : streamSize / msgSize = 0
    · simp only [h1, if_true, true_iff]
      exact (Nat.div_eq_zero_iff hpos).mp h1
    · simp only [h1, if_false, false_iff, reduceCtorEq, not_lt, gt_iff_lt]
      by_contra hlt
      exact h1 ((Nat.div_eq_zero_iff hpos).mpr (not_le.mp hlt))

/-! ### The shuffler keeps its permutation -/

theorem swapAt_length {arr arr1 : List Nat} {i j : Nat} (h : swapAt arr i j = some arr1) :
    arr1.length = arr.length := by
  unfold swapAt at h
  split at h
  · simp only [Option.some.injEq] at h
    subst h
    simp
  · simp at h

theorem permutationLoop_length (k : Nat) : ∀ (arr p : List Nat) (rand rest : List Byte),
    permutationLoop k arr rand = some (p, rest) → p.length = arr.length := by
  induction k with
  | zero =>
    intro arr p rand rest h
    simp only [permutationLoop, Option.some.injEq, Prod.mk.injEq] at h
    rw [← h.1]
  | succ i ih =>
    intro arr p rand rest h
    simp only [permutationLoop] at h
    cases hj : randInt rand (i + 1) with
    | none => simp [hj] at h
    | some jr =>
      obtain ⟨j, rand1⟩ := jr
      simp only [hj] at h
      cases hs : swapAt arr i j with
      | none => simp [hs] at h
      | some arr1 =>
        simp only [hs] at h
        rw [ih arr1 p rand1 rest h, swapAt_length hs]

/-- A run of the loop of `Shuffle` that does not panic read an index below `len(orig)` at
every position it visited. -/
theorem shuffleLoop_valid (orig : List (List Byte)) (p : List Nat) (k : Nat) :
    ∀ (i : Nat) (inp out : List (List Byte)), shuffleLoop orig p k i inp = some out →
      ∀ m, i ≤ m → m < i + k → ∃ q, p[m]? = some q ∧ q < orig.length := by
  induction k with
  | zero => intro i inp out _ m h1 h2; omega
  | succ k ih =>
    intro i inp out h m h1 h2
    simp only [shuffleLoop] at h
    cases hq : p[i]? with
    | none => simp [hq] at h
    | some q =>
      simp only [hq] at h
      cases ho : orig[q]? with
      | none => simp [ho] at h
      | some v =>
        simp only [ho] at h
        by_cases hmi : m = i
        · subst hmi
          refine ⟨q, hq, ?_⟩
          by_contra hlt
          rw [List.getElem?_eq_none (by omega)] at ho
          cases ho
        · exact ih (i + 1) _ out h m (by omega) (by omega)

/-- What a `Shuffle` that does not panic leaves in the shuffler: a permutation array as long
as the input, with an index below that length at every position. -/
theorem Shuffle_stores (sr0 sr1 : Shuffler) (inp0 out0 : List (List Byte))
    (h0 : sr0.Shuffle inp0 = some (sr1, out0)) :
    ∃ p, sr1.perm = some p ∧ p.length = inp0.length ∧
      ∀ m, m < inp0.length → ∃ q, p[m]? = some q ∧ q < inp0.length := by
  simp only [Shuffler.Shuffle] at h0
  split at h0
  · simp at h0
  · rename_i p rand1 hfresh
    split at h0
    · simp at h0
    · rename_i out hloop
      simp only [Option.some.injEq, Prod.mk.injEq] at h0
      obtain ⟨rfl, -⟩ := h0
      refine ⟨p, rfl, ?_, ?_⟩
      · split at hfresh
        · exact (permutationLoop_length _ _ _ _ _ hfresh).trans (by simp)
        · split at hfresh
          · exact (permutationLoop_length _ _ _ _ _ hfresh).trans (by simp)
          · rename_i p0 _ hne
            simp only [Option.some.injEq, Prod.mk.injEq] at hfresh
            rw [← hfresh.1]
            simpa using hne
      · intro m hm
        exact shuffleLoop_valid inp0 p inp0.length 0 inp0 out hloop m (Nat.zero_le _) (by omega)

/-- Claim C26. The Shuffler re-uses its permutation across calls of equal length: after a
`Shuffle` of an array of length `n`, the shuffler holds a permutation array `p` of length `n`,
and every later `Shuffle` of an array `in` of the same length, whatever the entropy source
holds, leaves `in[p[i]]` at position `i`, keeps `p`, and leaves the entropy source as it was;
a `Shuffle` of an array of another length draws with `permutation` from the entropy
source. -/
theorem Shuffle_reuses_permutation (sr0 sr1 : Shuffler) (inp0 out0 inp : List (List Byte))
    (h0 : sr0.Shuffle inp0 = some (sr1, out0)) (hlen : inp.length = inp0.length) :
    ∃ p, sr1.perm = some p ∧ p.length = inp0.length ∧
      (∀ rand : List Byte, ∃ out,
        Shuffler.Shuffle { perm := some p, rand := rand } inp
          = some ({ perm := some p, rand := rand }, out) ∧
        out.length = inp.length ∧
        ∀ i, i < inp.length → out[i]? = (p[i]?).bind (fun q => inp[q]?)) ∧
      (∀ (rand : List Byte) (inp2 : List (List Byte)), inp2.length ≠ inp0.length →
        (Shuffler.Shuffle { perm := some p, rand := rand } inp2).isSome = true →
        ∃ p2 rest, permutation rand inp2.length = some (p2, rest) ∧
          (Shuffler.Shuffle { perm := some p, rand := rand } inp2).map Prod.fst
            = some { perm := some p2, rand := rest }) := by
  obtain ⟨p, hp, hplen, hvalid⟩ := Shuffle_stores sr0 sr1 inp0 out0 h0
  refine ⟨p, hp, hplen, ?_, ?_⟩
  · intro rand
    obtain ⟨out, hout, hl, -, hhi⟩ := shuffleLoop_spec inp p (by rw [hlen]; exact hvalid)
      inp.length 0 inp (by simp) rfl
    refine ⟨out, ?_, hl, fun i hi => hhi i (Nat.zero_le _) hi⟩
    simp only [Shuffler.Shuffle, hplen, hlen, ne_eq, not_true_eq_false, if_false]
    rw [hlen] at hout
    simp only [hout]
  · intro rand inp2 hne hsome
    simp only [Shuffler.Shuffle, hplen, ne_eq, Ne.symm hne, not_false_eq_true, if_true] at hsome ⊢
    cases hperm : permutation rand inp2.length with
    | none => simp [hperm] at hsome
    | some pr =>
      obtain ⟨p2, rest⟩ := pr
      simp only [hperm] at hsome ⊢
      cases hloop : shuffleLoop inp2 p2 inp2.length 0 inp2 with
      | none => simp [hloop] at hsome
      | some out => exact ⟨p2, rest, rfl, by simp⟩

/-- Witness for C26: three records are shuffled with twelve bytes of entropy, and three other
records afterwards. -/
theorem Shuffle_reuses_permutation_witness :
    ∃ p, ((NewShuffler [0, 0, 0, 1, 0, 0, 0, 0, 0, 0, 0, 5]).Shuffle [[1], [2], [3]]).map
        (fun r => r.1.perm) = some (some p) ∧ p.length = 3 ∧
      ∀ rand : List Byte, ∃ out,
        Shuffler.Shuffle { perm := some p, rand := rand } [[4], [5], [6]]
          = some ({ perm := some p, rand := rand }, out) ∧
        out.length = 3 ∧
        ∀ i, i < 3 → out[i]? = (p[i]?).bind (fun q => ([[4], [5], [6]] : List (List Byte))[q]?) := by
  obtain ⟨p, h1, h2, h3, -⟩ := Shuffle_reuses_permutation
    (NewShuffler [0, 0, 0, 1, 0, 0, 0, 0, 0, 0, 0, 5])
    (((NewShuffler [0, 0, 0, 1, 0, 0, 0, 0, 0, 0, 0, 5]).Shuffle [[1], [2], [3]]).getD
      (NewShuffler [], [])).1
    [[1], [2], [3]]
    (((NewShuffler [0, 0, 0, 1, 0, 0, 0, 0, 0, 0, 0, 5]).Shuffle [[1], [2], [3]]).getD
      (NewShuffler [], [])).2
    [[4], [5], [6]] (by decide) (by decide)
  refine ⟨p, ?_, h2, h3⟩
  rw [← h1]
  decide

/-! ### The input of the challenge -/

theorem bytesBE_length_eq_32 (n : Nat) (h : n < 2 ^ 256) :
    (bytesBE n).length = 32 ↔ 2 ^ 248 ≤ n := by
  have hle := bytesBE_length_le_32 n h
  constructor
  · intro h32
    by_contra hlt
    have := bytesBE_length_le n 31 (by norm_num; omega)
    omega
  · intro hge
    have hlt := setBytes_lt (bytesBE n)
    rw [setBytes_bytesBE] at hlt
    by_contra hne
    have h31 : (bytesBE n).length ≤ 31 := by omega
    have : 256 ^ (bytesBE n).length ≤ 256 ^ 31 := Nat.pow_le_pow_right (by norm_num) h31
    have h248 : (256 : Nat) ^ 31 = 2 ^ 248 := by norm_num
    omega

/-- Claim C25, as the code has it. The challenge of `PoKLog` and of `VerifyPoKLog` is the hash
of `X.x.Bytes()`, `X.y.Bytes()` and the 64-byte serialization of `R`: the coordinates of `X`
enter without padding. The hashed input has `len(X.x.Bytes()) + len(X.y.Bytes()) + 64` bytes,
at most 128, and exactly 128 only when both coordinates of `X` are at least `2^248`. -/
theorem PoK_challenge_input (Pt : Type) [Curve Pt] (P : Primitives) (exp r : Nat) (X : Pt)
    (hdr sb : List Byte) (hh : hdr.length = 64) :
    PoKLog Pt P exp (Curve.coords X).1 (Curve.coords X).2 r =
      some (encodePoint (Curve.coords (r • (Curve.G : Pt))) ++
        padLeft 32 (responseBytes (Curve.N Pt) r
          (setBytes (P.sha256 (challengeInput (Curve.coords X).1 (Curve.coords X).2
            (encodePoint (Curve.coords (r • (Curve.G : Pt))))))) exp)) ∧
    VerifyPoKLog Pt P (Curve.coords X).1 (Curve.coords X).2 (hdr ++ sb) =
      some (decide (Curve.coords (setBytes sb • (Curve.G : Pt) +
          setBytes (P.sha256 (challengeInput (Curve.coords X).1 (Curve.coords X).2 (hdr ++ sb)))
            • X) = (setBytes (hdr.take 32), setBytes (hdr.drop 32)))) ∧
    (challengeInput (Curve.coords X).1 (Curve.coords X).2 (hdr ++ sb)).length =
      (bytesBE (Curve.coords X).1).length + (bytesBE (Curve.coords X).2).length + 64 ∧
    (challengeInput (Curve.coords X).1 (Curve.coords X).2 (hdr ++ sb)).length ≤ 128 ∧
    ((challengeInput (Curve.coords X).1 (Curve.coords X).2 (hdr ++ sb)).length = 128 ↔
      2 ^ 248 ≤ (Curve.coords X).1 ∧ 2 ^ 248 ≤ (Curve.coords X).2) := by
  obtain ⟨hx, hy⟩ := Curve.coords_lt X
  obtain ⟨hrx, hry⟩ := Curve.coords_lt (r • (Curve.G : Pt))
  have t64 : (hdr ++ sb).take 64 = hdr := by rw [← hh, List.take_left]
  have hlen : (challengeInput (Curve.coords X).1 (Curve.coords X).2 (hdr ++ sb)).length =
      (bytesBE (Curve.coords X).1).length + (bytesBE (Curve.coords X).2).length + 64 := by
    simp only [challengeInput, t64, List.length_append, hh]
  have lx := bytesBE_length_le_32 _ hx
  have ly := bytesBE_length_le_32 _ hy
  refine ⟨?_, ?_, hlen, by omega, ?_⟩
  · rw [PoKLog_eq]
    simp only [challengeInput, List.take_of_length_le (le_of_eq (encodePoint_length _ hrx hry))]
  · rw [VerifyPoKLog_eq P X hdr sb hh]
    simp only [challengeInput, t64]
  · rw [hlen, ← bytesBE_length_eq_32 _ hx, ← bytesBE_length_eq_32 _ hy]
    omega

set_option maxRecDepth 100000 in
/-- Witness for C25: the point `3·G` of the demo curve and the header of the demo proof. -/
theorem PoK_challenge_input_witness :
    (challengeInput (Curve.coords (3 : ZMod 7)).1 (Curve.coords (3 : ZMod 7)).2
      (demoPoKProof.take 64 ++ demoPoKProof.drop 64)).length =
      (bytesBE (Curve.coords (3 : ZMod 7)).1).length +
        (bytesBE (Curve.coords (3 : ZMod 7)).2).length + 64 :=
  (PoK_challenge_input (ZMod 7) demoPrimitives 3 5 (3 : ZMod 7) (demoPoKProof.take 64)
    (demoPoKProof.drop 64) (by decide)).2.2.1

set_option maxRecDepth 100000 in
/-- Counterexample for C25 as stated: for the point `X = 3·G = (3, 3)` of the demo curve, whose
coordinates take one byte each, the input that `PoKLog` and `VerifyPoKLog` hash has 66 bytes
and not 128, and it is not the padded serialization of `X` followed by `R`; with a hash that
tells the length of its input the response of `PoKLog` is `(5 - 66·3) mod 7 = 3`, where the
padded input gives `(5 - 128·3) mod 7 = 6`. -/
theorem PoK_challenge_input_not_padded :
    (challengeInput 3 3 demoPoKProof).length = 66 ∧
    (paddedChallengeInput 3 3 demoPoKProof).length = 128 ∧
    challengeInput 3 3 demoPoKProof ≠ paddedChallengeInput 3 3 demoPoKProof ∧
    Curve.coords (3 : ZMod 7) = (3, 3) ∧
    (PoKLog (ZMod 7) lengthPrimitives 3 3 3 5).map (fun prf => setBytes (prf.drop 64))
      = some 3 ∧
    setBytes (responseBytes 7 5 (setBytes (lengthPrimitives.sha256
      (paddedChallengeInput 3 3 demoPoKProof))) 3) = 6 := by
  refine ⟨by decide, by decide, by decide, by decide, by decide, by decide⟩

/-! ### The chunk size of `GetMails` -/

/-- The first loop of `GetMails` passes when every key has 32 bytes and a released wait
group, and leaves the last key in `tmpKey`. -/
theorem waitLoop_ok (state : mailbox.roundState) (hlock : state.locked = false) :
    ∀ (keys : List (List Byte)) (tmpKey : List Byte), tmpKey.length = 32 →
      (∀ key ∈ keys, key.length = 32 ∧ state.inboxwgs.lookup key = some 0) →
      mailbox.waitLoop state tmpKey keys = (keys.getLast?.getD tmpKey, Exit.ok) := by
  intro keys
  induction keys with
  | nil => intro tmpKey _ _; rfl
  | cons key rest ih =>
    intro tmpKey ht hk
    obtain ⟨hlen, hwg⟩ := hk key (List.mem_cons_self _ _)
    have hw : writeAt tmpKey 0 key = key := writeAt_key tmpKey key ht hlen
    simp only [mailbox.waitLoop, hw, hlock, Bool.false_eq_true, if_false, hwg, ne_eq,
      not_true_eq_false]
    rw [ih key hlen (fun k hk1 => hk k (List.mem_cons_of_mem _ hk1))]
    cases rest with
    | nil => rfl
    | cons k2 rest2 =>
      obtain ⟨v, hv⟩ : ∃ v, (k2 :: rest2).getLast? = some v :=
        ⟨_, List.getLast?_eq_getLast _ (List.cons_ne_nil _ _)⟩
      simp only [List.getLast?_cons_cons, hv, Option.getD_some]

theorem SpanWithSize_zero (size : Nat) (h : 0 < size) : SpanWithSize 0 size = some [] := by
  simp [SpanWithSize, Nat.ne_of_gt h]

theorem StreamSpan_none (n streamSize msgSize : Nat)
    (h : msgSize = 0 ∨ streamSize < msgSize) : StreamSpan n streamSize msgSize = none := by
  unfold StreamSpan
  by_cases h0 : msgSize = 0
  · simp [h0]
  · have hlt : streamSize < msgSize := by omega
    simp [h0, SpanWithSize, Nat.div_eq_of_lt hlt]

/-- Claim C28, as the code has it. `GetMails` derives its chunk size from one inbox only: the
inbox stored under the bytes the wait loop leaves in `tmpKey`, which are the last key of the
request, or 32 zero bytes when the request has no key. On an initialized round whose lock is
free and whose requested keys are registered with their wait groups released, the size is the
number of messages of that inbox times the length of its first message; when that inbox is
empty (the last key was registered with the expected count 0, or the key list is empty and no
mail is stored under the all-zero key) the handler fails with an index out of range; and for
an empty key list with mail stored under the all-zero key the handler does not fail so: it
returns without a response when the size is positive and at most `StreamSize`, and fails
with an integer division by zero in `StreamSpan` otherwise. -/
theorem GetMails_chunk_from_last_key (StreamSize : Nat) (mb : mailbox) (req : GetMailsRequest)
    (state : mailbox.roundState)
    (hround : mb.states.lookup req.Round = some state) (hlock : state.locked = false)
    (hkeys : ∀ key ∈ req.UserKeys, key.length = 32 ∧ state.inboxwgs.lookup key = some 0) :
    (∀ first more,
      state.inboxes.lookup (req.UserKeys.getLast?.getD (zeroBytes 32)) = some (first :: more) →
      mb.getRequest StreamSize req =
        (StreamSpan req.UserKeys.length StreamSize ((more.length + 1) * first.length)).map
          (fun spans =>
            ((mailbox.spanLoop state req.UserKeys
                (req.UserKeys.getLast?.getD (zeroBytes 32)) spans).1,
             (mailbox.spanLoop state req.UserKeys
                (req.UserKeys.getLast?.getD (zeroBytes 32)) spans).2.2))) ∧
    ((state.inboxes.lookup (req.UserKeys.getLast?.getD (zeroBytes 32))).getD [] = [] →
      mb.getRequest StreamSize req = none) ∧
    (∀ first more, req.UserKeys = [] →
      state.inboxes.lookup (zeroBytes 32) = some (first :: more) →
      (0 < (more.length + 1) * first.length ∧ (more.length + 1) * first.length ≤ StreamSize →
        mb.getRequest StreamSize req = some ([], Exit.ok)) ∧
      ((more.length + 1) * first.length = 0 ∨ StreamSize < (more.length + 1) * first.length →
        mb.getRequest StreamSize req = none)) := by
  have hw := waitLoop_ok state hlock req.UserKeys (zeroBytes 32) (zeroBytes_length 32) hkeys
  have hgen : ∀ first more,
      state.inboxes.lookup (req.UserKeys.getLast?.getD (zeroBytes 32)) = some (first :: more) →
      mb.getRequest StreamSize req =
        (StreamSpan req.UserKeys.length StreamSize ((more.length + 1) * first.length)).map
          (fun spans =>
            ((mailbox.spanLoop state req.UserKeys
                (req.UserKeys.getLast?.getD (zeroBytes 32)) spans).1,
             (mailbox.spanLoop state req.UserKeys
                (req.UserKeys.getLast?.getD (zeroBytes 32)) spans).2.2)) := by
    intro first more hin
    simp only [mailbox.getRequest, hround, hw, hlock, Bool.false_eq_true, if_false, hin,
      Option.getD_some, List.length_cons]
    cases StreamSpan req.UserKeys.length StreamSize ((more.length + 1) * first.length) <;> rfl
  refine ⟨hgen, ?_, ?_⟩
  · intro hempty
    simp only [mailbox.getRequest, hround, hw, hlock, Bool.false_eq_true, if_false, hempty]
  · intro first more hnil hin
    have hin2 : state.inboxes.lookup (req.UserKeys.getLast?.getD (zeroBytes 32))
        = some (first :: more) := by
      rw [hnil]
      exact hin
    have hreq := hgen first more hin2
    rw [hnil] at hreq
    constructor
    · intro ⟨hpos, hle⟩
      have hdiv : 0 < StreamSize / ((more.length + 1) * first.length) :=
        Nat.div_pos hle hpos
      rw [hreq]
      simp only [StreamSpan, Nat.ne_of_gt hpos, if_false, List.length_nil,
        SpanWithSize_zero _ hdiv, Option.map_some', mailbox.spanLoop]
    · intro hbad
      rw [hreq, StreamSpan_none _ _ _ hbad]
      rfl

set_option maxRecDepth 100000 in
/-- Witness for C28: the first demo key got its one mail, the second expects none, and the
request names the two keys in that order; and a request without keys in the round where the
all-zero key holds one mail of one byte. -/
theorem GetMails_chunk_from_last_key_witness :
    demoEmptyLastMailbox.getRequest 1024 { Round := 1, UserKeys := [demoKey1, demoKey2] }
      = none ∧
    demoZeroKeyMailbox.getRequest 1024 { Round := 1, UserKeys := [] } = some ([], Exit.ok) :=
  ⟨(GetMails_chunk_from_last_key 1024 demoEmptyLastMailbox
      { Round := 1, UserKeys := [demoKey1, demoKey2] } demoEmptyLastState
      (by decide) (by decide) (by decide)).2.1 (by decide),
   ((GetMails_chunk_from_last_key 1024 demoZeroKeyMailbox
      { Round := 1, UserKeys := [] }
      ((demoZeroKeyMailbox.states.lookup 1).getD (mailbox.roundState.mk false [] []))
      (by decide) (by decide) (by decide)).2.2 [9] [] rfl (by decide)).1 (by decide)⟩

set_option maxRecDepth 100000 in
/-- Counterexample for C28 as stated: in a round where the all-zero key was registered and has
got its mail, a request with an empty key list does not fail; `GetMails` takes the chunk size
from the inbox of the all-zero key and returns without a response. -/
theorem GetMails_empty_key_list_returns :
    (mailbox.NewMailboxServer.NewRound 1).run
      [mailbox.Request.registerUsers (RegisterUsersRequest.mk 1 [zeroBytes 32] [1]),
       mailbox.Request.deliverMails (zeroBytes 32)
         (DeliverMailsRequest.mk 1 [Mail.mk (zeroBytes 32) [9]])] = some demoZeroKeyMailbox ∧
    demoZeroKeyMailbox.inboxOf 1 (zeroBytes 32) = some [[9]] ∧
    demoZeroKeyMailbox.GetMails 1 [{ Round := 1, UserKeys := [] }] = some ([], Exit.ok) ∧
    demoZeroKeyMailbox.GetMails 65536 [{ Round := 1, UserKeys := [] }] = some ([], Exit.ok) := by
  refine ⟨by decide, by decide, by decide, by decide⟩

/-! ### The nonces of the layers -/

theorem uvarint_byte (x : Nat) : (Fin.ofNat (x % 128 + 128) : Byte).val = x % 128 + 128 := by
  show (x % 128 + 128) % 256 = x % 128 + 128
  omega

theorem Uvarint_uvarintAux (fuel : Nat) : ∀ (x : Nat) (tail : List Byte),
    x < 128 ^ (fuel + 1) → Uvarint (uvarintAux (fuel + 1) x ++ tail) = x := by
  induction fuel with
  | zero =>
    intro x tail hx
    have hx1 : x < 128 := by simpa using hx
    have hv : (Fin.ofNat x : Byte).val = x := by
      show x % 256 = x
      omega
    simp [uvarintAux, hx1, Uvarint, hv]
  | succ fuel ih =>
    intro x tail hx
    by_cases hx1 : x < 128
    · have hv : (Fin.ofNat x : Byte).val = x := by
        show x % 256 = x
        omega
      simp [uvarintAux, hx1, Uvarint, hv]
    · have hdiv : x / 128 < 128 ^ (fuel + 1) := by
        rw [pow_succ] at hx
        exact Nat.div_lt_of_lt_mul (by rw [Nat.mul_comm]; exact hx)
      have := ih (x / 128) tail hdiv
      rw [uvarintAux, if_neg hx1, List.cons_append, Uvarint, uvarint_byte, this]
      rw [if_neg (by omega)]
      omega

theorem uvarintAux_length_short : ∀ (k fuel x : Nat), 0 < k → x < 128 ^ k →
    (uvarintAux fuel x).length ≤ k := by
  intro k
  induction k with
  | zero => intro fuel x h; omega
  | succ k ih =>
    intro fuel x _ hx
    cases fuel with
    | zero => simp [uvarintAux]
    | succ fuel =>
      by_cases hx1 : x < 128
      · simp [uvarintAux, hx1]
      · have hk : 0 < k := by
          rcases Nat.eq_zero_or_pos k with h0 | h0
          · subst h0
            simp at hx
            omega
          · exact h0
        have hdiv : x / 128 < 128 ^ k := by
          rw [pow_succ] at hx
          exact Nat.div_lt_of_lt_mul (by rw [Nat.mul_comm]; exact hx)
        have := ih fuel (x / 128) hk hdiv
        rw [uvarintAux, if_neg hx1, List.length_cons]
        omega

theorem uvarintAux_length_long : ∀ (k fuel x : Nat), k < fuel → 128 ^ k ≤ x →
    k < (uvarintAux fuel x).length := by
  intro k
  induction k with
  | zero =>
    intro fuel x hf _
    cases fuel with
    | zero => omega
    | succ fuel =>
      rw [uvarintAux]
      split <;> simp
  | succ k ih =>
    intro fuel x hf hx
    cases fuel with
    | zero => omega
    | succ fuel =>
      have h128 : 128 ≤ x := by
        have : 128 ^ 1 ≤ 128 ^ (k + 1) := Nat.pow_le_pow_right (by norm_num) (by omega)
        omega
      have hdiv : 128 ^ k ≤ x / 128 := by
        rw [Nat.le_div_iff_mul_le (by norm_num)]
        rw [pow_succ] at hx
        exact hx
      have := ih fuel (x / 128) (by omega) hdiv
      rw [uvarintAux, if_neg (by omega), List.length_cons]
      omega

/-- What `PutUvarint` leaves in a zeroed field of eight bytes. -/
theorem PutUvarint_zero (x : Nat) :
    PutUvarint (zeroBytes 8) x =
      if (uvarintAux 10 x).length ≤ 8 then
        some (uvarintAux 10 x ++ zeroBytes (8 - (uvarintAux 10 x).length))
      else none := by
  simp only [PutUvarint, zeroBytes_length]
  split
  · rename_i h
    congr 1
    simp only [writeAt, List.take_zero, List.nil_append, zeroBytes_length, Nat.sub_zero,
      Nat.zero_add]
    rw [List.take_of_length_le h]
    show _ ++ List.drop _ (List.replicate 8 0) = _ ++ List.replicate _ 0
    rw [List.drop_replicate]
  · rfl

theorem Nonce_eq (round row index : Int) :
    Nonce round row index =
      match PutUvarint (zeroBytes 8) (toUint64 round), PutUvarint (zeroBytes 8) (toUint64 row),
        PutUvarint (zeroBytes 8) (toUint64 index) with
      | some f0, some f1, some f2 => some (f0 ++ f1 ++ f2)
      | _, _, _ => none := by
  have t8 : (zeroBytes NONCE_SIZE).take 8 = zeroBytes 8 := by
    simp [zeroBytes, NONCE_SIZE, List.take_replicate]
  have d8 : (zeroBytes NONCE_SIZE).drop 8 = zeroBytes 8 ++ zeroBytes 8 := by
    simp [zeroBytes, NONCE_SIZE, List.drop_replicate]
  have hlen : ∀ (x : Nat) (f : List Byte), PutUvarint (zeroBytes 8) x = some f → f.length = 8 := by
    intro x f h
    simp only [PutUvarint] at h
    split at h
    · simp only [Option.some.injEq] at h
      rw [← h, writeAt_length, zeroBytes_length]
    · cases h
  simp only [Nonce, t8, d8]
  cases h0 : PutUvarint (zeroBytes 8) (toUint64 round) with
  | none => rfl
  | some f0 =>
    have l0 := hlen _ _ h0
    have e1 : ((f0 ++ (zeroBytes 8 ++ zeroBytes 8)).drop 8).take 8 = zeroBytes 8 := by
      rw [List.drop_left' l0, List.take_left' (zeroBytes_length 8)]
    simp only [e1]
    cases h1 : PutUvarint (zeroBytes 8) (toUint64 row) with
    | none => rfl
    | some f1 =>
      have l1 := hlen _ _ h1
      have e2 : (f0 ++ (zeroBytes 8 ++ zeroBytes 8)).take 8 = f0 := List.take_left' l0
      have e3 : (f0 ++ (zeroBytes 8 ++ zeroBytes 8)).drop 16 = zeroBytes 8 := by
        rw [← List.append_assoc, List.drop_left' (by simp [l0, zeroBytes_length])]
      have e4 : (f0 ++ f1 ++ zeroBytes 8).drop 16 = zeroBytes 8 :=
        List.drop_left' (by simp [l0, l1])
      have e5 : (f0 ++ f1 ++ zeroBytes 8).take 16 = f0 ++ f1 :=
        List.take_left' (by simp [l0, l1])
      simp only [e2, e3, e4, e5]
      cases h2 : PutUvarint (zeroBytes 8) (toUint64 index) <;> rfl

theorem toUint64_small (v : Int) (h0 : 0 ≤ v) (h1 : v < 2 ^ 64) : ((toUint64 v : Nat) : Int) = v := by
  unfold toUint64
  rw [Int.emod_eq_of_lt h0 h1]
  exact Int.toNat_of_nonneg h0

/-- A component below `2^56` fills its field, and the field tells the component. -/
theorem PutUvarint_field (v : Int) (h0 : 0 ≤ v) (h1 : v < 2 ^ 56) :
    ∃ f, PutUvarint (zeroBytes 8) (toUint64 v) = some f ∧ f.length = 8 ∧
      ((Uvarint f : Nat) : Int) = v := by
  have hv := toUint64_small v h0 (by omega)
  have hlt : toUint64 v < 128 ^ 8 := by
    have : ((toUint64 v : Nat) : Int) < 2 ^ 56 := by rw [hv]; exact h1
    have h2 : (128 : Nat) ^ 8 = 2 ^ 56 := by norm_num
    rw [h2]
    exact_mod_cast this
  have hshort := uvarintAux_length_short 8 10 (toUint64 v) (by norm_num) hlt
  refine ⟨_, by rw [PutUvarint_zero, if_pos hshort], ?_, ?_⟩
  · simp only [List.length_append, zeroBytes_length]
    omega
  · rw [Uvarint_uvarintAux 9 _ _ (lt_of_lt_of_le hlt (Nat.pow_le_pow_right (by norm_num)
      (by norm_num))), hv]

/-- A component from `2^56` on does not fit its field. -/
theorem PutUvarint_overflow (v : Int) (h0 : 2 ^ 56 ≤ v) (h1 : v < 2 ^ 63) :
    PutUvarint (zeroBytes 8) (toUint64 v) = none := by
  have hv := toUint64_small v (by omega) (by omega)
  have hge : 128 ^ 8 ≤ toUint64 v := by
    have : (2 : Int) ^ 56 ≤ ((toUint64 v : Nat) : Int) := by rw [hv]; exact h0
    have h2 : (128 : Nat) ^ 8 = 2 ^ 56 := by norm_num
    rw [h2]
    exact_mod_cast this
  have := uvarintAux_length_long 8 10 (toUint64 v) (by norm_num) hge
  rw [PutUvarint_zero, if_neg (by omega)]

/-- Claim C29. Per-layer nonces are unique: when every component of `(round, row, index)` and
of `(round1, row1, index1)` lies in `[0, 2^56)`, `Nonce` returns a nonce of 24 bytes for both,
and equal nonces come from equal components; and when a component of `(a, b, c)`, a Go `int`,
is `2^56` or more, `Nonce(a, b, c)` returns no nonce: `PutUvarint` writes past the eight bytes
of its field and panics. -/
theorem Nonce_injective (round row index round1 row1 index1 a b c : Int)
    (h : (0 ≤ round ∧ round < 2 ^ 56) ∧ (0 ≤ row ∧ row < 2 ^ 56) ∧
      (0 ≤ index ∧ index < 2 ^ 56))
    (h1 : (0 ≤ round1 ∧ round1 < 2 ^ 56) ∧ (0 ≤ row1 ∧ row1 < 2 ^ 56) ∧
      (0 ≤ index1 ∧ index1 < 2 ^ 56))
    (hbig : (2 ^ 56 ≤ a ∧ a < 2 ^ 63) ∨ (2 ^ 56 ≤ b ∧ b < 2 ^ 63) ∨ (2 ^ 56 ≤ c ∧ c < 2 ^ 63)) :
    (∃ n, Nonce round row index = some n ∧ n.length = 24) ∧
    (Nonce round row index = Nonce round1 row1 index1 →
      round = round1 ∧ row = row1 ∧ index = index1) ∧
    Nonce a b c = none := by
  obtain ⟨f0, hf0, l0, v0⟩ := PutUvarint_field round h.1.1 h.1.2
  obtain ⟨f1, hf1, l1, v1⟩ := PutUvarint_field row h.2.1.1 h.2.1.2
  obtain ⟨f2, hf2, l2, v2⟩ := PutUvarint_field index h.2.2.1 h.2.2.2
  obtain ⟨g0, hg0, m0, w0⟩ := PutUvarint_field round1 h1.1.1 h1.1.2
  obtain ⟨g1, hg1, m1, w1⟩ := PutUvarint_field row1 h1.2.1.1 h1.2.1.2
  obtain ⟨g2, hg2, m2, w2⟩ := PutUvarint_field index1 h1.2.2.1 h1.2.2.2
  have hn : Nonce round row index = some (f0 ++ f1 ++ f2) := by
    rw [Nonce_eq, hf0, hf1, hf2]
  have hn1 : Nonce round1 row1 index1 = some (g0 ++ g1 ++ g2) := by
    rw [Nonce_eq, hg0, hg1, hg2]
  refine ⟨⟨_, hn, by simp [l0, l1, l2]⟩, ?_, ?_⟩
  · intro heq
    rw [hn, hn1, Option.some.injEq] at heq
    obtain ⟨h01, h2⟩ := List.append_inj heq (by simp [l0, l1, m0, m1])
    obtain ⟨h0, h1⟩ := List.append_inj h01 (by rw [l0, m0])
    subst h0
    subst h1
    subst h2
    exact ⟨v0.symm.trans w0, v1.symm.trans w1, v2.symm.trans w2⟩
  · rw [Nonce_eq]
    rcases hbig with hb | hb | hb
    · rw [PutUvarint_overflow a hb.1 hb.2]
    · rw [PutUvarint_overflow b hb.1 hb.2]
      cases PutUvarint (zeroBytes 8) (toUint64 a) <;> rfl
    · rw [PutUvarint_overflow c hb.1 hb.2]
      cases PutUvarint (zeroBytes 8) (toUint64 a) <;>
        cases PutUvarint (zeroBytes 8) (toUint64 b) <;> rfl

/-- Witness for C29: the nonces of `(1, 2, 300)` and `(1, 2, 301)`, and the component
`2^56`. -/
theorem Nonce_injective_witness :
    (∃ n, Nonce 1 2 300 = some n ∧ n.length = 24) ∧
    (Nonce 1 2 300 = Nonce 1 2 301 → (1 : Int) = 1 ∧ (2 : Int) = 2 ∧ (300 : Int) = 301) ∧
    Nonce 0 (2 ^ 56) 0 = none :=
  Nonce_injective 1 2 300 1 2 301 0 (2 ^ 56) 0 (by decide) (by decide) (by decide)

/-! ### The linear program of `findOptimalAssignment` -/

theorem range_map_getD {β γ : Type} (f : β → γ) (d : β) (xs : List β) :
    (List.range xs.length).map (fun i => f (xs.getD i d)) = xs.map f := by
  apply List.ext_getElem
  · simp
  · intro i h1 h2
    have hi : i < xs.length := by simpa using h1
    simp [List.getD_eq_getElem?_getD, List.getElem?_eq_getElem hi]

theorem range_map_const {γ : Type} (c : γ) (n : Nat) :
    (List.range n).map (fun _ => c) = List.replicate n c := by
  apply List.ext_getElem
  · simp
  · intro i h1 h2
    simp

theorem range_map_first (l : Nat) :
    (List.range (l + 1)).map (fun i => if i = 0 then (1 : Int) else 0)
      = 1 :: List.replicate l 0 := by
  rw [List.range_succ_eq_map, List.map_cons, List.map_map]
  simp only [if_true, List.cons.injEq, true_and]
  rw [← range_map_const (0 : Int) l]
  apply List.map_congr_left
  intro i _
  simp

/-- The arguments of the solver without the loops that fill them. -/
theorem lpArguments_eq {α : Type} [DecidableEq α] (groups : List (List Byte × α))
    (assignments : List (List (Option α))) :
    lpArguments groups assignments =
      LPArguments.mk (1 :: List.replicate assignments.length 0)
        ((sortStrings (groups.map Prod.fst)).map (fun gid =>
          (-1 : Int) :: assignments.map (fun t => if groups.lookup gid ∈ t then (1 : Int) else 0)))
        (List.replicate groups.length 0)
        [(0 : Int) :: List.replicate assignments.length 1] [1] := by
  have hglen : (sortStrings (groups.map Prod.fst)).length = groups.length := by
    rw [(sortStrings_perm _).length_eq, List.length_map]
  simp only [lpArguments, range_map_first, range_map_const, LPArguments.mk.injEq, true_and,
    and_true]
  apply List.ext_getElem
  · simp [hglen]
  · intro j h1 h2
    have hj : j < (sortStrings (groups.map Prod.fst)).length := by simpa using h2
    have h3 := range_map_getD (fun v : Int => v) 0
      (assignments.map (fun t =>
        if groups.lookup (sortStrings (groups.map Prod.fst))[j] ∈ t then (1 : Int) else 0))
    rw [List.length_map, List.map_id'] at h3
    simp only [List.getElem_map, List.getElem_range, List.getD_eq_getElem?_getD,
      List.getElem?_map, List.getElem?_eq_getElem hj, Option.map_some', Option.getD_some,
      List.cons.injEq, true_and]
    simpa only [List.getD_eq_getElem?_getD, List.getElem?_map] using h3

theorem rowValue_cons (a : Int) (row : List Int) (v : ℚ) (x : List ℚ) :
    rowValue (a :: row) (v :: x) = (a : ℚ) * v + rowValue row x := by
  simp [rowValue]

theorem rowValue_zeros : ∀ (x : List ℚ) (l : Nat), rowValue (List.replicate l 0) x = 0 := by
  intro x
  induction x with
  | nil => intro l; simp [rowValue]
  | cons v x ih =>
    intro l
    cases l with
    | zero => simp [rowValue]
    | succ l => rw [List.replicate_succ, rowValue_cons, ih]; simp

theorem rowValue_ones : ∀ (x : List ℚ) (l : Nat), x.length ≤ l →
    rowValue (List.replicate l 1) x = x.sum := by
  intro x
  induction x with
  | nil => intro l _; simp [rowValue]
  | cons v x ih =>
    intro l hl
    cases l with
    | zero => simp at hl
    | succ l =>
      rw [List.replicate_succ, rowValue_cons, ih l (by simpa using hl)]
      simp

theorem rowValue_indicator {α : Type} [DecidableEq α] (g : Option α) :
    ∀ (assignments : List (List (Option α))) (x : List ℚ),
    rowValue (assignments.map (fun t => if g ∈ t then (1 : Int) else 0)) x
      = groupLoad g assignments x := by
  intro assignments
  induction assignments with
  | nil => intro x; simp [rowValue, groupLoad]
  | cons t rest ih =>
    intro x
    cases x with
    | nil => simp [rowValue, groupLoad]
    | cons v x =>
      rw [List.map_cons, rowValue_cons, ih x]
      by_cases hg : g ∈ t <;> simp [groupLoad, hg]

theorem forall₂_replicate {β γ : Type} (R : β → γ → Prop) (c : γ) :
    ∀ (xs : List β), List.Forall₂ R xs (List.replicate xs.length c) ↔ ∀ a ∈ xs, R a c := by
  intro xs
  induction xs with
  | nil => simp
  | cons a rest ih =>
    simp only [List.length_cons, List.replicate_succ, List.forall₂_cons, ih, List.mem_cons,
      forall_eq_or_imp]

/-- How the solver reads the arguments at the point `(M, x)`. -/
theorem lpArguments_reading {α : Type} [DecidableEq α] (groups : List (List Byte × α))
    (assignments : List (List (Option α))) (M : ℚ) (x : List ℚ)
    (hx : x.length = assignments.length) :
    (lpArguments groups assignments).cost (M :: x) = M ∧
    ((lpArguments groups assignments).upperBoundsHold (M :: x) ↔
      ∀ gid ∈ groups.map Prod.fst, groupLoad (groups.lookup gid) assignments x ≤ M) ∧
    ((lpArguments groups assignments).equalitiesHold (M :: x) ↔ x.sum = 1) := by
  have hglen : (sortStrings (groups.map Prod.fst)).length = groups.length := by
    rw [(sortStrings_perm _).length_eq, List.length_map]
  rw [lpArguments_eq]
  refine ⟨?_, ?_, ?_⟩
  · simp only [LPArguments.cost, rowValue_cons, rowValue_zeros]
    simp
  · simp only [LPArguments.upperBoundsHold]
    rw [← hglen, List.forall₂_map_left_iff, forall₂_replicate]
    constructor
    · intro h gid hgid
      have := h gid ((sortStrings_perm _).mem_iff.mpr hgid)
      rw [rowValue_cons, rowValue_indicator] at this
      push_cast at this
      linarith
    · intro h gid hgid
      have := h gid ((sortStrings_perm _).mem_iff.mp hgid)
      rw [rowValue_cons, rowValue_indicator]
      push_cast
      linarith
  · simp only [LPArguments.equalitiesHold, List.forall₂_cons, List.forall₂_nil_left_iff,
      and_true]
    rw [rowValue_cons, rowValue_ones x _ (le_of_eq hx)]
    simp

/-- Claim C21, as the code has it. The linear program `findOptimalAssignment` hands to the
solver has the variables `(M, x_0..x_L)`; its cost vector picks `M`, the value the solver
minimises; it has one inequality row for every group `g`, an upper bound that states
`Σ_a x_a·[g ∈ T_a] ≤ M`, so that `M` bounds the load of every group from above (the maximum
load of a group); and its single equality row states `Σ_a x_a = 1`, with the coefficient 0 on
`M`. -/
theorem findOptimalAssignment_program {α : Type} [DecidableEq α]
    (groups : List (List Byte × α)) (assignments : List (List (Option α))) (M : ℚ)
    (x : List ℚ) (hx : x.length = assignments.length) :
    (lpArguments groups assignments).maximize.length = assignments.length + 1 ∧
    (lpArguments groups assignments).cost (M :: x) = M ∧
    (lpArguments groups assignments).Aub.length = groups.length ∧
    (lpArguments groups assignments).bub.length = groups.length ∧
    ((lpArguments groups assignments).upperBoundsHold (M :: x) ↔
      ∀ gid ∈ groups.map Prod.fst, groupLoad (groups.lookup gid) assignments x ≤ M) ∧
    (lpArguments groups assignments).Aeq = [0 :: List.replicate assignments.length 1] ∧
    (lpArguments groups assignments).beq = [1] ∧
    ((lpArguments groups assignments).equalitiesHold (M :: x) ↔ x.sum = 1) := by
  obtain ⟨h1, h2, h3⟩ := lpArguments_reading groups assignments M x hx
  refine ⟨?_, h1, ?_, ?_, h2, ?_, ?_, h3⟩
  · rw [lpArguments_eq]; simp
  · rw [lpArguments_eq]
    simp [(sortStrings_perm _).length_eq]
  · rw [lpArguments_eq]; simp
  · rw [lpArguments_eq]
  · rw [lpArguments_eq]

theorem demoTemplates_eq :
    demoTemplates = [[some 10, some 20, some 30], [some 10, some 40], [some 20, some 40],
      [some 30, some 10, some 20]] := by
  decide

/-- Witness for C21: the four demo groups with their four templates, at the point
`M = 1/2`, `x = (0, 1/2, 1/2, 0)`. -/
theorem findOptimalAssignment_program_witness :
    (lpArguments demoGroups demoTemplates).cost [1 / 2, 0, 1 / 2, 1 / 2, 0] = 1 / 2 ∧
    ((lpArguments demoGroups demoTemplates).equalitiesHold [1 / 2, 0, 1 / 2, 1 / 2, 0] ↔
      ([0, 1 / 2, 1 / 2, 0] : List ℚ).sum = 1) :=
  ⟨(findOptimalAssignment_program demoGroups demoTemplates (1 / 2) [0, 1 / 2, 1 / 2, 0]
      (by rw [demoTemplates_eq]; rfl)).2.1,
   (findOptimalAssignment_program demoGroups demoTemplates (1 / 2) [0, 1 / 2, 1 / 2, 0]
      (by rw [demoTemplates_eq]; rfl)).2.2.2.2.2.2.2⟩

/-- Counterexample for C21 as stated: for the four demo groups the rows are upper bounds on
the loads, not lower bounds. The point `M = 5`, `x = (1, 0, 0, 0)` satisfies every row
although the load of group `a` is `1 < M`; the point `M = 0`, `x = (1, 0, 0, 0)` has every
load at least `M` and `Σ x_a = 1` and violates the rows; and every `M ≥ 1` is feasible with
that `x`, so the program has no largest `M`: the cost `M` is minimised. -/
theorem findOptimalAssignment_rows_bound_from_above :
    lpArguments demoGroups demoTemplates =
      LPArguments.mk [1, 0, 0, 0, 0]
        [[-1, 1, 1, 0, 1], [-1, 1, 0, 1, 1], [-1, 1, 0, 0, 1], [-1, 0, 1, 1, 0]]
        [0, 0, 0, 0] [[0, 1, 1, 1, 1]] [1] ∧
    ((lpArguments demoGroups demoTemplates).upperBoundsHold [5, 1, 0, 0, 0] ∧
      (lpArguments demoGroups demoTemplates).equalitiesHold [5, 1, 0, 0, 0] ∧
      groupLoad (demoGroups.lookup [0x61]) demoTemplates [1, 0, 0, 0] < 5) ∧
    ((∀ gid ∈ demoGroups.map Prod.fst,
        groupLoad (demoGroups.lookup gid) demoTemplates [1, 0, 0, 0] ≥ 0) ∧
      ([1, 0, 0, 0] : List ℚ).sum = 1 ∧
      ¬ (lpArguments demoGroups demoTemplates).upperBoundsHold [0, 1, 0, 0, 0]) ∧
    (∀ M : ℚ, 1 ≤ M →
      (lpArguments demoGroups demoTemplates).upperBoundsHold [M, 1, 0, 0, 0] ∧
      (lpArguments demoGroups demoTemplates).equalitiesHold [M, 1, 0, 0, 0] ∧
      (lpArguments demoGroups demoTemplates).cost [M, 1, 0, 0, 0] = M) := by
  have hlen : ([1, 0, 0, 0] : List ℚ).length = demoTemplates.length := by
    rw [demoTemplates_eq]; rfl
  have hload : ∀ gid ∈ demoGroups.map Prod.fst,
      groupLoad (demoGroups.lookup gid) demoTemplates [1, 0, 0, 0] =
        if gid = [0x64] then 0 else 1 := by
    intro gid hgid
    rw [demoTemplates_eq]
    simp only [demoGroups, List.map_cons, List.map_nil, List.mem_cons, List.mem_singleton,
      List.not_mem_nil, or_false] at hgid
    rcases hgid with rfl | rfl | rfl | rfl <;> simp [groupLoad, demoGroups, List.lookup]
  have hfeas : ∀ M : ℚ, 1 ≤ M →
      (lpArguments demoGroups demoTemplates).upperBoundsHold [M, 1, 0, 0, 0] := by
    intro M hM
    rw [(lpArguments_reading demoGroups demoTemplates M [1, 0, 0, 0] hlen).2.1]
    intro gid hgid
    rw [hload gid hgid]
    split <;> linarith
  have heq : ∀ M : ℚ, (lpArguments demoGroups demoTemplates).equalitiesHold [M, 1, 0, 0, 0] := by
    intro M
    rw [(lpArguments_reading demoGroups demoTemplates M [1, 0, 0, 0] hlen).2.2]
    norm_num
  refine ⟨by decide, ⟨hfeas 5 (by norm_num), heq 5, ?_⟩, ⟨?_, by norm_num, ?_⟩, ?_⟩
  · rw [hload _ (by decide), if_neg (by decide)]
    norm_num
  · intro gid hgid
    rw [hload gid hgid]
    split <;> norm_num
  · rw [(lpArguments_reading demoGroups demoTemplates 0 [1, 0, 0, 0] hlen).2.1]
    intro h
    have := h [0x61] (by decide)
    rw [hload _ (by decide), if_neg (by decide)] at this
    norm_num at this
  · intro M hM
    exact ⟨hfeas M hM, heq M,
      (lpArguments_reading demoGroups demoTemplates M [1, 0, 0, 0] hlen).1⟩

/-! ### The partition of the users -/

theorem foldl_mapSet_lookup {G : Type} (t : List G) (u : List Byte) :
    ∀ (users : List (List Byte)) (m : List (List Byte × List G)),
      (users.foldl (fun m pub => mapSet m pub t) m).lookup u =
        if u ∈ users then some t else m.lookup u := by
  intro users
  induction users with
  | nil => intro m; simp
  | cons pub rest ih =>
    intro m
    rw [List.foldl_cons, ih]
    by_cases h1 : u ∈ rest
    · simp [h1]
    · by_cases h2 : u = pub
      · subst h2
        simp [h1, lookup_mapSet_self]
      · rw [lookup_mapSet_ne _ _ _ _ (by simpa using h2)]
        simp [h1, h2]

theorem mem_slice_iff (pubs : List (List Byte)) (hn : pubs.Nodup) (i e k : Nat)
    (pub : List Byte) (hi : pubs[i]? = some pub) :
    pub ∈ (pubs.drop e).take k ↔ e ≤ i ∧ i < e + k := by
  have hlt : i < pubs.length := by
    by_contra h
    rw [List.getElem?_eq_none (by omega)] at hi
    cases hi
  constructor
  · intro hmem
    obtain ⟨j, hj⟩ := List.mem_iff_getElem?.mp hmem
    rw [List.getElem?_take] at hj
    split at hj
    · rename_i hjk
      rw [List.getElem?_drop] at hj
      have hej : e + j < pubs.length := by
        by_contra h
        rw [List.getElem?_eq_none (by omega)] at hj
        cases hj
      have heq : i = e + j := by
        by_contra hne
        rcases Nat.lt_or_gt_of_ne hne with h | h
        · exact (List.nodup_iff_getElem?_ne_getElem?.mp hn i (e + j) h hej) (hi.trans hj.symm)
        · exact (List.nodup_iff_getElem?_ne_getElem?.mp hn (e + j) i h hlt) (hj.trans hi.symm)
      omega
    · cases hj
  · intro ⟨h1, h2⟩
    refine List.mem_iff_getElem?.mpr ⟨i - e, ?_⟩
    rw [List.getElem?_take, if_pos (by omega), List.getElem?_drop,
      show e + (i - e) = i by omega]
    exact hi

section Partition

variable {G : Type}

/-- The loop of `setupRound` from template `a` on, started at `end = e`: the blocks it cuts
and the entries it writes. -/
theorem partitionLoop_spec (ceilMul : ℚ → Nat → Int) (pubs : List (List Byte))
    (division : List ℚ) (len : Nat) (hn : pubs.Nodup) (hlen : division.length = len)
    (hpos : ∀ d ∈ division, 0 ≤ ceilMul d pubs.length) :
    ∀ (rest : List (List G)) (a e : Nat) (m0 : List (List Byte × List G)),
      a + rest.length = len → e ≤ pubs.length → (rest = [] → e = pubs.length) →
      ∃ result blocks,
        partitionLoop ceilMul pubs pubs.length division len rest a (e : Int) m0 = some result ∧
        blocks.length = rest.length ∧ covers blocks e pubs.length = true ∧
        (∀ (k : Nat) (blk : Span), blocks[k]? = some blk →
          (blk.End : Int) =
            if (blk.Start : Int) + ceilMul (division.getD (a + k) 0) pubs.length
                > (pubs.length : Int) ∨ a + k = len - 1
            then (pubs.length : Int)
            else (blk.Start : Int) + ceilMul (division.getD (a + k) 0) pubs.length) ∧
        (∀ (i : Nat) (pub : List Byte), i < e → pubs[i]? = some pub → result.lookup pub = m0.lookup pub) ∧
        (∀ (k : Nat) (blk : Span) (i : Nat) (pub : List Byte), blocks[k]? = some blk → blk.Start ≤ i → i < blk.End →
          pubs[i]? = some pub → result.lookup pub = rest[k]?) := by
  intro rest
  induction rest with
  | nil =>
    intro a e m0 _ _ he
    refine ⟨m0, [], rfl, rfl, ?_, ?_, ?_, ?_⟩
    · simp [covers, he rfl]
    · intro k blk h; simp at h
    · intro i pub _ _; rfl
    · intro k blk i pub h; simp at h
  | cons t rest ih =>
    intro a e m0 ha he _
    have hal : a < division.length := by
      rw [hlen]
      simp only [List.length_cons] at ha
      omega
    have hd : division[a]? = some division[a] := List.getElem?_eq_getElem hal
    have hgetD : division.getD a 0 = division[a] := by
      simp [List.getD_eq_getElem?_getD, hd]
    have hoff : (0 : Int) ≤ ceilMul division[a] pubs.length := hpos _ (List.getElem_mem _)
    obtain ⟨e1, he1, hee1, he1n, hlast⟩ : ∃ e1 : Nat,
        ((e1 : Int) = if (e : Int) + ceilMul division[a] pubs.length > (pubs.length : Int)
            ∨ a = len - 1 then (pubs.length : Int)
          else (e : Int) + ceilMul division[a] pubs.length) ∧ e ≤ e1 ∧ e1 ≤ pubs.length ∧
          (rest = [] → e1 = pubs.length) := by
      by_cases hc : (e : Int) + ceilMul division[a] pubs.length > (pubs.length : Int)
          ∨ a = len - 1
      · exact ⟨pubs.length, by rw [if_pos hc], he, le_refl _, fun _ => rfl⟩
      · refine ⟨((e : Int) + ceilMul division[a] pubs.length).toNat, ?_, ?_, ?_, ?_⟩
        · rw [if_neg hc, Int.toNat_of_nonneg (by omega)]
        · omega
        · push_neg at hc
          omega
        · intro hr
          subst hr
          simp only [List.length_cons, List.length_nil] at ha
          push_neg at hc
          exact absurd (by omega) hc.2
    obtain ⟨result, blocks, hres, hbl, hcov, hsize, hlow, hblk⟩ :=
      ih (a + 1) e1 (((pubs.drop e).take (e1 - e)).foldl (fun m pub => mapSet m pub t) m0)
        (by simp only [List.length_cons] at ha; omega) he1n hlast
    have hguard : (0 : Int) ≤ (e : Int) ∧ (e : Int) ≤ (e1 : Int) ∧
        (e1 : Int) ≤ (pubs.length : Int) := by omega
    have hstep : partitionLoop ceilMul pubs pubs.length division len (t :: rest) a (e : Int) m0
        = some result := by
      rw [partitionLoop, hd]
      simp only [← he1, if_pos hguard, Int.toNat_ofNat]
      exact hres
    refine ⟨result, ⟨e, e1⟩ :: blocks, hstep, by simp [hbl], ?_, ?_, ?_, ?_⟩
    · simp only [covers, beq_self_eq_true, Bool.true_and, Bool.and_eq_true, decide_eq_true_eq]
      exact ⟨hee1, hcov⟩
    · intro k blk hk
      cases k with
      | zero =>
        simp only [List.getElem?_cons_zero, Option.some.injEq] at hk
        subst hk
        simp only [Nat.add_zero, hgetD]
        exact he1
      | succ k =>
        simp only [List.getElem?_cons_succ] at hk
        have := hsize k blk hk
        rw [show a + 1 + k = a + (k + 1) by omega] at this
        exact this
    · intro i pub hi hpub
      rw [hlow i pub (by omega) hpub, foldl_mapSet_lookup]
      rw [if_neg]
      rw [mem_slice_iff pubs hn i e (e1 - e) pub hpub]
      omega
    · intro k blk i pub hk h1 h2 hpub
      cases k with
      | zero =>
        simp only [List.getElem?_cons_zero, Option.some.injEq] at hk
        subst hk
        simp only at h1 h2
        rw [hlow i pub h2 hpub, foldl_mapSet_lookup, if_pos, List.getElem?_cons_zero]
        rw [mem_slice_iff pubs hn i e (e1 - e) pub hpub]
        omega
      | succ k =>
        simp only [List.getElem?_cons_succ] at hk ⊢
        exact hblk k blk i pub hk h1 h2 hpub

/-- Every index below `b` lies in one of the spans that lead from `a` to `b`. -/
theorem covers_index : ∀ (l : List Span) (a b i : Nat), covers l a b = true → a ≤ i → i < b →
    ∃ (k : Nat) (blk : Span), l[k]? = some blk ∧ blk.Start ≤ i ∧ i < blk.End := by
  intro l
  induction l with
  | nil =>
    intro a b i h h1 h2
    simp only [covers, beq_iff_eq] at h
    omega
  | cons s rest ih =>
    intro a b i h h1 h2
    simp only [covers, Bool.and_eq_true, beq_iff_eq, decide_eq_true_eq] at h
    by_cases hi : i < s.End
    · exact ⟨0, s, List.getElem?_cons_zero, by omega, hi⟩
    · obtain ⟨k, blk, hk, hb⟩ := ih s.End b i h.2 (by omega) h2
      exact ⟨k + 1, blk, by simpa using hk, hb⟩

end Partition

/-- Claim C27. The solution of the linear program partitions the user list in template order:
for `n ≥ 0` users with distinct keys and non-negative fractions `x_0..x_L`, one for each
template, the loop of `setupRound` ends and cuts the key list into one block for each
template, the blocks following one another from 0 to `n` in template order; every user lies in
one block and is assigned the template of its block; block `a` ends `ceil(x_a·n)` keys after
its start, with the ceiling as `math.Ceil` computes it, unless that runs past `n` or `a` is
the last template, in which cases it ends at `n`. -/
theorem setupRound_partitions {G : Type} (ceilMul : ℚ → Nat → Int) (pubs : List (List Byte))
    (tmpAssign : List (List G)) (division : List ℚ) (hnodup : pubs.Nodup)
    (hlen : division.length = tmpAssign.length) (hpos : ∀ d ∈ division, 0 ≤ d)
    (hceil : ∀ d : ℚ, 0 ≤ d → 0 ≤ ceilMul d pubs.length) (hne : tmpAssign ≠ []) :
    ∃ assignments blocks,
      setupRoundAssignments ceilMul pubs tmpAssign division = some assignments ∧
      blocks.length = tmpAssign.length ∧ covers blocks 0 pubs.length = true ∧
      (∀ (a : Nat) (blk : Span), blocks[a]? = some blk →
        (blk.End : Int) =
          if (blk.Start : Int) + ceilMul (division.getD a 0) pubs.length > (pubs.length : Int)
              ∨ a = tmpAssign.length - 1
          then (pubs.length : Int)
          else (blk.Start : Int) + ceilMul (division.getD a 0) pubs.length) ∧
      (∀ (a : Nat) (blk : Span) (i : Nat) (pub : List Byte), blocks[a]? = some blk → blk.Start ≤ i → i < blk.End →
        pubs[i]? = some pub → assignments.lookup pub = tmpAssign[a]?) ∧
      (∀ (i : Nat) (pub : List Byte), pubs[i]? = some pub →
        ∃ (a : Nat) (blk : Span) (t : List G), blocks[a]? = some blk ∧ blk.Start ≤ i ∧ i < blk.End ∧
          tmpAssign[a]? = some t ∧ assignments.lookup pub = some t) := by
  obtain ⟨result, blocks, hres, hbl, hcov, hsize, -, hblk⟩ :=
    partitionLoop_spec ceilMul pubs division tmpAssign.length hnodup hlen
      (fun d hd => hceil d (hpos d hd)) tmpAssign 0 0 []
      (by simp) (Nat.zero_le _) (fun h => absurd h hne)
  refine ⟨result, blocks, hres, hbl, hcov, ?_, hblk, ?_⟩
  · intro a blk h
    have := hsize a blk h
    simpa only [Nat.zero_add] using this
  · intro i pub hpub
    have hlt : i < pubs.length := by
      by_contra h
      rw [List.getElem?_eq_none (by omega)] at hpub
      cases hpub
    obtain ⟨a, blk, hk, h1, h2⟩ := covers_index blocks 0 pubs.length i hcov (Nat.zero_le _) hlt
    have ha : a < tmpAssign.length := by
      rw [← hbl]
      by_contra h
      rw [List.getElem?_eq_none (by omega)] at hk
      cases hk
    refine ⟨a, blk, tmpAssign[a], hk, h1, h2, List.getElem?_eq_getElem ha, ?_⟩
    rw [hblk a blk i pub hk h1 h2 hpub, List.getElem?_eq_getElem ha]

/-- Witness for C27: five users, three templates and the fractions `1/2`, `1/4`, `1/4`; the
blocks hold three, two and no users. -/
theorem setupRound_partitions_witness :
    ∃ assignments blocks,
      setupRoundAssignments exactCeilMul demoPubs [[1, 2], [3], [4]] [1 / 2, 1 / 4, 1 / 4]
        = some assignments ∧
      blocks.length = 3 ∧ covers blocks 0 5 = true ∧
      (∀ (i : Nat) (pub : List Byte), demoPubs[i]? = some pub →
        ∃ (a : Nat) (blk : Span) (t : List Nat), blocks[a]? = some blk ∧ blk.Start ≤ i ∧ i < blk.End ∧
          ([[1, 2], [3], [4]] : List (List Nat))[a]? = some t ∧
          assignments.lookup pub = some t) := by
  obtain ⟨assignments, blocks, h1, h2, h3, -, -, h6⟩ :=
    setupRound_partitions exactCeilMul demoPubs ([[1, 2], [3], [4]] : List (List Nat))
      [1 / 2, 1 / 4, 1 / 4]
      (by decide) rfl (by intro d hd; simp at hd; rcases hd with rfl | rfl <;> norm_num)
      (fun d hd => Int.ceil_nonneg (mul_nonneg hd (Nat.cast_nonneg _))) (by simp)
  exact ⟨assignments, blocks, h1, h2, h3, h6⟩

end Xrd
